import Mathlib

/-!
# toy-script: scanner, parser and tree-walking evaluator

A shallow embedding of the Go sources (`scanner.go`, `parser.go`, `parser_decl.go`,
`eval.go`, `eval_globals.go`) together with theorems about them.

Conventions of the embedding

* A Go `string` is a byte sequence.  Each byte is represented by the `Char` with the same
  code point (the Latin-1 view of the bytes), so a source text is a `List Char`/`String`.
* A Go panic is the outcome `Res.panic`; loops and recursion that Go does not bound are
  given a fuel counter and exhausting it is the outcome `Res.timeout`.
* Go maps are association lists with unique keys; the order in which `range` visits a map
  is taken from a schedule carried by the interpreter state, so that every iteration
  order Go may choose is covered.
-/

set_option autoImplicit false

namespace ToyScript

/-! ## Outcomes -/

/-- Outcome of running a piece of the program: a result, a Go panic, exhausted fuel
(the run did not finish within the bound) or a step outside the sequential, I/O-free
fragment that is modelled (network, standard input, goroutines and channels). -/
inductive Res (α : Type) where
  | ok (a : α)
  | panic (msg : String)
  | timeout
  | external
  deriving Repr, DecidableEq

namespace Res

/-- Sequencing of outcomes: everything but `ok` is propagated. -/
def bind {α β : Type} (r : Res α) (f : α → Res β) : Res β :=
  match r with
  | ok a => f a
  | panic m => panic m
  | timeout => timeout
  | external => external

instance : Monad Res where
  pure := Res.ok
  bind := Res.bind

/-- The run finished with a result. -/
def isOk {α : Type} : Res α → Bool
  | ok _ => true
  | _ => false

/-- The run aborted with a Go panic. -/
def isPanic {α : Type} : Res α → Bool
  | panic _ => true
  | _ => false

end Res

/-! ## Tokens (scanner.go) -/

/-- The token kinds, `TokenType` constants of scanner.go. -/
inductive TokenType where
  | TOKEN_LEFT_PAREN | TOKEN_RIGHT_PAREN | TOKEN_COMMA | TOKEN_DOT | TOKEN_MINUS
  | TOKEN_PLUS | TOKEN_SLASH | TOKEN_STAR | TOKEN_BANG | TOKEN_EQUAL | TOKEN_LESS
  | TOKEN_MORE | TOKEN_HASH
  | TOKEN_BUILTIN | TOKEN_IDENTIFIER | TOKEN_STRING | TOKEN_NUMBER | TOKEN_BOOLEAN
  | TOKEN_COMMENT
  | TOKEN_ERROR | TOKEN_EOF | TOKEN_NULL
  deriving Repr, DecidableEq

open TokenType

/-- The string value of a token kind constant. -/
def TokenType.name : TokenType → String
  | TOKEN_LEFT_PAREN => "open-paren"
  | TOKEN_RIGHT_PAREN => "close-paren"
  | TOKEN_COMMA => "comma"
  | TOKEN_DOT => "dot"
  | TOKEN_MINUS => "minus"
  | TOKEN_PLUS => "plus"
  | TOKEN_SLASH => "slash"
  | TOKEN_STAR => "star"
  | TOKEN_BANG => "bang"
  | TOKEN_EQUAL => "equal"
  | TOKEN_LESS => "less"
  | TOKEN_MORE => "more"
  | TOKEN_HASH => "hash"
  | TOKEN_BUILTIN => "built-in"
  | TOKEN_IDENTIFIER => "identifier"
  | TOKEN_STRING => "string"
  | TOKEN_NUMBER => "number"
  | TOKEN_BOOLEAN => "boolean"
  | TOKEN_COMMENT => "comment"
  | TOKEN_ERROR => "error"
  | TOKEN_EOF => "end-of-file"
  | TOKEN_NULL => "null-token"

/-- The `Literal any` field of a token: absent, a boolean or an integer. -/
inductive LiteralValue where
  | absent
  | bool (b : Bool)
  | int (i : Int)
  deriving Repr, DecidableEq

/-- A token: `Token{Type, Lexeme, Literal, Line}`. -/
structure Token where
  Type_ : TokenType
  Lexeme : String
  Literal : LiteralValue
  Line : Nat
  deriving Repr, DecidableEq

/-- The zero value `Token{}` (its kind is the empty string, which is no token kind constant;
`TOKEN_NULL` stands for it, no rule of the parser tests for either). -/
def Token.zero : Token := ⟨TOKEN_NULL, "", .absent, 0⟩

/-- The method `Token.String`. -/
def Token.String (t : Token) : String :=
  match t.Type_ with
  | TOKEN_IDENTIFIER => ":" ++ t.Lexeme
  | TOKEN_STRING => "'" ++ t.Lexeme ++ "'"
  | TOKEN_NUMBER => t.Lexeme
  | ty => "@" ++ ty.name

/-! ## Scanner (scanner.go) -/

/-- The scanner state `toyScanner`. -/
structure toyScanner where
  source : List Char
  tokens : List Token
  start : Nat
  current : Nat
  line : Nat
  deriving Repr, DecidableEq

/-- `NewScanner(source)`. -/
def NewScanner (source : String) : toyScanner := ⟨source.data, [], 0, 0, 1⟩

/-- `isNumberic`: `unicode.IsDigit` of a byte, which holds for the ASCII digits only. -/
def isNumberic (b : Char) : Bool := 48 ≤ b.toNat && b.toNat ≤ 57

/-- `unicode.IsLetter` on the Latin-1 range, the only one a byte reaches. -/
def isLetterLatin1 (b : Char) : Bool :=
  let n := b.toNat
  (65 ≤ n && n ≤ 90) || (97 ≤ n && n ≤ 122) || n == 170 || n == 181 || n == 186 ||
  (192 ≤ n && n ≤ 214) || (216 ≤ n && n ≤ 246) || (248 ≤ n && n ≤ 255)

/-- `isAlphabetic`: a letter or the underscore. -/
def isAlphabetic (b : Char) : Bool := isLetterLatin1 b || b == '_'

/-- The largest Go `int` (64 bit). -/
def maxInt : Nat := 2 ^ 63 - 1

/-- Decimal value of a run of digits. -/
def digitsValue (ds : List Char) : Nat :=
  ds.foldl (fun acc d => 10 * acc + (d.toNat - 48)) 0

/-- `strconv.Atoi` on an unsigned run of ASCII digits or any other text: the value when the
text is a non-empty digit run within the `int` range, otherwise the error message. -/
def atoi (str : String) : Except String Int :=
  let body := match str.data with
    | '+' :: rest => rest
    | '-' :: rest => rest
    | cs => cs
  let neg := match str.data with
    | '-' :: _ => true
    | _ => false
  if body.isEmpty || !(body.all isNumberic) then
    .error ("strconv.Atoi: parsing \"" ++ str ++ "\": invalid syntax")
  else if neg then
    (if digitsValue body ≤ maxInt + 1 then .ok (-(digitsValue body : Int))
     else .error ("strconv.Atoi: parsing \"" ++ str ++ "\": value out of range"))
  else if digitsValue body ≤ maxInt then .ok (digitsValue body : Int)
  else .error ("strconv.Atoi: parsing \"" ++ str ++ "\": value out of range")

namespace toyScanner

/-- The method `done`. -/
def done (s : toyScanner) : Bool := s.current ≥ s.source.length

/-- The method `advance`: reads `source[current]`, which panics past the end. -/
def advance (s : toyScanner) : Res (Char × toyScanner) :=
  match s.source[s.current]? with
  | some c => .ok (c, { s with current := s.current + 1 })
  | none => .panic "runtime error: index out of range"

/-- The method `peek`. -/
def peek (s : toyScanner) : Char :=
  if s.done then Char.ofNat 0 else s.source.getD s.current (Char.ofNat 0)

/-- The loop of `match`: compares the input with the expected bytes one at a time; a mismatch
restores the position `start`. -/
def matchLoop (start : Nat) : List Char → toyScanner → Res (Bool × toyScanner)
  | [], s => .ok (true, s)
  | e :: es, s =>
    match s.advance with
    | .ok (input, s1) =>
      if input = e then matchLoop start es s1
      else .ok (false, { s1 with current := start })
    | .panic m => .panic m
    | .timeout => .timeout
    | .external => .external

/-- The method `match` (called after an `advance`, so `current ≥ 1`; at `current = 0` Go
would step to index -1 and panic on the read). -/
def match_ (s : toyScanner) (expected : String) : Res (Bool × toyScanner) :=
  match s.current with
  | 0 => if expected.data.isEmpty then .ok (true, s) else .panic "runtime error: index out of range"
  | c + 1 => matchLoop (c + 1) expected.data { s with current := c }

/-- The loop of `stringToken`: runs while the next byte is not a double quote and the input
is not exhausted. -/
def stringLoop : Nat → toyScanner → String → Res (toyScanner × String)
  | 0, _, _ => .timeout
  | fuel + 1, s, str =>
    if s.peek != '"' && !s.done then
      let s1 := if s.peek == '\n' then { s with line := s.line + 1 } else s
      match s1.advance with
      | .ok (c, s2) => stringLoop fuel s2 (str.push c)
      | .panic m => .panic m
      | .timeout => .timeout
      | .external => .external
    else .ok (s, str)

/-- The method `stringToken`. -/
def stringToken (s : toyScanner) : Res (Token × toyScanner) :=
  match stringLoop (s.source.length + 1) s "" with
  | .ok (s1, str) =>
    if s1.done then
      .ok (⟨TOKEN_ERROR, "Unterminated string", .absent, s1.current⟩, s1)
    else
      match s1.advance with
      | .ok (_, s2) => .ok (⟨TOKEN_STRING, str, .absent, s2.current⟩, s2)
      | .panic m => .panic m
      | .timeout => .timeout
      | .external => .external
  | .panic m => .panic m
  | .timeout => .timeout
  | .external => .external

/-- The loop of `commentToken`. -/
def commentLoop : Nat → toyScanner → String → Res (toyScanner × String)
  | 0, _, _ => .timeout
  | fuel + 1, s, str =>
    if s.peek != '\n' && !s.done then
      match s.advance with
      | .ok (c, s1) => commentLoop fuel s1 (str.push c)
      | .panic m => .panic m
      | .timeout => .timeout
      | .external => .external
    else .ok (s, str)

/-- The method `commentToken`. -/
def commentToken (s : toyScanner) : Res (Token × toyScanner) :=
  match commentLoop (s.source.length + 1) s "" with
  | .ok (s1, str) => .ok (⟨TOKEN_COMMENT, str, .absent, s1.current⟩, s1)
  | .panic m => .panic m
  | .timeout => .timeout
  | .external => .external

/-- The loop of `numberToken`. -/
def numberLoop : Nat → toyScanner → String → Res (toyScanner × String)
  | 0, _, _ => .timeout
  | fuel + 1, s, str =>
    if isNumberic s.peek then
      match s.advance with
      | .ok (c, s1) => numberLoop fuel s1 (str.push c)
      | .panic m => .panic m
      | .timeout => .timeout
      | .external => .external
    else .ok (s, str)

/-- The byte `source[current-1]`, read by the number, identifier and builtin rules. -/
def previous (s : toyScanner) : Res Char :=
  match s.current with
  | 0 => .panic "runtime error: index out of range"
  | c + 1 =>
    match s.source[c]? with
    | some b => .ok b
    | none => .panic "runtime error: index out of range"

/-- The method `numberToken`. -/
def numberToken (s : toyScanner) : Res (Token × toyScanner) :=
  match s.previous with
  | .ok b =>
    match numberLoop (s.source.length + 1) s (String.singleton b) with
    | .ok (s1, str) =>
      match atoi str with
      | .error e => .ok (⟨TOKEN_ERROR, e, .absent, s1.current⟩, s1)
      | .ok i => .ok (⟨TOKEN_NUMBER, str, .int i, s1.current⟩, s1)
    | .panic m => .panic m
    | .timeout => .timeout
    | .external => .external
  | .panic m => .panic m
  | .timeout => .timeout
  | .external => .external

/-- The loop shared by `identifierToken` and `builtInToken`; the left result is the early
return of the error token inside the loop. -/
def wordLoop : Nat → toyScanner → String → Res (Token ⊕ (toyScanner × String))
  | 0, _, _ => .timeout
  | fuel + 1, s, str =>
    if isAlphabetic s.peek then
      if s.done then
        .ok (.inl ⟨TOKEN_ERROR, "unexpected end of input", .absent, s.current⟩)
      else
        match s.advance with
        | .ok (c, s1) => wordLoop fuel s1 (str.push c)
        | .panic m => .panic m
        | .timeout => .timeout
        | .external => .external
    else .ok (.inr (s, str))

/-- The body common to `identifierToken` and `builtInToken`, which differ in the token kind. -/
def wordToken (ty : TokenType) (s : toyScanner) : Res (Token × toyScanner) :=
  match s.previous with
  | .ok b =>
    match wordLoop (s.source.length + 1) s (String.singleton b) with
    | .ok (.inl t) => .ok (t, s)
    | .ok (.inr (s1, str)) => .ok (⟨ty, str, .absent, s1.current⟩, s1)
    | .panic m => .panic m
    | .timeout => .timeout
    | .external => .external
  | .panic m => .panic m
  | .timeout => .timeout
  | .external => .external

/-- The method `identifierToken`. -/
def identifierToken (s : toyScanner) : Res (Token × toyScanner) := wordToken TOKEN_IDENTIFIER s

/-- The method `builtInToken`. -/
def builtInToken (s : toyScanner) : Res (Token × toyScanner) := wordToken TOKEN_BUILTIN s

/-- A single-character token of `scanToken`. -/
def punct (ty : TokenType) (lexeme : String) (s : toyScanner) : Res (Option Token × toyScanner) :=
  .ok (some ⟨ty, lexeme, .absent, s.current⟩, s)

/-- Lifts a rule that always yields a token. -/
def withToken (r : Res (Token × toyScanner)) : Res (Option Token × toyScanner) :=
  match r with
  | .ok (t, s) => .ok (some t, s)
  | .panic m => .panic m
  | .timeout => .timeout
  | .external => .external

/-- The `default` case of `scanToken`. -/
def scanDefault (c : Char) (s : toyScanner) : Res (Option Token × toyScanner) :=
  if isNumberic c then withToken s.numberToken
  else
    match s.match_ "true" with
    | .ok (true, s1) => .ok (some ⟨TOKEN_BOOLEAN, "true", .bool true, s1.current⟩, s1)
    | .ok (false, s1) =>
      match s1.match_ "false" with
      | .ok (true, s2) => .ok (some ⟨TOKEN_BOOLEAN, "false", .bool false, s2.current⟩, s2)
      | .ok (false, s2) =>
        if isAlphabetic c then withToken s2.identifierToken
        else .ok (some ⟨TOKEN_ERROR, String.singleton c, .absent, s2.current⟩, s2)
      | .panic m => .panic m
      | .timeout => .timeout
      | .external => .external
    | .panic m => .panic m
    | .timeout => .timeout
    | .external => .external

/-- The method `scanToken`; `none` is the nil token of whitespace and comments. -/
def scanToken (s : toyScanner) : Res (Option Token × toyScanner) :=
  match s.advance with
  | .ok (c, s1) =>
    if c = ' ' ∨ c = '\r' ∨ c = '\t' then .ok (none, s1)
    else if c = '\n' then .ok (none, { s1 with line := s1.line + 1 })
    else if c = '(' then punct TOKEN_LEFT_PAREN "(" s1
    else if c = ')' then punct TOKEN_RIGHT_PAREN ")" s1
    else if c = ',' then punct TOKEN_COMMA "," s1
    else if c = '.' then punct TOKEN_DOT "." s1
    else if c = '-' then punct TOKEN_MINUS "-" s1
    else if c = '+' then punct TOKEN_PLUS "+" s1
    else if c = '*' then punct TOKEN_STAR "*" s1
    else if c = '!' then punct TOKEN_BANG "!" s1
    else if c = '=' then punct TOKEN_EQUAL "=" s1
    else if c = '>' then punct TOKEN_MORE ">" s1
    else if c = '<' then punct TOKEN_LESS "<" s1
    else if c = '"' then withToken s1.stringToken
    else if c = '@' then withToken s1.builtInToken
    else if c = '#' then
      match s1.commentToken with
      | .ok (_, s2) => .ok (none, s2)
      | .panic m => .panic m
      | .timeout => .timeout
      | .external => .external
    else scanDefault c s1
  | .panic m => .panic m
  | .timeout => .timeout
  | .external => .external

/-- The loop of `ScanTokens`. -/
def scanLoop : Nat → toyScanner → Res toyScanner
  | 0, _ => .timeout
  | fuel + 1, s =>
    if !s.done then
      match s.scanToken with
      | .ok (some t, s1) => scanLoop fuel { s1 with tokens := s1.tokens ++ [t] }
      | .ok (none, s1) => scanLoop fuel s1
      | .panic m => .panic m
      | .timeout => .timeout
      | .external => .external
    else .ok s

/-- The method `ScanTokens`; the Go error result is always nil and is left out. Every pass
of the loop consumes at least one byte, so the fuel `len(source) + 1` is never exhausted. -/
def ScanTokens (s : toyScanner) : Res (List Token) :=
  match scanLoop (s.source.length + 1) s with
  | .ok s1 => .ok (s1.tokens ++ [⟨TOKEN_EOF, "", .absent, s1.source.length⟩])
  | .panic m => .panic m
  | .timeout => .timeout
  | .external => .external

end toyScanner

/-- Scanning of a source text: `NewScanner(source).ScanTokens()`. -/
def scan (source : String) : Res (List Token) := (NewScanner source).ScanTokens

/-! ## Go maps -/

/-- Whether a key is present in a map, `_, ok := m[k]`. -/
def mapHas {β : Type} (m : List (String × β)) (k : String) : Bool :=
  m.any (fun e => e.1 == k)

/-- The lookup `v, ok := m[k]`. -/
def mapGet {β : Type} (m : List (String × β)) (k : String) : Option β :=
  match m with
  | [] => none
  | e :: rest => if e.1 == k then some e.2 else mapGet rest k

/-- The assignment `m[k] = v`: overwrites the entry of a key that is present, adds one
otherwise. -/
def mapSet {β : Type} (m : List (String × β)) (k : String) (v : β) : List (String × β) :=
  match m with
  | [] => [(k, v)]
  | e :: rest => if e.1 == k then (k, v) :: rest else e :: mapSet rest k v

/-- The order in which one `range` over a map visits its entries, decoded from a number:
the digit `code % n` selects the first entry visited among the `n` entries, the next digit
selects among the remaining ones, and so on. Every order is the value of some code. -/
def rangeOrder {α : Type} (code : Nat) (xs : List α) : List α :=
  go xs.length code xs
where
  /-- Selection of the entries one after the other. -/
  go : Nat → Nat → List α → List α
    | 0, _, _ => []
    | k + 1, code, xs =>
      match xs[code % xs.length]? with
      | some x => x :: go k (code / xs.length) (xs.eraseIdx (code % xs.length))
      | none => []

/-! ## Syntax tree (parser_decl.go) -/

/-- The reference kinds, `ReferenceType` constants. -/
inductive ReferenceType where
  | REF_TYPE_BUILTIN | REF_TYPE_DECLARED | REF_TYPE_IMPORTED
  deriving Repr, DecidableEq

open ReferenceType

/-- The string value of a reference kind constant. -/
def ReferenceType.name : ReferenceType → String
  | REF_TYPE_BUILTIN => "built-in"
  | REF_TYPE_DECLARED => "declared"
  | REF_TYPE_IMPORTED => "imported"

/-- The node variants. `VarStatement`, `ImportStatement` and `HashLiteral` hold Go maps keyed
by strings. The cases of a `MatchExpression` are a Go map keyed by node pointers: every
clause the parser stores has a freshly allocated key, so the map holds all clauses, here as
a list of pairs. The body of a `MalformedExpression` is a token, a node or nil. -/
inductive Node where
  | StringLiteral (Value : String)
  | NumberLiteral (Value : Int)
  | BooleanLiteral (Value : Bool)
  | ListLiteral (Elements : List Node)
  | HashLiteral (Elements : List (String × Node))
  | FuncLiteral (Params : List String) (Body : List Node)
  | VarStatement (Vars : List (String × Node))
  | ImportStatement (Imports : List (String × String))
  | ExportStatement (Exports : List Node)
  | ReferenceExpression (RefName : String) (RefType : ReferenceType)
  | CallExpression (Callee : Node) (Args : List Node)
  | MatchExpression (Cond : Node) (Cases : List (Node × Node))
  | MalformedExpression (BodyToken : Option Token) (BodyNode : Option Node) (Error : String)
  | SeqExpression (Expressions : List Node)
  | ChainExpression (Expressions : List Node)
  | AsyncExpression (Expressions : List Node)
  deriving Repr

/-- The program node `ProgramStatement`, the result of `Parse`. -/
structure ProgramStatement where
  Body : List Node
  deriving Repr

/-- The method `Type` of the node variants. -/
def Node.Type_ : Node → String
  | .StringLiteral _ => "StringLiteral"
  | .NumberLiteral _ => "NumberLiteral"
  | .BooleanLiteral _ => "BooleanLiteral"
  | .ListLiteral _ => "ListLiteral"
  | .HashLiteral _ => "HashLiteral"
  | .FuncLiteral _ _ => "FuncLiteral"
  | .VarStatement _ => "VarStatement"
  | .ImportStatement _ => "ImportStatement"
  | .ExportStatement _ => "ExportStatement"
  | .ReferenceExpression _ _ => "ReferenceExpression"
  | .CallExpression _ _ => "CallExpression"
  | .MatchExpression _ _ => "MatchExpression"
  | .MalformedExpression _ _ _ => "MalformedExpression"
  | .SeqExpression _ => "SeqExpression"
  | .ChainExpression _ => "ChainExpression"
  | .AsyncExpression _ => "AsyncExpression"

/-- A malformed node whose body is a token. -/
def malformedToken (t : Token) (err : String) : Node := .MalformedExpression (some t) none err

mutual
/-- Whether a `MalformedExpression` occurs in a node, at the node itself or anywhere below. -/
def Node.hasMalformed : Node → Bool
  | .StringLiteral _ => false
  | .NumberLiteral _ => false
  | .BooleanLiteral _ => false
  | .ListLiteral es => hasMalformedList es
  | .HashLiteral es => hasMalformedEntries es
  | .FuncLiteral _ body => hasMalformedList body
  | .VarStatement vars => hasMalformedEntries vars
  | .ImportStatement _ => false
  | .ExportStatement es => hasMalformedList es
  | .ReferenceExpression _ _ => false
  | .CallExpression callee args => callee.hasMalformed || hasMalformedList args
  | .MatchExpression cond cases => cond.hasMalformed || hasMalformedCases cases
  | .MalformedExpression _ _ _ => true
  | .SeqExpression es => hasMalformedList es
  | .ChainExpression es => hasMalformedList es
  | .AsyncExpression es => hasMalformedList es
/-- Whether a malformed node occurs in a list of nodes. -/
def hasMalformedList : List Node → Bool
  | [] => false
  | n :: ns => n.hasMalformed || hasMalformedList ns
/-- Whether a malformed node occurs in the values of a string-keyed map of nodes. -/
def hasMalformedEntries : List (String × Node) → Bool
  | [] => false
  | (_, n) :: es => n.hasMalformed || hasMalformedEntries es
/-- Whether a malformed node occurs in the tests or actions of match clauses. -/
def hasMalformedCases : List (Node × Node) → Bool
  | [] => false
  | (c, a) :: cs => c.hasMalformed || a.hasMalformed || hasMalformedCases cs
end

mutual
/-- Structural equality test of nodes. -/
def Node.beq : Node → Node → Bool
  | .StringLiteral a, n => match n with
    | .StringLiteral b => a == b
    | _ => false
  | .NumberLiteral a, n => match n with
    | .NumberLiteral b => a == b
    | _ => false
  | .BooleanLiteral a, n => match n with
    | .BooleanLiteral b => a == b
    | _ => false
  | .ListLiteral a, n => match n with
    | .ListLiteral b => beqList a b
    | _ => false
  | .HashLiteral a, n => match n with
    | .HashLiteral b => beqEntries a b
    | _ => false
  | .FuncLiteral p a, n => match n with
    | .FuncLiteral q b => p == q && beqList a b
    | _ => false
  | .VarStatement a, n => match n with
    | .VarStatement b => beqEntries a b
    | _ => false
  | .ImportStatement a, n => match n with
    | .ImportStatement b => a == b
    | _ => false
  | .ExportStatement a, n => match n with
    | .ExportStatement b => beqList a b
    | _ => false
  | .ReferenceExpression r t, n => match n with
    | .ReferenceExpression m u => r == m && t == u
    | _ => false
  | .CallExpression c a, n => match n with
    | .CallExpression d b => c.beq d && beqList a b
    | _ => false
  | .MatchExpression c a, n => match n with
    | .MatchExpression d b => c.beq d && beqCases a b
    | _ => false
  | .MalformedExpression t o e, n => match n with
    | .MalformedExpression u m g => t == u && beqOpt o m && e == g
    | _ => false
  | .SeqExpression a, n => match n with
    | .SeqExpression b => beqList a b
    | _ => false
  | .ChainExpression a, n => match n with
    | .ChainExpression b => beqList a b
    | _ => false
  | .AsyncExpression a, n => match n with
    | .AsyncExpression b => beqList a b
    | _ => false
/-- Structural equality test of node lists. -/
def beqList : List Node → List Node → Bool
  | [], bs => bs.isEmpty
  | a :: as, bs => match bs with
    | b :: bs => a.beq b && beqList as bs
    | [] => false
/-- Structural equality test of string-keyed maps of nodes. -/
def beqEntries : List (String × Node) → List (String × Node) → Bool
  | [], bs => bs.isEmpty
  | (k, a) :: as, bs => match bs with
    | (l, b) :: bs => k == l && a.beq b && beqEntries as bs
    | [] => false
/-- Structural equality test of match clauses. -/
def beqCases : List (Node × Node) → List (Node × Node) → Bool
  | [], bs => bs.isEmpty
  | (c, a) :: as, bs => match bs with
    | (d, b) :: bs => c.beq d && a.beq b && beqCases as bs
    | [] => false
/-- Structural equality test of optional nodes. -/
def beqOpt : Option Node → Option Node → Bool
  | none, b => b.isNone
  | some a, b => match b with
    | some b => a.beq b
    | none => false
end

mutual
/-- The equality test accepts equal nodes only. -/
theorem Node.eq_of_beq : ∀ (a b : Node), a.beq b = true → a = b
  | .StringLiteral a, b, h => by cases b <;> simp_all [Node.beq]
  | .NumberLiteral a, b, h => by cases b <;> simp_all [Node.beq]
  | .BooleanLiteral a, b, h => by cases b <;> simp_all [Node.beq]
  | .ListLiteral a, b, h => by
    cases b <;> simp [Node.beq] at h
    rw [eq_of_beqList _ _ h]
  | .HashLiteral a, b, h => by
    cases b <;> simp [Node.beq] at h
    rw [eq_of_beqEntries _ _ h]
  | .FuncLiteral p a, b, h => by
    cases b <;> simp [Node.beq] at h
    rw [h.1, eq_of_beqList _ _ h.2]
  | .VarStatement a, b, h => by
    cases b <;> simp [Node.beq] at h
    rw [eq_of_beqEntries _ _ h]
  | .ImportStatement a, b, h => by cases b <;> simp_all [Node.beq]
  | .ExportStatement a, b, h => by
    cases b <;> simp [Node.beq] at h
    rw [eq_of_beqList _ _ h]
  | .ReferenceExpression n t, b, h => by cases b <;> simp_all [Node.beq]
  | .CallExpression c a, b, h => by
    cases b <;> simp [Node.beq] at h
    rw [Node.eq_of_beq _ _ h.1, eq_of_beqList _ _ h.2]
  | .MatchExpression c a, b, h => by
    cases b <;> simp [Node.beq] at h
    rw [Node.eq_of_beq _ _ h.1, eq_of_beqCases _ _ h.2]
  | .MalformedExpression t n e, b, h => by
    cases b <;> simp [Node.beq] at h
    rw [h.1.1, eq_of_beqOpt _ _ h.1.2, h.2]
  | .SeqExpression a, b, h => by
    cases b <;> simp [Node.beq] at h
    rw [eq_of_beqList _ _ h]
  | .ChainExpression a, b, h => by
    cases b <;> simp [Node.beq] at h
    rw [eq_of_beqList _ _ h]
  | .AsyncExpression a, b, h => by
    cases b <;> simp [Node.beq] at h
    rw [eq_of_beqList _ _ h]
/-- The equality test accepts equal node lists only. -/
theorem eq_of_beqList : ∀ (a b : List Node), beqList a b = true → a = b
  | [], b, h => by cases b <;> simp_all [beqList]
  | x :: xs, b, h => by
    cases b <;> simp [beqList] at h
    rw [Node.eq_of_beq _ _ h.1, eq_of_beqList _ _ h.2]
/-- The equality test accepts equal maps of nodes only. -/
theorem eq_of_beqEntries : ∀ (a b : List (String × Node)), beqEntries a b = true → a = b
  | [], b, h => by cases b <;> simp_all [beqEntries]
  | (k, x) :: xs, b, h => by
    rcases b with _ | ⟨⟨l, y⟩, ys⟩ <;> simp [beqEntries] at h
    rw [h.1.1, Node.eq_of_beq _ _ h.1.2, eq_of_beqEntries _ _ h.2]
/-- The equality test accepts equal clause lists only. -/
theorem eq_of_beqCases : ∀ (a b : List (Node × Node)), beqCases a b = true → a = b
  | [], b, h => by cases b <;> simp_all [beqCases]
  | (c, x) :: xs, b, h => by
    rcases b with _ | ⟨⟨d, y⟩, ys⟩ <;> simp [beqCases] at h
    rw [Node.eq_of_beq _ _ h.1.1, Node.eq_of_beq _ _ h.1.2, eq_of_beqCases _ _ h.2]
/-- The equality test accepts equal optional nodes only. -/
theorem eq_of_beqOpt : ∀ (a b : Option Node), beqOpt a b = true → a = b
  | none, b, h => by cases b <;> simp_all [beqOpt]
  | some x, b, h => by
    cases b <;> simp [beqOpt] at h
    rw [Node.eq_of_beq _ _ h]
end

mutual
/-- The equality test accepts every node against itself. -/
theorem Node.beq_self : ∀ (a : Node), a.beq a = true
  | .StringLiteral a => by simp [Node.beq]
  | .NumberLiteral a => by simp [Node.beq]
  | .BooleanLiteral a => by simp [Node.beq]
  | .ListLiteral a => by simp [Node.beq, beqList_self a]
  | .HashLiteral a => by simp [Node.beq, beqEntries_self a]
  | .FuncLiteral p a => by simp [Node.beq, beqList_self a]
  | .VarStatement a => by simp [Node.beq, beqEntries_self a]
  | .ImportStatement a => by simp [Node.beq]
  | .ExportStatement a => by simp [Node.beq, beqList_self a]
  | .ReferenceExpression n t => by simp [Node.beq]
  | .CallExpression c a => by simp [Node.beq, Node.beq_self c, beqList_self a]
  | .MatchExpression c a => by simp [Node.beq, Node.beq_self c, beqCases_self a]
  | .MalformedExpression t n e => by simp [Node.beq, beqOpt_self n]
  | .SeqExpression a => by simp [Node.beq, beqList_self a]
  | .ChainExpression a => by simp [Node.beq, beqList_self a]
  | .AsyncExpression a => by simp [Node.beq, beqList_self a]
/-- The equality test accepts every node list against itself. -/
theorem beqList_self : ∀ (a : List Node), beqList a a = true
  | [] => by simp [beqList]
  | x :: xs => by simp [beqList, Node.beq_self x, beqList_self xs]
/-- The equality test accepts every map of nodes against itself. -/
theorem beqEntries_self : ∀ (a : List (String × Node)), beqEntries a a = true
  | [] => by simp [beqEntries]
  | (k, x) :: xs => by simp [beqEntries, Node.beq_self x, beqEntries_self xs]
/-- The equality test accepts every clause list against itself. -/
theorem beqCases_self : ∀ (a : List (Node × Node)), beqCases a a = true
  | [] => by simp [beqCases]
  | (c, x) :: xs => by simp [beqCases, Node.beq_self c, Node.beq_self x, beqCases_self xs]
/-- The equality test accepts every optional node against itself. -/
theorem beqOpt_self : ∀ (a : Option Node), beqOpt a a = true
  | none => by simp [beqOpt]
  | some x => by simp [beqOpt, Node.beq_self x]
end

instance : DecidableEq Node := fun a b =>
  if h : a.beq b = true then isTrue (Node.eq_of_beq a b h)
  else isFalse (fun e => h (e ▸ Node.beq_self a))

instance : DecidableEq ProgramStatement := fun a b =>
  if h : a.Body = b.Body then isTrue (by cases a; cases b; simp_all)
  else isFalse (fun e => h (e ▸ rfl))

/-! ## Parser (parser.go) -/

/-- The parser state `toyParser`. -/
structure toyParser where
  tokens : List Token
  _current : Nat
  deriving Repr, DecidableEq

/-- `NewParser(tokens)`. -/
def NewParser (tokens : List Token) : toyParser := ⟨tokens, 0⟩

/-- Result of a parsing rule: the node, the error flag and the parser state after it. -/
abbrev PRes := Res (Node × Bool × toyParser)

/-- A parsing rule. -/
abbrev PRule := toyParser → PRes

namespace toyParser

/-- The method `done`. -/
def done (p : toyParser) : Bool :=
  match p.tokens[p._current]? with
  | none => true
  | some t => t.Type_ == TOKEN_EOF

/-- The method `peek`, always called with offset 0: the token at the position, the last
token when the position is past the end (a panic on an empty token list). -/
def peek (p : toyParser) : Res Token :=
  match p.tokens[p._current]? with
  | some t => .ok t
  | none =>
    match p.tokens.getLast? with
    | some t => .ok t
    | none => .panic "runtime error: index out of range [-1]"

/-- The method `advance`. -/
def advance (p : toyParser) : Res (Token × toyParser) := do
  let t ← p.peek
  pure (t, { p with _current := p._current + 1 })

/-- The method `check`. -/
def check (p : toyParser) (_type : TokenType) : Bool :=
  if p.done then false
  else
    match p.tokens[p._current]? with
    | some t => t.Type_ == _type
    | none => false

/-- The method `match`. -/
def match_ (p : toyParser) (_type : TokenType) : Res (Bool × toyParser) :=
  if p.check _type then do
    let (_, p1) ← p.advance
    pure (true, p1)
  else pure (false, p)

/-- The method `consume`: the token and no error node, or the zero token and a malformed
node that carries the token found. -/
def consume (p : toyParser) (_type : TokenType) (err : String) :
    Res (Token × Option Node × toyParser) := do
  let (t, p1) ← p.advance
  if t.Type_ == _type then pure (t, none, p1)
  else pure (Token.zero,
    some (malformedToken t ("parser: " ++ err ++ " at " ++ toString t.Line)), p1)

/-- The method `revert`, the one-token pushback. -/
def revert (p : toyParser) : Res (Token × toyParser) :=
  match p._current with
  | 0 =>
    match p.tokens.head? with
    | some t => .ok (t, p)
    | none => .panic "runtime error: index out of range [0]"
  | c + 1 => do
    let p1 : toyParser := { p with _current := c }
    let t ← p1.peek
    pure (t, p1)

/-- The method `referenceExpression`. -/
def referenceExpression (p : toyParser) : PRes := do
  let (part1, p1) ← p.advance
  match part1.Type_ with
  | TOKEN_LESS | TOKEN_MORE | TOKEN_EQUAL =>
    pure (.ReferenceExpression part1.Lexeme REF_TYPE_BUILTIN, false, p1)
  | TOKEN_BUILTIN => pure (.ReferenceExpression part1.Lexeme REF_TYPE_BUILTIN, false, p1)
  | TOKEN_IDENTIFIER =>
    let (isDot, p2) ← p1.match_ TOKEN_DOT
    if isDot then
      let (part2, err, p3) ← p2.consume TOKEN_IDENTIFIER "malformed reference to imported value"
      match err with
      | some e => pure (e, true, p3)
      | none =>
        pure (.ReferenceExpression (part1.Lexeme ++ "." ++ part2.Lexeme) REF_TYPE_IMPORTED,
          false, p3)
    else pure (.ReferenceExpression part1.Lexeme REF_TYPE_DECLARED, false, p2)
  | _ => pure (malformedToken part1 "unexpected token in reference", true, p1)

/-- The method `simpleLiteral`. The type assertion `t.Literal.(bool)` panics on a boolean
token whose literal is not a boolean. -/
def simpleLiteral (p : toyParser) : PRes := do
  let (t, p1) ← p.advance
  match t.Type_ with
  | TOKEN_STRING => pure (.StringLiteral t.Lexeme, false, p1)
  | TOKEN_NUMBER =>
    match atoi t.Lexeme with
    | .error _ => pure (malformedToken t "malformed number literal", true, p1)
    | .ok i => pure (.NumberLiteral i, false, p1)
  | TOKEN_BOOLEAN =>
    match t.Literal with
    | .bool b => pure (.BooleanLiteral b, false, p1)
    | _ => .panic "interface conversion: interface {} is not bool"
  | TOKEN_IDENTIFIER =>
    let (_, p2) ← p1.revert
    p2.referenceExpression
  | _ =>
    let t0 ← p1.peek
    pure (malformedToken t0 ("unexpected token in expression " ++ t.String), true, p1)

/-- The loop of `importStatement`; the left result is an early `return err, true`. -/
def importLoop : Nat → toyParser → List (String × String) →
    Res ((Node ⊕ List (String × String)) × toyParser)
  | 0, _, _ => .timeout
  | fuel + 1, p, imports =>
    if !p.check TOKEN_RIGHT_PAREN && !p.done then do
      let (_, err, p1) ← p.consume TOKEN_LEFT_PAREN "expected import pair"
      match err with
      | some e => pure (.inl e, p1)
      | none =>
      let (aliasTok, err, p2) ← p1.consume TOKEN_IDENTIFIER "expected module alais"
      match err with
      | some e => pure (.inl e, p2)
      | none =>
      let (path, err, p3) ← p2.consume TOKEN_STRING "expected module path"
      match err with
      | some e => pure (.inl e, p3)
      | none =>
      let (_, err, p4) ← p3.consume TOKEN_RIGHT_PAREN "malformed import pair: missing closing )"
      match err with
      | some e => pure (.inl e, p4)
      | none =>
      if mapHas imports aliasTok.Lexeme then
        pure (.inl (malformedToken aliasTok "duplicated import alias"), p4)
      else importLoop fuel p4 (mapSet imports aliasTok.Lexeme path.Lexeme)
    else pure (.inr imports, p)

/-- The method `importStatement`. -/
def importStatement (fuel : Nat) (p : toyParser) : PRes := do
  let (r, p1) ← importLoop fuel p []
  match r with
  | .inl e => pure (e, true, p1)
  | .inr imports =>
    let (_, err, p2) ← p1.consume TOKEN_RIGHT_PAREN "expected closing ) for import statement"
    match err with
    | some e => pure (e, true, p2)
    | none => pure (.ImportStatement imports, false, p2)

/-- The loop of `varStatement`; the left result is an early `return ..., true`. -/
def varLoop (expr : PRule) : Nat → toyParser → List (String × Node) →
    Res ((Node ⊕ List (String × Node)) × toyParser)
  | 0, _, _ => .timeout
  | fuel + 1, p, vars =>
    if !p.check TOKEN_RIGHT_PAREN && !p.done then do
      let (_, err, p1) ← p.consume TOKEN_LEFT_PAREN "expected variable pair"
      match err with
      | some e => pure (.inl e, p1)
      | none =>
      let (nameTok, err, p2) ← p1.consume TOKEN_IDENTIFIER "expected variable name"
      match err with
      | some e => pure (.inl e, p2)
      | none =>
      let (value, hasErr, p3) ← expr p2
      if hasErr then pure (.inl value, p3)
      else
      let (_, err, p4) ← p3.consume TOKEN_RIGHT_PAREN "malformed variable pair: missing closing )"
      match err with
      | some e => pure (.inl e, p4)
      | none =>
      if mapHas vars nameTok.Lexeme then
        pure (.inl (malformedToken nameTok "duplicated variable name"), p4)
      else varLoop expr fuel p4 (mapSet vars nameTok.Lexeme value)
    else pure (.inr vars, p)

/-- The method `varStatement`. -/
def varStatement (expr : PRule) (fuel : Nat) (p : toyParser) : PRes := do
  let (r, p1) ← varLoop expr fuel p []
  match r with
  | .inl e => pure (e, true, p1)
  | .inr vars =>
    let (_, err, p2) ← p1.consume TOKEN_RIGHT_PAREN "expected closing ) for var statement"
    match err with
    | some e => pure (e, true, p2)
    | none => pure (.VarStatement vars, false, p2)

/-- The loop of `exportStatement`. -/
def exportLoop : Nat → toyParser → List Node → Res ((Node ⊕ List Node) × toyParser)
  | 0, _, _ => .timeout
  | fuel + 1, p, exports =>
    if !p.check TOKEN_RIGHT_PAREN && !p.done then
      if p.check TOKEN_IDENTIFIER then do
        let (t, p1) ← p.advance
        exportLoop fuel p1 (exports ++ [.ReferenceExpression t.Lexeme REF_TYPE_DECLARED])
      else do
        let t ← p.peek
        pure (.inl (malformedToken t "unexpected token in exports list"), p)
    else pure (.inr exports, p)

/-- The method `exportStatement`. -/
def exportStatement (fuel : Nat) (p : toyParser) : PRes := do
  let (r, p1) ← exportLoop fuel p []
  match r with
  | .inl e => pure (e, true, p1)
  | .inr exports =>
    let (_, err, p2) ← p1.consume TOKEN_RIGHT_PAREN "expected closing ) for export statement"
    match err with
    | some e => pure (e, true, p2)
    | none => pure (.ExportStatement exports, false, p2)

/-- The loop `for !p.check(TOKEN_RIGHT_PAREN) && !p.done()` that collects expressions, as
in the call arguments, the func body and the seq, chain, async and list members. -/
def exprLoop (expr : PRule) : Nat → toyParser → List Node → Bool →
    Res (List Node × Bool × toyParser)
  | 0, _, _, _ => .timeout
  | fuel + 1, p, exprs, hasErrors =>
    if !p.check TOKEN_RIGHT_PAREN && !p.done then do
      let (e, hasErr, p1) ← expr p
      exprLoop expr fuel p1 (exprs ++ [e]) (hasErrors || hasErr)
    else pure (exprs, hasErrors, p)

/-- The method `callExpression`. -/
def callExpression (expr : PRule) (fuel : Nat) (p : toyParser) : PRes := do
  let (callee, hasErr, p1) ← p.referenceExpression
  let (args, hasErrors, p2) ← exprLoop expr fuel p1 [] hasErr
  let (_, err, p3) ← p2.consume TOKEN_RIGHT_PAREN "expected ) in call expression"
  match err with
  | some e => pure (e, true, p3)
  | none => pure (.CallExpression callee args, hasErrors, p3)

/-- The parameter loop of `funcExpression`; a failed `consume` appends the lexeme of the
zero token. -/
def paramLoop : Nat → toyParser → List String → Bool → Res (List String × Bool × toyParser)
  | 0, _, _, _ => .timeout
  | fuel + 1, p, params, hasErrors =>
    if !p.check TOKEN_RIGHT_PAREN && !p.done then do
      let (param, err, p1) ← p.consume TOKEN_IDENTIFIER "expected param name"
      paramLoop fuel p1 (params ++ [param.Lexeme]) (hasErrors || err.isSome)
    else pure (params, hasErrors, p)

/-- The method `funcExpression`. -/
def funcExpression (expr : PRule) (fuel : Nat) (p : toyParser) : PRes := do
  let (_, err, p1) ← p.consume TOKEN_LEFT_PAREN "expected params list for func declaration"
  match err with
  | some e => pure (e, true, p1)
  | none =>
  let (params, hasErrors, p2) ← paramLoop fuel p1 [] false
  let (_, err, p3) ← p2.consume TOKEN_RIGHT_PAREN "expacted ) at the end of params list"
  match err with
  | some e => pure (e, true, p3)
  | none =>
  let (_, err, p4) ← p3.consume TOKEN_LEFT_PAREN "expected body for func declaration"
  match err with
  | some e => pure (e, true, p4)
  | none =>
  let (body, hasErrors, p5) ← exprLoop expr fuel p4 [] hasErrors
  let (_, err, p6) ← p5.consume TOKEN_RIGHT_PAREN "expacted ) at the end of func body"
  match err with
  | some e => pure (e, true, p6)
  | none =>
  let (_, err, p7) ← p6.consume TOKEN_RIGHT_PAREN "expected end of func declaration"
  match err with
  | some e => pure (e, true, p7)
  | none => pure (.FuncLiteral params body, hasErrors, p7)

/-- The clause loop of `matchExpression`. -/
def whenLoop (expr : PRule) : Nat → toyParser → List (Node × Node) → Bool →
    Res (List (Node × Node) × Bool × toyParser)
  | 0, _, _, _ => .timeout
  | fuel + 1, p, cases, hasErrors =>
    if !p.check TOKEN_RIGHT_PAREN && !p.done then do
      let (_, err1, p1) ← p.consume TOKEN_LEFT_PAREN "expected start of when expression"
      let (whenTok, err2, p2) ← p1.consume TOKEN_BUILTIN "expected when key word"
      let (expected, hasErr3, p3) ← expr p2
      let expected := if hasErr3 then .MalformedExpression none (some expected) "malformed matcher"
        else expected
      let (action, hasErr4, p4) ← expr p3
      let (_, err5, p5) ← p4.consume TOKEN_RIGHT_PAREN "expected end of when expression"
      whenLoop expr fuel p5 (cases ++ [(expected, action)])
        (hasErrors || err1.isSome || (err2.isSome || whenTok.Lexeme != "@when") || hasErr3 ||
          hasErr4 || err5.isSome)
    else pure (cases, hasErrors, p)

/-- The method `matchExpression`. -/
def matchExpression (expr : PRule) (fuel : Nat) (p : toyParser) : PRes := do
  let (cond, hasErr, p1) ← expr p
  let (cases, hasErrors, p2) ← whenLoop expr fuel p1 [] hasErr
  let (_, err, p3) ← p2.consume TOKEN_RIGHT_PAREN "expected end of match expression"
  pure (.MatchExpression cond cases, hasErrors || err.isSome, p3)

/-- The method `seqExpression`; the outcome of the closing `consume` is dropped. -/
def seqExpression (expr : PRule) (fuel : Nat) (p : toyParser) : PRes := do
  let (exprs, hasErrors, p1) ← exprLoop expr fuel p [] false
  let (_, _, p2) ← p1.consume TOKEN_RIGHT_PAREN "exprected end of seq"
  pure (.SeqExpression exprs, hasErrors, p2)

/-- The method `chainExpression`. -/
def chainExpression (expr : PRule) (fuel : Nat) (p : toyParser) : PRes := do
  let (exprs, hasErrors, p1) ← exprLoop expr fuel p [] false
  let (_, err, p2) ← p1.consume TOKEN_RIGHT_PAREN "expected end of chain"
  match err with
  | some e => pure (e, true, p2)
  | none =>
    if exprs.length == 0 then
      pure (.MalformedExpression none none "chain expectes at least one inner expression",
        true, p2)
    else pure (.ChainExpression exprs, hasErrors, p2)

/-- The method `asyncExpression`; the outcome of the closing `consume` is dropped. -/
def asyncExpression (expr : PRule) (fuel : Nat) (p : toyParser) : PRes := do
  let (exprs, hasErrors, p1) ← exprLoop expr fuel p [] false
  let (_, _, p2) ← p1.consume TOKEN_RIGHT_PAREN "exprected end of seq"
  pure (.AsyncExpression exprs, hasErrors, p2)

/-- The method `listLiteral`. -/
def listLiteral (expr : PRule) (fuel : Nat) (p : toyParser) : PRes := do
  let (elements, hasErrors, p1) ← exprLoop expr fuel p [] false
  let (_, err, p2) ← p1.consume TOKEN_RIGHT_PAREN "expected ) at end of list"
  match err with
  | some e => pure (e, true, p2)
  | none => pure (.ListLiteral elements, hasErrors, p2)

/-- The pair loop of `hashLiteral` (the diagnostics it prints are left out); the left result
is an early `return err, true`. -/
def hashLoop (expr : PRule) : Nat → toyParser → List (String × Node) → Bool →
    Res ((Node ⊕ (List (String × Node) × Bool)) × toyParser)
  | 0, _, _, _ => .timeout
  | fuel + 1, p, store, hasErrors =>
    if !p.check TOKEN_RIGHT_PAREN && !p.done then do
      let (_, err, p1) ← p.consume TOKEN_LEFT_PAREN "expected key value pair"
      match err with
      | some e => pure (.inl e, p1)
      | none =>
      let (key, err, p2) ← p1.consume TOKEN_STRING "key must be a string"
      match err with
      | some e => pure (.inl e, p2)
      | none =>
      let (value, hasErr, p3) ← expr p2
      let alreadyExists := mapHas store key.Lexeme
      let (_, err, p4) ← p3.consume TOKEN_RIGHT_PAREN "expected end of key value pair"
      let value := match err with
        | some e => e
        | none => value
      hashLoop expr fuel p4 (mapSet store key.Lexeme value)
        (hasErrors || hasErr || alreadyExists || err.isSome)
    else pure (.inr (store, hasErrors), p)

/-- The method `hashLiteral`. -/
def hashLiteral (expr : PRule) (fuel : Nat) (p : toyParser) : PRes := do
  let (r, p1) ← hashLoop expr fuel p [] false
  match r with
  | .inl e => pure (e, true, p1)
  | .inr (store, hasErrors) =>
    let (_, err, p2) ← p1.consume TOKEN_RIGHT_PAREN "expected end of hash literal"
    match err with
    | some e => pure (e, true, p2)
    | none => pure (.HashLiteral store, hasErrors, p2)

/-- The body of the method `expression`, with the rule for the nested expressions and the
bound of the loops given. -/
def expressionBody (expr : PRule) (fuel : Nat) (p : toyParser) : PRes := do
  let (isParen, p1) ← p.match_ TOKEN_LEFT_PAREN
  if isParen then
    let (t, p2) ← p1.advance
    match t.Type_ with
    | TOKEN_BUILTIN =>
      if t.Lexeme = "@var" then varStatement expr fuel p2
      else if t.Lexeme = "@list" then listLiteral expr fuel p2
      else if t.Lexeme = "@hash" then hashLiteral expr fuel p2
      else if t.Lexeme = "@match" then matchExpression expr fuel p2
      else if t.Lexeme = "@func" then funcExpression expr fuel p2
      else if t.Lexeme = "@seq" then seqExpression expr fuel p2
      else if t.Lexeme = "@chain" then chainExpression expr fuel p2
      else if t.Lexeme = "@async" then asyncExpression expr fuel p2
      else do
        let (_, p3) ← p2.revert
        callExpression expr fuel p3
    | TOKEN_IDENTIFIER | TOKEN_EQUAL | TOKEN_LESS | TOKEN_MORE =>
      let (_, p3) ← p2.revert
      callExpression expr fuel p3
    | _ => pure (malformedToken t "unexpected token in expression", true, p2)
  else p1.simpleLiteral

/-- The method `expression`. The fuel bounds the nesting depth of the recursion and the
number of passes of every loop. -/
def expression : Nat → PRule
  | 0 => fun _ => .timeout
  | fuel + 1 => expressionBody (expression fuel) fuel

/-- The method `statement`. -/
def statement (fuel : Nat) (p : toyParser) : PRes := do
  let (isParen, p1) ← p.match_ TOKEN_LEFT_PAREN
  if isParen then
    if p1.check TOKEN_BUILTIN then
      let (t, p2) ← p1.advance
      if t.Lexeme = "@import" then importStatement fuel p2
      else if t.Lexeme = "@export" then exportStatement fuel p2
      else
        let (_, p3) ← p2.revert
        let (_, p4) ← p3.revert
        expression fuel p4
    else
      let (_, p2) ← p1.revert
      expression fuel p2
  else
    let (failingAt, p2) ← p1.advance
    pure (malformedToken failingAt
      ("unexpected token in statement at " ++ toString failingAt.Line), true, p2)

/-- The loop of `programStatement`; every rule returns a non-nil node, so every child is
appended. -/
def programLoop (fuel : Nat) : Nat → toyParser → List Node → Bool →
    Res (ProgramStatement × Bool)
  | 0, _, _, _ => .timeout
  | k + 1, p, body, hasErrors =>
    if !p.done then do
      let (child, hasError, p1) ← statement fuel p
      programLoop fuel k p1 (body ++ [child]) (hasErrors || hasError)
    else pure (⟨body⟩, hasErrors)

/-- The method `programStatement`. -/
def programStatement (fuel : Nat) (p : toyParser) : Res (ProgramStatement × Bool) :=
  programLoop fuel fuel p [] false

/-- The method `Parse`. -/
def Parse (fuel : Nat) (p : toyParser) : Res (ProgramStatement × Bool) :=
  p.programStatement fuel

end toyParser

/-- Parsing of a token list: `NewParser(tokens).Parse()`. -/
def parse (fuel : Nat) (tokens : List Token) : Res (ProgramStatement × Bool) :=
  (NewParser tokens).Parse fuel

/-- Scanning and parsing of a source text, the first half of `run` in main.go. -/
def scanAndParse (fuel : Nat) (source : String) : Res (ProgramStatement × Bool) :=
  match scan source with
  | .ok tokens => parse fuel tokens
  | .panic m => .panic m
  | .timeout => .timeout
  | .external => .external

/-! ## Run-time values and frames (eval.go) -/

/-- The Go functions bound as callables: the builtins of `injectBuiltins` and the functions
of the hard-coded modules http, json and stdio. -/
inductive Builtin where
  | toyMap | toyGet | toySet | toyHas | toyLen | toyClose | toyAwait | toyCollect | toyEqual
  | httpGet | jsonParse | stdioPrint | stdioRead | stdioBuildStr
  deriving Repr, DecidableEq

/-- The run-time values (Go `any`) of the sequential fragment. Slices, maps and frames are
references into the store. A callable (`funcType`) is the closure made by `defineFunc` (the
func literal and its defining frame), the closure made by `defineChain` (the chain and its
defining frame) or a Go function. A node value is a node pointer that the host put into the
globals; `seq` is the iterator `maps.Values` returns. -/
inductive Value where
  | null
  | str (s : String)
  | int (i : Int)
  | bool (b : Bool)
  | list (ref : Nat)
  | hash (ref : Nat)
  | func (Params : List String) (Body : List Node) (f : Nat)
  | chain (Expressions : List Node) (f : Nat)
  | builtin (b : Builtin)
  | frame (ref : Nat)
  | node (ptr : Nat) (n : Node)
  | seq (ref : Nat)
  deriving Repr, DecidableEq

/-- Whether the type assertion `v.(funcType)` succeeds. -/
def Value.isFunc : Value → Bool
  | .func _ _ _ => true
  | .chain _ _ => true
  | .builtin _ => true
  | _ => false

/-- The values that can be the key of a Go map with interface keys, namely the values of a
comparable type. -/
inductive Key where
  | null
  | str (s : String)
  | int (i : Int)
  | bool (b : Bool)
  | frame (ref : Nat)
  | node (ptr : Nat)
  deriving Repr, DecidableEq

/-- The map key of a value; `none` for the values of an unhashable type, on which a map
access panics. -/
def Value.key : Value → Option Key
  | .null => some .null
  | .str s => some (.str s)
  | .int i => some (.int i)
  | .bool b => some (.bool b)
  | .frame r => some (.frame r)
  | .node p _ => some (.node p)
  | _ => none

/-- The comparison `a == b` of two interface values: values of different dynamic types are
unequal, values of the same comparable type are compared, and comparing two values of the
same uncomparable type (slices, maps, functions) panics, which is `none`. -/
def Value.goEq : Value → Value → Option Bool
  | .list _, .list _ => none
  | .hash _, .hash _ => none
  | .seq _, .seq _ => none
  | a, b =>
    if a.isFunc && b.isFunc then none
    else
      match a.key, b.key with
      | some k, some l => some (k == l)
      | _, _ => some false

/-- A frame: the variables and the parent pointer. -/
structure frame where
  vars : List (String × Value)
  parent : Option Nat
  deriving Repr, DecidableEq

/-- The store and the environment of a run: the allocated frames, slices and maps (a
pointer is the index of its target), the schedule that fixes the order of every `range`
over a map, the files that `os.ReadFile` finds, and the lines printed. -/
structure St where
  frames : List frame
  lists : List (List Value)
  hashes : List (List (String × Value))
  sched : List Nat
  files : List (String × String)
  output : List (List Value)
  deriving Repr, DecidableEq

namespace St

/-- `newFrame(p)`: allocates an empty frame and returns its pointer. -/
def newFrame (s : St) (p : Option Nat) : Nat × St :=
  (s.frames.length, { s with frames := s.frames ++ [⟨[], p⟩] })

/-- The method `set` of the frame at a pointer. The frame pointers of a run come from
`newFrame` and are never nil; an index that is no pointer of the store stands for no Go
pointer and the store is left as it is. -/
def set (s : St) (f : Nat) (k : String) (v : Value) : St :=
  match s.frames[f]? with
  | some fr => { s with frames := s.frames.set f { fr with vars := mapSet fr.vars k v } }
  | none => s

/-- The recursion of the method `get`, bounded by a fuel counter. -/
def getFuel (s : St) (k : String) : Nat → Nat → Res (Option Value)
  | 0, _ => .timeout
  | fuel + 1, f =>
    match s.frames[f]? with
    | none => .panic "invalid memory address or nil pointer dereference"
    | some fr =>
      match mapGet fr.vars k with
      | some n => .ok (some n)
      | none =>
        match fr.parent with
        | none => .ok none
        | some p => getFuel s k fuel p

/-- The method `get` of the frame at a pointer: the binding found and `ok`, here `some`.
A chain of parent pointers that ends visits no frame twice, so it has at most as many
frames as the store. -/
def get (s : St) (f : Nat) (k : String) : Res (Option Value) :=
  getFuel s k s.frames.length f

/-- The entries of a map in the order in which the next `range` visits them. -/
def range {α : Type} (s : St) (m : List α) : List α × St :=
  (rangeOrder (s.sched.headD 0) m, { s with sched := s.sched.tail })

/-- Allocation of a slice. -/
def newList (s : St) (vs : List Value) : Value × St :=
  (.list s.lists.length, { s with lists := s.lists ++ [vs] })

/-- Allocation of a map. -/
def newHash (s : St) (m : List (String × Value)) : Value × St :=
  (.hash s.hashes.length, { s with hashes := s.hashes ++ [m] })

end St

/-- The interpreter `toyInterpreter`: the pointer to the root frame. -/
structure toyInterpreter where
  globals : Nat
  deriving Repr, DecidableEq

/-- Result of an evaluation step: the value and the store after it. -/
abbrev ERes := Res (Value × St)

/-- The evaluation of a node in a frame, `execNode`. -/
abbrev Ev := Node → Nat → St → ERes

/-- The call of a callable value with an argument list, `fn(args...)`. -/
abbrev Call := Value → List Value → St → ERes

/-! ## Builtin runtime library (eval_globals.go) -/

/-- `injectBuiltins`: the bindings of the root frame. -/
def builtinBindings : List (String × Value) :=
  [("@map", .builtin .toyMap), ("@get", .builtin .toyGet), ("@set", .builtin .toySet),
   ("@has", .builtin .toyHas), ("@len", .builtin .toyLen), ("@close", .builtin .toyClose),
   ("@await", .builtin .toyAwait), ("@collect", .builtin .toyCollect),
   ("=", .builtin .toyEqual), ("@push", .builtin .toySet), ("@pull", .builtin .toyGet)]

/-- The panic of an index expression `a[i]` past the end of the arguments. -/
def indexPanic {α : Type} : Res α := .panic "runtime error: index out of range"

/-- The panic of a failed type assertion. -/
def castPanic {α : Type} : Res α := .panic "interface conversion: wrong dynamic type"

/-- The loop of `toyMap` over a slice. -/
def mapList (call : Call) (fn : Value) : List Value → St → Res (List Value × St)
  | [], s => .ok ([], s)
  | el :: rest, s => do
    let (r, s1) ← call fn [el] s
    let (rs, s2) ← mapList call fn rest s1
    pure (r :: rs, s2)

/-- The loop of `toyMap` over the entries of a map, in the order of the `range`. -/
def mapEntries (call : Call) (fn : Value) :
    List (String × Value) → List (String × Value) → St → Res (List (String × Value) × St)
  | [], results, s => .ok (results, s)
  | (k, v) :: rest, results, s => do
    let (r, s1) ← call fn [v] s
    mapEntries call fn rest (mapSet results k r) s1

/-- `toyMap`. -/
def toyMap (call : Call) (a : List Value) (s : St) : ERes :=
  match (a[0]? : Option Value) with
  | none => indexPanic
  | some fn =>
    if !fn.isFunc then castPanic
    else
      match (a[1]? : Option Value) with
      | none => indexPanic
      | some (.list r) =>
        match (s.lists[r]? : Option (List Value)) with
        | none => indexPanic
        | some obj => do
          let (results, s1) ← mapList call fn obj s
          pure (s1.newList results)
      | some (.hash r) =>
        match (s.hashes[r]? : Option (List (String × Value))) with
        | none => indexPanic
        | some obj => do
          let (entries, s1) := s.range obj
          let (results, s2) ← mapEntries call fn entries [] s1
          pure (s2.newHash results)
      | some _ => .panic "unable to map over"

/-- `toyGet`. -/
def toyGet (a : List Value) (s : St) : ERes :=
  match (a[0]? : Option Value) with
  | none => indexPanic
  | some (.list r) =>
    match (a[1]? : Option Value) with
    | some (.int idx) =>
      match (s.lists[r]? : Option (List Value)) with
      | none => indexPanic
      | some obj =>
        if 0 ≤ idx then
          match obj[idx.toNat]? with
          | some v => .ok (v, s)
          | none => indexPanic
        else indexPanic
    | some _ => castPanic
    | none => indexPanic
  | some (.hash r) =>
    match (a[1]? : Option Value) with
    | some (.str key) =>
      match (s.hashes[r]? : Option (List (String × Value))) with
      | none => indexPanic
      | some obj => .ok ((mapGet obj key).getD .null, s)
    | some _ => castPanic
    | none => indexPanic
  | some _ => .panic "unsupported collection for get"

/-- `slices.Contains`: compares the elements with the query from the front. -/
def sliceContains (query : Value) : List Value → Res Bool
  | [] => .ok false
  | el :: rest =>
    match query.goEq el with
    | none => .panic "runtime error: comparing uncomparable type"
    | some true => .ok true
    | some false => sliceContains query rest

/-- `toyHas`. -/
def toyHas (a : List Value) (s : St) : ERes :=
  match (a[1]? : Option Value) with
  | none => indexPanic
  | some query =>
    match (a[0]? : Option Value) with
    | none => indexPanic
    | some (.list r) =>
      match (s.lists[r]? : Option (List Value)) with
      | none => indexPanic
      | some obj => do
        let b ← sliceContains query obj
        pure (.bool b, s)
    | some (.hash r) =>
      match query with
      | .str key =>
        match (s.hashes[r]? : Option (List (String × Value))) with
        | none => indexPanic
        | some obj => .ok (.bool (mapHas obj key), s)
      | _ => castPanic
    | some _ => .panic "unsupported collection for has"

/-- `toySet`. On a slice the form with an integer index and a third argument assigns the
element in place; every other form assigns at index `len(obj)`, which is out of range. -/
def toySet (a : List Value) (s : St) : ERes :=
  match (a[0]? : Option Value) with
  | none => indexPanic
  | some (.list r) =>
    match (s.lists[r]? : Option (List Value)) with
    | none => indexPanic
    | some obj =>
      match (a[1]? : Option Value) with
      | none => indexPanic
      | some a1 =>
        match a1, (a[2]? : Option Value) with
        | .int idx, some a2 =>
          if 0 ≤ idx ∧ idx.toNat < obj.length then
            .ok (.null, { s with lists := s.lists.set r (obj.set idx.toNat a2) })
          else indexPanic
        | _, _ => indexPanic
  | some (.hash r) =>
    match (s.hashes[r]? : Option (List (String × Value))) with
    | none => indexPanic
    | some obj =>
      match (a[1]? : Option Value) with
      | some (.str key) =>
        match (a[2]? : Option Value) with
        | some a2 => .ok (.null, { s with hashes := s.hashes.set r (mapSet obj key a2) })
        | none => indexPanic
      | some _ => castPanic
      | none => indexPanic
  | some _ => .panic "unsupported collection for set"

/-- `toyLen`. -/
def toyLen (a : List Value) (s : St) : ERes :=
  match (a[0]? : Option Value) with
  | none => indexPanic
  | some (.str obj) => .ok (.int obj.length, s)
  | some (.list r) =>
    match (s.lists[r]? : Option (List Value)) with
    | none => indexPanic
    | some obj => .ok (.int obj.length, s)
  | some (.hash r) =>
    match (s.hashes[r]? : Option (List (String × Value))) with
    | none => indexPanic
    | some obj => .ok (.int obj.length, s)
  | some _ => .panic "unsupported collection for len"

/-- The loop of `toyEqual`. -/
def equalLoop (last : Value) : List Value → Res Bool
  | [] => .ok true
  | ai :: rest =>
    match ai.goEq last with
    | none => .panic "runtime error: comparing uncomparable type"
    | some false => .ok false
    | some true => equalLoop last rest

/-- `toyEqual`. -/
def toyEqual (a : List Value) (s : St) : ERes :=
  match a with
  | [] => indexPanic
  | last :: rest => do
    let b ← equalLoop last rest
    pure (.bool b, s)

/-- `toyCollect`; on a map the result is the iterator of `maps.Values`, otherwise (no
channel being a value of the fragment) the argument slice itself. -/
def toyCollect (a : List Value) (s : St) : ERes :=
  match (a[0]? : Option Value) with
  | none => indexPanic
  | some (.hash r) => .ok (.seq r, s)
  | some _ => .ok (s.newList a)

/-- The loop of `stdioBuildStr`. -/
def buildStrLoop : List Value → String → Res String
  | [], str => .ok str
  | .null :: rest, str => buildStrLoop rest str
  | .str x :: rest, str => buildStrLoop rest (str ++ x)
  | _ :: _, _ => castPanic

/-- The call of a Go function value. `toyClose` and `toyAwait` assert a channel and
`jsonParse` asserts a byte slice, which no value of the fragment is; `httpGet` and
`stdioRead` leave the fragment once their arguments are accepted. -/
def callBuiltin (call : Call) (b : Builtin) (a : List Value) (s : St) : ERes :=
  match b with
  | .toyMap => toyMap call a s
  | .toyGet => toyGet a s
  | .toySet => toySet a s
  | .toyHas => toyHas a s
  | .toyLen => toyLen a s
  | .toyClose => if a.isEmpty then indexPanic else castPanic
  | .toyAwait => if a.isEmpty then indexPanic else castPanic
  | .toyCollect => toyCollect a s
  | .toyEqual => toyEqual a s
  | .httpGet =>
    match (a[0]? : Option Value) with
    | none => indexPanic
    | some (.str _) => .external
    | some _ => castPanic
  | .jsonParse => if a.isEmpty then indexPanic else castPanic
  | .stdioPrint => .ok (.null, { s with output := s.output ++ [a] })
  | .stdioRead => .external
  | .stdioBuildStr => do
    let str ← buildStrLoop a ""
    pure (.str str, s)

/-! ## Evaluator (eval.go) -/

/-- `strings.Split(name, ".")`. -/
def splitDots (name : String) : List String :=
  go name.data ""
where
  /-- The scan of the bytes with the segment collected so far. -/
  go : List Char → String → List String
    | [], seg => [seg]
    | c :: cs, seg => if c = '.' then seg :: go cs "" else go cs (seg.push c)

/-- The bound given to the parse of an imported file. -/
def parseFuel (tokens : List Token) : Nat := tokens.length + 2

namespace toyInterpreter

/-- Evaluation of nodes one after the other into a slice of their values, the loop
`results = append(results, i.execNode(el, f))`. -/
def evalNodes (ev : Ev) (f : Nat) : List Node → St → Res (List Value × St)
  | [], s => .ok ([], s)
  | el :: rest, s => do
    let (v, s1) ← ev el f s
    let (vs, s2) ← evalNodes ev f rest s1
    pure (v :: vs, s2)

/-- Evaluation of nodes one after the other keeping the last value, the loop
`lastResult = i.execNode(e, f)`. -/
def execLast (ev : Ev) (f : Nat) : List Node → Value → St → ERes
  | [], last, s => .ok (last, s)
  | e :: rest, _, s => do
    let (v, s1) ← ev e f s
    execLast ev f rest v s1

/-- The method `evalList`. -/
def evalList (ev : Ev) (elements : List Node) (f : Nat) (s : St) : ERes := do
  let (results, s1) ← evalNodes ev f elements s
  pure (s1.newList results)

/-- The loop of `evalHash` over the entries in the order of the `range`. -/
def evalEntries (ev : Ev) (f : Nat) :
    List (String × Node) → List (String × Value) → St → Res (List (String × Value) × St)
  | [], results, s => .ok (results, s)
  | (key, el) :: rest, results, s => do
    let (v, s1) ← ev el f s
    evalEntries ev f rest (mapSet results key v) s1

/-- The method `evalHash`. -/
def evalHash (ev : Ev) (elements : List (String × Node)) (f : Nat) (s : St) : ERes := do
  let (entries, s1) := s.range elements
  let (results, s2) ← evalEntries ev f entries [] s1
  pure (s2.newHash results)

/-- The loop of `execVar` over the pairs in the order of the `range`: evaluates one
initialiser and binds its name before the next pair. -/
def varLoop (ev : Ev) (f : Nat) : List (String × Node) → St → Res St
  | [], s => .ok s
  | (k, v) :: rest, s => do
    let (resolvedValue, s1) ← ev v f s
    let s2 := s1.set f k resolvedValue
    varLoop ev f rest s2

/-- The method `execVar` (its frame is never nil). -/
def execVar (ev : Ev) (vars : List (String × Node)) (f : Nat) (s : St) : Res St :=
  let (entries, s1) := s.range vars
  varLoop ev f entries s1

/-- The loop of `execExport`. -/
def exportLoop (ev : Ev) (f output : Nat) : List Node → St → Res St
  | [], s => .ok s
  | e :: rest, s =>
    match e with
    | .ReferenceExpression refName _ => do
      let (expVal, s1) ← ev e f s
      let s2 := s1.set output refName expVal
      exportLoop ev f output rest s2
    | _ => castPanic

/-- The method `execExport`: a fresh frame without parent that holds the exported values. -/
def execExport (ev : Ev) (exports : List Node) (f : Nat) (s : St) : Res (Nat × St) := do
  let (output, s1) := s.newFrame none
  let s2 ← exportLoop ev f output exports s1
  pure (output, s2)

/-- The loop of `execModule`; `exports` is the frame of the last export statement run. -/
def moduleLoop (ev : Ev) (f : Nat) : List Node → Option Nat → St → Res (Option Nat × St)
  | [], exports, s => .ok (exports, s)
  | stmt :: rest, exports, s =>
    match stmt with
    | .ExportStatement es => do
      let (out, s1) ← execExport ev es f s
      moduleLoop ev f rest (some out) s1
    | _ => do
      let (_, s1) ← ev stmt f s
      moduleLoop ev f rest exports s1

/-- The method `execModule`. -/
def execModule (ev : Ev) (p : ProgramStatement) (f : Nat) (s : St) : Res (Nat × St) := do
  let (exports, s1) ← moduleLoop ev f p.Body none s
  match exports with
  | none => .panic "module has not exports"
  | some out => pure (out, s1)

/-- One pass of the loop of `execImport` for an alias and its path. -/
def importOne (i : toyInterpreter) (ev : Ev) (aliasName path : String) (s : St) : Res St := do
  let (f, s1) := s.newFrame (some i.globals)
  if aliasName = "http" then
    let s2 := s1.set f "get" (.builtin .httpGet)
    pure (s2.set i.globals "http" (.frame f))
  else if aliasName = "json" then
    let s2 := s1.set f "parse" (.builtin .jsonParse)
    pure (s2.set i.globals "json" (.frame f))
  else if aliasName = "stdio" then
    let s2 := s1.set f "print" (.builtin .stdioPrint)
    let s3 := s2.set f "read" (.builtin .stdioRead)
    let s4 := s3.set f "string" (.builtin .stdioBuildStr)
    pure (s4.set i.globals "stdio" (.frame f))
  else
    match mapGet s1.files path with
    | none => .panic "failed to read import"
    | some fileBytes => do
      let tokens ← scan fileBytes
      let (ast, hasError) ← parse (parseFuel tokens) tokens
      if hasError then .panic "failed to parse import"
      else
        let (m, s2) ← execModule ev ast i.globals s1
        pure (s2.set i.globals aliasName (.frame m))

/-- The loop of `execImport` over the pairs in the order of the `range`. -/
def importLoop (i : toyInterpreter) (ev : Ev) : List (String × String) → St → Res St
  | [], s => .ok s
  | (aliasName, path) :: rest, s => do
    let s1 ← importOne i ev aliasName path s
    importLoop i ev rest s1

/-- The method `execImport`. -/
def execImport (i : toyInterpreter) (ev : Ev) (imports : List (String × String)) (s : St) :
    Res St :=
  let (entries, s1) := s.range imports
  importLoop i ev entries s1

/-- The binding of the call arguments to the parameter names by position, the loop
`if len(a) > idx \x7b innerFrame.set(paramName, a[idx]) \x7d`. -/
def bindParams (innerFrame : Nat) : List String → List Value → St → St
  | [], _, s => s
  | _ :: _, [], s => s
  | paramName :: params, v :: a, s => bindParams innerFrame params a (s.set innerFrame paramName v)

/-- The closure returned by `defineFunc`, applied to an argument list. -/
def callFunc (ev : Ev) (params : List String) (body : List Node) (f : Nat) (a : List Value)
    (s : St) : ERes := do
  let (innerFrame, s1) := s.newFrame (some f)
  let s2 := bindParams innerFrame params a s1
  execLast ev innerFrame body .null s2

/-- The method `execFuncCall`. -/
def execFuncCall (ev : Ev) (call : Call) (callee : Node) (args : List Node) (f : Nat)
    (s : St) : ERes := do
  let (calleeVal, s1) ← ev callee f s
  let (argVals, s2) ← evalNodes ev f args s1
  if calleeVal.isFunc then call calleeVal argVals s2
  else .panic "failed to cast function in call expression"

/-- The method `resolveRef`. In the imported case the two results of the lookups are
declared anew, so a lookup that fails leaves the outer `ok` false. -/
def resolveRef (i : toyInterpreter) (ev : Ev) (refName : String) (refType : ReferenceType)
    (f : Nat) (s : St) : ERes := do
  let found ← match refType with
    | REF_TYPE_BUILTIN => s.get i.globals refName
    | REF_TYPE_DECLARED => s.get f refName
    | REF_TYPE_IMPORTED => pure none
  match refType with
  | REF_TYPE_IMPORTED =>
    match splitDots refName with
    | [part0, part1] => do
      let m ← s.get i.globals part0
      match m with
      | some (.frame mf) => do
        let v ← s.get mf part1
        match v with
        | some v => pure (v, s)
        | none => .panic "failed to resolve ref"
      | some _ => castPanic
      | none => .panic "failed to resolve ref"
    | _ => .panic "malformed imported ref"
  | _ =>
    match found with
    | none => .panic "failed to resolve ref"
    | some (.node _ vN) => ev vN f s
    | some v => pure (v, s)

/-- The method `execSeq`. -/
def execSeq (ev : Ev) (exprs : List Node) (f : Nat) (s : St) : ERes :=
  execLast ev f exprs .null s

/-- The first step of the closure returned by `defineChain`: the first element is called
with the argument list. -/
def chainFirst (i : toyInterpreter) (ev : Ev) (call : Call) (e : Node) (f : Nat)
    (a : List Value) (s : St) : ERes :=
  match e with
  | .FuncLiteral params body => do
    let (innerFrame, s1) := s.newFrame (some f)
    let s2 := bindParams innerFrame params a s1
    execFuncCall ev call (.FuncLiteral params body) [] innerFrame s2
  | .ReferenceExpression refName refType => do
    let (refVal, s1) ← resolveRef i ev refName refType f s
    if refVal.isFunc then call refVal a s1
    else .panic "expected func in chain"
  | _ => .panic "unexpected expression in chain"

/-- The loop of the closure returned by `defineChain` over the elements after the first:
each is called with the previous result as its one argument. -/
def chainRest (i : toyInterpreter) (ev : Ev) (call : Call) (f : Nat) :
    List Node → Value → St → ERes
  | [], lastResult, s => .ok (lastResult, s)
  | e :: rest, lastResult, s =>
    match e with
    | .FuncLiteral params body => do
      let (innerFrame, s1) := s.newFrame (some f)
      let s2 := match params with
        | p0 :: _ => s1.set innerFrame p0 lastResult
        | [] => s1
      let (r, s3) ← execFuncCall ev call (.FuncLiteral params body) [] innerFrame s2
      chainRest i ev call f rest r s3
    | .ReferenceExpression refName refType => do
      let (refVal, s1) ← resolveRef i ev refName refType f s
      if refVal.isFunc then do
        let (r, s2) ← call refVal [lastResult] s1
        chainRest i ev call f rest r s2
      else .panic "expected func in chain"
    | _ => .panic "unexpected expression in chain"

/-- The closure returned by `defineChain`, applied to an argument list. -/
def callChain (i : toyInterpreter) (ev : Ev) (call : Call) (exprs : List Node) (f : Nat)
    (a : List Value) (s : St) : ERes :=
  match exprs with
  | [] => indexPanic
  | e0 :: rest => do
    let (lastResult, s1) ← chainFirst i ev call e0 f a s
    chainRest i ev call f rest lastResult s1

/-- The loop of `evalMatch` over the clauses in the order of the `range`, with the case
table built so far. A clause whose test is no boolean literal and evaluates to `true` returns
the value of its action at once; otherwise the action is evaluated and stored in the table
under the value of the test, which panics for a value of an unhashable type. After the last
clause the table is read at the value of the condition. -/
def matchLoop (ev : Ev) (mf : Nat) (expected : Value) :
    List (Node × Node) → List (Key × Value) → St → ERes
  | [], cases, s =>
    match expected.key with
    | none => .panic "runtime error: hash of unhashable type"
    | some k => .ok ((cases.lookup k).getD .null, s)
  | (cc, ca) :: rest, cases, s => do
    let (cr, s1) ← ev cc mf s
    if cc.Type_ != "BooleanLiteral" && cr == .bool true then ev ca mf s1
    else
      let (r, s2) ← ev ca mf s1
      match cr.key with
      | none => .panic "runtime error: hash of unhashable type"
      | some k => matchLoop ev mf expected rest ((k, r) :: cases) s2

/-- The method `evalMatch`. -/
def evalMatch (ev : Ev) (cond : Node) (cases : List (Node × Node)) (f : Nat) (s : St) :
    ERes := do
  let (mf, s1) := s.newFrame (some f)
  let (expected, s2) ← ev cond f s1
  let s3 := s2.set mf "value" expected
  let (clauses, s4) := s3.range cases
  matchLoop ev mf expected clauses [] s4

/-- The method `execNode`, with the evaluation of the nodes below and the call of callables
given. `defineFunc` and `defineChain` return their closure without running anything.
`execAsync` starts a goroutine and leaves the sequential fragment. -/
def execNodeBody (i : toyInterpreter) (ev : Ev) (call : Call) (n : Node) (f : Nat) (s : St) :
    ERes :=
  match n with
  | .ImportStatement imports => do
    let s1 ← execImport i ev imports s
    pure (.null, s1)
  | .VarStatement vars => do
    let s1 ← execVar ev vars f s
    pure (.null, s1)
  | .CallExpression callee args => execFuncCall ev call callee args f s
  | .ReferenceExpression refName refType => resolveRef i ev refName refType f s
  | .StringLiteral v => .ok (.str v, s)
  | .NumberLiteral v => .ok (.int v, s)
  | .BooleanLiteral v => .ok (.bool v, s)
  | .ListLiteral elements => evalList ev elements f s
  | .HashLiteral elements => evalHash ev elements f s
  | .FuncLiteral params body => .ok (.func params body f, s)
  | .ExportStatement _ => .ok (.null, s)
  | .SeqExpression exprs => execSeq ev exprs f s
  | .MatchExpression cond cases => evalMatch ev cond cases f s
  | .ChainExpression exprs => .ok (.chain exprs f, s)
  | .AsyncExpression _ => .external
  | .MalformedExpression _ _ _ => .panic "failed to execute: unexpected node"

/-- The call `fn(a...)` of a callable value, with the evaluation of nodes and the call of
callables inside it given. -/
def callBody (i : toyInterpreter) (ev : Ev) (call : Call) (fn : Value) (a : List Value)
    (s : St) : ERes :=
  match fn with
  | .func params body f => callFunc ev params body f a s
  | .chain exprs f => callChain i ev call exprs f a s
  | .builtin b => callBuiltin call b a s
  | _ => .panic "call of a value that is no function"

/-- The evaluator and the call of callables, tied together: fuel bounds the depth of the
nested evaluations and calls, which Go does not bound. -/
def interp (i : toyInterpreter) : Nat → Ev × Call
  | 0 => (fun _ _ _ => .timeout, fun _ _ _ => .timeout)
  | fuel + 1 =>
    (execNodeBody i (interp i fuel).1 (interp i fuel).2,
     callBody i (interp i fuel).1 (interp i fuel).2)

/-- The method `execNode`. -/
def execNode (i : toyInterpreter) (fuel : Nat) : Ev := (interp i fuel).1

/-- The call `fn(a...)` of a callable value. -/
def callValue (i : toyInterpreter) (fuel : Nat) : Call := (interp i fuel).2

/-- The loop of `Exec`. -/
def execLoop (i : toyInterpreter) (fuel : Nat) : List Node → St → Res St
  | [], s => .ok s
  | stmt :: rest, s => do
    let (_, s1) ← i.execNode fuel stmt i.globals s
    execLoop i fuel rest s1

/-- The method `Exec`. -/
def Exec (i : toyInterpreter) (fuel : Nat) (p : ProgramStatement) (s : St) : Res St :=
  execLoop i fuel p.Body s

end toyInterpreter

/-- `NewInterpreter(globals)`: the root frame holds the builtins and then the given globals.
The store starts with the root frame alone; the schedule and the files are those of the
environment of the run. -/
def NewInterpreter (globals : List (String × Value)) (sched : List Nat)
    (files : List (String × String)) : toyInterpreter × St :=
  (⟨0⟩, ⟨[⟨globals.foldl (fun m e => mapSet m e.1 e.2) builtinBindings, none⟩], [], [],
    sched, files, []⟩)

/-- The function `run` of main.go on a source text: scan, parse, and execute when the parse
reported no error (the result is then `some` of the final store). -/
def run (fuel : Nat) (source : String) (sched : List Nat) (files : List (String × String)) :
    Res (Option St) := do
  let (ast, hasErr) ← scanAndParse fuel source
  if hasErr then pure none
  else
    let (evaler, s) := NewInterpreter [] sched files
    let s1 ← evaler.Exec fuel ast s
    pure (some s1)

/-! ## Notions used by the statements -/

/-- The frames visited by the walk from a frame along the parent pointers up to a frame
without parent: a finite chain of frames, innermost first. -/
inductive St.Chain (s : St) : Nat → List frame → Prop where
  | root (f : Nat) (fr : frame) :
      s.frames[f]? = some fr → fr.parent = none → St.Chain s f [fr]
  | link (f p : Nat) (fr : frame) (rest : List frame) :
      s.frames[f]? = some fr → fr.parent = some p → St.Chain s p rest →
      St.Chain s f (fr :: rest)

/-- The walk along the parent pointers, as the list of the frame pointers visited. -/
inductive St.Path (s : St) : Nat → List Nat → Prop where
  | root (f : Nat) (fr : frame) :
      s.frames[f]? = some fr → fr.parent = none → St.Path s f [f]
  | link (f p : Nat) (fr : frame) (rest : List Nat) :
      s.frames[f]? = some fr → fr.parent = some p → St.Path s p rest →
      St.Path s f (f :: rest)

/-- The binding of a name in the innermost frame of a chain that binds it. -/
def innermostBinding (frs : List frame) (k : String) : Option Value :=
  frs.findSome? (fun fr => mapGet fr.vars k)

/-- A parsing rule is clean when a result without error flag holds no malformed node. -/
def CleanRule (expr : PRule) : Prop :=
  ∀ p n e p', expr p = .ok (n, e, p') → e = false → n.hasMalformed = false

/-- The value of a run of expressions: the last of their values, the null value when there is
none. -/
def lastValue (vs : List Value) : Value := vs.getLast?.getD .null

/-- The value paired with a name at the last position of a list of pairs that carries the
name. -/
def lastBinding : List (String × Value) → String → Option Value
  | [], _ => none
  | (k', v) :: rest, k =>
    match lastBinding rest k with
    | some w => some w
    | none => if k' = k then some v else none

/-- The value of an evaluation step without the store. -/
def ERes.value (r : ERes) : Res Value := r >>= fun x => pure x.1

/-- The value of a literal node (string, number or boolean), `none` for the other nodes. -/
def Node.literal : Node → Option Value
  | .StringLiteral v => some (.str v)
  | .NumberLiteral v => some (.int v)
  | .BooleanLiteral v => some (.bool v)
  | _ => none

/-- The program of `(@var (a 1) (f (@func () (a)))) (@var (a 2))`. -/
def captureProgram : ProgramStatement :=
  ⟨[.VarStatement [("a", .NumberLiteral 1),
      ("f", .FuncLiteral [] [.ReferenceExpression "a" .REF_TYPE_DECLARED])],
    .VarStatement [("a", .NumberLiteral 2)]]⟩

/-- The composition `gn(...g2(g1(x))...)` on a value `x`: every callable receives exactly
one argument, the result of the one before it. -/
def composeCalls (call : Call) : List Value → Value → St → ERes
  | [], x, s => .ok (x, s)
  | g :: gs, x, s => call g [x] s >>= fun r => composeCalls call gs r.1 r.2

/-- The pipeline `gn(...g2(g1(as...))...)` of a non-empty list of callables on an argument
list: the first callable receives the arguments, the others are composed on its result. -/
def pipeline (call : Call) (gs : List Value) (a : List Value) (s : St) : ERes :=
  match gs with
  | [] => indexPanic
  | g1 :: rest => call g1 a s >>= fun r => composeCalls call rest r.1 r.2

/-- The reference node of a name and a reference kind. -/
def refNode (r : String × ReferenceType) : Node := .ReferenceExpression r.1 r.2

/-- In the store `s` the references `refs` resolve, from the frame `f`, to the callables
`gs`, one for one. -/
def ResolveTo (i : toyInterpreter) (ev : Ev) (f : Nat) (refs : List (String × ReferenceType))
    (gs : List Value) (s : St) : Prop :=
  List.Forall₂ (fun r g =>
    toyInterpreter.resolveRef i ev r.1 r.2 f s = .ok (g, s) ∧ g.isFunc = true) refs gs

/-- Scans and parses a text that holds one expression, evaluates the expression in the root
frame of a fresh interpreter and invokes its value with the arguments `a` and then, in the
store the first call ends in, with the arguments `b`. The result is the error flag of the
parse, the kind of the node, whether the value is a callable, and the two values returned. -/
def invokeTwice (fuel : Nat) (source : String) (a b : List Value) :
    Res (Bool × String × Bool × Value × Value) := do
  let (ast, hasErr) ← scanAndParse fuel source
  match ast.Body with
  | [node] =>
    let (evaler, s) := NewInterpreter [] [] []
    let (c, s1) ← evaler.execNode fuel node evaler.globals s
    let (first, s2) ← evaler.callValue fuel c a s1
    let (second, _) ← evaler.callValue fuel c b s2
    pure (hasErr, node.Type_, c.isFunc, first, second)
  | _ => .panic "not a single expression"

/-- The map key of an integer or string literal node, `none` for the other nodes. -/
def Node.scalarLiteral : Node → Option Key
  | .NumberLiteral i => some (.int i)
  | .StringLiteral x => some (.str x)
  | _ => none

/-- The value of the action of the clause whose test literal equals the key `k`, among the
clauses paired in order with the values of their actions; the null value when no test
equals `k`. -/
def selectAction : List (Node × Node) → List Value → Key → Value
  | c :: rest, r :: rs, k => if c.1.scalarLiteral = some k then r else selectAction rest rs k
  | _, _, _ => .null

/-- Whether a node is an export statement. -/
def Node.isExport : Node → Bool
  | .ExportStatement _ => true
  | _ => false

/-- The value that the root frame of the interpreter binds to a name after `run` has
executed a source text; `none` when the parse reported an error or the name is unbound. -/
def rootBindingAfterRun (fuel : Nat) (source : String) (sched : List Nat)
    (files : List (String × String)) (k : String) : Res (Option Value) := do
  let o ← run fuel source sched files
  match o with
  | none => pure none
  | some s => s.get 0 k

/-- The parent pointer of the frame that the root frame binds to a name after `run` has
executed a source text; `none` when there is no such frame, `some none` for a frame without
parent. -/
def moduleParentAfterRun (fuel : Nat) (source : String) (sched : List Nat)
    (files : List (String × String)) (k : String) : Res (Option (Option Nat)) := do
  let o ← run fuel source sched files
  match o with
  | none => pure none
  | some s =>
    let v ← s.get 0 k
    match v with
    | some (.frame m) => pure ((s.frames[m]?).map fun fr => fr.parent)
    | _ => pure none

/-- The method `Parse` with separate bounds for the nesting depth of the rules and for the
passes of the top-level statement loop; `parse fuel` is `parseWith fuel fuel`. -/
def parseWith (depth loops : Nat) (tokens : List Token) : Res (ProgramStatement × Bool) :=
  toyParser.programLoop depth loops (NewParser tokens) [] false

/-- The tokens of one pair `( key value )` of a hash literal: the parens, the key, the
tokens of the value expression, and the node and error flag that the value parses to. -/
structure PairTokens where
  lparen : Token
  key : Token
  value : List Token
  rparen : Token
  node : Node
  flagged : Bool
  deriving Repr, DecidableEq

/-- The tokens of a pair in the order of the source. -/
def PairTokens.tokens (e : PairTokens) : List Token :=
  e.lparen :: e.key :: (e.value ++ [e.rparen])

/-- A pair is well formed when its parens are parens and its key is a string token. -/
def PairTokens.wellFormed (e : PairTokens) : Bool :=
  e.lparen.Type_ == TOKEN_LEFT_PAREN && e.key.Type_ == TOKEN_STRING &&
    e.rparen.Type_ == TOKEN_RIGHT_PAREN

/-- The key and the value node written by a pair. -/
def PairTokens.entry (e : PairTokens) : String × Node := (e.key.Lexeme, e.node)

/-- The values of the pairs parse: with the first pair at position `c` of the tokens, the
rule for expressions run at the value of each pair gives the node and the flag of the pair
and stops at the right paren of the pair. -/
def valuesParse (expr : PRule) (toks : List Token) : Nat → List PairTokens → Prop
  | _, [] => True
  | c, e :: rest =>
    expr ⟨toks, c + 2⟩ = .ok (e.node, e.flagged, ⟨toks, c + 2 + e.value.length⟩) ∧
      valuesParse expr toks (c + e.tokens.length) rest

/-- The value of the last pair of a list that is written with a key. -/
def lastWrite {β : Type} : List (String × β) → String → Option β
  | [], _ => none
  | (k', v) :: rest, k =>
    match lastWrite rest k with
    | some w => some w
    | none => if k' = k then some v else none

/-- Whether, starting from a map, writing the keys one after the other meets a key that is
already in the map at its turn. -/
def repeatsKey {β : Type} : List (String × β) → List (String × β) → Bool
  | _, [] => false
  | store, (k, v) :: rest => mapHas store k || repeatsKey (mapSet store k v) rest

/-- Two outcomes agree up to a relation on their results: both are results in the relation,
or both are the same abort. -/
def Res.Rel {α β : Type} (R : α → β → Prop) : Res α → Res β → Prop
  | .ok a, .ok b => R a b
  | .panic m, .panic m' => m = m'
  | .timeout, .timeout => True
  | .external, .external => True
  | _, _ => False

/-- The parser state `q'` is the state `q` over the tokens `toks` with the token `t` put in
front: the same position counted from the second token. -/
def Shifted (t : Token) (toks : List Token) (q' q : toyParser) : Prop :=
  ∃ c, q' = ⟨t :: toks, c + 1⟩ ∧ q = ⟨toks, c⟩

/-- The same result with shifted parser states, for the rules that return one value. -/
def Shifted2 (t : Token) (toks : List Token) {α : Type} (x' x : α × toyParser) : Prop :=
  x'.1 = x.1 ∧ Shifted t toks x'.2 x.2

/-- The same result with shifted parser states, for the rules that return two values. -/
def Shifted3 (t : Token) (toks : List Token) {α β : Type} (x' x : α × β × toyParser) : Prop :=
  x'.1 = x.1 ∧ x'.2.1 = x.2.1 ∧ Shifted t toks x'.2.2 x.2.2

/-- A parsing rule does not see a token put in front of the tokens: run one position
further, it gives the same node and flag and stops one position further. -/
def ShiftRule (t : Token) (toks : List Token) (F : PRule) : Prop :=
  ∀ c, Res.Rel (Shifted3 t toks) (F ⟨t :: toks, c + 1⟩) (F ⟨toks, c⟩)

/-- The scalar values: integers, strings and booleans. -/
def Value.isScalar : Value → Bool
  | .str _ => true
  | .int _ => true
  | .bool _ => true
  | _ => false

/-- Whether two scalar values have the same dynamic type. -/
def Value.sameKind : Value → Value → Bool
  | .str _, .str _ => true
  | .int _, .int _ => true
  | .bool _, .bool _ => true
  | _, _ => false

/-- The value of the counter `line` of the scanner when `ScanTokens` leaves its loop. -/
def lineCounterAfterScan (source : String) : Res Nat :=
  toyScanner.scanLoop (source.data.length + 1) (NewScanner source) >>= fun s => pure s.line

/-- What the scanner grants of a token it produces inside its loop: the kind is not
end-of-file, and the lexeme of an identifier is a non-empty run of letters and underscores. -/
def Token.scanned (t : Token) : Prop :=
  t.Type_ ≠ TOKEN_EOF ∧
    (t.Type_ = TOKEN_IDENTIFIER →
      t.Lexeme.data ≠ [] ∧ ∀ c ∈ t.Lexeme.data, isAlphabetic c = true)

/-- The store `s'` has the frames of `s`, with the same bindings and parents, at all
pointers but `g`. -/
def St.SameBut (g : Nat) (s s' : St) : Prop :=
  s'.frames.length = s.frames.length ∧ ∀ p, p ≠ g → s'.frames[p]? = s.frames[p]?

/-- Whether the name of an imported reference passes the test of `resolveRef`, two parts
around one dot, with neither part empty. -/
def importedNameOk (name : String) : Bool :=
  match splitDots name with
  | [a, b] => !a.data.isEmpty && !b.data.isEmpty
  | _ => false

mutual
/-- Whether every reference of kind imported in a node, at the node itself or anywhere
below (the node body of a malformed node included), has a name that passes
`importedNameOk`. -/
def Node.importsOk : Node → Bool
  | .StringLiteral _ => true
  | .NumberLiteral _ => true
  | .BooleanLiteral _ => true
  | .ListLiteral es => importsOkList es
  | .HashLiteral es => importsOkEntries es
  | .FuncLiteral _ body => importsOkList body
  | .VarStatement vars => importsOkEntries vars
  | .ImportStatement _ => true
  | .ExportStatement es => importsOkList es
  | .ReferenceExpression refName REF_TYPE_IMPORTED => importedNameOk refName
  | .ReferenceExpression _ _ => true
  | .CallExpression callee args => callee.importsOk && importsOkList args
  | .MatchExpression cond cases => cond.importsOk && importsOkCases cases
  | .MalformedExpression _ body _ => importsOkOpt body
  | .SeqExpression es => importsOkList es
  | .ChainExpression es => importsOkList es
  | .AsyncExpression es => importsOkList es
/-- The same for a list of nodes. -/
def importsOkList : List Node → Bool
  | [] => true
  | n :: ns => n.importsOk && importsOkList ns
/-- The same for the values of a string-keyed map of nodes. -/
def importsOkEntries : List (String × Node) → Bool
  | [] => true
  | (_, n) :: es => n.importsOk && importsOkEntries es
/-- The same for the tests and actions of match clauses. -/
def importsOkCases : List (Node × Node) → Bool
  | [] => true
  | (c, a) :: cs => c.importsOk && a.importsOk && importsOkCases cs
/-- The same for an optional node. -/
def importsOkOpt : Option Node → Bool
  | none => true
  | some n => n.importsOk
end

/-- An outcome that is a result has a result with the property `Q` (an abort has none). -/
def Res.All {α : Type} (Q : α → Prop) : Res α → Prop
  | .ok a => Q a
  | _ => True

/-- A step of the parser over the tokens `toks` that returns one value: the value has the
property `V` and the state returned is over the same tokens. -/
def Step2 (toks : List Token) {α : Type} (V : α → Prop) (m : Res (α × toyParser)) : Prop :=
  Res.All (fun x => V x.1 ∧ x.2.tokens = toks) m

/-- A step of the parser over the tokens `toks` that returns two values. -/
def Step3 (toks : List Token) {α β : Type} (V : α → β → Prop)
    (m : Res (α × β × toyParser)) : Prop :=
  Res.All (fun x => V x.1 x.2.1 ∧ x.2.2.tokens = toks) m

/-- A parsing rule keeps the imported references well formed over the tokens `toks`: from
every position it returns a node whose imported references pass `importedNameOk`. -/
def ImportsRule (toks : List Token) (F : PRule) : Prop :=
  ∀ c, Step3 toks (fun n _ => n.importsOk = true) (F ⟨toks, c⟩)

/-- An outcome that ends: a result with the property `Q`, or a Go panic when panics are
admitted (`A`); never the exhaustion of the fuel. -/
def Res.Ends {α : Type} (A : Prop) (Q : α → Prop) : Res α → Prop
  | .ok a => Q a
  | .panic _ => A
  | .timeout => False
  | .external => False

/-- A step of the parser over the tokens `toks` that ends and returns one value: the state
returned is over the same tokens, and value and position returned are in the relation `P`. -/
def Run2 (A : Prop) (toks : List Token) {α : Type} (P : α → Nat → Prop)
    (m : Res (α × toyParser)) : Prop :=
  Res.Ends A (fun x => x.2.tokens = toks ∧ P x.1 x.2._current) m

/-- A step of the parser over the tokens `toks` that ends and returns two values. -/
def Run3 (A : Prop) (toks : List Token) {α β : Type} (P : α → β → Nat → Prop)
    (m : Res (α × β × toyParser)) : Prop :=
  Res.Ends A (fun x => x.2.2.tokens = toks ∧ P x.1 x.2.1 x.2.2._current) m

/-- A parsing rule makes progress over the tokens `toks` from the position `b` on: run at a
position not before `b` it ends, over the same tokens and at a later position. -/
def ProgRule (A : Prop) (toks : List Token) (b : Nat) (F : PRule) : Prop :=
  ∀ c, b ≤ c → Run3 A toks (fun _ _ c' => c < c') (F ⟨toks, c⟩)

/-- The parsing rules other than `exportStatement`, with the rule for the nested expressions
and the bound of the loops that `Parse` gives them. -/
def advancingRules (fuel : Nat) : List PRule :=
  [toyParser.statement fuel, toyParser.expression fuel, toyParser.simpleLiteral,
    toyParser.referenceExpression, toyParser.importStatement fuel,
    toyParser.varStatement (toyParser.expression fuel) fuel,
    toyParser.callExpression (toyParser.expression fuel) fuel,
    toyParser.funcExpression (toyParser.expression fuel) fuel,
    toyParser.matchExpression (toyParser.expression fuel) fuel,
    toyParser.seqExpression (toyParser.expression fuel) fuel,
    toyParser.chainExpression (toyParser.expression fuel) fuel,
    toyParser.asyncExpression (toyParser.expression fuel) fuel,
    toyParser.listLiteral (toyParser.expression fuel) fuel,
    toyParser.hashLiteral (toyParser.expression fuel) fuel]

/-- The tokens of the source `(@export 5)`. -/
def exportFiveTokens : List Token :=
  [⟨TOKEN_LEFT_PAREN, "(", .absent, 1⟩, ⟨TOKEN_BUILTIN, "@export", .absent, 8⟩,
    ⟨TOKEN_NUMBER, "5", .int 5, 10⟩, ⟨TOKEN_RIGHT_PAREN, ")", .absent, 11⟩,
    ⟨TOKEN_EOF, "", .absent, 11⟩]

/-- The slices of the store after `run` has executed a source text, `none` when the parse
reported an error. -/
def listsAfterRun (fuel : Nat) (source : String) (sched : List Nat)
    (files : List (String × String)) : Res (Option (List (List Value))) := do
  let o ← run fuel source sched files
  pure (o.map fun s => s.lists)

end ToyScript

/-! ## Theorems -/

namespace ToyScript

open TokenType ReferenceType

/-! ### Outcomes and maps -/

@[simp] theorem Res.ok_bind {α β : Type} (a : α) (f : α → Res β) : (Res.ok a >>= f) = f a := rfl

@[simp] theorem Res.panic_bind {α β : Type} (m : String) (f : α → Res β) :
    (Res.panic m >>= f) = Res.panic m := rfl

@[simp] theorem Res.timeout_bind {α β : Type} (f : α → Res β) :
    (Res.timeout >>= f) = Res.timeout := rfl

@[simp] theorem Res.external_bind {α β : Type} (f : α → Res β) :
    (Res.external >>= f) = Res.external := rfl

@[simp] theorem Res.pure_eq {α : Type} (a : α) : (pure a : Res α) = Res.ok a := rfl

/-- A sequence of two steps finishes exactly when both steps do. -/
theorem Res.bind_eq_ok {α β : Type} {r : Res α} {f : α → Res β} {b : β} :
    (r >>= f) = Res.ok b ↔ ∃ a, r = Res.ok a ∧ f a = Res.ok b := by
  cases r <;> simp

theorem mapGet_mapSet_self {β : Type} (m : List (String × β)) (k : String) (v : β) :
    mapGet (mapSet m k v) k = some v := by
  induction m with
  | nil => simp [mapSet, mapGet]
  | cons e rest ih =>
    by_cases h : e.1 = k
    · simp [mapSet, mapGet, h]
    · simp [mapSet, mapGet, h, ih]

theorem mapGet_mapSet_other {β : Type} (m : List (String × β)) (k k' : String) (v : β)
    (h : k' ≠ k) : mapGet (mapSet m k v) k' = mapGet m k' := by
  induction m with
  | nil => simp [mapSet, mapGet, Ne.symm h]
  | cons e rest ih =>
    by_cases he : e.1 = k
    · have : ¬ e.1 = k' := fun e' => h (e'.symm.trans he)
      simp [mapSet, mapGet, he, Ne.symm h, this]
    · by_cases he' : e.1 = k'
      · simp [mapSet, mapGet, he, he', h]
      · simp [mapSet, mapGet, he, he', ih]

/-! ### Frames -/

theorem St.Path.deterministic {s : St} {f : Nat} {l1 l2 : List Nat}
    (h1 : s.Path f l1) (h2 : s.Path f l2) : l1 = l2 := by
  induction h1 generalizing l2 with
  | root f fr hf hp =>
    cases h2 with
    | root _ fr' hf' hp' => rfl
    | link _ p fr' rest hf' hp' hr =>
      rw [hf] at hf'; cases hf'; rw [hp] at hp'; cases hp'
  | link f p fr rest hf hp hr ih =>
    cases h2 with
    | root _ fr' hf' hp' =>
      rw [hf] at hf'; cases hf'; rw [hp] at hp'; cases hp'
    | link _ p' fr' rest' hf' hp' hr' =>
      rw [hf] at hf'; cases hf'; rw [hp] at hp'; cases hp'
      rw [ih hr']

theorem St.Path.suffix {s : St} {f : Nat} {l : List Nat} (h : s.Path f l) :
    ∀ g ∈ l, ∃ l', s.Path g l' ∧ l'.length ≤ l.length := by
  induction h with
  | root f fr hf hp =>
    intro g hg
    simp at hg
    subst hg
    exact ⟨[g], St.Path.root g fr hf hp, le_refl _⟩
  | link f p fr rest hf hp hr ih =>
    intro g hg
    rcases List.mem_cons.mp hg with hg | hg
    · subst hg
      exact ⟨g :: rest, St.Path.link g p fr rest hf hp hr, le_refl _⟩
    · obtain ⟨l', hl', hlen⟩ := ih g hg
      exact ⟨l', hl', by simp; omega⟩

theorem St.Path.nodup {s : St} {f : Nat} {l : List Nat} (h : s.Path f l) : l.Nodup := by
  induction h with
  | root f fr hf hp => simp
  | link f p fr rest hf hp hr ih =>
    refine List.nodup_cons.mpr ⟨?_, ih⟩
    intro hmem
    obtain ⟨l', hl', hlen⟩ := hr.suffix f hmem
    have := St.Path.deterministic hl' (St.Path.link f p fr rest hf hp hr)
    rw [this] at hlen
    simp at hlen

theorem St.Path.lt_length {s : St} {f : Nat} {l : List Nat} (h : s.Path f l) :
    ∀ g ∈ l, g < s.frames.length := by
  induction h with
  | root f fr hf hp =>
    intro g hg
    simp at hg
    subst hg
    exact (List.getElem?_eq_some_iff.mp hf).1
  | link f p fr rest hf hp hr ih =>
    intro g hg
    rcases List.mem_cons.mp hg with hg | hg
    · subst hg
      exact (List.getElem?_eq_some_iff.mp hf).1
    · exact ih g hg

theorem St.Path.length_le {s : St} {f : Nat} {l : List Nat} (h : s.Path f l) :
    l.length ≤ s.frames.length := by
  have hsub : l ⊆ List.range s.frames.length := fun g hg =>
    List.mem_range.mpr (h.lt_length g hg)
  have := (List.Nodup.subperm h.nodup hsub).length_le
  simpa using this

theorem St.Chain.path {s : St} {f : Nat} {frs : List frame} (h : s.Chain f frs) :
    ∃ l, s.Path f l ∧ l.length = frs.length := by
  induction h with
  | root f fr hf hp => exact ⟨[f], St.Path.root f fr hf hp, rfl⟩
  | link f p fr rest hf hp _ ih =>
    obtain ⟨l, hl, hlen⟩ := ih
    exact ⟨f :: l, St.Path.link f p fr l hf hp hl, by simp [hlen]⟩

theorem St.getFuel_chain {s : St} {f : Nat} {frs : List frame} (k : String)
    (h : s.Chain f frs) :
    ∀ fuel, frs.length ≤ fuel → s.getFuel k fuel f = .ok (innermostBinding frs k) := by
  induction h with
  | root f fr hf hp =>
    intro fuel hfuel
    cases fuel with
    | zero => simp at hfuel
    | succ n =>
      simp only [St.getFuel, hf, hp, innermostBinding, List.findSome?]
      cases mapGet fr.vars k <;> rfl
  | link f p fr rest hf hp _ ih =>
    intro fuel hfuel
    cases fuel with
    | zero => simp at hfuel
    | succ n =>
      have hn : rest.length ≤ n := by simpa using hfuel
      simp only [St.getFuel, hf, hp, innermostBinding, List.findSome?]
      cases hm : mapGet fr.vars k with
      | some v => rfl
      | none => simpa [innermostBinding] using ih n hn

theorem St.get_chain {s : St} {f : Nat} {frs : List frame} (k : String) (h : s.Chain f frs) :
    s.get f k = .ok (innermostBinding frs k) := by
  obtain ⟨l, hl, hlen⟩ := h.path
  exact St.getFuel_chain k h _ (hlen ▸ hl.length_le)

theorem St.set_frames_other (s : St) (f : Nat) (k : String) (v : Value) (p : Nat)
    (hp : p ≠ f) : (s.set f k v).frames[p]? = s.frames[p]? := by
  unfold St.set
  cases hf : s.frames[f]? with
  | none => rfl
  | some fr => simp [List.getElem?_set, Ne.symm hp]

theorem St.set_frames_self (s : St) (f : Nat) (k : String) (v : Value) (fr : frame)
    (hf : s.frames[f]? = some fr) :
    (s.set f k v).frames[f]? = some { fr with vars := mapSet fr.vars k v } := by
  have hlt := (List.getElem?_eq_some_iff.mp hf).1
  simp [St.set, hf, List.getElem?_set, hlt]

/-- A chain that does not pass through the frame assigned to is left as it is. -/
theorem St.Chain.set_other {s : St} {f : Nat} {k : String} {v : Value} {p : Nat}
    {frs : List frame} (h : s.Chain p frs) (hl : ∀ l, s.Path p l → f ∉ l) :
    (s.set f k v).Chain p frs := by
  induction h with
  | root p fr hf hp =>
    have hne : p ≠ f := fun e => hl [p] (St.Path.root p fr hf hp) (by simp [e])
    exact St.Chain.root p fr (by rw [St.set_frames_other s f k v p hne]; exact hf) hp
  | link p q fr rest hf hp hr ih =>
    have hne : p ≠ f := by
      intro e
      obtain ⟨l, hl', _⟩ := hr.path
      exact hl (p :: l) (St.Path.link p q fr l hf hp hl') (by simp [e])
    refine St.Chain.link p q fr rest
      (by rw [St.set_frames_other s f k v p hne]; exact hf) hp (ih ?_)
    intro l hl' hmem
    exact hl (p :: l) (St.Path.link p q fr l hf hp hl') (List.mem_cons_of_mem _ hmem)

/-- The chain from the frame assigned to keeps its shape: only the variables of its first
frame change. -/
theorem St.Chain.set_self {s : St} {f : Nat} {frs : List frame} (k : String) (v : Value)
    (h : s.Chain f frs) :
    ∃ fr rest, frs = fr :: rest ∧
      (s.set f k v).Chain f ({ fr with vars := mapSet fr.vars k v } :: rest) := by
  cases h with
  | root _ fr hf hp =>
    exact ⟨fr, [], rfl, St.Chain.root f _ (St.set_frames_self s f k v fr hf) hp⟩
  | link _ p fr rest hf hp hr =>
    refine ⟨fr, rest, rfl, St.Chain.link f p _ rest (St.set_frames_self s f k v fr hf) hp
      (hr.set_other ?_)⟩
    intro l hl hmem
    have hpath := St.Path.link f p fr l hf hp hl
    have := hpath.nodup
    simp at this
    exact this.1 hmem

/-- C3: for every finite chain of frames `frs` that starts at the frame `f` and every name
`k`, `get` returns the binding of `k` in the innermost frame of the chain that binds it, and
reports not-found exactly when no frame of the chain binds `k`; after `set(k, v)` on `f` the
lookup from `f` yields `v`, and every other frame of the store, the parent included, is
unchanged. -/
theorem frame_get_innermost_binding (s : St) (f : Nat) (frs : List frame) (k : String)
    (h : s.Chain f frs) :
    s.get f k = .ok (innermostBinding frs k) ∧
    (innermostBinding frs k = none ↔ ∀ fr ∈ frs, mapGet fr.vars k = none) ∧
    (∀ fr rest, frs = fr :: rest → ∀ v, mapGet fr.vars k = some v →
      innermostBinding frs k = some v) ∧
    ∀ v, (s.set f k v).get f k = .ok (some v) ∧
      ∀ p, p ≠ f → (s.set f k v).frames[p]? = s.frames[p]? := by
  refine ⟨St.get_chain k h, ?_, ?_, ?_⟩
  · simp [innermostBinding]
  · intro fr rest hfrs v hv
    subst hfrs
    simp [innermostBinding, List.findSome?, hv]
  · intro v
    refine ⟨?_, fun p hp => St.set_frames_other s f k v p hp⟩
    obtain ⟨fr, rest, _, hch⟩ := h.set_self k v
    rw [St.get_chain k hch]
    simp [innermostBinding, List.findSome?, mapGet_mapSet_self]

/-- C3, at a store with a child frame below a root frame that both bind `x`. -/
theorem frame_get_innermost_binding_witness :
    (St.mk [⟨[("x", .int 1), ("y", .int 5)], none⟩, ⟨[("x", .int 2)], some 0⟩] [] [] [] [] []).get
        1 "y" = .ok (some (.int 5)) :=
  (frame_get_innermost_binding
    (St.mk [⟨[("x", .int 1), ("y", .int 5)], none⟩, ⟨[("x", .int 2)], some 0⟩] [] [] [] [] [])
    1 [⟨[("x", .int 2)], some 0⟩, ⟨[("x", .int 1), ("y", .int 5)], none⟩] "y"
    (St.Chain.link 1 0 _ _ rfl rfl (St.Chain.root 0 _ rfl rfl))).1

/-- C1: the scanner aborts on a source that ends inside a word that begins like `true` or
`false`: `match` reads past the end of the source. -/
theorem scan_aborts_inside_true_false_prefix :
    scan "t" = .panic "runtime error: index out of range" ∧
    scan "tru" = .panic "runtime error: index out of range" ∧
    scan "fals" = .panic "runtime error: index out of range" ∧
    scan "(f" = .panic "runtime error: index out of range" := by
  decide

/-! ### Parser: a parse without error flag has no malformed node -/

theorem hasMalformedList_append (xs ys : List Node) :
    hasMalformedList (xs ++ ys) = (hasMalformedList xs || hasMalformedList ys) := by
  induction xs with
  | nil => simp [hasMalformedList]
  | cons x xs ih => simp [hasMalformedList, ih, Bool.or_assoc]

theorem hasMalformedCases_append (xs ys : List (Node × Node)) :
    hasMalformedCases (xs ++ ys) = (hasMalformedCases xs || hasMalformedCases ys) := by
  induction xs with
  | nil => simp [hasMalformedCases]
  | cons x xs ih =>
    obtain ⟨c, a⟩ := x
    simp [hasMalformedCases, ih, Bool.or_assoc]

theorem hasMalformedEntries_mapSet (m : List (String × Node)) (k : String) (v : Node)
    (hm : hasMalformedEntries m = false) (hv : v.hasMalformed = false) :
    hasMalformedEntries (mapSet m k v) = false := by
  induction m with
  | nil => simp [mapSet, hasMalformedEntries, hv]
  | cons e rest ih =>
    obtain ⟨k', n⟩ := e
    simp only [hasMalformedEntries, Bool.or_eq_false_iff] at hm
    by_cases h : k' = k
    · simp [mapSet, h, hasMalformedEntries, hv, hm.2]
    · simp [mapSet, h, hasMalformedEntries, hm.1, ih hm.2]

theorem exprLoop_clean {expr : PRule} (hexpr : CleanRule expr) :
    ∀ (fuel : Nat) (p : toyParser) (acc : List Node) (herr : Bool) (ns : List Node)
      (p' : toyParser),
      toyParser.exprLoop expr fuel p acc herr = .ok (ns, false, p') →
      herr = false ∧ (hasMalformedList acc = false → hasMalformedList ns = false) := by
  intro fuel
  induction fuel with
  | zero => intro p acc herr ns p' h; simp [toyParser.exprLoop] at h
  | succ k ih =>
    intro p acc herr ns p' h
    simp only [toyParser.exprLoop] at h
    split at h
    · obtain ⟨⟨e, hasErr, p1⟩, he, h⟩ := Res.bind_eq_ok.mp h
      obtain ⟨hflag, hclean⟩ := ih _ _ _ _ _ h
      simp only [Bool.or_eq_false_iff] at hflag
      refine ⟨hflag.1, fun hacc => hclean ?_⟩
      simp [hasMalformedList_append, hacc, hasMalformedList, hexpr _ _ _ _ he hflag.2]
    · simp at h
      obtain ⟨rfl, rfl, rfl⟩ := h
      exact ⟨rfl, id⟩

theorem referenceExpression_clean : CleanRule toyParser.referenceExpression := by
  intro p n e p' h he
  subst he
  simp only [toyParser.referenceExpression] at h
  obtain ⟨⟨part1, p1⟩, _, h⟩ := Res.bind_eq_ok.mp h
  dsimp only at h
  split at h
  · simp at h; obtain ⟨rfl, _⟩ := h; rfl
  · simp at h; obtain ⟨rfl, _⟩ := h; rfl
  · simp at h; obtain ⟨rfl, _⟩ := h; rfl
  · simp at h; obtain ⟨rfl, _⟩ := h; rfl
  · obtain ⟨⟨isDot, p2⟩, _, h⟩ := Res.bind_eq_ok.mp h
    dsimp only at h
    split at h
    · obtain ⟨⟨part2, err, p3⟩, _, h⟩ := Res.bind_eq_ok.mp h
      cases err with
      | some e => simp at h
      | none => simp at h; obtain ⟨rfl, _⟩ := h; rfl
    · simp at h; obtain ⟨rfl, _⟩ := h; rfl
  · simp at h

theorem simpleLiteral_clean : CleanRule toyParser.simpleLiteral := by
  intro p n e p' h he
  subst he
  simp only [toyParser.simpleLiteral] at h
  obtain ⟨⟨t, p1⟩, _, h⟩ := Res.bind_eq_ok.mp h
  dsimp only at h
  split at h
  · simp at h; obtain ⟨rfl, _⟩ := h; rfl
  · split at h
    · simp at h
    · simp at h; obtain ⟨rfl, _⟩ := h; rfl
  · split at h
    · simp at h; obtain ⟨rfl, _⟩ := h; rfl
    · simp at h
  · obtain ⟨⟨_, p2⟩, _, h⟩ := Res.bind_eq_ok.mp h
    exact referenceExpression_clean _ _ _ _ h rfl
  · obtain ⟨t0, _, h⟩ := Res.bind_eq_ok.mp h
    simp at h

theorem callExpression_clean {expr : PRule} (hexpr : CleanRule expr) (fuel : Nat) :
    CleanRule (toyParser.callExpression expr fuel) := by
  intro p n e p' h he
  subst he
  simp only [toyParser.callExpression] at h
  obtain ⟨⟨callee, hasErr, p1⟩, hr, h⟩ := Res.bind_eq_ok.mp h
  dsimp only at h
  obtain ⟨⟨args, hasErrors, p2⟩, hl, h⟩ := Res.bind_eq_ok.mp h
  dsimp only at h
  obtain ⟨⟨t, err, p3⟩, _, h⟩ := Res.bind_eq_ok.mp h
  cases err with
  | some e => simp at h
  | none =>
    simp at h
    obtain ⟨rfl, rfl, rfl⟩ := h
    obtain ⟨hflag, hclean⟩ := exprLoop_clean hexpr _ _ _ _ _ _ hl
    subst hflag
    simp [Node.hasMalformed, referenceExpression_clean _ _ _ _ hr rfl,
      hclean (by simp [hasMalformedList])]

theorem listLiteral_clean {expr : PRule} (hexpr : CleanRule expr) (fuel : Nat) :
    CleanRule (toyParser.listLiteral expr fuel) := by
  intro p n e p' h he
  subst he
  simp only [toyParser.listLiteral] at h
  obtain ⟨⟨els, hasErrors, p1⟩, hl, h⟩ := Res.bind_eq_ok.mp h
  dsimp only at h
  obtain ⟨⟨t, err, p2⟩, _, h⟩ := Res.bind_eq_ok.mp h
  cases err with
  | some e => simp at h
  | none =>
    simp at h
    obtain ⟨rfl, rfl, rfl⟩ := h
    obtain ⟨_, hclean⟩ := exprLoop_clean hexpr _ _ _ _ _ _ hl
    simp [Node.hasMalformed, hclean (by simp [hasMalformedList])]

theorem seqExpression_clean {expr : PRule} (hexpr : CleanRule expr) (fuel : Nat) :
    CleanRule (toyParser.seqExpression expr fuel) := by
  intro p n e p' h he
  subst he
  simp only [toyParser.seqExpression] at h
  obtain ⟨⟨els, hasErrors, p1⟩, hl, h⟩ := Res.bind_eq_ok.mp h
  dsimp only at h
  obtain ⟨⟨t, err, p2⟩, _, h⟩ := Res.bind_eq_ok.mp h
  simp at h
  obtain ⟨rfl, rfl, rfl⟩ := h
  obtain ⟨_, hclean⟩ := exprLoop_clean hexpr _ _ _ _ _ _ hl
  simp [Node.hasMalformed, hclean (by simp [hasMalformedList])]

theorem asyncExpression_clean {expr : PRule} (hexpr : CleanRule expr) (fuel : Nat) :
    CleanRule (toyParser.asyncExpression expr fuel) := by
  intro p n e p' h he
  subst he
  simp only [toyParser.asyncExpression] at h
  obtain ⟨⟨els, hasErrors, p1⟩, hl, h⟩ := Res.bind_eq_ok.mp h
  dsimp only at h
  obtain ⟨⟨t, err, p2⟩, _, h⟩ := Res.bind_eq_ok.mp h
  simp at h
  obtain ⟨rfl, rfl, rfl⟩ := h
  obtain ⟨_, hclean⟩ := exprLoop_clean hexpr _ _ _ _ _ _ hl
  simp [Node.hasMalformed, hclean (by simp [hasMalformedList])]

theorem chainExpression_clean {expr : PRule} (hexpr : CleanRule expr) (fuel : Nat) :
    CleanRule (toyParser.chainExpression expr fuel) := by
  intro p n e p' h he
  subst he
  simp only [toyParser.chainExpression] at h
  obtain ⟨⟨els, hasErrors, p1⟩, hl, h⟩ := Res.bind_eq_ok.mp h
  dsimp only at h
  obtain ⟨⟨t, err, p2⟩, _, h⟩ := Res.bind_eq_ok.mp h
  cases err with
  | some e => simp at h
  | none =>
    dsimp only at h
    split at h
    · simp at h
    · simp at h
      obtain ⟨rfl, rfl, rfl⟩ := h
      obtain ⟨_, hclean⟩ := exprLoop_clean hexpr _ _ _ _ _ _ hl
      simp [Node.hasMalformed, hclean (by simp [hasMalformedList])]

theorem paramLoop_flag :
    ∀ (fuel : Nat) (p : toyParser) (acc : List String) (herr : Bool) (ps : List String)
      (p' : toyParser),
      toyParser.paramLoop fuel p acc herr = .ok (ps, false, p') → herr = false := by
  intro fuel
  induction fuel with
  | zero => intro p acc herr ps p' h; simp [toyParser.paramLoop] at h
  | succ k ih =>
    intro p acc herr ps p' h
    simp only [toyParser.paramLoop] at h
    split at h
    · obtain ⟨⟨param, err, p1⟩, _, h⟩ := Res.bind_eq_ok.mp h
      have := ih _ _ _ _ _ h
      simp only [Bool.or_eq_false_iff] at this
      exact this.1
    · simp at h
      exact h.2.1

theorem funcExpression_clean {expr : PRule} (hexpr : CleanRule expr) (fuel : Nat) :
    CleanRule (toyParser.funcExpression expr fuel) := by
  intro p n e p' h he
  subst he
  simp only [toyParser.funcExpression] at h
  obtain ⟨⟨_, err, p1⟩, _, h⟩ := Res.bind_eq_ok.mp h
  cases err with
  | some e => simp at h
  | none =>
  dsimp only at h
  obtain ⟨⟨params, hasErrors, p2⟩, _, h⟩ := Res.bind_eq_ok.mp h
  dsimp only at h
  obtain ⟨⟨_, err, p3⟩, _, h⟩ := Res.bind_eq_ok.mp h
  cases err with
  | some e => simp at h
  | none =>
  dsimp only at h
  obtain ⟨⟨_, err, p4⟩, _, h⟩ := Res.bind_eq_ok.mp h
  cases err with
  | some e => simp at h
  | none =>
  dsimp only at h
  obtain ⟨⟨body, hasErrors2, p5⟩, hl, h⟩ := Res.bind_eq_ok.mp h
  dsimp only at h
  obtain ⟨⟨_, err, p6⟩, _, h⟩ := Res.bind_eq_ok.mp h
  cases err with
  | some e => simp at h
  | none =>
  dsimp only at h
  obtain ⟨⟨_, err, p7⟩, _, h⟩ := Res.bind_eq_ok.mp h
  cases err with
  | some e => simp at h
  | none =>
  simp at h
  obtain ⟨rfl, rfl, rfl⟩ := h
  obtain ⟨_, hclean⟩ := exprLoop_clean hexpr _ _ _ _ _ _ hl
  simp [Node.hasMalformed, hclean (by simp [hasMalformedList])]

theorem whenLoop_clean {expr : PRule} (hexpr : CleanRule expr) :
    ∀ (fuel : Nat) (p : toyParser) (acc : List (Node × Node)) (herr : Bool)
      (cs : List (Node × Node)) (p' : toyParser),
      toyParser.whenLoop expr fuel p acc herr = .ok (cs, false, p') →
      herr = false ∧ (hasMalformedCases acc = false → hasMalformedCases cs = false) := by
  intro fuel
  induction fuel with
  | zero => intro p acc herr cs p' h; simp [toyParser.whenLoop] at h
  | succ k ih =>
    intro p acc herr cs p' h
    simp only [toyParser.whenLoop] at h
    split at h
    · obtain ⟨⟨_, err1, p1⟩, _, h⟩ := Res.bind_eq_ok.mp h
      dsimp only at h
      obtain ⟨⟨whenTok, err2, p2⟩, _, h⟩ := Res.bind_eq_ok.mp h
      dsimp only at h
      obtain ⟨⟨expected, hasErr3, p3⟩, h3, h⟩ := Res.bind_eq_ok.mp h
      dsimp only at h
      obtain ⟨⟨action, hasErr4, p4⟩, h4, h⟩ := Res.bind_eq_ok.mp h
      dsimp only at h
      obtain ⟨⟨_, err5, p5⟩, _, h⟩ := Res.bind_eq_ok.mp h
      dsimp only at h
      obtain ⟨hflag, hclean⟩ := ih _ _ _ _ _ h
      simp only [Bool.or_eq_false_iff] at hflag
      obtain ⟨⟨⟨⟨⟨hherr, _⟩, _⟩, he3⟩, he4⟩, _⟩ := hflag
      refine ⟨hherr, fun hacc => hclean ?_⟩
      subst he3
      simp [hasMalformedCases_append, hacc, hasMalformedCases,
        hexpr _ _ _ _ h3 rfl, hexpr _ _ _ _ h4 he4]
    · simp at h
      obtain ⟨rfl, rfl, rfl⟩ := h
      exact ⟨rfl, id⟩

theorem matchExpression_clean {expr : PRule} (hexpr : CleanRule expr) (fuel : Nat) :
    CleanRule (toyParser.matchExpression expr fuel) := by
  intro p n e p' h he
  subst he
  simp only [toyParser.matchExpression] at h
  obtain ⟨⟨cond, hasErr, p1⟩, hc, h⟩ := Res.bind_eq_ok.mp h
  dsimp only at h
  obtain ⟨⟨cases, hasErrors, p2⟩, hl, h⟩ := Res.bind_eq_ok.mp h
  dsimp only at h
  obtain ⟨⟨_, err, p3⟩, _, h⟩ := Res.bind_eq_ok.mp h
  simp at h
  obtain ⟨rfl, ⟨rfl, _⟩, rfl⟩ := h
  obtain ⟨hflag, hclean⟩ := whenLoop_clean hexpr _ _ _ _ _ _ hl
  simp [Node.hasMalformed, hexpr _ _ _ _ hc hflag, hclean (by simp [hasMalformedCases])]

theorem varLoop_clean {expr : PRule} (hexpr : CleanRule expr) :
    ∀ (fuel : Nat) (p : toyParser) (acc vars : List (String × Node)) (p' : toyParser),
      toyParser.varLoop expr fuel p acc = .ok (.inr vars, p') →
      hasMalformedEntries acc = false → hasMalformedEntries vars = false := by
  intro fuel
  induction fuel with
  | zero => intro p acc vars p' h; simp [toyParser.varLoop] at h
  | succ k ih =>
    intro p acc vars p' h hacc
    simp only [toyParser.varLoop] at h
    split at h
    · obtain ⟨⟨_, err, p1⟩, _, h⟩ := Res.bind_eq_ok.mp h
      cases err with
      | some e => simp at h
      | none =>
      dsimp only at h
      obtain ⟨⟨nameTok, err, p2⟩, _, h⟩ := Res.bind_eq_ok.mp h
      cases err with
      | some e => simp at h
      | none =>
      dsimp only at h
      obtain ⟨⟨value, hasErr, p3⟩, hv, h⟩ := Res.bind_eq_ok.mp h
      dsimp only at h
      split at h
      · simp at h
      · rename_i hne
        obtain ⟨⟨_, err, p4⟩, _, h⟩ := Res.bind_eq_ok.mp h
        cases err with
        | some e => simp at h
        | none =>
        dsimp only at h
        split at h
        · simp at h
        · exact ih _ _ _ _ h (hasMalformedEntries_mapSet _ _ _ hacc
            (hexpr _ _ _ _ hv (by simpa using hne)))
    · simp at h
      obtain ⟨rfl, rfl⟩ := h
      exact hacc

theorem varStatement_clean {expr : PRule} (hexpr : CleanRule expr) (fuel : Nat) :
    CleanRule (toyParser.varStatement expr fuel) := by
  intro p n e p' h he
  subst he
  simp only [toyParser.varStatement] at h
  obtain ⟨⟨r, p1⟩, hl, h⟩ := Res.bind_eq_ok.mp h
  cases r with
  | inl e => simp at h
  | inr vars =>
    dsimp only at h
    obtain ⟨⟨_, err, p2⟩, _, h⟩ := Res.bind_eq_ok.mp h
    cases err with
    | some e => simp at h
    | none =>
      simp at h
      obtain ⟨rfl, rfl⟩ := h
      simp [Node.hasMalformed, varLoop_clean hexpr _ _ _ _ _ hl (by simp [hasMalformedEntries])]

theorem hashLoop_clean {expr : PRule} (hexpr : CleanRule expr) :
    ∀ (fuel : Nat) (p : toyParser) (acc : List (String × Node)) (herr : Bool)
      (store : List (String × Node)) (p' : toyParser),
      toyParser.hashLoop expr fuel p acc herr = .ok (.inr (store, false), p') →
      herr = false ∧ (hasMalformedEntries acc = false → hasMalformedEntries store = false) := by
  intro fuel
  induction fuel with
  | zero => intro p acc herr store p' h; simp [toyParser.hashLoop] at h
  | succ k ih =>
    intro p acc herr store p' h
    simp only [toyParser.hashLoop] at h
    split at h
    · obtain ⟨⟨_, err, p1⟩, _, h⟩ := Res.bind_eq_ok.mp h
      cases err with
      | some e => simp at h
      | none =>
      dsimp only at h
      obtain ⟨⟨key, err, p2⟩, _, h⟩ := Res.bind_eq_ok.mp h
      cases err with
      | some e => simp at h
      | none =>
      dsimp only at h
      obtain ⟨⟨value, hasErr, p3⟩, hv, h⟩ := Res.bind_eq_ok.mp h
      dsimp only at h
      obtain ⟨⟨_, err, p4⟩, _, h⟩ := Res.bind_eq_ok.mp h
      dsimp only at h
      obtain ⟨hflag, hclean⟩ := ih _ _ _ _ _ h
      simp only [Bool.or_eq_false_iff] at hflag
      obtain ⟨⟨⟨hherr, hve⟩, _⟩, herr4⟩ := hflag
      refine ⟨hherr, fun hacc => hclean ?_⟩
      cases err with
      | some e => simp at herr4
      | none => exact hasMalformedEntries_mapSet _ _ _ hacc (hexpr _ _ _ _ hv hve)
    · simp at h
      obtain ⟨⟨rfl, rfl⟩, rfl⟩ := h
      exact ⟨rfl, id⟩

theorem hashLiteral_clean {expr : PRule} (hexpr : CleanRule expr) (fuel : Nat) :
    CleanRule (toyParser.hashLiteral expr fuel) := by
  intro p n e p' h he
  subst he
  simp only [toyParser.hashLiteral] at h
  obtain ⟨⟨r, p1⟩, hl, h⟩ := Res.bind_eq_ok.mp h
  rcases r with e | ⟨store, hasErrors⟩
  · simp at h
  · dsimp only at h
    obtain ⟨⟨_, err, p2⟩, _, h⟩ := Res.bind_eq_ok.mp h
    cases err with
    | some e => simp at h
    | none =>
      simp at h
      obtain ⟨rfl, rfl, rfl⟩ := h
      obtain ⟨_, hclean⟩ := hashLoop_clean hexpr _ _ _ _ _ _ hl
      simp [Node.hasMalformed, hclean (by simp [hasMalformedEntries])]

theorem expressionBody_clean {expr : PRule} (hexpr : CleanRule expr) (fuel : Nat) :
    CleanRule (toyParser.expressionBody expr fuel) := by
  intro p n e p' h he
  simp only [toyParser.expressionBody] at h
  obtain ⟨⟨isParen, p1⟩, _, h⟩ := Res.bind_eq_ok.mp h
  dsimp only at h
  split at h
  · obtain ⟨⟨t, p2⟩, _, h⟩ := Res.bind_eq_ok.mp h
    dsimp only at h
    split at h
    · split at h
      · exact varStatement_clean hexpr fuel _ _ _ _ h he
      · split at h
        · exact listLiteral_clean hexpr fuel _ _ _ _ h he
        · split at h
          · exact hashLiteral_clean hexpr fuel _ _ _ _ h he
          · split at h
            · exact matchExpression_clean hexpr fuel _ _ _ _ h he
            · split at h
              · exact funcExpression_clean hexpr fuel _ _ _ _ h he
              · split at h
                · exact seqExpression_clean hexpr fuel _ _ _ _ h he
                · split at h
                  · exact chainExpression_clean hexpr fuel _ _ _ _ h he
                  · split at h
                    · exact asyncExpression_clean hexpr fuel _ _ _ _ h he
                    · obtain ⟨⟨_, p3⟩, _, h⟩ := Res.bind_eq_ok.mp h
                      exact callExpression_clean hexpr fuel _ _ _ _ h he
    all_goals first
      | (obtain ⟨⟨_, p3⟩, _, h⟩ := Res.bind_eq_ok.mp h
         exact callExpression_clean hexpr fuel _ _ _ _ h he)
      | (subst he; simp at h)
  · exact simpleLiteral_clean _ _ _ _ h he

theorem expression_clean : ∀ fuel, CleanRule (toyParser.expression fuel) := by
  intro fuel
  induction fuel with
  | zero => intro p n e p' h _; simp [toyParser.expression] at h
  | succ k ih => exact expressionBody_clean ih k

theorem importStatement_clean (fuel : Nat) : CleanRule (toyParser.importStatement fuel) := by
  intro p n e p' h he
  subst he
  simp only [toyParser.importStatement] at h
  obtain ⟨⟨r, p1⟩, _, h⟩ := Res.bind_eq_ok.mp h
  cases r with
  | inl e => simp at h
  | inr imports =>
    dsimp only at h
    obtain ⟨⟨_, err, p2⟩, _, h⟩ := Res.bind_eq_ok.mp h
    cases err with
    | some e => simp at h
    | none => simp at h; obtain ⟨rfl, _⟩ := h; rfl

theorem exportLoop_clean :
    ∀ (fuel : Nat) (p : toyParser) (acc exports : List Node) (p' : toyParser),
      toyParser.exportLoop fuel p acc = .ok (.inr exports, p') →
      hasMalformedList acc = false → hasMalformedList exports = false := by
  intro fuel
  induction fuel with
  | zero => intro p acc exports p' h; simp [toyParser.exportLoop] at h
  | succ k ih =>
    intro p acc exports p' h hacc
    simp only [toyParser.exportLoop] at h
    split at h
    · split at h
      · obtain ⟨⟨t, p1⟩, _, h⟩ := Res.bind_eq_ok.mp h
        exact ih _ _ _ _ h (by simp [hasMalformedList_append, hacc, hasMalformedList,
          Node.hasMalformed])
      · obtain ⟨t, _, h⟩ := Res.bind_eq_ok.mp h
        simp at h
    · simp at h
      obtain ⟨rfl, rfl⟩ := h
      exact hacc

theorem exportStatement_clean (fuel : Nat) : CleanRule (toyParser.exportStatement fuel) := by
  intro p n e p' h he
  subst he
  simp only [toyParser.exportStatement] at h
  obtain ⟨⟨r, p1⟩, hl, h⟩ := Res.bind_eq_ok.mp h
  cases r with
  | inl e => simp at h
  | inr exports =>
    dsimp only at h
    obtain ⟨⟨_, err, p2⟩, _, h⟩ := Res.bind_eq_ok.mp h
    cases err with
    | some e => simp at h
    | none =>
      simp at h
      obtain ⟨rfl, rfl⟩ := h
      simp [Node.hasMalformed, exportLoop_clean _ _ _ _ _ hl (by simp [hasMalformedList])]

theorem statement_clean (fuel : Nat) : CleanRule (toyParser.statement fuel) := by
  intro p n e p' h he
  simp only [toyParser.statement] at h
  obtain ⟨⟨isParen, p1⟩, _, h⟩ := Res.bind_eq_ok.mp h
  dsimp only at h
  split at h
  · split at h
    · obtain ⟨⟨t, p2⟩, _, h⟩ := Res.bind_eq_ok.mp h
      dsimp only at h
      split at h
      · exact importStatement_clean fuel _ _ _ _ h he
      · split at h
        · exact exportStatement_clean fuel _ _ _ _ h he
        · obtain ⟨⟨_, p3⟩, _, h⟩ := Res.bind_eq_ok.mp h
          dsimp only at h
          obtain ⟨⟨_, p4⟩, _, h⟩ := Res.bind_eq_ok.mp h
          exact expression_clean fuel _ _ _ _ h he
    · obtain ⟨⟨_, p2⟩, _, h⟩ := Res.bind_eq_ok.mp h
      exact expression_clean fuel _ _ _ _ h he
  · obtain ⟨⟨failingAt, p2⟩, _, h⟩ := Res.bind_eq_ok.mp h
    subst he
    simp at h

theorem programLoop_clean (fuel : Nat) :
    ∀ (k : Nat) (p : toyParser) (acc : List Node) (herr : Bool) (prog : ProgramStatement),
      toyParser.programLoop fuel k p acc herr = .ok (prog, false) →
      herr = false ∧ (hasMalformedList acc = false → hasMalformedList prog.Body = false) := by
  intro k
  induction k with
  | zero => intro p acc herr prog h; simp [toyParser.programLoop] at h
  | succ k ih =>
    intro p acc herr prog h
    simp only [toyParser.programLoop] at h
    split at h
    · obtain ⟨⟨child, hasError, p1⟩, hs, h⟩ := Res.bind_eq_ok.mp h
      obtain ⟨hflag, hclean⟩ := ih _ _ _ _ h
      simp only [Bool.or_eq_false_iff] at hflag
      refine ⟨hflag.1, fun hacc => hclean ?_⟩
      simp [hasMalformedList_append, hacc, hasMalformedList,
        statement_clean fuel _ _ _ _ hs hflag.2]
    · simp at h
      obtain ⟨rfl, rfl⟩ := h
      exact ⟨rfl, id⟩

/-- C2: for every token list, when `Parse` returns with the error flag unset, no
`MalformedExpression` occurs in the returned program, neither as a top-level node nor nested
in any form. -/
theorem parse_without_errors_has_no_malformed (fuel : Nat) (tokens : List Token)
    (prog : ProgramStatement) (h : parse fuel tokens = .ok (prog, false)) :
    hasMalformedList prog.Body = false :=
  (programLoop_clean fuel fuel _ _ _ _ h).2 (by simp [hasMalformedList])

/-- C2, at the tokens of `(f "x")`. -/
theorem parse_without_errors_has_no_malformed_witness :
    hasMalformedList
      [Node.CallExpression (.ReferenceExpression "f" REF_TYPE_DECLARED) [.StringLiteral "x"]]
      = false :=
  parse_without_errors_has_no_malformed 5
    [⟨TOKEN_LEFT_PAREN, "(", .absent, 1⟩, ⟨TOKEN_IDENTIFIER, "f", .absent, 2⟩,
     ⟨TOKEN_STRING, "x", .absent, 6⟩, ⟨TOKEN_RIGHT_PAREN, ")", .absent, 7⟩,
     ⟨TOKEN_EOF, "", .absent, 7⟩]
    ⟨[.CallExpression (.ReferenceExpression "f" REF_TYPE_DECLARED) [.StringLiteral "x"]]⟩
    (by decide!)

/-! ### Evaluator: unfolding of the fuel -/

theorem toyInterpreter.execNode_succ (i : toyInterpreter) (n : Nat) :
    i.execNode (n + 1) = toyInterpreter.execNodeBody i (i.execNode n) (i.callValue n) := rfl

theorem toyInterpreter.callValue_succ (i : toyInterpreter) (n : Nat) :
    i.callValue (n + 1) = toyInterpreter.callBody i (i.execNode n) (i.callValue n) := rfl

/-! ### Calls of closures -/

theorem mapGet_mapSet {β : Type} (m : List (String × β)) (k k' : String) (v : β) :
    mapGet (mapSet m k' v) k = if k' = k then some v else mapGet m k := by
  by_cases h : k' = k
  · subst h; simp [mapGet_mapSet_self]
  · simp [h, mapGet_mapSet_other m k' k v (Ne.symm h)]

theorem mapGet_foldl_mapSet (l : List (String × Value)) :
    ∀ (m : List (String × Value)) (k : String),
      mapGet (l.foldl (fun m e => mapSet m e.1 e.2) m) k =
        match lastBinding l k with
        | some w => some w
        | none => mapGet m k := by
  induction l with
  | nil => intro m k; simp [lastBinding]
  | cons e rest ih =>
    intro m k
    obtain ⟨k', v⟩ := e
    simp only [List.foldl, lastBinding, ih, mapGet_mapSet]
    cases lastBinding rest k with
    | some w => rfl
    | none => by_cases h : k' = k <;> simp [h]

theorem lastBinding_eq_none (l : List (String × Value)) (k : String)
    (h : k ∉ l.map Prod.fst) : lastBinding l k = none := by
  induction l with
  | nil => rfl
  | cons e rest ih =>
    obtain ⟨k', v⟩ := e
    simp only [List.map, List.mem_cons, not_or] at h
    simp [lastBinding, ih h.2, Ne.symm h.1]

theorem lastBinding_of_nodup (l : List (String × Value)) (hl : (l.map Prod.fst).Nodup) :
    ∀ e ∈ l, lastBinding l e.1 = some e.2 := by
  induction l with
  | nil => intro e he; simp at he
  | cons x rest ih =>
    obtain ⟨k', v⟩ := x
    simp only [List.map, List.nodup_cons] at hl
    intro e he
    rcases List.mem_cons.mp he with he | he
    · subst he
      simp [lastBinding, lastBinding_eq_none rest k' hl.1]
    · simp [lastBinding, ih hl.2 e he]

theorem St.set_last (s : St) (m : List (String × Value)) (p : Option Nat) (k : String)
    (v : Value) :
    St.set { s with frames := s.frames ++ [⟨m, p⟩] } s.frames.length k v =
      { s with frames := s.frames ++ [⟨mapSet m k v, p⟩] } := by
  simp [St.set]

theorem toyInterpreter.bindParams_last (s : St) (p : Option Nat) :
    ∀ (ps : List String) (a : List Value) (m : List (String × Value)),
      toyInterpreter.bindParams s.frames.length ps a { s with frames := s.frames ++ [⟨m, p⟩] } =
        { s with frames := s.frames ++
            [⟨(ps.zip a).foldl (fun m e => mapSet m e.1 e.2) m, p⟩] } := by
  intro ps
  induction ps with
  | nil => intro a m; simp [toyInterpreter.bindParams]
  | cons x ps ih =>
    intro a m
    cases a with
    | nil => simp [toyInterpreter.bindParams]
    | cons v a => simp [toyInterpreter.bindParams, St.set_last, ih]

theorem toyInterpreter.execLast_eq_evalNodes (ev : Ev) (f : Nat) :
    ∀ (bs : List Node) (last : Value) (s : St),
      toyInterpreter.execLast ev f bs last s =
        (toyInterpreter.evalNodes ev f bs s >>= fun r => pure (r.1.getLast?.getD last, r.2)) := by
  intro bs
  induction bs with
  | nil => intro last s; simp [toyInterpreter.execLast, toyInterpreter.evalNodes]
  | cons b bs ih =>
    intro last s
    simp only [toyInterpreter.execLast, toyInterpreter.evalNodes]
    cases hb : ev b f s with
    | ok r =>
      obtain ⟨v, s1⟩ := r
      simp only [Res.ok_bind, ih]
      cases hrest : toyInterpreter.evalNodes ev f bs s1 with
      | ok r2 =>
        obtain ⟨vs, s2⟩ := r2
        cases vs with
        | nil => simp
        | cons w ws => simp [List.getLast?_cons_cons, List.getLast?_eq_getLast]
      | panic m => simp
      | timeout => simp
      | external => simp
    | panic m => simp
    | timeout => simp
    | external => simp

/-- C4 (amended): a call of the closure made by `defineFunc` from the parameters `ps` and
the body `bs` in the frame `f` runs the body expressions in order in one fresh child frame of
`f` and returns the value of the last one, or the null value for an empty body. In the fresh
frame every name is bound to the argument at the last position below
`min (len ps) (len as)` whose parameter carries that name and nothing else is bound; so
`ps[i]` is bound to `as[i]` for all these positions when their names are pairwise distinct. -/
theorem call_closure_binds_by_position (i : toyInterpreter) (n : Nat) (ps : List String)
    (bs : List Node) (f : Nat) (as : List Value) (s : St) :
    ∃ binds : List (String × Value),
      (∀ k, mapGet binds k = lastBinding (ps.zip as) k) ∧
      (((ps.zip as).map Prod.fst).Nodup → ∀ e ∈ ps.zip as, mapGet binds e.1 = some e.2) ∧
      i.callValue (n + 1) (.func ps bs f) as s =
        (toyInterpreter.evalNodes (i.execNode n) s.frames.length bs
            { s with frames := s.frames ++ [⟨binds, some f⟩] } >>=
          fun r => pure (lastValue r.1, r.2)) := by
  refine ⟨(ps.zip as).foldl (fun m e => mapSet m e.1 e.2) [], ?_, ?_, ?_⟩
  · intro k
    rw [mapGet_foldl_mapSet]
    cases lastBinding (ps.zip as) k <;> simp [mapGet]
  · intro hnd e he
    rw [mapGet_foldl_mapSet, lastBinding_of_nodup _ hnd e he]
  · rw [toyInterpreter.callValue_succ]
    simp only [toyInterpreter.callBody, toyInterpreter.callFunc, St.newFrame]
    rw [toyInterpreter.bindParams_last, toyInterpreter.execLast_eq_evalNodes]
    rfl

/-- C4, refuted as stated: the closure with the parameters `x x` and the body `x`, called
with 1 and 2, holds 2 for `x` in its fresh frame and returns 2, not the first argument. -/
theorem call_closure_repeated_parameter :
    ((NewInterpreter [] [] []).1.callValue 3
        (.func ["x", "x"] [.ReferenceExpression "x" REF_TYPE_DECLARED] 0) [.int 1, .int 2]
        (NewInterpreter [] [] []).2 >>= fun r => r.2.get 1 "x") = .ok (some (.int 2)) ∧
    ERes.value ((NewInterpreter [] [] []).1.callValue 3
        (.func ["x", "x"] [.ReferenceExpression "x" REF_TYPE_DECLARED] 0) [.int 1, .int 2]
        (NewInterpreter [] [] []).2) = .ok (.int 2) := by
  decide!

/-! ### Var statements -/

theorem St.Chain.of_frames_eq {s s' : St} {f : Nat} {frs : List frame}
    (h : s.Chain f frs) (he : s'.frames = s.frames) : s'.Chain f frs := by
  induction h with
  | root f fr hf hp => exact St.Chain.root f fr (he ▸ hf) hp
  | link f p fr rest hf hp _ ih => exact St.Chain.link f p fr rest (he ▸ hf) hp ih

theorem St.Chain.ne_nil {s : St} {f : Nat} {frs : List frame} (h : s.Chain f frs) :
    ∃ fr rest, frs = fr :: rest := by
  cases h with
  | root _ fr _ _ => exact ⟨fr, [], rfl⟩
  | link _ _ fr rest _ _ _ => exact ⟨fr, rest, rfl⟩

/-- The lookup after an assignment in the receiver frame. -/
theorem St.get_set {s : St} {f : Nat} {frs : List frame} (h : s.Chain f frs)
    (k k' : String) (v : Value) :
    (s.set f k v).get f k' = .ok (if k = k' then some v else innermostBinding frs k') := by
  obtain ⟨fr, rest, hfrs, hch⟩ := h.set_self k v
  rw [St.get_chain k' hch]
  subst hfrs
  by_cases hk : k = k'
  · simp [innermostBinding, List.findSome?, mapGet_mapSet, hk]
  · simp [innermostBinding, List.findSome?, mapGet_mapSet, hk]

theorem toyInterpreter.execNode_literal (i : toyInterpreter) (n : Nat) (lit : Node) (v : Value)
    (h : lit.literal = some v) (f : Nat) (s : St) :
    i.execNode (n + 1) lit f s = .ok (v, s) := by
  cases lit <;> simp [Node.literal] at h <;> subst h <;> rfl

theorem Node.literal_not_node (lit : Node) (v : Value) (h : lit.literal = some v) :
    ∀ p n, v ≠ .node p n := by
  intro p n
  cases lit <;> simp [Node.literal] at h <;> subst h <;> simp

theorem rangeOrder_pair {α : Type} (code : Nat) (x y : α) :
    rangeOrder code [x, y] = [x, y] ∨ rangeOrder code [x, y] = [y, x] := by
  rcases Nat.mod_two_eq_zero_or_one code with h | h
  · left
    simp [rangeOrder, rangeOrder.go, h, Nat.mod_one]
  · right
    simp [rangeOrder, rangeOrder.go, h, Nat.mod_one]

/-- The evaluation of a declared reference whose lookup finds a value that is no node. -/
theorem toyInterpreter.resolveRef_declared (i : toyInterpreter) (ev : Ev) (k : String)
    (f : Nat) (s : St) (r : Option Value) (hget : s.get f k = .ok r)
    (hnode : ∀ p n, r ≠ some (.node p n)) :
    toyInterpreter.resolveRef i ev k REF_TYPE_DECLARED f s =
      match r with
      | some v => .ok (v, s)
      | none => .panic "failed to resolve ref" := by
  simp only [toyInterpreter.resolveRef, hget, Res.ok_bind]
  cases r with
  | none => rfl
  | some v =>
    cases v <;> first | rfl | exact absurd rfl (hnode _ _)

/-- C5 (amended): `execVar` evaluates and binds the pairs one at a time in the order in
which the `range` over the map of the statement visits them, which need not be the order of
the source. For `(@var (a v) (b a))` with a literal `v`: when the pair of `a` is visited
first both names end up bound to `v`; when the pair of `b` is visited first and no frame of
the chain binds `a`, the run fails to resolve `a`. Every `range` over the two pairs visits
them in one of these two orders. -/
theorem var_pairs_bound_in_visit_order (i : toyInterpreter) (n : Nat) (lit : Node) (v : Value)
    (s : St) (f : Nat) (frs : List frame) (hlit : lit.literal = some v)
    (hch : s.Chain f frs) :
    (rangeOrder (s.sched.headD 0)
        [("a", lit), ("b", Node.ReferenceExpression "a" REF_TYPE_DECLARED)] =
        [("a", lit), ("b", Node.ReferenceExpression "a" REF_TYPE_DECLARED)] →
      ∃ s', i.execNode (n + 2)
          (.VarStatement [("a", lit), ("b", .ReferenceExpression "a" REF_TYPE_DECLARED)]) f s =
          .ok (.null, s') ∧
        s'.get f "a" = .ok (some v) ∧ s'.get f "b" = .ok (some v)) ∧
    (rangeOrder (s.sched.headD 0)
        [("a", lit), ("b", Node.ReferenceExpression "a" REF_TYPE_DECLARED)] =
        [("b", Node.ReferenceExpression "a" REF_TYPE_DECLARED), ("a", lit)] →
      innermostBinding frs "a" = none →
      i.execNode (n + 2)
          (.VarStatement [("a", lit), ("b", .ReferenceExpression "a" REF_TYPE_DECLARED)]) f s =
        .panic "failed to resolve ref") ∧
    (rangeOrder (s.sched.headD 0)
        [("a", lit), ("b", Node.ReferenceExpression "a" REF_TYPE_DECLARED)] =
        [("a", lit), ("b", Node.ReferenceExpression "a" REF_TYPE_DECLARED)] ∨
      rangeOrder (s.sched.headD 0)
        [("a", lit), ("b", Node.ReferenceExpression "a" REF_TYPE_DECLARED)] =
        [("b", Node.ReferenceExpression "a" REF_TYPE_DECLARED), ("a", lit)]) := by
  have hch1 : St.Chain { s with sched := s.sched.tail } f frs := hch.of_frames_eq rfl
  refine ⟨?_, ?_, rangeOrder_pair _ _ _⟩
  · intro hord
    have hch2 := hch1.set_self "a" v
    obtain ⟨fr, rest, hfrs, hch2⟩ := hch2
    refine ⟨(St.set { s with sched := s.sched.tail } f "a" v).set f "b" v, ?_, ?_, ?_⟩
    · rw [toyInterpreter.execNode_succ]
      simp only [toyInterpreter.execNodeBody, toyInterpreter.execVar, St.range, hord,
        toyInterpreter.varLoop, toyInterpreter.execNode_literal i n lit v hlit, Res.ok_bind]
      rw [toyInterpreter.execNode_succ]
      simp only [toyInterpreter.execNodeBody]
      rw [toyInterpreter.resolveRef_declared i _ "a" f _ (some v)
        (by rw [St.get_set hch1]; simp)
        (fun p n h => Node.literal_not_node lit v hlit p n (Option.some.inj h))]
      rfl
    · rw [St.get_set hch2]
      simp [innermostBinding, List.findSome?, mapGet_mapSet]
    · rw [St.get_set hch2]
      simp
  · intro hord hnone
    rw [toyInterpreter.execNode_succ]
    simp only [toyInterpreter.execNodeBody, toyInterpreter.execVar, St.range, hord,
      toyInterpreter.varLoop]
    rw [toyInterpreter.execNode_succ]
    simp only [toyInterpreter.execNodeBody]
    rw [toyInterpreter.resolveRef_declared i _ "a" f _ none
      (by rw [St.get_chain "a" hch1, hnone]) (fun p n h => by simp at h)]
    rfl

/-- C5, at the number literal 1 in the root frame of a fresh interpreter whose first
`range` visits the pairs in the order of the source. -/
theorem var_pairs_bound_in_visit_order_witness :
    ∃ s', (NewInterpreter [] [] []).1.execNode 2
        (.VarStatement [("a", .NumberLiteral 1),
          ("b", .ReferenceExpression "a" REF_TYPE_DECLARED)]) 0 (NewInterpreter [] [] []).2 =
        .ok (.null, s') ∧
      s'.get 0 "a" = .ok (some (.int 1)) ∧ s'.get 0 "b" = .ok (some (.int 1)) :=
  (var_pairs_bound_in_visit_order (NewInterpreter [] [] []).1 0 (.NumberLiteral 1) (.int 1)
    (NewInterpreter [] [] []).2 0 [⟨builtinBindings, none⟩] rfl
    (St.Chain.root 0 _ rfl rfl)).1 (by decide!)

/-- C5, refuted as stated: when the `range` visits the pair of `b` first, running
`(@var (a 1) (b a))` fails to resolve `a`. -/
theorem var_source_order_not_kept :
    run 20 "(@var (a 1) (b a))" [1] [] = .panic "failed to resolve ref" := by
  decide!

/-! ### Closure capture -/

theorem capture_parse :
    scanAndParse 50 "(@var (a 1) (f (@func () (a)))) (@var (a 2))" =
      .ok (captureProgram, false) := by
  decide!

theorem rangeOrder_single {α : Type} (code : Nat) (x : α) : rangeOrder code [x] = [x] := by
  simp [rangeOrder, rangeOrder.go, Nat.mod_one]

theorem toyInterpreter.execNode_50 (i : toyInterpreter) :
    i.execNode 50 = toyInterpreter.execNodeBody i (i.execNode 49) (i.callValue 49) := rfl

theorem toyInterpreter.execNode_49 (i : toyInterpreter) :
    i.execNode 49 = toyInterpreter.execNodeBody i (i.execNode 48) (i.callValue 48) := rfl

theorem toyInterpreter.execNode_48 (i : toyInterpreter) :
    i.execNode 48 = toyInterpreter.execNodeBody i (i.execNode 47) (i.callValue 47) := rfl

theorem toyInterpreter.callValue_49 (i : toyInterpreter) :
    i.callValue 49 = toyInterpreter.callBody i (i.execNode 48) (i.callValue 48) := rfl

/-- The store after the two var statements, for the two orders in which the first `range`
may visit `a` and `f`. -/
theorem capture_exec (sched : List Nat) (files : List (String × String)) :
    ∃ vars, toyInterpreter.Exec ⟨0⟩ 50 captureProgram
        ⟨[⟨builtinBindings, none⟩], [], [], sched, files, []⟩ =
        .ok ⟨[⟨vars, none⟩], [], [], sched.tail.tail, files, []⟩ ∧
      (vars = builtinBindings ++ [("a", .int 2),
          ("f", .func [] [.ReferenceExpression "a" REF_TYPE_DECLARED] 0)] ∨
        vars = builtinBindings ++ [("f", .func [] [.ReferenceExpression "a" REF_TYPE_DECLARED] 0),
          ("a", .int 2)]) := by
  rcases rangeOrder_pair (sched.headD 0) ("a", Node.NumberLiteral 1)
      ("f", Node.FuncLiteral [] [.ReferenceExpression "a" REF_TYPE_DECLARED]) with h | h
  · refine ⟨_, ?_, Or.inl rfl⟩
    simp only [toyInterpreter.Exec, captureProgram, toyInterpreter.execLoop,
      toyInterpreter.execNode_50, toyInterpreter.execNodeBody, toyInterpreter.execVar, St.range,
      h, rangeOrder_single, toyInterpreter.varLoop, toyInterpreter.execNode_49, Res.ok_bind,
      Res.pure_eq]
    rfl
  · refine ⟨_, ?_, Or.inr rfl⟩
    simp only [toyInterpreter.Exec, captureProgram, toyInterpreter.execLoop,
      toyInterpreter.execNode_50, toyInterpreter.execNodeBody, toyInterpreter.execVar, St.range,
      h, rangeOrder_single, toyInterpreter.varLoop, toyInterpreter.execNode_49, Res.ok_bind,
      Res.pure_eq]
    rfl

/-- The call `(f)` in the root frame after the two var statements. -/
theorem capture_call (vars : List (String × Value)) (sched : List Nat)
    (files : List (String × String))
    (h : vars = builtinBindings ++ [("a", .int 2),
          ("f", .func [] [.ReferenceExpression "a" REF_TYPE_DECLARED] 0)] ∨
        vars = builtinBindings ++ [("f", .func [] [.ReferenceExpression "a" REF_TYPE_DECLARED] 0),
          ("a", .int 2)]) :
    ERes.value (toyInterpreter.execNode ⟨0⟩ 50
        (.CallExpression (.ReferenceExpression "f" REF_TYPE_DECLARED) []) 0
        ⟨[⟨vars, none⟩], [], [], sched, files, []⟩) = .ok (.int 2) := by
  rcases h with h | h <;> subst h <;> rfl

/-- C6 (amended): closure capture is by live frame. The program
`(@var (a 1) (f (@func () (a)))) (@var (a 2))` scans and parses without error and executes
to the end, whatever order the `range` over the pairs of the first statement takes, and the
call `(f)` in the root frame afterwards yields 2. -/
theorem closure_capture_live_frame (sched : List Nat) (files : List (String × String)) :
    ∃ s', run 50 "(@var (a 1) (f (@func () (a)))) (@var (a 2))" sched files = .ok (some s') ∧
      ERes.value (toyInterpreter.execNode ⟨0⟩ 50
        (.CallExpression (.ReferenceExpression "f" REF_TYPE_DECLARED) []) 0 s') =
        .ok (.int 2) := by
  obtain ⟨vars, hexec, hvars⟩ := capture_exec sched files
  refine ⟨_, ?_, capture_call vars sched.tail.tail files hvars⟩
  simp only [run, capture_parse, Res.ok_bind, NewInterpreter]
  simp [List.foldl, hexec]

/-- C6, refuted as stated: the text of the claim repeats the name `a` in one `@var`, which
the parser reports as an error, so the program is not executed. -/
theorem closure_capture_text_rejected :
    (scanAndParse 50 "(@var (a 1) (f (@func () (a))) (a 2))" >>= fun r => pure r.2) =
      .ok true ∧
    run 50 "(@var (a 1) (f (@func () (a))) (a 2))" [] [] = .ok none := by
  decide!

/-! ### Chains -/

theorem toyInterpreter.chainRest_refs (i : toyInterpreter) (ev : Ev) (call : Call) (f : Nat)
    (Inv : St → Prop) :
    ∀ (refs : List (String × ReferenceType)) (gs : List Value),
      (∀ s, Inv s → ResolveTo i ev f refs gs s) →
      (∀ g ∈ gs, ∀ a s r, Inv s → call g a s = .ok r → Inv r.2) →
      ∀ (x : Value) (s : St), Inv s →
        toyInterpreter.chainRest i ev call f (refs.map refNode) x s =
          composeCalls call gs x s ∧
        ∀ r, composeCalls call gs x s = .ok r → Inv r.2 := by
  intro refs
  induction refs with
  | nil =>
    intro gs hres _ x s hs
    have := hres s hs
    cases this
    refine ⟨rfl, ?_⟩
    intro r hr
    simp only [composeCalls, Res.ok.injEq] at hr
    rw [← hr]
    exact hs
  | cons r0 refs ih =>
    intro gs hres hpres x s hs
    have h0 := hres s hs
    cases h0 with
    | cons hhead htail =>
      rename_i g gs'
      obtain ⟨hr, hfunc⟩ := hhead
      have hres' : ∀ s, Inv s → ResolveTo i ev f refs gs' s := by
        intro s' hs'
        have := hres s' hs'
        cases this with
        | cons _ ht => exact ht
      have hpres' : ∀ g ∈ gs', ∀ a s r, Inv s → call g a s = .ok r → Inv r.2 :=
        fun g hg => hpres g (List.mem_cons_of_mem _ hg)
      simp only [List.map, refNode, toyInterpreter.chainRest, hr, Res.ok_bind, hfunc,
        if_true, composeCalls]
      cases hc : call g [x] s with
      | ok r =>
        have hinv := hpres g (List.mem_cons_self _ _) [x] s r hs hc
        simpa using ih gs' hres' hpres' r.1 r.2 hinv
      | panic m => simp
      | timeout => simp
      | external => simp

/-- C7: for a chain node whose elements are references `r1..rn` (`n ≥ 1`) that resolve in
the defining frame to the callables `g1..gn`, in every store the calls of these callables
lead to: evaluating the node calls nothing and returns a callable; calling that callable
with the arguments `as` returns `gn(...g2(g1(as...))...)`, every step after the first
receiving exactly the result of the step before as its one argument; and the store a call
ends in is again one in which the references resolve to `g1..gn`, so that a further call
of the same callable computes the same composition on its own arguments. -/
theorem chain_of_references_composes (i : toyInterpreter) (n : Nat)
    (refs : List (String × ReferenceType)) (gs : List Value) (f : Nat) (hne : refs ≠ [])
    (hpres : ∀ g ∈ gs, ∀ a s r, ResolveTo i (i.execNode n) f refs gs s →
      i.callValue n g a s = .ok r → ResolveTo i (i.execNode n) f refs gs r.2) :
    (∀ s, i.execNode (n + 1) (.ChainExpression (refs.map refNode)) f s =
        .ok (.chain (refs.map refNode) f, s)) ∧
    (Value.chain (refs.map refNode) f).isFunc = true ∧
    (∀ a s, ResolveTo i (i.execNode n) f refs gs s →
      i.callValue (n + 1) (.chain (refs.map refNode) f) a s =
        pipeline (i.callValue n) gs a s) ∧
    (∀ a s r, ResolveTo i (i.execNode n) f refs gs s →
      i.callValue (n + 1) (.chain (refs.map refNode) f) a s = .ok r →
      ResolveTo i (i.execNode n) f refs gs r.2) := by
  have hcall : ∀ a s, ResolveTo i (i.execNode n) f refs gs s →
      i.callValue (n + 1) (.chain (refs.map refNode) f) a s =
          pipeline (i.callValue n) gs a s ∧
        ∀ r, pipeline (i.callValue n) gs a s = .ok r →
          ResolveTo i (i.execNode n) f refs gs r.2 := by
    intro a s hs
    cases refs with
    | nil => exact absurd rfl hne
    | cons r0 refs' =>
      have h0 := hs
      cases h0 with
      | cons hhead htail =>
        rename_i g gs'
        obtain ⟨hr, hfunc⟩ := hhead
        rw [toyInterpreter.callValue_succ]
        simp only [toyInterpreter.callBody, toyInterpreter.callChain, List.map, refNode,
          toyInterpreter.chainFirst, hr, Res.ok_bind, hfunc, if_true, pipeline]
        cases hc : i.callValue n g a s with
        | ok r =>
          have hinv := hpres g (List.mem_cons_self _ _) a s r hs hc
          have hres' : ∀ s, ResolveTo i (i.execNode n) f (r0 :: refs') (g :: gs') s →
              ResolveTo i (i.execNode n) f refs' gs' s := by
            intro s' hs'
            cases hs' with
            | cons _ ht => exact ht
          have := toyInterpreter.chainRest_refs i (i.execNode n) (i.callValue n) f
            (ResolveTo i (i.execNode n) f (r0 :: refs') (g :: gs')) refs' gs' hres'
            (fun g' hg' => hpres g' (List.mem_cons_of_mem _ hg')) r.1 r.2 hinv
          simpa using this
        | panic m => simp
        | timeout => simp
        | external => simp
  refine ⟨fun s => rfl, rfl, fun a s hs => (hcall a s hs).1, ?_⟩
  intro a s r hs hr
  rw [(hcall a s hs).1] at hr
  exact (hcall a s hs).2 r hr

/-- The equality builtin leaves the store as it is. -/
theorem toyEqual_store (a : List Value) (s : St) (r : Value × St)
    (h : toyEqual a s = .ok r) : r.2 = s := by
  cases a with
  | nil => simp [toyEqual, indexPanic] at h
  | cons x xs =>
    simp only [toyEqual] at h
    obtain ⟨b, _, h⟩ := Res.bind_eq_ok.mp h
    simp at h
    rw [← h]

/-- C7, at the chain `(@chain = =)` in the root frame of a fresh interpreter, called with
3 and 3: the first `=` compares the arguments, the second receives the one result. -/
theorem chain_of_references_composes_witness :
    (NewInterpreter [] [] []).1.callValue 2
        (.chain [.ReferenceExpression "=" REF_TYPE_BUILTIN,
          .ReferenceExpression "=" REF_TYPE_BUILTIN] 0)
        [.int 3, .int 3] (NewInterpreter [] [] []).2 =
      pipeline ((NewInterpreter [] [] []).1.callValue 1)
        [.builtin .toyEqual, .builtin .toyEqual] [.int 3, .int 3] (NewInterpreter [] [] []).2 :=
  (chain_of_references_composes (NewInterpreter [] [] []).1 1
    [("=", REF_TYPE_BUILTIN), ("=", REF_TYPE_BUILTIN)]
    [.builtin .toyEqual, .builtin .toyEqual] 0 (by simp)
    (by
      intro g hg a s r hs hc
      have hg' : g = .builtin .toyEqual := by simpa using hg
      subst hg'
      have : r.2 = s := toyEqual_store a s r hc
      rw [this]
      exact hs)).2.2.1 [.int 3, .int 3] (NewInterpreter [] [] []).2
    (List.Forall₂.cons ⟨rfl, rfl⟩ (List.Forall₂.cons ⟨rfl, rfl⟩ List.Forall₂.nil))

/-- C8 (amended): the text `(@chain (@func (x) ((= x 3))) (@func (y) ((= y false))))`, a
chain of two func literals written with the equality builtin, scans and parses without
errors to a chain; evaluating it in a fresh interpreter gives a callable that, invoked with
3, yields `false` (3 equals 3, and `true` is not `false`), and invoked a second time with 5
yields `true`. -/
theorem chain_value_is_reusable :
    invokeTwice 50 "(@chain (@func (x) ((= x 3))) (@func (y) ((= y false))))"
        [.int 3] [.int 5] =
      .ok (false, "ChainExpression", true, .bool false, .bool true) := by
  decide!

/-- C8, refuted as stated: the scanner turns `+` and `*` into plus and star tokens without
an error token, but no parsing rule accepts them, so `Parse` reports an error for the text
of the claim and the program is not executed. -/
theorem arithmetic_chain_text_rejected :
    (scanAndParse 50 "(@chain (@func (x) (+ x 1)) (@func (x) (* x 2)))" >>=
      fun r => pure r.2) = .ok true ∧
    run 50 "(@chain (@func (x) (+ x 1)) (@func (x) (* x 2)))" [] [] = .ok none ∧
    (scan "(@chain (@func (x) (+ x 1)) (@func (x) (* x 2)))" >>=
      fun ts => pure (ts.any fun t => t.Type_ == TOKEN_ERROR)) = .ok false := by
  decide!

/-! ### Match -/

theorem perm_cons_eraseIdx {α : Type} :
    ∀ (l : List α) (i : Nat) (x : α), l[i]? = some x → (x :: l.eraseIdx i).Perm l := by
  intro l
  induction l with
  | nil => intro i x h; simp at h
  | cons a l ih =>
    intro i x h
    cases i with
    | zero =>
      simp at h
      subst h
      simp
    | succ j =>
      simp only [List.getElem?_cons_succ] at h
      simp only [List.eraseIdx_cons_succ]
      exact (List.Perm.swap a x _).trans ((ih j x h).cons a)

theorem rangeOrder_go_perm {α : Type} :
    ∀ (k code : Nat) (xs : List α), xs.length = k → (rangeOrder.go k code xs).Perm xs := by
  intro k
  induction k with
  | zero =>
    intro code xs h
    have : xs = [] := List.length_eq_zero.mp h
    subst this
    simp [rangeOrder.go]
  | succ k ih =>
    intro code xs h
    have hlt : code % xs.length < xs.length := Nat.mod_lt _ (by omega)
    have hx : xs[code % xs.length]? = some (xs[code % xs.length]) :=
      List.getElem?_eq_getElem hlt
    simp only [rangeOrder.go, hx]
    have hlen : (xs.eraseIdx (code % xs.length)).length = k := by
      rw [List.length_eraseIdx_of_lt hlt]; omega
    exact ((ih (code / xs.length) _ hlen).cons _).trans (perm_cons_eraseIdx xs _ _ hx)

/-- Every `range` visits each entry of the map exactly once. -/
theorem rangeOrder_perm {α : Type} (code : Nat) (xs : List α) :
    (rangeOrder code xs).Perm xs :=
  rangeOrder_go_perm xs.length code xs rfl

theorem selectAction_of_not_mem (order : List (Node × Node)) :
    ∀ (rs : List Value) (k : Key), some k ∉ order.map (fun c => c.1.scalarLiteral) →
      selectAction order rs k = .null := by
  induction order with
  | nil => intro rs k _; cases rs <;> rfl
  | cons c rest ih =>
    intro rs k h
    simp only [List.map, List.mem_cons, not_or] at h
    cases rs with
    | nil => rfl
    | cons r rs => simp [selectAction, Ne.symm h.1, ih rs k h.2]

theorem toyInterpreter.execNode_scalarLiteral (i : toyInterpreter) (n : Nat) (cc : Node)
    (kc : Key) (h : cc.scalarLiteral = some kc) (f : Nat) (s : St) :
    ∃ cr, i.execNode (n + 1) cc f s = .ok (cr, s) ∧ cr.key = some kc ∧ cr ≠ .bool true := by
  cases cc <;> simp [Node.scalarLiteral] at h <;> subst h
  · exact ⟨_, rfl, rfl, by simp⟩
  · exact ⟨_, rfl, rfl, by simp⟩

/-- The loop of `evalMatch` over clauses whose tests are pairwise distinct integer or string
literals: every action is evaluated, in the order of the clauses, and the value read from
the case table is that of the action whose test equals the key looked up. -/
theorem toyInterpreter.matchLoop_literal (i : toyInterpreter) (n : Nat) (mf : Nat)
    (expected : Value) (k : Key) (hk : expected.key = some k) :
    ∀ (order : List (Node × Node)) (tbl : List (Key × Value)) (s : St),
      (∀ c ∈ order, c.1.scalarLiteral.isSome = true) →
      (order.map fun c => c.1.scalarLiteral).Nodup →
      toyInterpreter.matchLoop (i.execNode (n + 1)) mf expected order tbl s =
        (toyInterpreter.evalNodes (i.execNode (n + 1)) mf (order.map Prod.snd) s >>= fun r =>
          pure (if some k ∈ order.map (fun c => c.1.scalarLiteral)
            then selectAction order r.1 k else (tbl.lookup k).getD .null, r.2)) := by
  intro order
  induction order with
  | nil =>
    intro tbl s _ _
    simp [toyInterpreter.matchLoop, toyInterpreter.evalNodes, hk]
  | cons c rest ih =>
    intro tbl s htests hnd
    obtain ⟨cc, ca⟩ := c
    have hcc := htests (cc, ca) (List.mem_cons_self _ _)
    obtain ⟨kc, hkc⟩ := Option.isSome_iff_exists.mp hcc
    obtain ⟨cr, hcr, hcrk, hcrb⟩ := toyInterpreter.execNode_scalarLiteral i n cc kc hkc mf s
    simp only [List.map, List.nodup_cons] at hnd
    have hguard : (cc.Type_ != "BooleanLiteral" && cr == .bool true) = false := by
      simp [hcrb]
    simp only [toyInterpreter.matchLoop, hcr, Res.ok_bind, hguard, Bool.false_eq_true,
      if_false, List.map, toyInterpreter.evalNodes]
    cases hca : i.execNode (n + 1) ca mf s with
    | ok r =>
      obtain ⟨rv, s2⟩ := r
      simp only [Res.ok_bind, hcrk]
      rw [ih _ s2 (fun c hc => htests c (List.mem_cons_of_mem _ hc)) hnd.2]
      cases hrest : toyInterpreter.evalNodes (i.execNode (n + 1)) mf (rest.map Prod.snd) s2 with
      | ok r2 =>
        obtain ⟨rs, s3⟩ := r2
        simp only [Res.ok_bind, Res.pure_eq, hkc, List.mem_cons, selectAction]
        by_cases hkk : kc = k
        · subst hkk
          have hnot : some kc ∉ rest.map (fun c => c.1.scalarLiteral) := hkc ▸ hnd.1
          simp [hnot, List.lookup]
        · have hne : ¬ (some k = some kc) := fun e => hkk (Option.some.inj e).symm
          have hne' : ¬ (some kc = some k) := fun e => hkk (Option.some.inj e)
          have hbeq : (k == kc) = false := by simpa using Ne.symm hkk
          have hiff : (some k = some kc ∨ some k ∈ rest.map (fun c => c.1.scalarLiteral)) ↔
              some k ∈ rest.map (fun c => c.1.scalarLiteral) :=
            ⟨fun h => h.resolve_left hne, Or.inr⟩
          rw [if_neg hne']
          simp only [List.lookup, hbeq]
          by_cases hmem : some k ∈ rest.map (fun c => c.1.scalarLiteral)
          · rw [if_pos hmem, if_pos (hiff.mpr hmem)]
          · rw [if_neg hmem, if_neg (fun h => hmem (hiff.mp h))]
      | panic m => simp
      | timeout => simp
      | external => simp
    | panic m => simp
    | timeout => simp
    | external => simp

/-- C9: for a match node whose clause tests are pairwise distinct integer or string literals
and whose condition evaluates (once, in the store `s` with the match frame allocated) to a
value `v` with map key `k`, `evalMatch` binds `v`, takes the clauses in the order of the
`range`, which visits every clause exactly once, evaluates the action of every clause once
in that order whether its test equals `v` or not, and returns the value of the action whose
test literal equals `v`, or the null value when no test equals `v`. -/
theorem match_literal_tests_eager (i : toyInterpreter) (n : Nat) (cond : Node)
    (cases : List (Node × Node)) (f : Nat) (s s2 : St) (v : Value) (k : Key)
    (htests : ∀ c ∈ cases, c.1.scalarLiteral.isSome = true)
    (hdistinct : (cases.map fun c => c.1.scalarLiteral).Nodup)
    (hcond : i.execNode (n + 1) cond f (s.newFrame (some f)).2 = .ok (v, s2))
    (hk : v.key = some k) :
    (rangeOrder (s2.sched.headD 0) cases).Perm cases ∧
    i.execNode (n + 2) (.MatchExpression cond cases) f s =
      (toyInterpreter.evalNodes (i.execNode (n + 1)) s.frames.length
          ((rangeOrder (s2.sched.headD 0) cases).map Prod.snd)
          { s2.set s.frames.length "value" v with sched := s2.sched.tail } >>= fun r =>
        pure (selectAction (rangeOrder (s2.sched.headD 0) cases) r.1 k, r.2)) := by
  have hperm := rangeOrder_perm (s2.sched.headD 0) cases
  refine ⟨hperm, ?_⟩
  have htests' : ∀ c ∈ rangeOrder (s2.sched.headD 0) cases, c.1.scalarLiteral.isSome = true :=
    fun c hc => htests c (hperm.subset hc)
  have hnd' : ((rangeOrder (s2.sched.headD 0) cases).map fun c => c.1.scalarLiteral).Nodup :=
    (hperm.map _).nodup_iff.mpr hdistinct
  have hsched : (s2.set s.frames.length "value" v).sched = s2.sched := by
    unfold St.set
    cases s2.frames[s.frames.length]? <;> rfl
  rw [toyInterpreter.execNode_succ]
  simp only [toyInterpreter.execNodeBody, toyInterpreter.evalMatch]
  have hcond' : i.execNode (n + 1) cond f { s with frames := s.frames ++ [⟨[], some f⟩] } =
      .ok (v, s2) := hcond
  simp only [St.newFrame, hcond', Res.ok_bind, St.range, hsched]
  rw [toyInterpreter.matchLoop_literal i n _ v k hk _ _ _ htests' hnd']
  congr 1
  funext r
  by_cases hmem : some k ∈ (rangeOrder (s2.sched.headD 0) cases).map fun c => c.1.scalarLiteral
  · rw [if_pos hmem]
  · rw [if_neg hmem, selectAction_of_not_mem _ r.1 k hmem]
    rfl

/-- C9, at `(@match 2 (@when 1 "one") (@when 2 "two"))` in a fresh interpreter: the value
is that of the action whose test equals 2. -/
theorem match_literal_tests_eager_witness :
    ERes.value ((NewInterpreter [] [] []).1.execNode 2
      (.MatchExpression (.NumberLiteral 2)
        [(.NumberLiteral 1, .StringLiteral "one"), (.NumberLiteral 2, .StringLiteral "two")])
      0 (NewInterpreter [] [] []).2) = .ok (.str "two") := by
  rw [(match_literal_tests_eager (NewInterpreter [] [] []).1 0 (.NumberLiteral 2)
    [(.NumberLiteral 1, .StringLiteral "one"), (.NumberLiteral 2, .StringLiteral "two")]
    0 (NewInterpreter [] [] []).2
    ((NewInterpreter [] [] []).2.newFrame (some 0)).2 (.int 2) (.int 2)
    (by decide) (by decide) rfl rfl).2]
  decide!

theorem Value.key_bool_true (v : Value) (k : Key) (h : v.key = some k) :
    k = Key.bool true ↔ v = .bool true := by
  cases v <;> simp [Value.key] at h <;> subst h <;> simp

/-- C10: in the loop of `evalMatch`, for a clause whose test evaluates to `cr`: when the
test node is no boolean literal and `cr` is the boolean `true`, the value of the action of
the clause is the result of the whole match at once, whatever the value of the condition,
the clauses left and the case table are; in every other case (the test node is a boolean
literal, or `cr` is not `true`) the action is evaluated, stored in the case table under `cr`
and the loop goes on with the clauses left. Hence a match whose one clause has the boolean
literal `true` as its test returns the value of its action only by the final table lookup,
that is exactly when the value of the condition is the boolean `true`, and the null value
otherwise. -/
theorem match_short_circuit_iff (ev : Ev) (mf : Nat) (expected : Value) (cc ca : Node)
    (rest : List (Node × Node)) (tbl : List (Key × Value)) (s s1 : St) (cr : Value)
    (hcc : ev cc mf s = .ok (cr, s1)) :
    ((cc.Type_ ≠ "BooleanLiteral" ∧ cr = .bool true) →
      toyInterpreter.matchLoop ev mf expected ((cc, ca) :: rest) tbl s = ev ca mf s1) ∧
    (¬ (cc.Type_ ≠ "BooleanLiteral" ∧ cr = .bool true) →
      toyInterpreter.matchLoop ev mf expected ((cc, ca) :: rest) tbl s =
        (ev ca mf s1 >>= fun r =>
          match cr.key with
          | none => .panic "runtime error: hash of unhashable type"
          | some k => toyInterpreter.matchLoop ev mf expected rest ((k, r.1) :: tbl) r.2)) ∧
    (∀ b, (Node.BooleanLiteral b).Type_ = "BooleanLiteral") ∧
    (∀ (i : toyInterpreter) (n : Nat) (cond action : Node) (f : Nat) (s0 s2 s5 : St)
      (v r : Value) (k : Key),
      i.execNode (n + 1) cond f (s0.newFrame (some f)).2 = .ok (v, s2) →
      v.key = some k →
      i.execNode (n + 1) action s0.frames.length
        { s2.set s0.frames.length "value" v with sched := s2.sched.tail } = .ok (r, s5) →
      i.execNode (n + 2) (.MatchExpression cond [(.BooleanLiteral true, action)]) f s0 =
        .ok (if v = .bool true then r else .null, s5)) := by
  refine ⟨?_, ?_, fun b => rfl, ?_⟩
  · rintro ⟨hty, hcr⟩
    have hguard : (cc.Type_ != "BooleanLiteral" && cr == .bool true) = true := by
      simp [hty, hcr]
    simp only [toyInterpreter.matchLoop, hcc, Res.ok_bind, hguard, if_true]
  · intro hnot
    have hguard : (cc.Type_ != "BooleanLiteral" && cr == .bool true) = false := by
      by_cases hty : cc.Type_ = "BooleanLiteral"
      · simp [hty]
      · have : cr ≠ .bool true := fun h => hnot ⟨hty, h⟩
        simp [this]
    simp only [toyInterpreter.matchLoop, hcc, Res.ok_bind, hguard, Bool.false_eq_true,
      if_false]
  · intro i n cond action f s0 s2 s5 v r k hcond hk haction
    have hsched : (s2.set s0.frames.length "value" v).sched = s2.sched := by
      unfold St.set
      cases s2.frames[s0.frames.length]? <;> rfl
    have hcond' : i.execNode (n + 1) cond f
        { s0 with frames := s0.frames ++ [⟨[], some f⟩] } = .ok (v, s2) := hcond
    have hlit : ∀ st, i.execNode (n + 1) (.BooleanLiteral true) s0.frames.length st =
        .ok (.bool true, st) := fun st => rfl
    have hbk : (Value.bool true).key = some (Key.bool true) := rfl
    rw [toyInterpreter.execNode_succ]
    simp only [toyInterpreter.execNodeBody, toyInterpreter.evalMatch, St.newFrame, hcond',
      Res.ok_bind, St.range, hsched, rangeOrder_single, toyInterpreter.matchLoop, hlit,
      Node.Type_, bne_self_eq_false, Bool.false_and, Bool.false_eq_true, if_false, haction,
      hbk, hk, List.lookup]
    by_cases hv : v = .bool true
    · have hkk : k = Key.bool true := (Value.key_bool_true v k hk).mpr hv
      subst hkk
      simp [hv]
    · have hkk : ¬ k = Key.bool true := fun h => hv ((Value.key_bool_true v k hk).mp h)
      have hbeq : (k == Key.bool true) = false := by simpa using hkk
      simp [hv, hbeq]

/-- C10, at the clause `(@when (= 1 1) "hit")` followed by `(@when 5 "five")` with the
condition value 5: the first test is a call that evaluates to `true`, so "hit" is returned
at once although the second test equals the condition value. -/
theorem match_short_circuit_iff_witness :
    toyInterpreter.matchLoop ((NewInterpreter [] [] []).1.execNode 3) 0 (.int 5)
      [(.CallExpression (.ReferenceExpression "=" REF_TYPE_BUILTIN)
          [.NumberLiteral 1, .NumberLiteral 1], .StringLiteral "hit"),
        (.NumberLiteral 5, .StringLiteral "five")] [] (NewInterpreter [] [] []).2 =
      .ok (.str "hit", (NewInterpreter [] [] []).2) :=
  (match_short_circuit_iff ((NewInterpreter [] [] []).1.execNode 3) 0 (.int 5)
    (.CallExpression (.ReferenceExpression "=" REF_TYPE_BUILTIN)
      [.NumberLiteral 1, .NumberLiteral 1]) (.StringLiteral "hit")
    [(.NumberLiteral 5, .StringLiteral "five")] [] (NewInterpreter [] [] []).2
    (NewInterpreter [] [] []).2 (.bool true) (by decide!)).1 ⟨by decide, rfl⟩

/-! ### Modules -/

theorem toyInterpreter.moduleLoop_cons_other (ev : Ev) (f : Nat) (n : Node) (rest : List Node)
    (e : Option Nat) (s : St) (hn : n.isExport = false) :
    toyInterpreter.moduleLoop ev f (n :: rest) e s =
      (ev n f s >>= fun r => toyInterpreter.moduleLoop ev f rest e r.2) := by
  cases n <;> first | rfl | simp [Node.isExport] at hn

theorem toyInterpreter.moduleLoop_append (ev : Ev) (f : Nat) (b : List Node) :
    ∀ (a : List Node) (e : Option Nat) (s : St),
      toyInterpreter.moduleLoop ev f (a ++ b) e s =
        (toyInterpreter.moduleLoop ev f a e s >>= fun x =>
          toyInterpreter.moduleLoop ev f b x.1 x.2) := by
  intro a
  induction a with
  | nil => intro e s; simp [toyInterpreter.moduleLoop]
  | cons n rest ih =>
    intro e s
    by_cases hn : n.isExport = false
    · simp only [List.cons_append, toyInterpreter.moduleLoop_cons_other ev f n _ e s hn]
      cases ev n f s with
      | ok r => simp [ih]
      | panic m => rfl
      | timeout => rfl
      | external => rfl
    · cases n <;> simp [Node.isExport] at hn
      rename_i es
      simp only [List.cons_append, toyInterpreter.moduleLoop]
      cases toyInterpreter.execExport ev es f s with
      | ok r => simp [ih]
      | panic m => rfl
      | timeout => rfl
      | external => rfl

theorem toyInterpreter.moduleLoop_no_export (ev : Ev) (f : Nat) :
    ∀ (body : List Node), (∀ n ∈ body, n.isExport = false) →
      ∀ (e : Option Nat) (s : St) (x : Option Nat × St),
        toyInterpreter.moduleLoop ev f body e s = .ok x → x.1 = e := by
  intro body
  induction body with
  | nil =>
    intro _ e s x h
    simp only [toyInterpreter.moduleLoop, Res.ok.injEq] at h
    rw [← h]
  | cons n rest ih =>
    intro hno e s x h
    rw [toyInterpreter.moduleLoop_cons_other ev f n rest e s
      (hno n (List.mem_cons_self _ _))] at h
    obtain ⟨r, _, h⟩ := Res.bind_eq_ok.mp h
    exact ih (fun m hm => hno m (List.mem_cons_of_mem _ hm)) e r.2 x h

/-- C11 (amended): `execModule` fails for every module program without export statement:
it never returns, and when its statements run to the end the failure is the panic
"module has not exports". A program with one or more export statements is not rejected for
their number: the frame returned is the one made by the last export statement. -/
theorem module_needs_an_export_last_one_wins (ev : Ev) (f : Nat) (s : St) :
    (∀ body, (∀ n ∈ body, n.isExport = false) →
      (∀ r, toyInterpreter.execModule ev ⟨body⟩ f s ≠ .ok r) ∧
      (∀ x, toyInterpreter.moduleLoop ev f body none s = .ok x →
        toyInterpreter.execModule ev ⟨body⟩ f s = .panic "module has not exports")) ∧
    (∀ pre es post, (∀ n ∈ post, n.isExport = false) →
      toyInterpreter.execModule ev ⟨pre ++ .ExportStatement es :: post⟩ f s =
        (toyInterpreter.moduleLoop ev f pre none s >>= fun a =>
          toyInterpreter.execExport ev es f a.2 >>= fun b =>
          toyInterpreter.moduleLoop ev f post (some b.1) b.2 >>= fun c =>
          pure (b.1, c.2))) := by
  refine ⟨fun body hno => ?_, fun pre es post hno => ?_⟩
  · have hpanic : ∀ x, toyInterpreter.moduleLoop ev f body none s = .ok x →
        toyInterpreter.execModule ev ⟨body⟩ f s = .panic "module has not exports" := by
      intro x hx
      have hx1 := toyInterpreter.moduleLoop_no_export ev f body hno none s x hx
      obtain ⟨e, s1⟩ := x
      simp only at hx1
      subst hx1
      simp [toyInterpreter.execModule, hx]
    refine ⟨fun r hr => ?_, hpanic⟩
    have hr' := hr
    simp only [toyInterpreter.execModule] at hr'
    obtain ⟨x, hx, _⟩ := Res.bind_eq_ok.mp hr'
    rw [hpanic x hx] at hr
    cases hr
  · simp only [toyInterpreter.execModule, toyInterpreter.moduleLoop_append]
    cases toyInterpreter.moduleLoop ev f pre none s with
    | ok a =>
      simp only [Res.ok_bind, toyInterpreter.moduleLoop]
      cases toyInterpreter.execExport ev es f a.2 with
      | ok b =>
        simp only [Res.ok_bind]
        cases hc : toyInterpreter.moduleLoop ev f post (some b.1) b.2 with
        | ok c =>
          have := toyInterpreter.moduleLoop_no_export ev f post hno (some b.1) b.2 c hc
          obtain ⟨e, s3⟩ := c
          simp only at this
          subst this
          rfl
        | panic m => rfl
        | timeout => rfl
        | external => rfl
      | panic m => rfl
      | timeout => rfl
      | external => rfl
    | panic m => rfl
    | timeout => rfl
    | external => rfl

/-- C11, refuted as stated: a module program with two export statements loads, directly and
through an import of its file. -/
theorem module_with_two_exports_loads :
    (toyInterpreter.execModule ((NewInterpreter [] [] []).1.execNode 5)
      ⟨[.VarStatement [("a", .NumberLiteral 1)],
        .ExportStatement [.ReferenceExpression "a" REF_TYPE_DECLARED],
        .ExportStatement [.ReferenceExpression "a" REF_TYPE_DECLARED]]⟩ 0
      (NewInterpreter [] [] []).2).isOk = true ∧
    (run 50 "(@import (m \"m.toy\"))" []
      [("m.toy", "(@var (a 1) (b 2)) (@export a) (@export b)")]).isOk = true := by
  decide!

/-- C12: the frame bound under the builtin module name `stdio` has the root frame as its
parent, so the imported reference `stdio.x` resolves to the root variable `x` although
`stdio` does not export `x`; the frame of a file module has no parent and a name it does
not export does not resolve. -/
theorem builtin_module_frame_has_root_parent :
    moduleParentAfterRun 50 "(@import (stdio \"stdio\"))" [] [] "stdio" = .ok (some (some 0)) ∧
    rootBindingAfterRun 50 "(@import (stdio \"stdio\")) (@var (x 1)) (@var (y stdio.x))"
      [] [] "y" = .ok (some (.int 1)) ∧
    moduleParentAfterRun 50 "(@import (m \"m.toy\"))" []
      [("m.toy", "(@var (a 1) (b 2)) (@export a)")] "m" = .ok (some none) ∧
    run 50 "(@import (m \"m.toy\")) (@var (y m.b))" []
      [("m.toy", "(@var (a 1) (b 2)) (@export a)")] = .panic "failed to resolve ref" := by
  decide!

/-- C13: importing a file module runs the statements of the module in the root frame
itself: after the import the root frame binds the variables `a` and `b` of the module next
to the alias, and the fresh child frame of the root made for the import is left empty. -/
theorem file_module_runs_in_root_frame :
    rootBindingAfterRun 50 "(@import (m \"m.toy\"))" []
      [("m.toy", "(@var (a 1) (b 2)) (@export a)")] "a" = .ok (some (.int 1)) ∧
    rootBindingAfterRun 50 "(@import (m \"m.toy\"))" []
      [("m.toy", "(@var (a 1) (b 2)) (@export a)")] "b" = .ok (some (.int 2)) ∧
    (run 50 "(@import (m \"m.toy\"))" [] [("m.toy", "(@var (a 1) (b 2)) (@export a)")] >>=
      fun o => pure (o.map fun s => s.frames[1]?)) =
      .ok (some (some ⟨[], some 0⟩)) := by
  decide!

/-! ### Parser: forms that end early -/

/-- C15: a `@seq` or `@async` form that reaches the end of the input before its closing
paren parses with the error flag unset, alone or nested; the other forms set the flag. -/
theorem seq_async_missing_paren_not_flagged :
    (scanAndParse 50 "(@seq 1 2" >>= fun r => pure r.2) = .ok false ∧
    (scanAndParse 50 "(@async 1 2" >>= fun r => pure r.2) = .ok false ∧
    (scanAndParse 50 "(@seq (@async 1 2" >>= fun r => pure r.2) = .ok false ∧
    (scanAndParse 50 "(@list 1 2" >>= fun r => pure r.2) = .ok true ∧
    (scanAndParse 50 "(@chain 1 2" >>= fun r => pure r.2) = .ok true ∧
    (scanAndParse 50 "(f 1 2" >>= fun r => pure r.2) = .ok true ∧
    (scanAndParse 50 "(@var (a 1)" >>= fun r => pure r.2) = .ok true ∧
    (scanAndParse 50 "(@func (a) (a)" >>= fun r => pure r.2) = .ok true ∧
    (scanAndParse 50 "(@hash (\"a\" 1)" >>= fun r => pure r.2) = .ok true ∧
    (scanAndParse 50 "(@match 1 (@when 1 2)" >>= fun r => pure r.2) = .ok true := by
  decide!

/-- C17: at the repeated name the `@var` rule (likewise the `@import` rule) returns its
malformed node at once, in the middle of the form, and the tokens left, `(b 3) )`, are read
as further top-level statements: the program has three top-level nodes. -/
theorem var_duplicate_leaves_form_unfinished :
    (scanAndParse 50 "(@var (a 1) (a 2) (b 3))" >>=
      fun r => pure (r.2, r.1.Body.map Node.Type_)) =
      .ok (true, ["MalformedExpression", "CallExpression", "MalformedExpression"]) ∧
    (scanAndParse 50 "(@import (a \"x\") (a \"y\") (b \"z\"))" >>=
      fun r => pure (r.2, r.1.Body.map Node.Type_)) =
      .ok (true, ["MalformedExpression", "CallExpression", "MalformedExpression"]) ∧
    (scanAndParse 50 "(@hash (\"a\" 1) (\"a\" 2) (\"b\" 3))" >>=
      fun r => pure (r.2, r.1.Body.map Node.Type_)) = .ok (true, ["HashLiteral"]) := by
  decide!

/-! ### Parser: single rules -/

theorem parse_eq_parseWith (fuel : Nat) (tokens : List Token) :
    parse fuel tokens = parseWith fuel fuel tokens := rfl

theorem toyParser.peek_at (toks : List Token) (c : Nat) (t : Token) (h : toks[c]? = some t) :
    toyParser.peek ⟨toks, c⟩ = .ok t := by
  simp [toyParser.peek, h]

theorem toyParser.advance_at (toks : List Token) (c : Nat) (t : Token)
    (h : toks[c]? = some t) : toyParser.advance ⟨toks, c⟩ = .ok (t, ⟨toks, c + 1⟩) := by
  simp [toyParser.advance, toyParser.peek_at toks c t h]

theorem toyParser.check_at (toks : List Token) (c : Nat) (t : Token) (ty : TokenType)
    (h : toks[c]? = some t) (hty : ty ≠ TOKEN_EOF) :
    toyParser.check ⟨toks, c⟩ ty = (t.Type_ == ty) := by
  by_cases he : t.Type_ = TOKEN_EOF
  · have : (t.Type_ == ty) = false := by
      rw [he]; simpa using Ne.symm hty
    simp [toyParser.check, toyParser.done, h, he, Ne.symm hty]
  · simp [toyParser.check, toyParser.done, h, he]

theorem toyParser.consume_at (toks : List Token) (c : Nat) (t : Token) (ty : TokenType)
    (msg : String) (h : toks[c]? = some t) (hty : t.Type_ = ty) :
    toyParser.consume ⟨toks, c⟩ ty msg = .ok (t, none, ⟨toks, c + 1⟩) := by
  simp [toyParser.consume, toyParser.advance_at toks c t h, hty]

/-- C19: `referenceExpression` fixes the reference kind from the tokens at the position
alone. A builtin token or one of `=`, `<`, `>` yields a builtin reference named by its
lexeme; an identifier followed by a dot and an identifier yields the imported reference
`a.b`; an identifier not followed by a dot yields a declared reference; every other token
yields a malformed node that carries the token, with the error flag set. -/
theorem reference_kind_by_written_form (toks : List Token) (c : Nat) (t : Token)
    (h : toks[c]? = some t) :
    ((t.Type_ = TOKEN_BUILTIN ∨ t.Type_ = TOKEN_EQUAL ∨ t.Type_ = TOKEN_LESS ∨
        t.Type_ = TOKEN_MORE) →
      toyParser.referenceExpression ⟨toks, c⟩ =
        .ok (.ReferenceExpression t.Lexeme REF_TYPE_BUILTIN, false, ⟨toks, c + 1⟩)) ∧
    (t.Type_ = TOKEN_IDENTIFIER → ∀ d b, toks[c + 1]? = some d → d.Type_ = TOKEN_DOT →
        toks[c + 2]? = some b → b.Type_ = TOKEN_IDENTIFIER →
      toyParser.referenceExpression ⟨toks, c⟩ =
        .ok (.ReferenceExpression (t.Lexeme ++ "." ++ b.Lexeme) REF_TYPE_IMPORTED, false,
          ⟨toks, c + 3⟩)) ∧
    (t.Type_ = TOKEN_IDENTIFIER → (∀ d, toks[c + 1]? = some d → d.Type_ ≠ TOKEN_DOT) →
      toyParser.referenceExpression ⟨toks, c⟩ =
        .ok (.ReferenceExpression t.Lexeme REF_TYPE_DECLARED, false, ⟨toks, c + 1⟩)) ∧
    (t.Type_ ≠ TOKEN_IDENTIFIER → t.Type_ ≠ TOKEN_BUILTIN → t.Type_ ≠ TOKEN_EQUAL →
        t.Type_ ≠ TOKEN_LESS → t.Type_ ≠ TOKEN_MORE →
      toyParser.referenceExpression ⟨toks, c⟩ =
        .ok (malformedToken t "unexpected token in reference", true, ⟨toks, c + 1⟩)) := by
  refine ⟨?_, ?_, ?_, ?_⟩
  · intro hty
    simp only [toyParser.referenceExpression, toyParser.advance_at toks c t h, Res.ok_bind]
    rcases hty with hty | hty | hty | hty <;> simp [hty]
  · intro hty d b hd hdt hb hbt
    simp only [toyParser.referenceExpression, toyParser.advance_at toks c t h, Res.ok_bind,
      hty, toyParser.match_, toyParser.check_at toks (c + 1) d TOKEN_DOT hd (by decide), hdt,
      beq_self_eq_true, if_true, toyParser.advance_at toks (c + 1) d hd,
      toyParser.consume_at toks (c + 2) b TOKEN_IDENTIFIER _ hb hbt, Res.pure_eq]
  · intro hty hnodot
    have hcheck : toyParser.check ⟨toks, c + 1⟩ TOKEN_DOT = false := by
      cases hd : toks[c + 1]? with
      | none => simp [toyParser.check, toyParser.done, hd]
      | some d =>
        rw [toyParser.check_at toks (c + 1) d TOKEN_DOT hd (by decide)]
        simpa using hnodot d hd
    simp [toyParser.referenceExpression, toyParser.advance_at toks c t h, hty,
      toyParser.match_, hcheck]
  · intro h1 h2 h3 h4 h5
    simp only [toyParser.referenceExpression, toyParser.advance_at toks c t h, Res.ok_bind]
    cases hty : t.Type_ <;> simp_all

/-- C19, at the tokens of `a.b`. -/
theorem reference_kind_by_written_form_witness :
    toyParser.referenceExpression
      ⟨[⟨TOKEN_IDENTIFIER, "a", .absent, 1⟩, ⟨TOKEN_DOT, ".", .absent, 2⟩,
        ⟨TOKEN_IDENTIFIER, "b", .absent, 3⟩, ⟨TOKEN_EOF, "", .absent, 3⟩], 0⟩ =
      .ok (.ReferenceExpression ("a" ++ "." ++ "b") REF_TYPE_IMPORTED, false,
        ⟨[⟨TOKEN_IDENTIFIER, "a", .absent, 1⟩, ⟨TOKEN_DOT, ".", .absent, 2⟩,
          ⟨TOKEN_IDENTIFIER, "b", .absent, 3⟩, ⟨TOKEN_EOF, "", .absent, 3⟩], 3⟩) :=
  (reference_kind_by_written_form
    [⟨TOKEN_IDENTIFIER, "a", .absent, 1⟩, ⟨TOKEN_DOT, ".", .absent, 2⟩,
      ⟨TOKEN_IDENTIFIER, "b", .absent, 3⟩, ⟨TOKEN_EOF, "", .absent, 3⟩] 0
    ⟨TOKEN_IDENTIFIER, "a", .absent, 1⟩ rfl).2.1 rfl
    ⟨TOKEN_DOT, ".", .absent, 2⟩ ⟨TOKEN_IDENTIFIER, "b", .absent, 3⟩ rfl rfl rfl rfl

theorem toyParser.revert_at (toks : List Token) (c : Nat) (t : Token) (h : toks[c]? = some t) :
    toyParser.revert ⟨toks, c + 1⟩ = .ok (t, ⟨toks, c⟩) := by
  simp [toyParser.revert, toyParser.peek_at toks c t h]

theorem toyParser.done_at (toks : List Token) (c : Nat) (t : Token) (h : toks[c]? = some t) :
    toyParser.done ⟨toks, c⟩ = (t.Type_ == TOKEN_EOF) := by
  simp [toyParser.done, h]

/-- C16 (amended): a `@match` form without `@when` clause is no parse error. For every
condition that the expression rule parses without error at its place behind
`( @match`, when the closing paren follows and the input ends after it, `Parse` returns the
match node with that condition and no clause, and the error flag unset. -/
theorem match_without_clause_is_accepted (toks : List Token) (depth loops : Nat)
    (t0 t1 tclose : Token) (cond : Node) (c : Nat)
    (h0 : toks[0]? = some t0) (ht0 : t0.Type_ = TOKEN_LEFT_PAREN)
    (h1 : toks[1]? = some t1) (ht1 : t1.Type_ = TOKEN_BUILTIN) (hl1 : t1.Lexeme = "@match")
    (hcond : toyParser.expression (depth + 1) ⟨toks, 2⟩ = .ok (cond, false, ⟨toks, c⟩))
    (hclose : toks[c]? = some tclose) (htc : tclose.Type_ = TOKEN_RIGHT_PAREN)
    (hend : toyParser.done ⟨toks, c + 1⟩ = true) :
    parseWith (depth + 2) (loops + 2) toks = .ok (⟨[.MatchExpression cond []]⟩, false) := by
  have hdone0 : toyParser.done ⟨toks, 0⟩ = false := by
    rw [toyParser.done_at toks 0 t0 h0, ht0]; rfl
  have hcheck0 : toyParser.check ⟨toks, 0⟩ TOKEN_LEFT_PAREN = true := by
    rw [toyParser.check_at toks 0 t0 _ h0 (by decide), ht0]; rfl
  have hcheck1 : toyParser.check ⟨toks, 1⟩ TOKEN_BUILTIN = true := by
    rw [toyParser.check_at toks 1 t1 _ h1 (by decide), ht1]; rfl
  have hcheckc : toyParser.check ⟨toks, c⟩ TOKEN_RIGHT_PAREN = true := by
    rw [toyParser.check_at toks c tclose _ hclose (by decide), htc]; rfl
  have hexpr : toyParser.expression (depth + 2) ⟨toks, 0⟩ =
      .ok (.MatchExpression cond [], false, ⟨toks, c + 1⟩) := by
    have e2 : toyParser.expression (depth + 2) =
        toyParser.expressionBody (toyParser.expression (depth + 1)) (depth + 1) := rfl
    rw [e2]
    simp only [toyParser.expressionBody, toyParser.match_, hcheck0,
      if_true, toyParser.advance_at toks 0 t0 h0, toyParser.advance_at toks 1 t1 h1,
      Res.ok_bind, Res.pure_eq, ht1, hl1, toyParser.matchExpression]
    simp only [String.reduceEq, if_false, if_true]
    simp only [hcond, Res.ok_bind, toyParser.whenLoop, hcheckc, Bool.not_true, Bool.false_and,
      Bool.false_eq_true, if_false, Res.pure_eq,
      toyParser.consume_at toks c tclose TOKEN_RIGHT_PAREN _ hclose htc, Option.isSome_none,
      Bool.or_false]
  simp only [parseWith, NewParser, toyParser.programLoop, hdone0, Bool.not_false, if_true,
    toyParser.statement, toyParser.match_, hcheck0, toyParser.advance_at toks 0 t0 h0,
    Res.ok_bind, Res.pure_eq, hcheck1, toyParser.advance_at toks 1 t1 h1, hl1,
    String.reduceEq, if_false, toyParser.revert_at toks 1 t1 h1,
    toyParser.revert_at toks 0 t0 h0, hexpr, hend, Bool.not_true, Bool.false_eq_true,
    List.nil_append, Bool.or_false]

/-- C16, at the tokens of `(@match 1)`. -/
theorem match_without_clause_is_accepted_witness :
    parseWith 3 2
      [⟨TOKEN_LEFT_PAREN, "(", .absent, 1⟩, ⟨TOKEN_BUILTIN, "@match", .absent, 7⟩,
        ⟨TOKEN_NUMBER, "1", .int 1, 9⟩, ⟨TOKEN_RIGHT_PAREN, ")", .absent, 10⟩,
        ⟨TOKEN_EOF, "", .absent, 10⟩] =
      .ok (⟨[.MatchExpression (.NumberLiteral 1) []]⟩, false) :=
  match_without_clause_is_accepted
    [⟨TOKEN_LEFT_PAREN, "(", .absent, 1⟩, ⟨TOKEN_BUILTIN, "@match", .absent, 7⟩,
      ⟨TOKEN_NUMBER, "1", .int 1, 9⟩, ⟨TOKEN_RIGHT_PAREN, ")", .absent, 10⟩,
      ⟨TOKEN_EOF, "", .absent, 10⟩] 1 0
    ⟨TOKEN_LEFT_PAREN, "(", .absent, 1⟩ ⟨TOKEN_BUILTIN, "@match", .absent, 7⟩
    ⟨TOKEN_RIGHT_PAREN, ")", .absent, 10⟩ (.NumberLiteral 1) 3 rfl rfl rfl rfl rfl
    (by decide!) rfl rfl (by decide!)

/-- C16, refuted as stated: `(@match 1)` scans and parses with the error flag unset, to a
match without clause. -/
theorem match_without_clause_not_flagged :
    scanAndParse 50 "(@match 1)" = .ok (⟨[.MatchExpression (.NumberLiteral 1) []]⟩, false) := by
  decide!

/-! ### Parameters without argument -/

theorem St.Chain.append_frame {s : St} {f : Nat} {frs : List frame} (x : frame)
    (h : s.Chain f frs) : St.Chain { s with frames := s.frames ++ [x] } f frs := by
  induction h with
  | root f fr hf hp =>
    refine St.Chain.root f fr ?_ hp
    have hlt := (List.getElem?_eq_some_iff.mp hf).1
    simp only [List.getElem?_append_left hlt]
    exact hf
  | link f p fr rest hf hp _ ih =>
    refine St.Chain.link f p fr rest ?_ hp ih
    have hlt := (List.getElem?_eq_some_iff.mp hf).1
    simp only [List.getElem?_append_left hlt]
    exact hf

theorem map_fst_zip_eq_take (ps : List String) :
    ∀ (a : List Value), (ps.zip a).map Prod.fst = ps.take a.length := by
  induction ps with
  | nil => intro a; simp
  | cons p ps ih =>
    intro a
    cases a with
    | nil => simp
    | cons v a => simp [ih]

/-- C20 (amended): for a closure with the parameters `ps` called with the arguments `as`,
let `k` be a parameter at a position that received no argument, none of the parameters
that did receive one carrying the same name. A reference to `k` in the body is looked up
along the chain of the defining frame: it is a lookup failure when no frame of that chain
binds `k`, and it yields the binding of the innermost frame of the chain that binds `k`
otherwise. -/
theorem parameter_without_argument (i : toyInterpreter) (n : Nat) (ps : List String)
    (as : List Value) (f : Nat) (s : St) (frs : List frame) (k : String) (j : Nat)
    (hch : s.Chain f frs) (_hj : ps[j]? = some k) (_hlen : as.length ≤ j)
    (hfirst : k ∉ ps.take as.length) :
    (innermostBinding frs k = none →
      i.callValue (n + 2) (.func ps [.ReferenceExpression k REF_TYPE_DECLARED] f) as s =
        .panic "failed to resolve ref") ∧
    (∀ v, innermostBinding frs k = some v → (∀ p nd, v ≠ .node p nd) →
      ERes.value (i.callValue (n + 2)
        (.func ps [.ReferenceExpression k REF_TYPE_DECLARED] f) as s) = .ok v) := by
  have hlast : lastBinding (ps.zip as) k = none :=
    lastBinding_eq_none _ _ (by rw [map_fst_zip_eq_take]; exact hfirst)
  have hget : ∀ m, (∀ k', mapGet m k' = lastBinding (ps.zip as) k') →
      St.get { s with frames := s.frames ++ [⟨m, some f⟩] } s.frames.length k =
        .ok (innermostBinding frs k) := by
    intro m hm
    have hch' : St.Chain { s with frames := s.frames ++ [⟨m, some f⟩] } s.frames.length
        (⟨m, some f⟩ :: frs) :=
      St.Chain.link _ f _ frs (by simp) rfl (hch.append_frame _)
    rw [St.get_chain k hch']
    simp [innermostBinding, List.findSome?, hm k, hlast]
  have hcall : i.callValue (n + 2) (.func ps [.ReferenceExpression k REF_TYPE_DECLARED] f)
      as s =
      (toyInterpreter.resolveRef i (i.execNode n) k REF_TYPE_DECLARED s.frames.length
        { s with frames := s.frames ++
          [⟨(ps.zip as).foldl (fun m e => mapSet m e.1 e.2) [], some f⟩] }) := by
    rw [toyInterpreter.callValue_succ]
    simp only [toyInterpreter.callBody, toyInterpreter.callFunc, St.newFrame]
    rw [toyInterpreter.bindParams_last]
    simp only [toyInterpreter.execLast, toyInterpreter.execNode_succ,
      toyInterpreter.execNodeBody]
    cases toyInterpreter.resolveRef i (i.execNode n) k REF_TYPE_DECLARED s.frames.length
        { s with frames := s.frames ++
          [⟨(ps.zip as).foldl (fun m e => mapSet m e.1 e.2) [], some f⟩] } <;> rfl
  have hbind : ∀ k', mapGet ((ps.zip as).foldl (fun m e => mapSet m e.1 e.2) []) k' =
      lastBinding (ps.zip as) k' := by
    intro k'
    rw [mapGet_foldl_mapSet]
    cases lastBinding (ps.zip as) k' <;> simp [mapGet]
  refine ⟨fun hnone => ?_, fun v hv hnode => ?_⟩
  · rw [hcall, toyInterpreter.resolveRef_declared i _ k _ _ none
      (by rw [hget _ hbind, hnone]) (fun p nd h => by simp at h)]
  · rw [hcall, toyInterpreter.resolveRef_declared i _ k _ _ (some v)
      (by rw [hget _ hbind, hv]) (fun p nd h => hnode p nd (Option.some.inj h))]
    rfl

/-- C20, at the closure `(@func (x y) (y))` called with one argument in the root frame of a
fresh interpreter, which does not bind `y`. -/
theorem parameter_without_argument_witness :
    (NewInterpreter [] [] []).1.callValue 2
        (.func ["x", "y"] [.ReferenceExpression "y" REF_TYPE_DECLARED] 0) [.int 1]
        (NewInterpreter [] [] []).2 = .panic "failed to resolve ref" :=
  (parameter_without_argument (NewInterpreter [] [] []).1 0 ["x", "y"] [.int 1] 0
    (NewInterpreter [] [] []).2 [⟨builtinBindings, none⟩] "y" 1
    (St.Chain.root 0 _ rfl rfl) rfl (by decide) (by decide)).1 (by decide!)

/-- C20, refuted as stated: the closure `(@func (x) (x))` defined in a root frame that binds
`x` to 7 and called without argument returns 7; the lookup of the parameter that received
no argument goes on to the defining frame. -/
theorem parameter_without_argument_resolves_outside :
    ERes.value ((NewInterpreter [("x", .int 7)] [] []).1.callValue 3
        (.func ["x"] [.ReferenceExpression "x" REF_TYPE_DECLARED] 0) []
        (NewInterpreter [("x", .int 7)] [] []).2) = .ok (.int 7) ∧
    rootBindingAfterRun 50 "(@var (x 7)) (@var (f (@func (x) (x)))) (@var (y (f)))" [] []
      "y" = .ok (some (.int 7)) := by
  decide!

/-! ### Hash literals with a repeated key -/

theorem mapHas_mapSet {β : Type} (m : List (String × β)) (k k' : String) (v : β) :
    mapHas (mapSet m k v) k' = ((k == k') || mapHas m k') := by
  induction m with
  | nil => simp [mapSet, mapHas]
  | cons e rest ih =>
    by_cases he : e.1 = k
    · by_cases hk : k = k'
      · simp [mapSet, mapHas, he, hk]
      · simp [mapSet, mapHas, he, hk]
    · have ih' := ih
      simp only [mapHas] at ih'
      simp only [mapSet, he, beq_iff_eq, if_false, mapHas, List.any_cons, ih']
      exact Bool.or_left_comm _ _ _

theorem keys_mapSet_nodup {β : Type} (m : List (String × β)) (k : String) (v : β)
    (h : (m.map Prod.fst).Nodup) : ((mapSet m k v).map Prod.fst).Nodup := by
  induction m with
  | nil => simp [mapSet]
  | cons e rest ih =>
    simp only [List.map, List.nodup_cons] at h
    by_cases he : e.1 = k
    · simp only [mapSet, he, beq_self_eq_true, if_true, List.map, List.nodup_cons]
      exact ⟨he ▸ h.1, h.2⟩
    · simp only [mapSet, he, beq_iff_eq, if_false, List.map, List.nodup_cons]
      refine ⟨?_, ih h.2⟩
      intro hmem
      obtain ⟨x, hx, hx1⟩ := List.mem_map.mp hmem
      have hhas : mapHas (mapSet rest k v) e.1 = true := by
        simp only [mapHas, List.any_eq_true, beq_iff_eq]
        exact ⟨x, hx, hx1⟩
      rw [mapHas_mapSet] at hhas
      simp only [Bool.or_eq_true, beq_iff_eq] at hhas
      rcases hhas with hh | hh
      · exact he hh.symm
      · simp only [mapHas, List.any_eq_true, beq_iff_eq] at hh
        obtain ⟨y, hy, hy1⟩ := hh
        exact h.1 (List.mem_map.mpr ⟨y, hy, hy1⟩)

theorem keys_foldl_mapSet_nodup {β : Type} (l : List (String × β)) :
    ∀ (m : List (String × β)), (m.map Prod.fst).Nodup →
      ((l.foldl (fun m e => mapSet m e.1 e.2) m).map Prod.fst).Nodup := by
  induction l with
  | nil => intro m h; exact h
  | cons e rest ih => intro m h; exact ih _ (keys_mapSet_nodup m e.1 e.2 h)

theorem mapGet_foldl_lastWrite {β : Type} (l : List (String × β)) :
    ∀ (m : List (String × β)) (k : String),
      mapGet (l.foldl (fun m e => mapSet m e.1 e.2) m) k =
        match lastWrite l k with
        | some w => some w
        | none => mapGet m k := by
  induction l with
  | nil => intro m k; simp [lastWrite]
  | cons e rest ih =>
    intro m k
    obtain ⟨k', v⟩ := e
    simp only [List.foldl, lastWrite, ih, mapGet_mapSet]
    cases lastWrite rest k with
    | some w => rfl
    | none => by_cases h : k' = k <;> simp [h]

theorem repeatsKey_of_present {β : Type} (l : List (String × β)) :
    ∀ (store : List (String × β)) (k : String), k ∈ l.map Prod.fst → mapHas store k = true →
      repeatsKey store l = true := by
  induction l with
  | nil => intro store k hk; simp at hk
  | cons e rest ih =>
    intro store k hk hhas
    obtain ⟨k1, v1⟩ := e
    simp only [repeatsKey, Bool.or_eq_true]
    by_cases h1 : mapHas store k1 = true
    · exact Or.inl h1
    · right
      have hne : k1 ≠ k := fun e => h1 (e ▸ hhas)
      have hk' : k ∈ rest.map Prod.fst := by
        simp only [List.map, List.mem_cons] at hk
        exact hk.resolve_left (fun e => hne e.symm)
      exact ih _ k hk' (by rw [mapHas_mapSet]; simp [hhas])

theorem repeatsKey_of_not_nodup {β : Type} (l : List (String × β)) :
    ∀ (store : List (String × β)), ¬ (l.map Prod.fst).Nodup → repeatsKey store l = true := by
  induction l with
  | nil => intro store h; simp at h
  | cons e rest ih =>
    intro store h
    obtain ⟨k1, v1⟩ := e
    simp only [List.map, List.nodup_cons, not_and_or, not_not] at h
    simp only [repeatsKey, Bool.or_eq_true]
    right
    rcases h with h | h
    · exact repeatsKey_of_present rest _ k1 h (by rw [mapHas_mapSet]; simp)
    · exact ih _ h

theorem getElem?_append_add {α : Type} (pre suf : List α) (i : Nat) :
    (pre ++ suf)[pre.length + i]? = suf[i]? := by
  rw [List.getElem?_append_right (by omega)]
  congr 1
  omega

theorem toyParser.hashLoop_pairs (depth : Nat) (tclose : Token) (tail : List Token)
    (htc : tclose.Type_ = TOKEN_RIGHT_PAREN) :
    ∀ (pairs : List PairTokens) (toks pre : List Token) (store : List (String × Node))
      (flag : Bool) (fuel : Nat),
      toks = pre ++ ((pairs.map PairTokens.tokens).flatten ++ tclose :: tail) →
      (∀ e ∈ pairs, e.wellFormed = true) →
      valuesParse (toyParser.expression (depth + 1)) toks pre.length pairs →
      pairs.length < fuel →
      ∃ flag', toyParser.hashLoop (toyParser.expression (depth + 1)) fuel ⟨toks, pre.length⟩
          store flag =
        .ok (.inr ((pairs.map PairTokens.entry).foldl (fun m e => mapSet m e.1 e.2) store,
            flag || repeatsKey store (pairs.map PairTokens.entry) || flag'),
          ⟨toks, pre.length + ((pairs.map PairTokens.tokens).flatten).length⟩) := by
  intro pairs
  induction pairs with
  | nil =>
    intro toks pre store flag fuel htoks _ _ hfuel
    obtain ⟨f, rfl⟩ : ∃ f, fuel = f + 1 := ⟨fuel - 1, by simp at hfuel; omega⟩
    have h0 : toks[pre.length]? = some tclose := by
      have := getElem?_append_add pre (tclose :: tail) 0
      subst htoks
      simpa using this
    have hcheck : toyParser.check ⟨toks, pre.length⟩ TOKEN_RIGHT_PAREN = true := by
      rw [toyParser.check_at toks _ tclose _ h0 (by decide), htc]; rfl
    exact ⟨false, by simp [toyParser.hashLoop, hcheck, repeatsKey]⟩
  | cons e rest ih =>
    intro toks pre store flag fuel htoks hwf hvals hfuel
    obtain ⟨f, rfl⟩ : ∃ f, fuel = f + 1 := ⟨fuel - 1, by simp at hfuel; omega⟩
    have hf : rest.length < f := by simpa using hfuel
    have hwe := hwf e (List.mem_cons_self _ _)
    simp only [PairTokens.wellFormed, Bool.and_eq_true, beq_iff_eq] at hwe
    obtain ⟨⟨hlp, hkey⟩, hrp⟩ := hwe
    obtain ⟨hval, hrest⟩ := hvals
    have h0 : toks[pre.length]? = some e.lparen := by
      have h := getElem?_append_add pre
        (e.tokens ++ ((rest.map PairTokens.tokens).flatten ++ tclose :: tail)) 0
      rw [htoks]
      simpa [PairTokens.tokens] using h
    have h1 : toks[pre.length + 1]? = some e.key := by
      have h := getElem?_append_add pre
        (e.tokens ++ ((rest.map PairTokens.tokens).flatten ++ tclose :: tail)) 1
      rw [htoks]
      simpa [PairTokens.tokens] using h
    have h3 : toks[pre.length + 2 + e.value.length]? = some e.rparen := by
      have h := getElem?_append_add (pre ++ e.lparen :: e.key :: e.value)
        (e.rparen :: ((rest.map PairTokens.tokens).flatten ++ tclose :: tail)) 0
      have hl : (pre ++ e.lparen :: e.key :: e.value).length =
          pre.length + 2 + e.value.length := by simp; omega
      rw [hl] at h
      have e' : toks = (pre ++ e.lparen :: e.key :: e.value) ++
          (e.rparen :: ((rest.map PairTokens.tokens).flatten ++ tclose :: tail)) := by
        rw [htoks]; simp [PairTokens.tokens]
      rw [e']
      exact h.trans (by simp)
    have hcheck : toyParser.check ⟨toks, pre.length⟩ TOKEN_RIGHT_PAREN = false := by
      rw [toyParser.check_at toks _ e.lparen _ h0 (by decide), hlp]; rfl
    have hdone : toyParser.done ⟨toks, pre.length⟩ = false := by
      rw [toyParser.done_at toks _ e.lparen h0, hlp]; rfl
    have htoks' : toks = (pre ++ e.tokens) ++
        ((rest.map PairTokens.tokens).flatten ++ tclose :: tail) := by
      rw [htoks]; simp
    have hlen : (pre ++ e.tokens).length = pre.length + 2 + e.value.length + 1 := by
      simp [PairTokens.tokens]; omega
    have hlen' : (pre ++ e.tokens).length = pre.length + e.tokens.length := by simp
    obtain ⟨flag', hih⟩ := ih toks (pre ++ e.tokens) (mapSet store e.key.Lexeme e.node)
      (flag || e.flagged || mapHas store e.key.Lexeme || false) f htoks'
      (fun x hx => hwf x (List.mem_cons_of_mem _ hx)) (by rw [hlen']; exact hrest) hf
    rw [hlen] at hih
    refine ⟨e.flagged || flag', ?_⟩
    simp only [toyParser.hashLoop, hcheck, hdone, Bool.not_false, Bool.and_self, if_true,
      toyParser.consume_at toks _ e.lparen TOKEN_LEFT_PAREN _ h0 hlp, Res.ok_bind,
      toyParser.consume_at toks _ e.key TOKEN_STRING _ h1 hkey, hval,
      toyParser.consume_at toks _ e.rparen TOKEN_RIGHT_PAREN _ h3 hrp, Option.isSome_none, hih]
    simp only [List.map, List.foldl, repeatsKey, PairTokens.entry, List.flatten,
      List.length_append, Res.ok.injEq, Prod.mk.injEq, Sum.inr.injEq, true_and,
      toyParser.mk.injEq]
    refine ⟨?_, ?_⟩
    · generalize repeatsKey (mapSet store e.key.Lexeme e.node) _ = r
      generalize mapHas store e.key.Lexeme = m
      generalize e.flagged = g
      cases flag <;> cases g <;> cases m <;> cases r <;> cases flag' <;> rfl
    · simp [PairTokens.tokens]; omega

/-- C18: for every hash literal whose pairs each have a string key and a value that the
rule for expressions parses, and of which two pairs have the same key, `Parse` returns the
error flag set and a `HashLiteral` node; its map has one entry per distinct key, and every
key maps to the value of the last pair written with that key. -/
theorem hash_repeated_key_last_write_wins (t0 t1 tclose : Token) (pairs : List PairTokens)
    (tail : List Token) (depth loops : Nat)
    (ht0 : t0.Type_ = TOKEN_LEFT_PAREN) (ht1 : t1.Type_ = TOKEN_BUILTIN)
    (hl1 : t1.Lexeme = "@hash") (hwf : ∀ e ∈ pairs, e.wellFormed = true)
    (hvals : valuesParse (toyParser.expression (depth + 1))
      (t0 :: t1 :: ((pairs.map PairTokens.tokens).flatten ++ tclose :: tail)) 2 pairs)
    (htc : tclose.Type_ = TOKEN_RIGHT_PAREN)
    (htail : ∀ x, tail.head? = some x → x.Type_ = TOKEN_EOF)
    (hdepth : pairs.length ≤ depth)
    (hrep : ¬ (pairs.map fun e => e.key.Lexeme).Nodup) :
    ∃ store, parseWith (depth + 2) (loops + 2)
        (t0 :: t1 :: ((pairs.map PairTokens.tokens).flatten ++ tclose :: tail)) =
        .ok (⟨[.HashLiteral store]⟩, true) ∧
      (store.map Prod.fst).Nodup ∧
      ∀ k, mapGet store k = lastWrite (pairs.map PairTokens.entry) k := by
  refine ⟨(pairs.map PairTokens.entry).foldl (fun m e => mapSet m e.1 e.2) [], ?_,
    keys_foldl_mapSet_nodup _ [] (by simp), ?_⟩
  · generalize htoks : t0 :: t1 :: ((pairs.map PairTokens.tokens).flatten ++ tclose :: tail) =
      toks at hvals
    generalize hn : ((pairs.map PairTokens.tokens).flatten).length = n
    have h0 : toks[0]? = some t0 := by subst htoks; rfl
    have h1 : toks[1]? = some t1 := by subst htoks; simp
    obtain ⟨flag', hloop⟩ := toyParser.hashLoop_pairs depth tclose tail htc pairs toks
      [t0, t1] [] false (depth + 1) (by subst htoks; rfl) hwf hvals (by omega)
    have hflag : repeatsKey [] (pairs.map PairTokens.entry) = true :=
      repeatsKey_of_not_nodup _ [] (by
        simpa [List.map_map, Function.comp, PairTokens.entry] using hrep)
    rw [hn] at hloop
    have hc : toks[2 + n]? = some tclose := by
      have h := getElem?_append_add ([t0, t1] ++ (pairs.map PairTokens.tokens).flatten)
        (tclose :: tail) 0
      have hl : ([t0, t1] ++ (pairs.map PairTokens.tokens).flatten).length = 2 + n := by
        simp [hn]; omega
      rw [hl] at h
      have e : toks = ([t0, t1] ++ (pairs.map PairTokens.tokens).flatten) ++
          (tclose :: tail) := by subst htoks; simp
      rw [e]
      exact h.trans (by simp)
    have hend : toyParser.done ⟨toks, 2 + n + 1⟩ = true := by
      have h := getElem?_append_add
        ([t0, t1] ++ (pairs.map PairTokens.tokens).flatten ++ [tclose]) tail 0
      have hl : ([t0, t1] ++ (pairs.map PairTokens.tokens).flatten ++ [tclose]).length =
          2 + n + 1 := by simp [hn]; omega
      rw [hl] at h
      have e : toks = ([t0, t1] ++ (pairs.map PairTokens.tokens).flatten ++ [tclose]) ++
          tail := by subst htoks; simp
      have hidx : toks[2 + n + 1]? = tail.head? := by
        rw [List.head?_eq_getElem?, e]
        exact h
      simp only [toyParser.done, hidx]
      cases htl : tail.head? with
      | none => rfl
      | some x => simp [htail x htl]
    have hdone0 : toyParser.done ⟨toks, 0⟩ = false := by
      rw [toyParser.done_at toks 0 t0 h0, ht0]; rfl
    have hcheck0 : toyParser.check ⟨toks, 0⟩ TOKEN_LEFT_PAREN = true := by
      rw [toyParser.check_at toks 0 t0 _ h0 (by decide), ht0]; rfl
    have hcheck1 : toyParser.check ⟨toks, 1⟩ TOKEN_BUILTIN = true := by
      rw [toyParser.check_at toks 1 t1 _ h1 (by decide), ht1]; rfl
    have hexpr : toyParser.expression (depth + 2) ⟨toks, 0⟩ =
        .ok (.HashLiteral ((pairs.map PairTokens.entry).foldl
          (fun m e => mapSet m e.1 e.2) []), true, ⟨toks, 2 + n + 1⟩) := by
      have e2 : toyParser.expression (depth + 2) =
          toyParser.expressionBody (toyParser.expression (depth + 1)) (depth + 1) := rfl
      rw [e2]
      simp only [toyParser.expressionBody, toyParser.match_, hcheck0,
        if_true, toyParser.advance_at toks 0 t0 h0, toyParser.advance_at toks 1 t1 h1,
        Res.ok_bind, Res.pure_eq, ht1, hl1, toyParser.hashLiteral]
      simp only [String.reduceEq, if_false, if_true]
      have hloop' : toyParser.hashLoop (toyParser.expression (depth + 1)) (depth + 1)
          ⟨toks, 1 + 1⟩ [] false = _ := hloop
      simp only [hloop', Res.ok_bind, List.length_cons, List.length_nil, Nat.zero_add,
        Nat.reduceAdd, toyParser.consume_at toks _ tclose TOKEN_RIGHT_PAREN _ hc htc, hflag,
        Bool.or_true, Bool.true_or]
    simp only [parseWith, NewParser, toyParser.programLoop, hdone0, Bool.not_false, if_true,
      toyParser.statement, toyParser.match_, hcheck0, toyParser.advance_at toks 0 t0 h0,
      Res.ok_bind, Res.pure_eq, hcheck1, toyParser.advance_at toks 1 t1 h1, hl1,
      String.reduceEq, if_false, toyParser.revert_at toks 1 t1 h1,
      toyParser.revert_at toks 0 t0 h0, hexpr, hend, Bool.not_true, Bool.false_eq_true,
      List.nil_append, Bool.false_or]
  · intro k
    rw [mapGet_foldl_lastWrite]
    cases lastWrite (pairs.map PairTokens.entry) k <;> simp [mapGet]

/-- C18, at the tokens of `(@hash ("k" 1) ("k" 2))`: the flag is set and the one entry
left for `k` is the value `2`. -/
theorem hash_repeated_key_last_write_wins_witness :
    ∃ store, parseWith 4 2
        [⟨TOKEN_LEFT_PAREN, "(", .absent, 1⟩, ⟨TOKEN_BUILTIN, "@hash", .absent, 6⟩,
          ⟨TOKEN_LEFT_PAREN, "(", .absent, 8⟩, ⟨TOKEN_STRING, "k", .absent, 11⟩,
          ⟨TOKEN_NUMBER, "1", .int 1, 13⟩, ⟨TOKEN_RIGHT_PAREN, ")", .absent, 14⟩,
          ⟨TOKEN_LEFT_PAREN, "(", .absent, 16⟩, ⟨TOKEN_STRING, "k", .absent, 19⟩,
          ⟨TOKEN_NUMBER, "2", .int 2, 21⟩, ⟨TOKEN_RIGHT_PAREN, ")", .absent, 22⟩,
          ⟨TOKEN_RIGHT_PAREN, ")", .absent, 23⟩, ⟨TOKEN_EOF, "", .absent, 23⟩] =
        .ok (⟨[.HashLiteral store]⟩, true) ∧
      (store.map Prod.fst).Nodup ∧
      ∀ k, mapGet store k =
        lastWrite [("k", Node.NumberLiteral 1), ("k", Node.NumberLiteral 2)] k :=
  hash_repeated_key_last_write_wins
    ⟨TOKEN_LEFT_PAREN, "(", .absent, 1⟩ ⟨TOKEN_BUILTIN, "@hash", .absent, 6⟩
    ⟨TOKEN_RIGHT_PAREN, ")", .absent, 23⟩
    [⟨⟨TOKEN_LEFT_PAREN, "(", .absent, 8⟩, ⟨TOKEN_STRING, "k", .absent, 11⟩,
        [⟨TOKEN_NUMBER, "1", .int 1, 13⟩], ⟨TOKEN_RIGHT_PAREN, ")", .absent, 14⟩,
        .NumberLiteral 1, false⟩,
      ⟨⟨TOKEN_LEFT_PAREN, "(", .absent, 16⟩, ⟨TOKEN_STRING, "k", .absent, 19⟩,
        [⟨TOKEN_NUMBER, "2", .int 2, 21⟩], ⟨TOKEN_RIGHT_PAREN, ")", .absent, 22⟩,
        .NumberLiteral 2, false⟩]
    [⟨TOKEN_EOF, "", .absent, 23⟩] 2 0 rfl rfl rfl (by decide!)
    ⟨by decide!, by decide!, trivial⟩ rfl
    (by intro x hx; cases hx; rfl) (by decide) (by decide)

/-! ### Statement-level recovery -/

theorem Res.Rel.bind {α β γ δ : Type} {R : α → β → Prop} {S : γ → δ → Prop}
    {m : Res α} {m' : Res β} {f : α → Res γ} {f' : β → Res δ}
    (h : Res.Rel R m m') (hf : ∀ a b, R a b → Res.Rel S (f a) (f' b)) :
    Res.Rel S (m >>= f) (m' >>= f') := by
  cases m <;> cases m' <;> simp [Res.Rel] at h ⊢
  · exact hf _ _ h
  · exact h

theorem Res.Rel.pure {α β : Type} {R : α → β → Prop} {a : α} {b : β} (h : R a b) :
    Res.Rel R (Pure.pure a) (Pure.pure b) := h

theorem Res.Rel.ok {α β : Type} {R : α → β → Prop} {a : α} {b : β} (h : R a b) :
    Res.Rel R (Res.ok a) (Res.ok b) := h

theorem Res.Rel.eq {α : Type} {m m' : Res α} (h : Res.Rel Eq m m') : m = m' := by
  cases m <;> cases m' <;> simp [Res.Rel] at h ⊢
  · exact h
  · exact h

theorem Res.Rel.refl {α : Type} (m : Res α) : Res.Rel Eq m m := by
  cases m <;> simp [Res.Rel]

theorem toyParser.done_shift (t : Token) (toks : List Token) (c : Nat) :
    toyParser.done ⟨t :: toks, c + 1⟩ = toyParser.done ⟨toks, c⟩ := by
  simp [toyParser.done]

theorem toyParser.check_shift (t : Token) (toks : List Token) (c : Nat) (ty : TokenType) :
    toyParser.check ⟨t :: toks, c + 1⟩ ty = toyParser.check ⟨toks, c⟩ ty := by
  simp [toyParser.check, toyParser.done]

theorem toyParser.peek_shift (t : Token) (toks : List Token) (hne : toks ≠ []) (c : Nat) :
    toyParser.peek ⟨t :: toks, c + 1⟩ = toyParser.peek ⟨toks, c⟩ := by
  cases toks with
  | nil => exact absurd rfl hne
  | cons x xs => simp [toyParser.peek, List.getLast?_cons_cons]

theorem toyParser.peek_ok (toks : List Token) (hne : toks ≠ []) (c : Nat) :
    ∃ x, toyParser.peek ⟨toks, c⟩ = .ok x := by
  unfold toyParser.peek
  cases h : toks[c]? with
  | some x => exact ⟨x, rfl⟩
  | none =>
    cases h' : toks.getLast? with
    | some x => exact ⟨x, by simp [h']⟩
    | none => exact absurd (List.getLast?_eq_none_iff.mp h') hne

theorem toyParser.advance_shift (t : Token) (toks : List Token) (hne : toks ≠ []) (c : Nat) :
    ∃ x, toyParser.advance ⟨t :: toks, c + 1⟩ = .ok (x, ⟨t :: toks, c + 1 + 1⟩) ∧
      toyParser.advance ⟨toks, c⟩ = .ok (x, ⟨toks, c + 1⟩) ∧
      toyParser.revert ⟨t :: toks, c + 1 + 1⟩ = .ok (x, ⟨t :: toks, c + 1⟩) ∧
      toyParser.revert ⟨toks, c + 1⟩ = .ok (x, ⟨toks, c⟩) ∧
      toyParser.peek ⟨t :: toks, c + 1⟩ = .ok x ∧ toyParser.peek ⟨toks, c⟩ = .ok x := by
  obtain ⟨x, hx⟩ := toyParser.peek_ok toks hne c
  have hx' := (toyParser.peek_shift t toks hne c).trans hx
  exact ⟨x, by simp [toyParser.advance, hx'], by simp [toyParser.advance, hx],
    by simp [toyParser.revert, hx'], by simp [toyParser.revert, hx], hx', hx⟩

theorem toyParser.advance_rel (t : Token) (toks : List Token) (hne : toks ≠ []) (c : Nat) :
    Res.Rel (Shifted2 t toks) (toyParser.advance ⟨t :: toks, c + 1⟩)
      (toyParser.advance ⟨toks, c⟩) := by
  obtain ⟨x, h1, h2, -⟩ := toyParser.advance_shift t toks hne c
  rw [h1, h2]
  exact ⟨rfl, c + 1, rfl, rfl⟩

theorem toyParser.match_rel (t : Token) (toks : List Token) (hne : toks ≠ []) (c : Nat)
    (ty : TokenType) :
    Res.Rel (Shifted2 t toks) (toyParser.match_ ⟨t :: toks, c + 1⟩ ty)
      (toyParser.match_ ⟨toks, c⟩ ty) := by
  obtain ⟨x, h1, h2, -⟩ := toyParser.advance_shift t toks hne c
  simp only [toyParser.match_, toyParser.check_shift, h1, h2]
  cases toyParser.check ⟨toks, c⟩ ty
  · exact ⟨rfl, c, rfl, rfl⟩
  · exact ⟨rfl, c + 1, rfl, rfl⟩

theorem toyParser.consume_rel (t : Token) (toks : List Token) (hne : toks ≠ []) (c : Nat)
    (ty : TokenType) (err : String) :
    Res.Rel (Shifted3 t toks) (toyParser.consume ⟨t :: toks, c + 1⟩ ty err)
      (toyParser.consume ⟨toks, c⟩ ty err) := by
  obtain ⟨x, h1, h2, -⟩ := toyParser.advance_shift t toks hne c
  simp only [toyParser.consume, h1, h2, Res.ok_bind]
  cases x.Type_ == ty
  · exact ⟨rfl, rfl, c + 1, rfl, rfl⟩
  · exact ⟨rfl, rfl, c + 1, rfl, rfl⟩

theorem Res.Rel.bind2 {t : Token} {toks : List Token} {α γ δ : Type} {S : γ → δ → Prop}
    {m' m : Res (α × toyParser)} {f' : α × toyParser → Res γ} {f : α × toyParser → Res δ}
    (h : Res.Rel (Shifted2 t toks) m' m)
    (hf : ∀ a c, Res.Rel S (f' (a, ⟨t :: toks, c + 1⟩)) (f (a, ⟨toks, c⟩))) :
    Res.Rel S (m' >>= f') (m >>= f) := by
  refine Res.Rel.bind h ?_
  rintro ⟨a', q'⟩ ⟨a, q⟩ ⟨ha, c, hq', hq⟩
  dsimp only at ha hq' hq
  subst ha hq' hq
  exact hf _ _

theorem Res.Rel.bind3 {t : Token} {toks : List Token} {α β γ δ : Type} {S : γ → δ → Prop}
    {m' m : Res (α × β × toyParser)} {f' : α × β × toyParser → Res γ}
    {f : α × β × toyParser → Res δ}
    (h : Res.Rel (Shifted3 t toks) m' m)
    (hf : ∀ a b c, Res.Rel S (f' (a, b, ⟨t :: toks, c + 1⟩)) (f (a, b, ⟨toks, c⟩))) :
    Res.Rel S (m' >>= f') (m >>= f) := by
  refine Res.Rel.bind h ?_
  rintro ⟨a', b', q'⟩ ⟨a, b, q⟩ ⟨ha, hb, c, hq', hq⟩
  dsimp only at ha hb hq' hq
  subst ha hb hq' hq
  exact hf _ _ _

theorem shifted3_ok {t : Token} {toks : List Token} {α β : Type} (a : α) (b : β) (c : Nat) :
    Res.Rel (Shifted3 t toks) (.ok (a, b, (⟨t :: toks, c + 1⟩ : toyParser)))
      (.ok (a, b, ⟨toks, c⟩)) :=
  ⟨rfl, rfl, c, rfl, rfl⟩

theorem shifted2_ok {t : Token} {toks : List Token} {α : Type} (a : α) (c : Nat) :
    Res.Rel (Shifted2 t toks) (.ok (a, (⟨t :: toks, c + 1⟩ : toyParser)))
      (.ok (a, ⟨toks, c⟩)) :=
  ⟨rfl, c, rfl, rfl⟩

theorem toyParser.referenceExpression_rel (t : Token) (toks : List Token) (hne : toks ≠ []) :
    ShiftRule t toks toyParser.referenceExpression := by
  intro c
  obtain ⟨x, h1, h2, -⟩ := toyParser.advance_shift t toks hne c
  simp only [toyParser.referenceExpression, h1, h2, Res.ok_bind]
  cases hty : x.Type_
  case TOKEN_IDENTIFIER =>
    dsimp only
    refine Res.Rel.bind2 (toyParser.match_rel t toks hne (c + 1) TOKEN_DOT) fun b c' => ?_
    cases b
    · exact shifted3_ok _ _ _
    · dsimp only
      simp only [if_true]
      refine Res.Rel.bind3 (toyParser.consume_rel t toks hne c' _ _) fun a e c2 => ?_
      cases e <;> exact shifted3_ok _ _ _
  all_goals exact shifted3_ok _ _ _

theorem toyParser.simpleLiteral_rel (t : Token) (toks : List Token) (hne : toks ≠ []) :
    ShiftRule t toks toyParser.simpleLiteral := by
  intro c
  obtain ⟨x, h1, h2, h3, h4, -⟩ := toyParser.advance_shift t toks hne c
  obtain ⟨y, -, -, -, -, h5, h6⟩ := toyParser.advance_shift t toks hne (c + 1)
  simp only [toyParser.simpleLiteral, h1, h2, Res.ok_bind]
  cases hty : x.Type_
  case TOKEN_IDENTIFIER =>
    dsimp only
    rw [h3, h4]
    exact toyParser.referenceExpression_rel t toks hne c
  case TOKEN_NUMBER =>
    dsimp only
    cases atoi x.Lexeme <;> exact shifted3_ok _ _ _
  case TOKEN_BOOLEAN =>
    dsimp only
    cases x.Literal
    case bool b => exact shifted3_ok _ _ _
    all_goals exact rfl
  case TOKEN_STRING => exact shifted3_ok _ _ _
  all_goals
    dsimp only
    rw [h5, h6]
    exact shifted3_ok _ _ _

theorem toyParser.importLoop_rel (t : Token) (toks : List Token) (hne : toks ≠ []) :
    ∀ fuel c imports, Res.Rel (Shifted2 t toks)
      (toyParser.importLoop fuel ⟨t :: toks, c + 1⟩ imports)
      (toyParser.importLoop fuel ⟨toks, c⟩ imports) := by
  intro fuel
  induction fuel with
  | zero => intro c imports; exact trivial
  | succ n ih =>
    intro c imports
    simp only [toyParser.importLoop, toyParser.check_shift, toyParser.done_shift]
    repeat' first
      | contradiction
      | exact shifted2_ok _ _
      | exact ih _ _
      | dsimp only
      | refine Res.Rel.bind3 (toyParser.consume_rel t toks hne _ _ _) fun _ _ _ => ?_
      | split

theorem toyParser.importStatement_rel (t : Token) (toks : List Token) (hne : toks ≠ [])
    (fuel : Nat) : ShiftRule t toks (toyParser.importStatement fuel) := by
  intro c
  simp only [toyParser.importStatement]
  refine Res.Rel.bind2 (toyParser.importLoop_rel t toks hne fuel c []) fun r c1 => ?_
  repeat' first
    | contradiction
    | exact shifted3_ok _ _ _
    | dsimp only
    | refine Res.Rel.bind3 (toyParser.consume_rel t toks hne _ _ _) fun _ _ _ => ?_
    | split

theorem toyParser.varLoop_rel (t : Token) (toks : List Token) (hne : toks ≠ [])
    {expr : PRule} (hexpr : ShiftRule t toks expr) :
    ∀ fuel c vars, Res.Rel (Shifted2 t toks)
      (toyParser.varLoop expr fuel ⟨t :: toks, c + 1⟩ vars)
      (toyParser.varLoop expr fuel ⟨toks, c⟩ vars) := by
  intro fuel
  induction fuel with
  | zero => intro c vars; exact trivial
  | succ n ih =>
    intro c vars
    simp only [toyParser.varLoop, toyParser.check_shift, toyParser.done_shift]
    repeat' first
      | contradiction
      | exact shifted2_ok _ _
      | exact ih _ _
      | dsimp only
      | refine Res.Rel.bind3 (toyParser.consume_rel t toks hne _ _ _) fun _ _ _ => ?_
      | refine Res.Rel.bind3 (hexpr _) fun _ _ _ => ?_
      | split

theorem toyParser.varStatement_rel (t : Token) (toks : List Token) (hne : toks ≠ [])
    {expr : PRule} (hexpr : ShiftRule t toks expr) (fuel : Nat) :
    ShiftRule t toks (toyParser.varStatement expr fuel) := by
  intro c
  simp only [toyParser.varStatement]
  refine Res.Rel.bind2 (toyParser.varLoop_rel t toks hne hexpr fuel c []) fun r c1 => ?_
  repeat' first
    | contradiction
    | exact shifted3_ok _ _ _
    | dsimp only
    | refine Res.Rel.bind3 (toyParser.consume_rel t toks hne _ _ _) fun _ _ _ => ?_
    | split

theorem toyParser.exportLoop_rel (t : Token) (toks : List Token) (hne : toks ≠ []) :
    ∀ fuel c exports, Res.Rel (Shifted2 t toks)
      (toyParser.exportLoop fuel ⟨t :: toks, c + 1⟩ exports)
      (toyParser.exportLoop fuel ⟨toks, c⟩ exports) := by
  intro fuel
  induction fuel with
  | zero => intro c exports; exact trivial
  | succ n ih =>
    intro c exports
    obtain ⟨x, -, -, -, -, h5, h6⟩ := toyParser.advance_shift t toks hne c
    simp only [toyParser.exportLoop, toyParser.check_shift, toyParser.done_shift, h5, h6,
      Res.ok_bind]
    repeat' first
      | contradiction
      | exact shifted2_ok _ _
      | exact ih _ _
      | dsimp only
      | refine Res.Rel.bind2 (toyParser.advance_rel t toks hne _) fun _ _ => ?_
      | split

theorem toyParser.exportStatement_rel (t : Token) (toks : List Token) (hne : toks ≠ [])
    (fuel : Nat) : ShiftRule t toks (toyParser.exportStatement fuel) := by
  intro c
  simp only [toyParser.exportStatement]
  refine Res.Rel.bind2 (toyParser.exportLoop_rel t toks hne fuel c []) fun r c1 => ?_
  repeat' first
    | contradiction
    | exact shifted3_ok _ _ _
    | dsimp only
    | refine Res.Rel.bind3 (toyParser.consume_rel t toks hne _ _ _) fun _ _ _ => ?_
    | split

theorem toyParser.exprLoop_rel (t : Token) (toks : List Token)
    {expr : PRule} (hexpr : ShiftRule t toks expr) :
    ∀ fuel c exprs hasErrors, Res.Rel (Shifted3 t toks)
      (toyParser.exprLoop expr fuel ⟨t :: toks, c + 1⟩ exprs hasErrors)
      (toyParser.exprLoop expr fuel ⟨toks, c⟩ exprs hasErrors) := by
  intro fuel
  induction fuel with
  | zero => intro c exprs hasErrors; exact trivial
  | succ n ih =>
    intro c exprs hasErrors
    simp only [toyParser.exprLoop, toyParser.check_shift, toyParser.done_shift]
    repeat' first
      | contradiction
      | exact shifted3_ok _ _ _
      | exact ih _ _ _
      | dsimp only
      | refine Res.Rel.bind3 (hexpr _) fun _ _ _ => ?_
      | split

theorem toyParser.callExpression_rel (t : Token) (toks : List Token) (hne : toks ≠ [])
    {expr : PRule} (hexpr : ShiftRule t toks expr) (fuel : Nat) :
    ShiftRule t toks (toyParser.callExpression expr fuel) := by
  intro c
  simp only [toyParser.callExpression]
  refine Res.Rel.bind3 (toyParser.referenceExpression_rel t toks hne c) fun _ _ _ => ?_
  dsimp only
  refine Res.Rel.bind3 (toyParser.exprLoop_rel t toks hexpr fuel _ _ _) fun _ _ _ => ?_
  repeat' first
    | contradiction
    | exact shifted3_ok _ _ _
    | dsimp only
    | refine Res.Rel.bind3 (toyParser.consume_rel t toks hne _ _ _) fun _ _ _ => ?_
    | split

theorem toyParser.paramLoop_rel (t : Token) (toks : List Token) (hne : toks ≠ []) :
    ∀ fuel c params hasErrors, Res.Rel (Shifted3 t toks)
      (toyParser.paramLoop fuel ⟨t :: toks, c + 1⟩ params hasErrors)
      (toyParser.paramLoop fuel ⟨toks, c⟩ params hasErrors) := by
  intro fuel
  induction fuel with
  | zero => intro c params hasErrors; exact trivial
  | succ n ih =>
    intro c params hasErrors
    simp only [toyParser.paramLoop, toyParser.check_shift, toyParser.done_shift]
    repeat' first
      | contradiction
      | exact shifted3_ok _ _ _
      | exact ih _ _ _
      | dsimp only
      | refine Res.Rel.bind3 (toyParser.consume_rel t toks hne _ _ _) fun _ _ _ => ?_
      | split

theorem toyParser.funcExpression_rel (t : Token) (toks : List Token) (hne : toks ≠ [])
    {expr : PRule} (hexpr : ShiftRule t toks expr) (fuel : Nat) :
    ShiftRule t toks (toyParser.funcExpression expr fuel) := by
  intro c
  simp only [toyParser.funcExpression]
  repeat' first
    | contradiction
    | exact shifted3_ok _ _ _
    | dsimp only
    | refine Res.Rel.bind3 (toyParser.consume_rel t toks hne _ _ _) fun _ _ _ => ?_
    | refine Res.Rel.bind3 (toyParser.paramLoop_rel t toks hne fuel _ _ _) fun _ _ _ => ?_
    | refine Res.Rel.bind3 (toyParser.exprLoop_rel t toks hexpr fuel _ _ _) fun _ _ _ => ?_
    | split

theorem toyParser.whenLoop_rel (t : Token) (toks : List Token) (hne : toks ≠ [])
    {expr : PRule} (hexpr : ShiftRule t toks expr) :
    ∀ fuel c cases hasErrors, Res.Rel (Shifted3 t toks)
      (toyParser.whenLoop expr fuel ⟨t :: toks, c + 1⟩ cases hasErrors)
      (toyParser.whenLoop expr fuel ⟨toks, c⟩ cases hasErrors) := by
  intro fuel
  induction fuel with
  | zero => intro c cases hasErrors; exact trivial
  | succ n ih =>
    intro c cases hasErrors
    simp only [toyParser.whenLoop, toyParser.check_shift, toyParser.done_shift]
    repeat' first
      | contradiction
      | exact shifted3_ok _ _ _
      | exact ih _ _ _
      | dsimp only
      | refine Res.Rel.bind3 (toyParser.consume_rel t toks hne _ _ _) fun _ _ _ => ?_
      | refine Res.Rel.bind3 (hexpr _) fun _ _ _ => ?_
      | split

theorem toyParser.matchExpression_rel (t : Token) (toks : List Token) (hne : toks ≠ [])
    {expr : PRule} (hexpr : ShiftRule t toks expr) (fuel : Nat) :
    ShiftRule t toks (toyParser.matchExpression expr fuel) := by
  intro c
  simp only [toyParser.matchExpression]
  repeat' first
    | contradiction
    | exact shifted3_ok _ _ _
    | dsimp only
    | refine Res.Rel.bind3 (toyParser.consume_rel t toks hne _ _ _) fun _ _ _ => ?_
    | refine Res.Rel.bind3 (toyParser.whenLoop_rel t toks hne hexpr fuel _ _ _) fun _ _ _ => ?_
    | refine Res.Rel.bind3 (hexpr _) fun _ _ _ => ?_

theorem toyParser.seqExpression_rel (t : Token) (toks : List Token) (hne : toks ≠ [])
    {expr : PRule} (hexpr : ShiftRule t toks expr) (fuel : Nat) :
    ShiftRule t toks (toyParser.seqExpression expr fuel) := by
  intro c
  simp only [toyParser.seqExpression]
  repeat' first
    | exact shifted3_ok _ _ _
    | dsimp only
    | refine Res.Rel.bind3 (toyParser.consume_rel t toks hne _ _ _) fun _ _ _ => ?_
    | refine Res.Rel.bind3 (toyParser.exprLoop_rel t toks hexpr fuel _ _ _) fun _ _ _ => ?_

theorem toyParser.chainExpression_rel (t : Token) (toks : List Token) (hne : toks ≠ [])
    {expr : PRule} (hexpr : ShiftRule t toks expr) (fuel : Nat) :
    ShiftRule t toks (toyParser.chainExpression expr fuel) := by
  intro c
  simp only [toyParser.chainExpression]
  repeat' first
    | contradiction
    | exact shifted3_ok _ _ _
    | dsimp only
    | refine Res.Rel.bind3 (toyParser.consume_rel t toks hne _ _ _) fun _ _ _ => ?_
    | refine Res.Rel.bind3 (toyParser.exprLoop_rel t toks hexpr fuel _ _ _) fun _ _ _ => ?_
    | split

theorem toyParser.asyncExpression_rel (t : Token) (toks : List Token) (hne : toks ≠ [])
    {expr : PRule} (hexpr : ShiftRule t toks expr) (fuel : Nat) :
    ShiftRule t toks (toyParser.asyncExpression expr fuel) := by
  intro c
  simp only [toyParser.asyncExpression]
  repeat' first
    | exact shifted3_ok _ _ _
    | dsimp only
    | refine Res.Rel.bind3 (toyParser.consume_rel t toks hne _ _ _) fun _ _ _ => ?_
    | refine Res.Rel.bind3 (toyParser.exprLoop_rel t toks hexpr fuel _ _ _) fun _ _ _ => ?_

theorem toyParser.listLiteral_rel (t : Token) (toks : List Token) (hne : toks ≠ [])
    {expr : PRule} (hexpr : ShiftRule t toks expr) (fuel : Nat) :
    ShiftRule t toks (toyParser.listLiteral expr fuel) := by
  intro c
  simp only [toyParser.listLiteral]
  repeat' first
    | exact shifted3_ok _ _ _
    | dsimp only
    | refine Res.Rel.bind3 (toyParser.consume_rel t toks hne _ _ _) fun _ _ _ => ?_
    | refine Res.Rel.bind3 (toyParser.exprLoop_rel t toks hexpr fuel _ _ _) fun _ _ _ => ?_
    | split

theorem toyParser.hashLoop_rel (t : Token) (toks : List Token) (hne : toks ≠ [])
    {expr : PRule} (hexpr : ShiftRule t toks expr) :
    ∀ fuel c store hasErrors, Res.Rel (Shifted2 t toks)
      (toyParser.hashLoop expr fuel ⟨t :: toks, c + 1⟩ store hasErrors)
      (toyParser.hashLoop expr fuel ⟨toks, c⟩ store hasErrors) := by
  intro fuel
  induction fuel with
  | zero => intro c store hasErrors; exact trivial
  | succ n ih =>
    intro c store hasErrors
    simp only [toyParser.hashLoop, toyParser.check_shift, toyParser.done_shift]
    repeat' first
      | contradiction
      | exact shifted2_ok _ _
      | exact ih _ _ _
      | dsimp only
      | refine Res.Rel.bind3 (toyParser.consume_rel t toks hne _ _ _) fun _ _ _ => ?_
      | refine Res.Rel.bind3 (hexpr _) fun _ _ _ => ?_
      | split

theorem toyParser.hashLiteral_rel (t : Token) (toks : List Token) (hne : toks ≠ [])
    {expr : PRule} (hexpr : ShiftRule t toks expr) (fuel : Nat) :
    ShiftRule t toks (toyParser.hashLiteral expr fuel) := by
  intro c
  simp only [toyParser.hashLiteral]
  refine Res.Rel.bind2 (toyParser.hashLoop_rel t toks hne hexpr fuel c [] false) fun r c1 => ?_
  repeat' first
    | contradiction
    | exact shifted3_ok _ _ _
    | dsimp only
    | refine Res.Rel.bind3 (toyParser.consume_rel t toks hne _ _ _) fun _ _ _ => ?_
    | split

theorem toyParser.expressionBody_rel (t : Token) (toks : List Token) (hne : toks ≠ [])
    {expr : PRule} (hexpr : ShiftRule t toks expr) (fuel : Nat) :
    ShiftRule t toks (toyParser.expressionBody expr fuel) := by
  intro c
  obtain ⟨x, h1, h2, -⟩ := toyParser.advance_shift t toks hne c
  obtain ⟨y, k1, k2, k3, k4, -⟩ := toyParser.advance_shift t toks hne (c + 1)
  have hcall := toyParser.callExpression_rel t toks hne hexpr fuel (c + 1)
  simp only [toyParser.expressionBody, toyParser.match_, toyParser.check_shift]
  cases toyParser.check ⟨toks, c⟩ TOKEN_LEFT_PAREN
  · exact toyParser.simpleLiteral_rel t toks hne c
  · simp only [if_true, h1, h2, k1, k2, k3, k4, Res.ok_bind, Res.pure_eq]
    cases hty : y.Type_
    case TOKEN_BUILTIN =>
      dsimp only
      by_cases hv : y.Lexeme = "@var"
      · rw [if_pos hv, if_pos hv]
        exact toyParser.varStatement_rel t toks hne hexpr fuel (c + 1 + 1)
      rw [if_neg hv, if_neg hv]
      by_cases hl : y.Lexeme = "@list"
      · rw [if_pos hl, if_pos hl]
        exact toyParser.listLiteral_rel t toks hne hexpr fuel (c + 1 + 1)
      rw [if_neg hl, if_neg hl]
      by_cases hh : y.Lexeme = "@hash"
      · rw [if_pos hh, if_pos hh]
        exact toyParser.hashLiteral_rel t toks hne hexpr fuel (c + 1 + 1)
      rw [if_neg hh, if_neg hh]
      by_cases hm : y.Lexeme = "@match"
      · rw [if_pos hm, if_pos hm]
        exact toyParser.matchExpression_rel t toks hne hexpr fuel (c + 1 + 1)
      rw [if_neg hm, if_neg hm]
      by_cases hf : y.Lexeme = "@func"
      · rw [if_pos hf, if_pos hf]
        exact toyParser.funcExpression_rel t toks hne hexpr fuel (c + 1 + 1)
      rw [if_neg hf, if_neg hf]
      by_cases hs : y.Lexeme = "@seq"
      · rw [if_pos hs, if_pos hs]
        exact toyParser.seqExpression_rel t toks hne hexpr fuel (c + 1 + 1)
      rw [if_neg hs, if_neg hs]
      by_cases hc : y.Lexeme = "@chain"
      · rw [if_pos hc, if_pos hc]
        exact toyParser.chainExpression_rel t toks hne hexpr fuel (c + 1 + 1)
      rw [if_neg hc, if_neg hc]
      by_cases ha : y.Lexeme = "@async"
      · rw [if_pos ha, if_pos ha]
        exact toyParser.asyncExpression_rel t toks hne hexpr fuel (c + 1 + 1)
      rw [if_neg ha, if_neg ha]
      exact hcall
    case TOKEN_IDENTIFIER => exact hcall
    case TOKEN_EQUAL => exact hcall
    case TOKEN_LESS => exact hcall
    case TOKEN_MORE => exact hcall
    all_goals exact shifted3_ok _ _ _

theorem toyParser.expression_rel (t : Token) (toks : List Token) (hne : toks ≠ []) :
    ∀ fuel, ShiftRule t toks (toyParser.expression fuel) := by
  intro fuel
  induction fuel with
  | zero => intro c; exact trivial
  | succ n ih => exact toyParser.expressionBody_rel t toks hne ih n

theorem toyParser.statement_rel (t : Token) (toks : List Token) (hne : toks ≠ [])
    (fuel : Nat) : ShiftRule t toks (toyParser.statement fuel) := by
  intro c
  obtain ⟨x, h1, h2, h3, h4, -⟩ := toyParser.advance_shift t toks hne c
  obtain ⟨y, k1, k2, k3, k4, -⟩ := toyParser.advance_shift t toks hne (c + 1)
  have hexp := toyParser.expression_rel t toks hne fuel c
  simp only [toyParser.statement, toyParser.match_, toyParser.check_shift]
  cases toyParser.check ⟨toks, c⟩ TOKEN_LEFT_PAREN
  · simp only [Bool.false_eq_true, if_false, Res.pure_eq, Res.ok_bind, h1, h2]
    exact shifted3_ok _ _ _
  · simp only [if_true, h1, h2, Res.ok_bind, Res.pure_eq, toyParser.check_shift]
    cases toyParser.check ⟨toks, c + 1⟩ TOKEN_BUILTIN
    · simp only [Bool.false_eq_true, if_false, h3, h4, Res.ok_bind]
      exact hexp
    · simp only [if_true, k1, k2, Res.ok_bind]
      by_cases hi : y.Lexeme = "@import"
      · rw [if_pos hi, if_pos hi]
        exact toyParser.importStatement_rel t toks hne fuel (c + 1 + 1)
      rw [if_neg hi, if_neg hi]
      by_cases he : y.Lexeme = "@export"
      · rw [if_pos he, if_pos he]
        exact toyParser.exportStatement_rel t toks hne fuel (c + 1 + 1)
      rw [if_neg he, if_neg he]
      simp only [k3, k4, h3, h4, Res.ok_bind]
      exact hexp

theorem toyParser.programLoop_rel (t : Token) (toks : List Token) (hne : toks ≠ [])
    (fuel : Nat) :
    ∀ k c body hasErrors,
      toyParser.programLoop fuel k ⟨t :: toks, c + 1⟩ body hasErrors =
        toyParser.programLoop fuel k ⟨toks, c⟩ body hasErrors := by
  intro k
  induction k with
  | zero => intro c body hasErrors; rfl
  | succ n ih =>
    intro c body hasErrors
    apply Res.Rel.eq
    simp only [toyParser.programLoop, toyParser.done_shift]
    split
    · refine Res.Rel.bind3 (toyParser.statement_rel t toks hne fuel c) fun a b c1 => ?_
      dsimp only
      rw [ih]
      exact Res.Rel.refl _
    · exact Res.Rel.refl _

theorem toyParser.programLoop_acc (fuel : Nat) :
    ∀ k p body hasErrors,
      toyParser.programLoop fuel k p body hasErrors =
        (toyParser.programLoop fuel k p [] false >>= fun r =>
          pure (⟨body ++ r.1.Body⟩, hasErrors || r.2)) := by
  intro k
  induction k with
  | zero => intro p body hasErrors; rfl
  | succ n ih =>
    intro p body hasErrors
    simp only [toyParser.programLoop]
    split
    · cases hst : toyParser.statement fuel p with
      | ok r =>
        obtain ⟨child, hasError, p1⟩ := r
        simp only [Res.ok_bind]
        rw [ih p1 (body ++ [child]), ih p1 ([] ++ [child])]
        cases toyParser.programLoop fuel n p1 [] false with
        | ok r => simp [Bool.or_assoc]
        | panic m => rfl
        | timeout => rfl
        | external => rfl
      | panic m => rfl
      | timeout => rfl
      | external => rfl
    · simp

theorem toyParser.statement_leading_token (t : Token) (rest : List Token) (depth k : Nat)
    (hparen : t.Type_ ≠ TOKEN_LEFT_PAREN) (heof : t.Type_ ≠ TOKEN_EOF) :
    toyParser.statement depth (NewParser (t :: rest)) =
        .ok (malformedToken t ("unexpected token in statement at " ++ toString t.Line), true,
          ⟨t :: rest, 1⟩) ∧
      parseWith depth (k + 1) (t :: rest) =
        (parseWith depth k rest >>= fun r =>
          pure (⟨malformedToken t ("unexpected token in statement at " ++ toString t.Line) ::
            r.1.Body⟩, true)) := by
  have h0 : (t :: rest)[0]? = some t := by simp
  have hdone : toyParser.done ⟨t :: rest, 0⟩ = false := by
    rw [toyParser.done_at _ 0 t h0]; simpa using heof
  have hcheck : toyParser.check ⟨t :: rest, 0⟩ TOKEN_LEFT_PAREN = false := by
    rw [toyParser.check_at _ 0 t _ h0 (by decide)]; simpa using hparen
  have hst : toyParser.statement depth (NewParser (t :: rest)) =
      .ok (malformedToken t ("unexpected token in statement at " ++ toString t.Line), true,
        ⟨t :: rest, 1⟩) := by
    simp only [toyParser.statement, NewParser, toyParser.match_, hcheck, Bool.false_eq_true,
      if_false, Res.pure_eq, Res.ok_bind, toyParser.advance_at _ 0 t h0]
  refine ⟨hst, ?_⟩
  have hstep : parseWith depth (k + 1) (t :: rest) =
      toyParser.programLoop depth k ⟨t :: rest, 1⟩
        [malformedToken t ("unexpected token in statement at " ++ toString t.Line)] true := by
    simp only [NewParser] at hst
    simp only [parseWith, NewParser, toyParser.programLoop, hdone, Bool.not_false, if_true,
      hst, Res.ok_bind, List.nil_append, Bool.false_or]
  rw [hstep]
  cases rest with
  | nil =>
    cases k with
    | zero => rfl
    | succ n => rfl
  | cons x xs =>
    rw [toyParser.programLoop_rel t (x :: xs) (by simp) depth k 0, toyParser.programLoop_acc]
    simp [parseWith, NewParser]

/-- C14: when the first token `t` of a token list is neither an open paren nor end-of-file,
the rule for statements consumes exactly that one token and returns the node
`MalformedExpression` whose body is the token `t` itself (no node body) with the message
"unexpected token in statement at" and the position of the token; `Parse` gives that node as
the first program node, followed by exactly the program nodes of the rest of the token list,
with the error flag set (and it aborts as the parse of the rest does). -/
theorem leading_token_recovery (t : Token) (rest : List Token) (depth k : Nat)
    (hparen : t.Type_ ≠ TOKEN_LEFT_PAREN) (heof : t.Type_ ≠ TOKEN_EOF) :
    toyParser.statement depth (NewParser (t :: rest)) =
        .ok (.MalformedExpression (some t) none
            ("unexpected token in statement at " ++ toString t.Line), true,
          ⟨t :: rest, 1⟩) ∧
      parseWith depth (k + 1) (t :: rest) =
        (parseWith depth k rest >>= fun r =>
          pure (⟨.MalformedExpression (some t) none
              ("unexpected token in statement at " ++ toString t.Line) ::
            r.1.Body⟩, true)) :=
  toyParser.statement_leading_token t rest depth k hparen heof

/-- C14, at the tokens of `x (f)`: the identifier is consumed alone and made the body of a
malformed node, and the program is that node followed by the program of `(f)`, here the
call of `f`, with the error flag set. -/
theorem leading_token_recovery_witness :
    toyParser.statement 3 (NewParser
        [⟨TOKEN_IDENTIFIER, "x", .absent, 1⟩, ⟨TOKEN_LEFT_PAREN, "(", .absent, 3⟩,
          ⟨TOKEN_IDENTIFIER, "f", .absent, 4⟩, ⟨TOKEN_RIGHT_PAREN, ")", .absent, 5⟩,
          ⟨TOKEN_EOF, "", .absent, 5⟩]) =
        .ok (.MalformedExpression (some ⟨TOKEN_IDENTIFIER, "x", .absent, 1⟩) none
            "unexpected token in statement at 1", true,
          ⟨[⟨TOKEN_IDENTIFIER, "x", .absent, 1⟩, ⟨TOKEN_LEFT_PAREN, "(", .absent, 3⟩,
            ⟨TOKEN_IDENTIFIER, "f", .absent, 4⟩, ⟨TOKEN_RIGHT_PAREN, ")", .absent, 5⟩,
            ⟨TOKEN_EOF, "", .absent, 5⟩], 1⟩) ∧
      parseWith 3 3
        [⟨TOKEN_IDENTIFIER, "x", .absent, 1⟩, ⟨TOKEN_LEFT_PAREN, "(", .absent, 3⟩,
          ⟨TOKEN_IDENTIFIER, "f", .absent, 4⟩, ⟨TOKEN_RIGHT_PAREN, ")", .absent, 5⟩,
          ⟨TOKEN_EOF, "", .absent, 5⟩] =
        (parseWith 3 2
          [⟨TOKEN_LEFT_PAREN, "(", .absent, 3⟩, ⟨TOKEN_IDENTIFIER, "f", .absent, 4⟩,
            ⟨TOKEN_RIGHT_PAREN, ")", .absent, 5⟩, ⟨TOKEN_EOF, "", .absent, 5⟩] >>= fun r =>
          pure (⟨.MalformedExpression (some ⟨TOKEN_IDENTIFIER, "x", .absent, 1⟩) none
            "unexpected token in statement at 1" :: r.1.Body⟩, true)) :=
  leading_token_recovery ⟨TOKEN_IDENTIFIER, "x", .absent, 1⟩
    [⟨TOKEN_LEFT_PAREN, "(", .absent, 3⟩, ⟨TOKEN_IDENTIFIER, "f", .absent, 4⟩,
      ⟨TOKEN_RIGHT_PAREN, ")", .absent, 5⟩, ⟨TOKEN_EOF, "", .absent, 5⟩] 3 2
    (by decide) (by decide)

/-! ### Scanner: words that begin like a boolean, and the line of a token -/

/-- C23: a word that begins with `true` or `false` is not scanned as one identifier: the
scanner cuts the boolean off its front and makes an identifier of what is left (words that
stop inside `true`, or have it further in, are one identifier). -/
theorem scan_splits_word_with_boolean_prefix :
    scan "truex " = .ok [⟨TOKEN_BOOLEAN, "true", .bool true, 4⟩,
      ⟨TOKEN_IDENTIFIER, "x", .absent, 5⟩, ⟨TOKEN_EOF, "", .absent, 6⟩] ∧
    scan "false_flag " = .ok [⟨TOKEN_BOOLEAN, "false", .bool false, 5⟩,
      ⟨TOKEN_IDENTIFIER, "_flag", .absent, 10⟩, ⟨TOKEN_EOF, "", .absent, 11⟩] ∧
    scan "tru " = .ok [⟨TOKEN_IDENTIFIER, "tru", .absent, 3⟩, ⟨TOKEN_EOF, "", .absent, 4⟩] ∧
    scan "xtrue " = .ok [⟨TOKEN_IDENTIFIER, "xtrue", .absent, 5⟩,
      ⟨TOKEN_EOF, "", .absent, 6⟩] := by
  decide

/-- C27: the field `Line` of a token holds the position `current` of the scanner behind
the token, not a line: on `ab`, newline, `cd` the tokens carry 2 and 5 (and end-of-file the
length 5) where the lines are 1 and 2, although the scanner has counted 2 lines. -/
theorem token_line_is_scanner_position :
    scan "ab\ncd" = .ok [⟨TOKEN_IDENTIFIER, "ab", .absent, 2⟩,
      ⟨TOKEN_IDENTIFIER, "cd", .absent, 5⟩, ⟨TOKEN_EOF, "", .absent, 5⟩] ∧
    lineCounterAfterScan "ab\ncd" = .ok 2 := by
  decide

/-! ### The equality builtin -/

theorem Value.goEq_scalar (a b : Value) (ha : a.isScalar = true) (hb : b.isScalar = true) :
    b.goEq a = some (decide (b = a)) := by
  cases a <;> cases b <;> simp_all [Value.isScalar, Value.goEq, Value.isFunc, Value.key] <;>
    (rw [Bool.eq_iff_iff]; simp)

theorem Value.sameKind_self (a : Value) (ha : a.isScalar = true) : a.sameKind a = true := by
  cases a <;> simp_all [Value.sameKind, Value.isScalar]

theorem equalLoop_scalar (a : Value) (ha : a.isScalar = true) :
    ∀ rest : List Value, (∀ x ∈ rest, x.isScalar = true) →
      equalLoop a rest = .ok (decide (∀ x ∈ rest, x = a)) := by
  intro rest
  induction rest with
  | nil => intro _; simp [equalLoop]
  | cons b rest ih =>
    intro h
    have hb := h b (List.mem_cons_self _ _)
    have ih := ih (fun x hx => h x (List.mem_cons_of_mem _ hx))
    by_cases hba : b = a
    · subst hba
      simp [equalLoop, Value.goEq_scalar b b ha ha, ih]
    · simp [equalLoop, Value.goEq_scalar a b ha hb, hba]

/-- C28: on a non-empty list of scalar values `toyEqual` returns the boolean that says
whether every argument is equal to the first one; so it returns true on one argument, the
same on two arguments in either order, and false on two scalars of different kinds. -/
theorem equal_builtin_on_scalars (a : Value) (rest : List Value) (s : St)
    (ha : a.isScalar = true) (hrest : ∀ x ∈ rest, x.isScalar = true) :
    toyEqual (a :: rest) s = .ok (.bool (decide (∀ x ∈ rest, x = a)), s) ∧
      toyEqual [a] s = .ok (.bool true, s) ∧
      (∀ b : Value, b.isScalar = true → toyEqual [a, b] s = toyEqual [b, a] s) ∧
      (∀ b : Value, b.isScalar = true → a.sameKind b = false →
        toyEqual [a, b] s = .ok (.bool false, s)) := by
  have hgen : ∀ (x : Value) (l : List Value), x.isScalar = true →
      (∀ y ∈ l, y.isScalar = true) →
      toyEqual (x :: l) s = .ok (.bool (decide (∀ y ∈ l, y = x)), s) := by
    intro x l hx hl
    show (equalLoop x l >>= fun b => pure (Value.bool b, s)) = _
    rw [equalLoop_scalar x hx l hl]
    rfl
  refine ⟨hgen a rest ha hrest, ?_, ?_, ?_⟩
  · rw [hgen a [] ha (by simp)]; simp
  · intro b hb
    rw [hgen a [b] ha (by simpa using hb), hgen b [a] hb (by simpa using ha)]
    simp [eq_comm]
  · intro b hb hk
    rw [hgen a [b] ha (by simpa using hb)]
    have hne : b ≠ a := by
      intro h
      rw [h, Value.sameKind_self a ha] at hk
      cases hk
    simp [hne]

/-- C28, at the arguments `1 1 2` and, for the two-argument clauses, `1` and `"1"`. -/
theorem equal_builtin_on_scalars_witness :
    toyEqual [.int 1, .int 1, .int 2] ⟨[], [], [], [], [], []⟩ =
        .ok (.bool (decide (∀ x ∈ [Value.int 1, Value.int 2], x = Value.int 1)),
          ⟨[], [], [], [], [], []⟩) ∧
      toyEqual [.int 1] ⟨[], [], [], [], [], []⟩ = .ok (.bool true, ⟨[], [], [], [], [], []⟩) ∧
      (∀ b : Value, b.isScalar = true →
        toyEqual [.int 1, b] ⟨[], [], [], [], [], []⟩ =
          toyEqual [b, .int 1] ⟨[], [], [], [], [], []⟩) ∧
      (∀ b : Value, b.isScalar = true → (Value.int 1).sameKind b = false →
        toyEqual [.int 1, b] ⟨[], [], [], [], [], []⟩ =
          .ok (.bool false, ⟨[], [], [], [], [], []⟩)) :=
  equal_builtin_on_scalars (.int 1) [.int 1, .int 2] ⟨[], [], [], [], [], []⟩ rfl
    (by decide)

/-! ### Scanner: the tokens of a scan -/

theorem toyScanner.advance_ok {s s1 : toyScanner} {c : Char} (h : s.advance = .ok (c, s1)) :
    s.source[s.current]? = some c ∧ s1 = { s with current := s.current + 1 } := by
  unfold toyScanner.advance at h
  split at h
  · rename_i c' hc
    simp only [Res.ok.injEq, Prod.mk.injEq] at h
    exact ⟨by rw [hc, h.1], h.2.symm⟩
  · cases h

theorem toyScanner.matchLoop_inv (start : Nat) :
    ∀ (es : List Char) (s s1 : toyScanner) (b : Bool),
      toyScanner.matchLoop start es s = .ok (b, s1) →
      s1.source = s.source ∧ s1.tokens = s.tokens ∧ (b = false → s1.current = start) := by
  intro es
  induction es with
  | nil =>
    intro s s1 b h
    simp only [toyScanner.matchLoop, Res.ok.injEq, Prod.mk.injEq] at h
    obtain ⟨rfl, rfl⟩ := h
    exact ⟨rfl, rfl, fun h => by cases h⟩
  | cons e es ih =>
    intro s s1 b h
    simp only [toyScanner.matchLoop] at h
    cases hadv : s.advance with
    | ok r =>
      obtain ⟨input, s2⟩ := r
      obtain ⟨-, rfl⟩ := toyScanner.advance_ok hadv
      rw [hadv] at h
      dsimp only at h
      split at h
      · exact ih { s with current := s.current + 1 } s1 b h
      · simp only [Res.ok.injEq, Prod.mk.injEq] at h
        obtain ⟨rfl, rfl⟩ := h
        exact ⟨rfl, rfl, fun _ => rfl⟩
    | panic m => rw [hadv] at h; cases h
    | timeout => rw [hadv] at h; cases h
    | external => rw [hadv] at h; cases h

theorem toyScanner.match_inv {s s1 : toyScanner} {e : String} {b : Bool}
    (h : s.match_ e = .ok (b, s1)) :
    s1.source = s.source ∧ s1.tokens = s.tokens ∧ (b = false → s1.current = s.current) := by
  unfold toyScanner.match_ at h
  split at h
  · split at h
    · simp only [Res.ok.injEq, Prod.mk.injEq] at h
      obtain ⟨rfl, rfl⟩ := h
      exact ⟨rfl, rfl, fun h => by cases h⟩
    · cases h
  · rename_i c hc
    obtain ⟨h1, h2, h3⟩ := toyScanner.matchLoop_inv _ _ _ _ _ h
    exact ⟨h1, h2, fun hb => by rw [h3 hb, hc]⟩

theorem toyScanner.peek_of_advance {s s1 : toyScanner} {c : Char}
    (h : s.advance = .ok (c, s1)) : s.peek = c := by
  obtain ⟨hc, -⟩ := toyScanner.advance_ok h
  have hlt : s.current < s.source.length := by
    rcases Nat.lt_or_ge s.current s.source.length with h | h
    · exact h
    · rw [List.getElem?_eq_none h] at hc; cases hc
  simp [toyScanner.peek, toyScanner.done, hlt, List.getD, hc]

theorem toyScanner.wordLoop_inv :
    ∀ (fuel : Nat) (s : toyScanner) (str : String) (r : Token ⊕ (toyScanner × String)),
      toyScanner.wordLoop fuel s str = .ok r →
      match r with
      | .inl t => t.Type_ = TOKEN_ERROR
      | .inr (s1, str1) => s1.source = s.source ∧ s1.tokens = s.tokens ∧
          ∃ tail, str1.data = str.data ++ tail ∧ ∀ c ∈ tail, isAlphabetic c = true := by
  intro fuel
  induction fuel with
  | zero => intro s str r h; cases h
  | succ n ih =>
    intro s str r h
    simp only [toyScanner.wordLoop] at h
    split at h
    · rename_i halpha
      split at h
      · simp only [Res.ok.injEq] at h
        subst h
        rfl
      · cases hadv : s.advance with
        | ok x =>
          obtain ⟨c, s2⟩ := x
          have hpeek := toyScanner.peek_of_advance hadv
          obtain ⟨-, rfl⟩ := toyScanner.advance_ok hadv
          rw [hadv] at h
          have := ih { s with current := s.current + 1 } _ _ h
          cases r with
          | inl t => exact this
          | inr x =>
            obtain ⟨s1, str1⟩ := x
            obtain ⟨h1, h2, tail, h3, h4⟩ := this
            refine ⟨h1, h2, c :: tail, by simpa using h3, ?_⟩
            intro d hd
            rcases List.mem_cons.mp hd with rfl | hd
            · rw [← hpeek]; exact halpha
            · exact h4 d hd
        | panic m => rw [hadv] at h; cases h
        | timeout => rw [hadv] at h; cases h
        | external => rw [hadv] at h; cases h
    · simp only [Res.ok.injEq] at h
      subst h
      exact ⟨rfl, rfl, [], by simp, by simp⟩

theorem toyScanner.stringLoop_inv :
    ∀ (fuel : Nat) (s s1 : toyScanner) (str str1 : String),
      toyScanner.stringLoop fuel s str = .ok (s1, str1) →
      s1.source = s.source ∧ s1.tokens = s.tokens := by
  intro fuel
  induction fuel with
  | zero => intro s s1 str str1 h; cases h
  | succ n ih =>
    intro s s1 str str1 h
    simp only [toyScanner.stringLoop] at h
    split at h
    · split at h
      · rename_i c s2 hadv
        obtain ⟨-, rfl⟩ := toyScanner.advance_ok hadv
        have := ih _ _ _ _ h
        split at this <;> exact this
      all_goals cases h
    · simp only [Res.ok.injEq, Prod.mk.injEq] at h
      obtain ⟨rfl, rfl⟩ := h
      exact ⟨rfl, rfl⟩

theorem toyScanner.commentLoop_inv :
    ∀ (fuel : Nat) (s s1 : toyScanner) (str str1 : String),
      toyScanner.commentLoop fuel s str = .ok (s1, str1) →
      s1.source = s.source ∧ s1.tokens = s.tokens := by
  intro fuel
  induction fuel with
  | zero => intro s s1 str str1 h; cases h
  | succ n ih =>
    intro s s1 str str1 h
    simp only [toyScanner.commentLoop] at h
    split at h
    · split at h
      · rename_i c s2 hadv
        obtain ⟨-, rfl⟩ := toyScanner.advance_ok hadv
        exact ih { s with current := s.current + 1 } _ _ _ h
      all_goals cases h
    · simp only [Res.ok.injEq, Prod.mk.injEq] at h
      obtain ⟨rfl, rfl⟩ := h
      exact ⟨rfl, rfl⟩

theorem toyScanner.numberLoop_inv :
    ∀ (fuel : Nat) (s s1 : toyScanner) (str str1 : String),
      toyScanner.numberLoop fuel s str = .ok (s1, str1) →
      s1.source = s.source ∧ s1.tokens = s.tokens := by
  intro fuel
  induction fuel with
  | zero => intro s s1 str str1 h; cases h
  | succ n ih =>
    intro s s1 str str1 h
    simp only [toyScanner.numberLoop] at h
    split at h
    · split at h
      · rename_i c s2 hadv
        obtain ⟨-, rfl⟩ := toyScanner.advance_ok hadv
        exact ih { s with current := s.current + 1 } _ _ _ h
      all_goals cases h
    · simp only [Res.ok.injEq, Prod.mk.injEq] at h
      obtain ⟨rfl, rfl⟩ := h
      exact ⟨rfl, rfl⟩

theorem toyScanner.stringToken_inv {s s1 : toyScanner} {t : Token}
    (h : s.stringToken = .ok (t, s1)) :
    s1.source = s.source ∧ s1.tokens = s.tokens ∧
      (t.Type_ = TOKEN_STRING ∨ t.Type_ = TOKEN_ERROR) := by
  unfold toyScanner.stringToken at h
  split at h
  · rename_i s2 str hloop
    obtain ⟨h1, h2⟩ := toyScanner.stringLoop_inv _ _ _ _ _ hloop
    split at h
    · simp only [Res.ok.injEq, Prod.mk.injEq] at h
      obtain ⟨rfl, rfl⟩ := h
      exact ⟨h1, h2, Or.inr rfl⟩
    · split at h
      · rename_i c s3 hadv
        obtain ⟨-, rfl⟩ := toyScanner.advance_ok hadv
        simp only [Res.ok.injEq, Prod.mk.injEq] at h
        obtain ⟨rfl, rfl⟩ := h
        exact ⟨h1, h2, Or.inl rfl⟩
      all_goals cases h
  all_goals cases h

theorem toyScanner.commentToken_inv {s s1 : toyScanner} {t : Token}
    (h : s.commentToken = .ok (t, s1)) : s1.source = s.source ∧ s1.tokens = s.tokens := by
  unfold toyScanner.commentToken at h
  split at h
  · rename_i s2 str hloop
    simp only [Res.ok.injEq, Prod.mk.injEq] at h
    obtain ⟨rfl, rfl⟩ := h
    exact toyScanner.commentLoop_inv _ _ _ _ _ hloop
  all_goals cases h

theorem toyScanner.numberToken_inv {s s1 : toyScanner} {t : Token}
    (h : s.numberToken = .ok (t, s1)) :
    s1.source = s.source ∧ s1.tokens = s.tokens ∧
      (t.Type_ = TOKEN_NUMBER ∨ t.Type_ = TOKEN_ERROR) := by
  unfold toyScanner.numberToken at h
  split at h
  · split at h
    · rename_i s2 str hloop
      obtain ⟨h1, h2⟩ := toyScanner.numberLoop_inv _ _ _ _ _ hloop
      split at h
      · simp only [Res.ok.injEq, Prod.mk.injEq] at h
        obtain ⟨rfl, rfl⟩ := h
        exact ⟨h1, h2, Or.inr rfl⟩
      · simp only [Res.ok.injEq, Prod.mk.injEq] at h
        obtain ⟨rfl, rfl⟩ := h
        exact ⟨h1, h2, Or.inl rfl⟩
    all_goals cases h
  all_goals cases h

theorem toyScanner.wordToken_inv {s s1 : toyScanner} {t : Token} {ty : TokenType}
    (h : toyScanner.wordToken ty s = .ok (t, s1)) :
    s1.source = s.source ∧ s1.tokens = s.tokens ∧
      (t.Type_ = TOKEN_ERROR ∨
        (t.Type_ = ty ∧ ∃ b tail, s.previous = .ok b ∧ t.Lexeme.data = b :: tail ∧
          ∀ c ∈ tail, isAlphabetic c = true)) := by
  unfold toyScanner.wordToken at h
  split at h
  · rename_i b hprev
    split at h
    · rename_i t' hloop
      have := toyScanner.wordLoop_inv _ _ _ _ hloop
      simp only [Res.ok.injEq, Prod.mk.injEq] at h
      obtain ⟨rfl, rfl⟩ := h
      exact ⟨rfl, rfl, Or.inl this⟩
    · rename_i s2 str hloop
      obtain ⟨h1, h2, tail, h3, h4⟩ := toyScanner.wordLoop_inv _ _ _ _ hloop
      simp only [Res.ok.injEq, Prod.mk.injEq] at h
      obtain ⟨rfl, rfl⟩ := h
      exact ⟨h1, h2, Or.inr ⟨rfl, b, tail, hprev, by simpa using h3, h4⟩⟩
    all_goals cases h
  all_goals cases h

theorem toyScanner.previous_congr {s s1 : toyScanner} (h1 : s1.source = s.source)
    (h2 : s1.current = s.current) : s1.previous = s.previous := by
  unfold toyScanner.previous
  rw [h1, h2]

theorem toyScanner.withToken_ok {r : Res (Token × toyScanner)} {ot : Option Token}
    {s1 : toyScanner} (h : toyScanner.withToken r = .ok (ot, s1)) :
    ∃ t, r = .ok (t, s1) ∧ ot = some t := by
  unfold toyScanner.withToken at h
  split at h
  · simp only [Res.ok.injEq, Prod.mk.injEq] at h
    obtain ⟨rfl, rfl⟩ := h
    exact ⟨_, rfl, rfl⟩
  all_goals cases h

theorem Token.scanned_of_kind {t : Token} (h1 : t.Type_ ≠ TOKEN_EOF)
    (h2 : t.Type_ ≠ TOKEN_IDENTIFIER) : t.scanned :=
  ⟨h1, fun h => absurd h h2⟩

theorem toyScanner.scanDefault_inv {c : Char} {s s1 : toyScanner} {ot : Option Token}
    (hprev : s.previous = .ok c) (h : toyScanner.scanDefault c s = .ok (ot, s1)) :
    s1.source = s.source ∧ s1.tokens = s.tokens ∧ ∀ t, ot = some t → t.scanned := by
  unfold toyScanner.scanDefault at h
  split at h
  · obtain ⟨t, hn, rfl⟩ := toyScanner.withToken_ok h
    obtain ⟨h1, h2, h3⟩ := toyScanner.numberToken_inv hn
    refine ⟨h1, h2, ?_⟩
    rintro t' ⟨rfl⟩
    rcases h3 with h3 | h3 <;> exact Token.scanned_of_kind (by rw [h3]; decide) (by rw [h3]; decide)
  · split at h
    · rename_i s2 hm
      obtain ⟨h1, h2, -⟩ := toyScanner.match_inv hm
      simp only [Res.ok.injEq, Prod.mk.injEq] at h
      obtain ⟨rfl, rfl⟩ := h
      refine ⟨h1, h2, ?_⟩
      rintro t' ⟨rfl⟩
      exact Token.scanned_of_kind (by simp) (by simp)
    · rename_i s2 hm
      obtain ⟨h1, h2, h3⟩ := toyScanner.match_inv hm
      split at h
      · rename_i s3 hm'
        obtain ⟨k1, k2, -⟩ := toyScanner.match_inv hm'
        simp only [Res.ok.injEq, Prod.mk.injEq] at h
        obtain ⟨rfl, rfl⟩ := h
        refine ⟨k1.trans h1, k2.trans h2, ?_⟩
        rintro t' ⟨rfl⟩
        exact Token.scanned_of_kind (by simp) (by simp)
      · rename_i s3 hm'
        obtain ⟨k1, k2, k3⟩ := toyScanner.match_inv hm'
        split at h
        · rename_i halpha
          obtain ⟨t, hw, rfl⟩ := toyScanner.withToken_ok h
          obtain ⟨w1, w2, w3⟩ := toyScanner.wordToken_inv hw
          refine ⟨w1.trans (k1.trans h1), w2.trans (k2.trans h2), ?_⟩
          rintro t' ⟨rfl⟩
          rcases w3 with w3 | ⟨w3, b, tail, hb, hl, htail⟩
          · exact Token.scanned_of_kind (by rw [w3]; decide) (by rw [w3]; decide)
          · have hbc : b = c := by
              have e1 : s3.previous = s.previous :=
                toyScanner.previous_congr (k1.trans h1) ((k3 rfl).trans (h3 rfl))
              rw [e1, hprev] at hb
              exact (Res.ok.inj hb).symm
            subst hbc
            refine ⟨by rw [w3]; decide, fun _ => ⟨by rw [hl]; simp, ?_⟩⟩
            intro d hd
            rw [hl] at hd
            rcases List.mem_cons.mp hd with rfl | hd
            · exact halpha
            · exact htail d hd
        · simp only [Res.ok.injEq, Prod.mk.injEq] at h
          obtain ⟨rfl, rfl⟩ := h
          refine ⟨k1.trans h1, k2.trans h2, ?_⟩
          rintro t' ⟨rfl⟩
          exact Token.scanned_of_kind (by simp) (by simp)
      all_goals cases h
    all_goals cases h

theorem toyScanner.punct_inv {ty : TokenType} {lexeme : String} {s s1 : toyScanner}
    {ot : Option Token} (h1 : ty ≠ TOKEN_EOF) (h2 : ty ≠ TOKEN_IDENTIFIER)
    (h : toyScanner.punct ty lexeme s = .ok (ot, s1)) :
    s1.source = s.source ∧ s1.tokens = s.tokens ∧ ∀ t, ot = some t → t.scanned := by
  simp only [toyScanner.punct, Res.ok.injEq, Prod.mk.injEq] at h
  obtain ⟨rfl, rfl⟩ := h
  refine ⟨rfl, rfl, ?_⟩
  rintro t' ⟨rfl⟩
  exact Token.scanned_of_kind h1 h2

theorem toyScanner.scanToken_inv {s s1 : toyScanner} {ot : Option Token}
    (h : s.scanToken = .ok (ot, s1)) :
    s1.source = s.source ∧ s1.tokens = s.tokens ∧ ∀ t, ot = some t → t.scanned := by
  unfold toyScanner.scanToken at h
  cases hadv : s.advance with
  | ok r =>
    obtain ⟨c, s2⟩ := r
    obtain ⟨hc, rfl⟩ := toyScanner.advance_ok hadv
    have hprev : toyScanner.previous { s with current := s.current + 1 } = .ok c := by
      simp [toyScanner.previous, hc]
    rw [hadv] at h
    dsimp only at h
    have hnone : ∀ s' : toyScanner, s'.source = s.source → s'.tokens = s.tokens →
        (Res.ok ((none : Option Token), s') = .ok (ot, s1)) →
        s1.source = s.source ∧ s1.tokens = s.tokens ∧ ∀ t, ot = some t → t.scanned := by
      intro s' e1 e2 h'
      simp only [Res.ok.injEq, Prod.mk.injEq] at h'
      obtain ⟨rfl, rfl⟩ := h'
      exact ⟨e1, e2, by rintro t' ⟨⟩⟩
    by_cases hc0 : c = ' ' ∨ c = '\r' ∨ c = '\t'
    · rw [if_pos hc0] at h
      exact hnone { s with current := s.current + 1 } rfl rfl h
    rw [if_neg hc0] at h
    by_cases hc1 : c = '\n'
    · rw [if_pos hc1] at h
      exact hnone { s with current := s.current + 1, line := s.line + 1 } rfl rfl h
    rw [if_neg hc1] at h
    by_cases hc2 : c = '('
    · rw [if_pos hc2] at h
      obtain ⟨e1, e2, e3⟩ := toyScanner.punct_inv (by decide) (by decide) h
      exact ⟨e1, e2, e3⟩
    rw [if_neg hc2] at h
    by_cases hc3 : c = ')'
    · rw [if_pos hc3] at h
      obtain ⟨e1, e2, e3⟩ := toyScanner.punct_inv (by decide) (by decide) h
      exact ⟨e1, e2, e3⟩
    rw [if_neg hc3] at h
    by_cases hc4 : c = ','
    · rw [if_pos hc4] at h
      obtain ⟨e1, e2, e3⟩ := toyScanner.punct_inv (by decide) (by decide) h
      exact ⟨e1, e2, e3⟩
    rw [if_neg hc4] at h
    by_cases hc5 : c = '.'
    · rw [if_pos hc5] at h
      obtain ⟨e1, e2, e3⟩ := toyScanner.punct_inv (by decide) (by decide) h
      exact ⟨e1, e2, e3⟩
    rw [if_neg hc5] at h
    by_cases hc6 : c = '-'
    · rw [if_pos hc6] at h
      obtain ⟨e1, e2, e3⟩ := toyScanner.punct_inv (by decide) (by decide) h
      exact ⟨e1, e2, e3⟩
    rw [if_neg hc6] at h
    by_cases hc7 : c = '+'
    · rw [if_pos hc7] at h
      obtain ⟨e1, e2, e3⟩ := toyScanner.punct_inv (by decide) (by decide) h
      exact ⟨e1, e2, e3⟩
    rw [if_neg hc7] at h
    by_cases hc8 : c = '*'
    · rw [if_pos hc8] at h
      obtain ⟨e1, e2, e3⟩ := toyScanner.punct_inv (by decide) (by decide) h
      exact ⟨e1, e2, e3⟩
    rw [if_neg hc8] at h
    by_cases hc9 : c = '!'
    · rw [if_pos hc9] at h
      obtain ⟨e1, e2, e3⟩ := toyScanner.punct_inv (by decide) (by decide) h
      exact ⟨e1, e2, e3⟩
    rw [if_neg hc9] at h
    by_cases hc10 : c = '='
    · rw [if_pos hc10] at h
      obtain ⟨e1, e2, e3⟩ := toyScanner.punct_inv (by decide) (by decide) h
      exact ⟨e1, e2, e3⟩
    rw [if_neg hc10] at h
    by_cases hc11 : c = '>'
    · rw [if_pos hc11] at h
      obtain ⟨e1, e2, e3⟩ := toyScanner.punct_inv (by decide) (by decide) h
      exact ⟨e1, e2, e3⟩
    rw [if_neg hc11] at h
    by_cases hc12 : c = '<'
    · rw [if_pos hc12] at h
      obtain ⟨e1, e2, e3⟩ := toyScanner.punct_inv (by decide) (by decide) h
      exact ⟨e1, e2, e3⟩
    rw [if_neg hc12] at h
    by_cases hc13 : c = '"'
    · rw [if_pos hc13] at h
      obtain ⟨t, ht, rfl⟩ := toyScanner.withToken_ok h
      obtain ⟨h1, h2, h3⟩ := toyScanner.stringToken_inv ht
      refine ⟨h1, h2, ?_⟩
      rintro t' ⟨rfl⟩
      rcases h3 with h3 | h3 <;>
        exact Token.scanned_of_kind (by rw [h3]; decide) (by rw [h3]; decide)
    rw [if_neg hc13] at h
    by_cases hc14 : c = '@'
    · rw [if_pos hc14] at h
      obtain ⟨t, ht, rfl⟩ := toyScanner.withToken_ok h
      obtain ⟨h1, h2, h3⟩ := toyScanner.wordToken_inv ht
      refine ⟨h1, h2, ?_⟩
      rintro t' ⟨rfl⟩
      rcases h3 with h3 | ⟨h3, -⟩ <;>
        exact Token.scanned_of_kind (by rw [h3]; decide) (by rw [h3]; decide)
    rw [if_neg hc14] at h
    by_cases hc15 : c = '#'
    · rw [if_pos hc15] at h
      split at h
      · rename_i t s3 hcom
        obtain ⟨h1, h2⟩ := toyScanner.commentToken_inv hcom
        exact hnone _ h1 h2 h
      all_goals cases h
    rw [if_neg hc15] at h
    obtain ⟨e1, e2, e3⟩ := toyScanner.scanDefault_inv hprev h
    exact ⟨e1, e2, e3⟩
  | panic m => rw [hadv] at h; cases h
  | timeout => rw [hadv] at h; cases h
  | external => rw [hadv] at h; cases h

theorem toyScanner.scanLoop_inv :
    ∀ (fuel : Nat) (s s1 : toyScanner), toyScanner.scanLoop fuel s = .ok s1 →
      (∀ t ∈ s.tokens, t.scanned) →
      s1.source = s.source ∧ ∀ t ∈ s1.tokens, t.scanned := by
  intro fuel
  induction fuel with
  | zero => intro s s1 h; cases h
  | succ n ih =>
    intro s s1 h hinv
    simp only [toyScanner.scanLoop] at h
    split at h
    · split at h
      · rename_i t s2 hst
        obtain ⟨h1, h2, h3⟩ := toyScanner.scanToken_inv hst
        obtain ⟨k1, k2⟩ := ih { s2 with tokens := s2.tokens ++ [t] } s1 h (by
          intro x hx
          rcases List.mem_append.mp hx with hx | hx
          · exact hinv x (h2 ▸ hx)
          · rw [List.mem_singleton.mp hx]; exact h3 t rfl)
        exact ⟨k1.trans h1, k2⟩
      · rename_i s2 hst
        obtain ⟨h1, h2, -⟩ := toyScanner.scanToken_inv hst
        obtain ⟨k1, k2⟩ := ih s2 s1 h (fun x hx => hinv x (h2 ▸ hx))
        exact ⟨k1.trans h1, k2⟩
      all_goals cases h
    · simp only [Res.ok.injEq] at h
      subst h
      exact ⟨rfl, hinv⟩

theorem scan_tokens_scanned {source : String} {toks : List Token}
    (h : scan source = .ok toks) :
    ∃ init, toks = init ++ [⟨TOKEN_EOF, "", .absent, source.data.length⟩] ∧
      ∀ t ∈ init, t.scanned := by
  unfold scan toyScanner.ScanTokens at h
  split at h
  · rename_i s1 hloop
    obtain ⟨h1, h2⟩ := toyScanner.scanLoop_inv _ _ _ hloop (by simp [NewScanner])
    simp only [Res.ok.injEq] at h
    subst h
    exact ⟨s1.tokens, by rw [h1]; rfl, h2⟩
  all_goals cases h

/-- C22: when `ScanTokens` returns, the token list is not empty, its last token is the
end-of-file token, and no token before it has the kind end-of-file. -/
theorem scan_ends_with_single_eof (source : String) (toks : List Token)
    (h : scan source = .ok toks) :
    toks ≠ [] ∧ toks.getLast? = some ⟨TOKEN_EOF, "", .absent, source.data.length⟩ ∧
      ∀ t ∈ toks.dropLast, t.Type_ ≠ TOKEN_EOF := by
  obtain ⟨init, rfl, hinit⟩ := scan_tokens_scanned h
  refine ⟨by simp, by simp, ?_⟩
  intro t ht
  rw [List.dropLast_concat] at ht
  exact (hinit t ht).1

/-- C22, at the source `(f 1)`. -/
theorem scan_ends_with_single_eof_witness :
    [(⟨TOKEN_LEFT_PAREN, "(", .absent, 1⟩ : Token), ⟨TOKEN_IDENTIFIER, "f", .absent, 2⟩,
        ⟨TOKEN_NUMBER, "1", .int 1, 4⟩, ⟨TOKEN_RIGHT_PAREN, ")", .absent, 5⟩,
        ⟨TOKEN_EOF, "", .absent, 5⟩] ≠ [] ∧
      [(⟨TOKEN_LEFT_PAREN, "(", .absent, 1⟩ : Token), ⟨TOKEN_IDENTIFIER, "f", .absent, 2⟩,
        ⟨TOKEN_NUMBER, "1", .int 1, 4⟩, ⟨TOKEN_RIGHT_PAREN, ")", .absent, 5⟩,
        ⟨TOKEN_EOF, "", .absent, 5⟩].getLast? =
        some ⟨TOKEN_EOF, "", .absent, "(f 1)".data.length⟩ ∧
      ∀ t ∈ [(⟨TOKEN_LEFT_PAREN, "(", .absent, 1⟩ : Token),
          ⟨TOKEN_IDENTIFIER, "f", .absent, 2⟩, ⟨TOKEN_NUMBER, "1", .int 1, 4⟩,
          ⟨TOKEN_RIGHT_PAREN, ")", .absent, 5⟩, ⟨TOKEN_EOF, "", .absent, 5⟩].dropLast,
        t.Type_ ≠ TOKEN_EOF :=
  scan_ends_with_single_eof "(f 1)" _ (by decide)

/-! ### Scanner: strings and numbers -/

theorem toyScanner.scanLoop_some {fuel : Nat} {s s1 : toyScanner} {t : Token}
    (hd : s.done = false) (h : s.scanToken = .ok (some t, s1)) :
    toyScanner.scanLoop (fuel + 1) s =
      toyScanner.scanLoop fuel { s1 with tokens := s1.tokens ++ [t] } := by
  simp [toyScanner.scanLoop, hd, h]

theorem toyScanner.scanLoop_none {fuel : Nat} {s s1 : toyScanner}
    (hd : s.done = false) (h : s.scanToken = .ok (none, s1)) :
    toyScanner.scanLoop (fuel + 1) s = toyScanner.scanLoop fuel s1 := by
  simp [toyScanner.scanLoop, hd, h]

theorem toyScanner.scanLoop_done {fuel : Nat} {s : toyScanner} (hd : s.done = true) :
    toyScanner.scanLoop (fuel + 1) s = .ok s := by
  simp [toyScanner.scanLoop, hd]

theorem toyScanner.advance_src (src : List Char) (toks : List Token) (st cur line : Nat)
    (c : Char) (h : src[cur]? = some c) :
    toyScanner.advance ⟨src, toks, st, cur, line⟩ = .ok (c, ⟨src, toks, st, cur + 1, line⟩) := by
  simp [toyScanner.advance, h]

theorem toyScanner.peek_src (src : List Char) (toks : List Token) (st cur line : Nat)
    (c : Char) (h : src[cur]? = some c) :
    toyScanner.peek ⟨src, toks, st, cur, line⟩ = c := by
  have hlt : cur < src.length := by
    rcases Nat.lt_or_ge cur src.length with h' | h'
    · exact h'
    · rw [List.getElem?_eq_none h'] at h; cases h
  simp [toyScanner.peek, toyScanner.done, hlt, List.getD, h]

theorem toyScanner.done_src (src : List Char) (toks : List Token) (st cur line : Nat)
    (c : Char) (h : src[cur]? = some c) :
    toyScanner.done ⟨src, toks, st, cur, line⟩ = false := by
  have hlt : cur < src.length := by
    rcases Nat.lt_or_ge cur src.length with h' | h'
    · exact h'
    · rw [List.getElem?_eq_none h'] at h; cases h
  simp [toyScanner.done, hlt]

theorem getElem?_append_cons {α : Type} (pre : List α) (c : α) (tl : List α) :
    (pre ++ c :: tl)[pre.length]? = some c := by
  induction pre with
  | nil => simp
  | cons x pre ih => simpa using ih

theorem toyScanner.stringLoop_run (src : List Char) (toks : List Token) (st : Nat)
    (rest : List Char) (hrest : rest = [] ∨ rest.head? = some '"') :
    ∀ (body pre : List Char) (fuel line : Nat) (str : String),
      src = pre ++ (body ++ rest) → '"' ∉ body → body.length < fuel →
      ∃ line', toyScanner.stringLoop fuel ⟨src, toks, st, pre.length, line⟩ str =
        .ok (⟨src, toks, st, pre.length + body.length, line'⟩, ⟨str.data ++ body⟩) := by
  intro body
  induction body with
  | nil =>
    intro pre fuel line str hsrc _ hfuel
    obtain ⟨f, rfl⟩ : ∃ f, fuel = f + 1 := ⟨fuel - 1, by simp at hfuel; omega⟩
    refine ⟨line, ?_⟩
    have hcond : (toyScanner.peek ⟨src, toks, st, pre.length, line⟩ != '"' &&
        !toyScanner.done ⟨src, toks, st, pre.length, line⟩) = false := by
      rcases hrest with rfl | hq
      · simp [toyScanner.done, hsrc]
      · cases rest with
        | nil => cases hq
        | cons q rest' =>
          simp only [List.head?_cons, Option.some.injEq] at hq
          subst hq
          have : src[pre.length]? = some '"' := by
            rw [hsrc]; exact getElem?_append_cons pre _ _
          simp [toyScanner.peek_src _ _ _ _ _ _ this]
    simp [toyScanner.stringLoop, hcond]
  | cons c body ih =>
    intro pre fuel line str hsrc hq hfuel
    obtain ⟨f, rfl⟩ : ∃ f, fuel = f + 1 := ⟨fuel - 1, by simp at hfuel; omega⟩
    have hc : src[pre.length]? = some c := by rw [hsrc]; exact getElem?_append_cons pre _ _
    have hcq : c ≠ '"' := fun h => hq (by simp [h])
    have hsrc' : src = (pre ++ [c]) ++ (body ++ rest) := by rw [hsrc]; simp
    have hlen : (pre ++ [c]).length = pre.length + 1 := by simp
    have hpk : ∀ l, toyScanner.peek ⟨src, toks, st, pre.length, l⟩ = c :=
      fun l => toyScanner.peek_src _ _ _ _ _ _ hc
    have hdn : ∀ l, toyScanner.done ⟨src, toks, st, pre.length, l⟩ = false :=
      fun l => toyScanner.done_src _ _ _ _ _ _ hc
    by_cases hnl : c = '\n'
    · obtain ⟨line', hrec⟩ := ih (pre ++ [c]) f (line + 1) (str.push c) hsrc'
        (fun h => hq (List.mem_cons_of_mem _ h)) (by simpa using hfuel)
      rw [hlen] at hrec
      refine ⟨line', ?_⟩
      simp only [toyScanner.stringLoop, hpk, hdn, hnl]
      simp only [hnl] at hrec hc
      simp [toyScanner.advance_src _ _ _ _ _ _ hc, hrec, Nat.add_assoc, Nat.add_comm 1]
    · obtain ⟨line', hrec⟩ := ih (pre ++ [c]) f line (str.push c) hsrc'
        (fun h => hq (List.mem_cons_of_mem _ h)) (by simpa using hfuel)
      rw [hlen] at hrec
      refine ⟨line', ?_⟩
      simp only [toyScanner.stringLoop, hpk, hdn]
      simp [hcq, hnl, toyScanner.advance_src _ _ _ _ _ _ hc, hrec, Nat.add_assoc,
        Nat.add_comm 1]

theorem toyScanner.scanToken_quote (src : List Char) (toks : List Token) (st cur line : Nat)
    (h : src[cur]? = some '"') :
    toyScanner.scanToken ⟨src, toks, st, cur, line⟩ =
      toyScanner.withToken (toyScanner.stringToken ⟨src, toks, st, cur + 1, line⟩) := by
  simp [toyScanner.scanToken, toyScanner.advance_src _ _ _ _ _ _ h]

theorem toyScanner.scan_of_one_token (src : List Char) (t : Token) (s1 : toyScanner)
    (h0 : src ≠ [])
    (h : toyScanner.scanToken ⟨src, [], 0, 0, 1⟩ = .ok (some t, s1))
    (hsrc : s1.source = src) (htoks : s1.tokens = []) (hcur : s1.current = src.length) :
    toyScanner.ScanTokens ⟨src, [], 0, 0, 1⟩ =
      .ok [t, ⟨TOKEN_EOF, "", .absent, src.length⟩] := by
  obtain ⟨n, hn⟩ : ∃ n, src.length = n + 1 :=
    ⟨src.length - 1, by have := List.length_pos.mpr h0; omega⟩
  have hd0 : toyScanner.done ⟨src, [], 0, 0, 1⟩ = false := by
    simp [toyScanner.done, hn]
  have hd1 : toyScanner.done { s1 with tokens := s1.tokens ++ [t] } = true := by
    simp [toyScanner.done, hsrc, hcur]
  have e : (toyScanner.mk src [] 0 0 1).source.length + 1 = (n + 1) + 1 := by simp [hn]
  unfold toyScanner.ScanTokens
  rw [e, toyScanner.scanLoop_some hd0 h, toyScanner.scanLoop_done hd1]
  simp [hsrc, htoks]

/-- C24: a double-quoted text without a double quote inside is scanned to one string token
with the text unchanged as lexeme, followed by end-of-file; without the closing quote it
is scanned to one error token followed by end-of-file. -/
theorem string_token_unescaped (s : String) (hq : '"' ∉ s.data) :
    scan ("\"" ++ s ++ "\"") =
        .ok [⟨TOKEN_STRING, s, .absent, s.data.length + 2⟩,
          ⟨TOKEN_EOF, "", .absent, s.data.length + 2⟩] ∧
      scan ("\"" ++ s) =
        .ok [⟨TOKEN_ERROR, "Unterminated string", .absent, s.data.length + 1⟩,
          ⟨TOKEN_EOF, "", .absent, s.data.length + 1⟩] := by
  constructor
  · have hdata : ("\"" ++ s ++ "\"").data = ['"'] ++ (s.data ++ ['"']) := by simp
    obtain ⟨line', hloop⟩ := toyScanner.stringLoop_run (['"'] ++ (s.data ++ ['"'])) [] 0 ['"']
      (Or.inr rfl) s.data ['"'] ((['"'] ++ (s.data ++ ['"'])).length + 1) 1 "" rfl hq
      (by simp; omega)
    have hlen : (['"'] ++ (s.data ++ ['"'])).length = s.data.length + 2 := by simp
    have hclose : (['"'] ++ (s.data ++ ['"']))[['"'].length + s.data.length]? = some '"' := by
      have h := getElem?_append_cons (['"'] ++ s.data) '"' []
      rw [List.append_assoc, List.length_append] at h
      exact h
    have htok : toyScanner.scanToken ⟨['"'] ++ (s.data ++ ['"']), [], 0, 0, 1⟩ =
        .ok (some ⟨TOKEN_STRING, s, .absent, s.data.length + 2⟩,
          ⟨['"'] ++ (s.data ++ ['"']), [], 0, s.data.length + 2, line'⟩) := by
      rw [toyScanner.scanToken_quote _ _ _ _ _ (by simp)]
      have hloop' : toyScanner.stringLoop
          ((toyScanner.mk (['"'] ++ (s.data ++ ['"'])) [] 0 (0 + 1) 1).source.length + 1)
          ⟨['"'] ++ (s.data ++ ['"']), [], 0, 0 + 1, 1⟩ "" = _ := hloop
      have hnd : toyScanner.done
          ⟨['"'] ++ (s.data ++ ['"']), [], 0, ['"'].length + s.data.length, line'⟩ = false :=
        toyScanner.done_src _ _ _ _ _ _ hclose
      simp only [toyScanner.stringToken, hloop', hnd, toyScanner.advance_src _ _ _ _ _ _ hclose,
        toyScanner.withToken, Bool.false_eq_true, if_false]
      simp; omega
    have := toyScanner.scan_of_one_token _ _ _ (by simp) htok rfl rfl hlen.symm
    unfold scan NewScanner
    rw [hdata, this, hlen]
  · have hdata : ("\"" ++ s).data = ['"'] ++ (s.data ++ []) := by simp
    obtain ⟨line', hloop⟩ := toyScanner.stringLoop_run (['"'] ++ (s.data ++ [])) [] 0 []
      (Or.inl rfl) s.data ['"'] ((['"'] ++ (s.data ++ [])).length + 1) 1 "" rfl hq
      (by simp; omega)
    have hlen : (['"'] ++ (s.data ++ [])).length = s.data.length + 1 := by simp
    have htok : toyScanner.scanToken ⟨['"'] ++ (s.data ++ []), [], 0, 0, 1⟩ =
        .ok (some ⟨TOKEN_ERROR, "Unterminated string", .absent, s.data.length + 1⟩,
          ⟨['"'] ++ (s.data ++ []), [], 0, s.data.length + 1, line'⟩) := by
      rw [toyScanner.scanToken_quote _ _ _ _ _ (by simp)]
      have hloop' : toyScanner.stringLoop
          ((toyScanner.mk (['"'] ++ (s.data ++ [])) [] 0 (0 + 1) 1).source.length + 1)
          ⟨['"'] ++ (s.data ++ []), [], 0, 0 + 1, 1⟩ "" = _ := hloop
      have hnd : toyScanner.done
          ⟨['"'] ++ (s.data ++ []), [], 0, ['"'].length + s.data.length, line'⟩ = true := by
        simp [toyScanner.done]; omega
      simp only [toyScanner.stringToken, hloop', hnd, toyScanner.withToken, if_true]
      simp; omega
    have := toyScanner.scan_of_one_token _ _ _ (by simp) htok rfl rfl hlen.symm
    unfold scan NewScanner
    rw [hdata, this, hlen]


/-- C24, at the text `a`, newline, backslash, `b`. -/
theorem string_token_unescaped_witness :
    scan ("\"" ++ "a\n\\b" ++ "\"") =
        .ok [⟨TOKEN_STRING, "a\n\\b", .absent, "a\n\\b".data.length + 2⟩,
          ⟨TOKEN_EOF, "", .absent, "a\n\\b".data.length + 2⟩] ∧
      scan ("\"" ++ "a\n\\b") =
        .ok [⟨TOKEN_ERROR, "Unterminated string", .absent, "a\n\\b".data.length + 1⟩,
          ⟨TOKEN_EOF, "", .absent, "a\n\\b".data.length + 1⟩] :=
  string_token_unescaped "a\n\\b" (by decide)

theorem toyScanner.numberLoop_run (src : List Char) (toks : List Token) (st line : Nat) :
    ∀ (body pre : List Char) (fuel : Nat) (str : String),
      src = pre ++ body → (∀ c ∈ body, isNumberic c = true) → body.length < fuel →
      toyScanner.numberLoop fuel ⟨src, toks, st, pre.length, line⟩ str =
        .ok (⟨src, toks, st, pre.length + body.length, line⟩, ⟨str.data ++ body⟩) := by
  intro body
  induction body with
  | nil =>
    intro pre fuel str hsrc _ hfuel
    obtain ⟨f, rfl⟩ : ∃ f, fuel = f + 1 := ⟨fuel - 1, by simp at hfuel; omega⟩
    have hpk : isNumberic (toyScanner.peek ⟨src, toks, st, pre.length, line⟩) = false := by
      simp [toyScanner.peek, toyScanner.done, hsrc]
      decide
    simp [toyScanner.numberLoop, hpk]
  | cons c body ih =>
    intro pre fuel str hsrc hdig hfuel
    obtain ⟨f, rfl⟩ : ∃ f, fuel = f + 1 := ⟨fuel - 1, by simp at hfuel; omega⟩
    have hc : src[pre.length]? = some c := by rw [hsrc]; exact getElem?_append_cons pre _ _
    have hrec := ih (pre ++ [c]) f (str.push c) (by rw [hsrc]; simp)
      (fun x hx => hdig x (List.mem_cons_of_mem _ hx)) (by simpa using hfuel)
    rw [List.length_append, List.length_singleton] at hrec
    simp only [toyScanner.numberLoop, toyScanner.peek_src _ _ _ _ _ _ hc,
      hdig c (List.mem_cons_self _ _), if_true, toyScanner.advance_src _ _ _ _ _ _ hc, hrec]
    simp [Nat.add_assoc, Nat.add_comm 1]

theorem isNumberic_ne {c : Char} (hd : isNumberic c = true) (x : Char)
    (hx : isNumberic x = false) : c ≠ x := by
  intro h
  rw [h, hx] at hd
  cases hd

theorem toyScanner.scanToken_digit (src : List Char) (toks : List Token) (st cur line : Nat)
    (c : Char) (h : src[cur]? = some c) (hd : isNumberic c = true) :
    toyScanner.scanToken ⟨src, toks, st, cur, line⟩ =
      toyScanner.withToken (toyScanner.numberToken ⟨src, toks, st, cur + 1, line⟩) := by
  have hne := isNumberic_ne hd
  simp [toyScanner.scanToken, toyScanner.advance_src _ _ _ _ _ _ h, toyScanner.scanDefault, hd,
    hne ' ' (by decide), hne '\r' (by decide), hne '\t' (by decide), hne '\n' (by decide),
    hne '(' (by decide), hne ')' (by decide), hne ',' (by decide), hne '.' (by decide),
    hne '-' (by decide), hne '+' (by decide), hne '*' (by decide), hne '!' (by decide),
    hne '=' (by decide), hne '>' (by decide), hne '<' (by decide), hne '"' (by decide),
    hne '@' (by decide), hne '#' (by decide)]

theorem isNumberic_cases {c : Char} (hd : isNumberic c = true) :
    c ∈ ['0', '1', '2', '3', '4', '5', '6', '7', '8', '9'] := by
  have h : 48 ≤ c.toNat ∧ c.toNat ≤ 57 := by simpa [isNumberic] using hd
  have hc : c = Char.ofNat c.toNat := (Char.ofNat_toNat c).symm
  obtain ⟨h1, h2⟩ := h
  rw [hc]
  interval_cases c.toNat <;> decide

theorem atoi_digits (c : Char) (body : List Char)
    (hdig : ∀ x ∈ c :: body, isNumberic x = true) (hfit : digitsValue (c :: body) ≤ maxInt) :
    atoi ⟨c :: body⟩ = .ok (digitsValue (c :: body) : Int) := by
  have hc := isNumberic_cases (hdig c (List.mem_cons_self _ _))
  have hall : body.all isNumberic = true :=
    List.all_eq_true.mpr fun x hx => hdig x (List.mem_cons_of_mem _ hx)
  simp only [List.mem_cons, List.mem_singleton, List.not_mem_nil, or_false] at hc
  rcases hc with rfl | rfl | rfl | rfl | rfl | rfl | rfl | rfl | rfl | rfl <;>
    simp [atoi, hall, hfit, isNumberic]

theorem toyScanner.numberToken_run (src : List Char) (toks : List Token) (st line : Nat)
    (pre : List Char) (c : Char) (body : List Char) (hsrc : src = pre ++ c :: body)
    (hdig : ∀ x ∈ c :: body, isNumberic x = true) (hfit : digitsValue (c :: body) ≤ maxInt) :
    toyScanner.numberToken ⟨src, toks, st, pre.length + 1, line⟩ =
      .ok (⟨TOKEN_NUMBER, ⟨c :: body⟩, .int (digitsValue (c :: body)), src.length⟩,
        ⟨src, toks, st, src.length, line⟩) := by
  have hc : src[pre.length]? = some c := by rw [hsrc]; exact getElem?_append_cons pre _ _
  have hloop := toyScanner.numberLoop_run src toks st line body (pre ++ [c]) (src.length + 1)
    (String.singleton c) (by rw [hsrc]; simp)
    (fun x hx => hdig x (List.mem_cons_of_mem _ hx)) (by rw [hsrc]; simp; omega)
  have hlen : (pre ++ [c]).length + body.length = src.length := by rw [hsrc]; simp; omega
  rw [hlen, List.length_append, List.length_singleton] at hloop
  have hstr : (⟨(String.singleton c).data ++ body⟩ : String) = ⟨c :: body⟩ := rfl
  simp only [toyScanner.numberToken, toyScanner.previous, hc, hloop, hstr,
    atoi_digits c body hdig hfit]

theorem toyScanner.scanLoop_last (fuel : Nat) {s s1 : toyScanner} {t : Token}
    (hd : s.done = false) (h : s.scanToken = .ok (some t, s1))
    (hend : s1.current = s1.source.length) :
    toyScanner.scanLoop (fuel + 2) s = .ok { s1 with tokens := s1.tokens ++ [t] } := by
  rw [toyScanner.scanLoop_some hd h, toyScanner.scanLoop_done (by simp [toyScanner.done, hend])]

/-- C25: a non-empty run of decimal digits whose value fits the `int` range is scanned to
one number token with the run as lexeme and its decimal value as literal, followed by
end-of-file; with a `-` in front it is scanned to a minus token followed by the number
token of the run, whose literal is the value without sign. -/
theorem number_token_unsigned (d : String) (hne : d.data ≠ [])
    (hdig : ∀ c ∈ d.data, isNumberic c = true) (hfit : digitsValue d.data ≤ maxInt) :
    scan d = .ok [⟨TOKEN_NUMBER, d, .int (digitsValue d.data), d.data.length⟩,
        ⟨TOKEN_EOF, "", .absent, d.data.length⟩] ∧
      scan ("-" ++ d) = .ok [⟨TOKEN_MINUS, "-", .absent, 1⟩,
        ⟨TOKEN_NUMBER, d, .int (digitsValue d.data), d.data.length + 1⟩,
        ⟨TOKEN_EOF, "", .absent, d.data.length + 1⟩] := by
  obtain ⟨ds⟩ := d
  cases ds with
  | nil => exact absurd rfl hne
  | cons c body =>
    simp only at hdig hfit
    have hc := hdig c (List.mem_cons_self _ _)
    constructor
    · have htok : toyScanner.scanToken ⟨c :: body, [], 0, 0, 1⟩ =
          .ok (some ⟨TOKEN_NUMBER, ⟨c :: body⟩, .int (digitsValue (c :: body)),
            (c :: body).length⟩, ⟨c :: body, [], 0, (c :: body).length, 1⟩) := by
        rw [toyScanner.scanToken_digit _ _ _ _ _ c (by simp) hc]
        have := toyScanner.numberToken_run (c :: body) [] 0 1 [] c body rfl hdig hfit
        simp only [List.length_nil] at this
        rw [this]
        rfl
      have hloop := toyScanner.scanLoop_last body.length
        (toyScanner.done_src (c :: body) [] 0 0 1 c (by simp)) htok rfl
      have e : (toyScanner.mk (c :: body) [] 0 0 1).source.length + 1 = body.length + 2 := rfl
      simp only [scan, NewScanner, toyScanner.ScanTokens, e, hloop, List.nil_append,
        List.singleton_append]
    · have hdata : ("-" ++ (⟨c :: body⟩ : String)).data = '-' :: c :: body := rfl
      have htok1 : toyScanner.scanToken ⟨'-' :: c :: body, [], 0, 0, 1⟩ =
          .ok (some ⟨TOKEN_MINUS, "-", .absent, 1⟩, ⟨'-' :: c :: body, [], 0, 1, 1⟩) := by
        simp [toyScanner.scanToken, toyScanner.advance, toyScanner.punct]
      have htok2 : toyScanner.scanToken
          ⟨'-' :: c :: body, [] ++ [⟨TOKEN_MINUS, "-", .absent, 1⟩], 0, 1, 1⟩ =
          .ok (some ⟨TOKEN_NUMBER, ⟨c :: body⟩, .int (digitsValue (c :: body)),
            ('-' :: c :: body).length⟩,
            ⟨'-' :: c :: body, [] ++ [⟨TOKEN_MINUS, "-", .absent, 1⟩], 0,
              ('-' :: c :: body).length, 1⟩) := by
        rw [toyScanner.scanToken_digit _ _ _ _ _ c (by simp) hc]
        have := toyScanner.numberToken_run ('-' :: c :: body)
          ([] ++ [⟨TOKEN_MINUS, "-", .absent, 1⟩]) 0 1 ['-'] c body rfl hdig hfit
        simp only [List.length_singleton] at this
        rw [this]
        rfl
      have hloop := toyScanner.scanLoop_last body.length
        (toyScanner.done_src ('-' :: c :: body) ([] ++ [⟨TOKEN_MINUS, "-", .absent, 1⟩]) 0 1 1
          c (by simp)) htok2 rfl
      have hd0 := toyScanner.done_src ('-' :: c :: body) [] 0 0 1 '-' (by simp)
      have e : (toyScanner.mk ('-' :: c :: body) [] 0 0 1).source.length + 1 =
          (body.length + 2) + 1 := rfl
      simp only [scan, NewScanner, toyScanner.ScanTokens, hdata, e,
        toyScanner.scanLoop_some hd0 htok1, hloop]
      rfl

/-- C25, at the digits `042`. -/
theorem number_token_unsigned_witness :
    scan "042" = .ok [⟨TOKEN_NUMBER, "042", .int (digitsValue "042".data), "042".data.length⟩,
        ⟨TOKEN_EOF, "", .absent, "042".data.length⟩] ∧
      scan ("-" ++ "042") = .ok [⟨TOKEN_MINUS, "-", .absent, 1⟩,
        ⟨TOKEN_NUMBER, "042", .int (digitsValue "042".data), "042".data.length + 1⟩,
        ⟨TOKEN_EOF, "", .absent, "042".data.length + 1⟩] :=
  number_token_unsigned "042" (by decide) (by decide) (by decide)

/-! ### Var statements in a closure body -/

theorem St.SameBut.same (g : Nat) (s : St) : St.SameBut g s s := ⟨rfl, fun _ _ => rfl⟩

theorem St.SameBut.step {g : Nat} {s s1 s2 : St} (h1 : St.SameBut g s s1)
    (h2 : St.SameBut g s1 s2) : St.SameBut g s s2 :=
  ⟨h2.1.trans h1.1, fun p hp => (h2.2 p hp).trans (h1.2 p hp)⟩

theorem St.SameBut.set_frame (g : Nat) (s : St) (k : String) (v : Value) :
    St.SameBut g s (s.set g k v) := by
  refine ⟨?_, fun p hp => St.set_frames_other s g k v p hp⟩
  unfold St.set
  cases s.frames[g]? <;> simp

theorem toyInterpreter.bindParams_sameBut (g : Nat) :
    ∀ (ps : List String) (a : List Value) (s : St),
      St.SameBut g s (toyInterpreter.bindParams g ps a s) := by
  intro ps
  induction ps with
  | nil => intro a s; exact St.SameBut.same g s
  | cons p ps ih =>
    intro a s
    cases a with
    | nil => exact St.SameBut.same g s
    | cons v a => exact (St.SameBut.set_frame g s p v).step (ih a _)

theorem toyInterpreter.varLoop_literals (i : toyInterpreter) (n g : Nat) :
    ∀ (entries : List (String × Node)) (s : St),
      (∀ e ∈ entries, e.2.literal.isSome = true) →
      ∃ s', toyInterpreter.varLoop (i.execNode (n + 1)) g entries s = .ok s' ∧
        St.SameBut g s s' := by
  intro entries
  induction entries with
  | nil => intro s _; exact ⟨s, rfl, St.SameBut.same g s⟩
  | cons e rest ih =>
    intro s h
    obtain ⟨k, lit⟩ := e
    obtain ⟨v, hv⟩ := Option.isSome_iff_exists.mp (h (k, lit) (List.mem_cons_self _ _))
    obtain ⟨s', hs', hsame⟩ := ih (s.set g k v) (fun e he => h e (List.mem_cons_of_mem _ he))
    refine ⟨s', ?_, (St.SameBut.set_frame g s k v).step hsame⟩
    simp only [toyInterpreter.varLoop, toyInterpreter.execNode_literal i n lit v hv,
      Res.ok_bind, hs']

theorem toyInterpreter.execLast_varStatements (i : toyInterpreter) (n g : Nat) :
    ∀ (body : List (List (String × Node))) (last : Value) (s : St),
      (∀ vars ∈ body, ∀ e ∈ vars, e.2.literal.isSome = true) →
      ∃ v s', toyInterpreter.execLast (i.execNode (n + 2)) g (body.map Node.VarStatement)
          last s = .ok (v, s') ∧ St.SameBut g s s' := by
  intro body
  induction body with
  | nil => intro last s _; exact ⟨last, s, rfl, St.SameBut.same g s⟩
  | cons vars rest ih =>
    intro last s h
    have hvars : ∀ e ∈ rangeOrder (s.sched.headD 0) vars, e.2.literal.isSome = true :=
      fun e he => h vars (List.mem_cons_self _ _) e
        ((rangeOrder_perm _ vars).mem_iff.mp he)
    obtain ⟨s1, hs1, hsame1⟩ := toyInterpreter.varLoop_literals i n g _
      { s with sched := s.sched.tail } hvars
    obtain ⟨v, s', hs', hsame⟩ := ih .null s1 (fun vs hvs => h vs (List.mem_cons_of_mem _ hvs))
    refine ⟨v, s', ?_, ?_⟩
    · simp only [List.map, toyInterpreter.execLast]
      rw [toyInterpreter.execNode_succ]
      simp only [toyInterpreter.execNodeBody, toyInterpreter.execVar, St.range, hs1,
        Res.ok_bind, Res.pure_eq]
      exact hs'
    · exact St.SameBut.step ⟨hsame1.1, hsame1.2⟩ hsame

/-- C21: a call of a closure whose body is a list of var statements with literal
initialisers returns, for every argument list, and leaves every frame that was allocated
before the call as it was: the defining frame and all its ancestors have the bindings
they had before the call. -/
theorem closure_var_stays_in_call_frame (i : toyInterpreter) (n : Nat) (params : List String)
    (body : List (List (String × Node))) (f : Nat) (a : List Value) (s : St)
    (frs : List frame)
    (hlit : ∀ vars ∈ body, ∀ e ∈ vars, e.2.literal.isSome = true)
    (hch : s.Chain f frs) :
    ∃ v s', i.callValue (n + 3) (.func params (body.map Node.VarStatement) f) a s =
        .ok (v, s') ∧
      (∀ p, p < s.frames.length → s'.frames[p]? = s.frames[p]?) ∧ s'.Chain f frs := by
  obtain ⟨v, s', hs', hsame⟩ := toyInterpreter.execLast_varStatements i n s.frames.length body
    .null (toyInterpreter.bindParams s.frames.length params a
      { s with frames := s.frames ++ [⟨[], some f⟩] }) hlit
  have hb := toyInterpreter.bindParams_sameBut s.frames.length params a
    { s with frames := s.frames ++ [⟨[], some f⟩] }
  have hall := hb.step hsame
  have hold : ∀ p, p < s.frames.length → s'.frames[p]? = s.frames[p]? := by
    intro p hp
    rw [hall.2 p (Nat.ne_of_lt hp)]
    exact List.getElem?_append_left hp
  refine ⟨v, s', ?_, hold, ?_⟩
  · rw [toyInterpreter.callValue_succ]
    simp only [toyInterpreter.callBody, toyInterpreter.callFunc, St.newFrame]
    exact hs'
  · clear hs' hsame hb hall
    induction hch with
    | root f fr hf hp =>
      exact St.Chain.root f fr
        ((hold f (List.getElem?_eq_some_iff.mp hf).1).trans hf) hp
    | link f p fr rest hf hp _ ih =>
      exact St.Chain.link f p fr rest
        ((hold f (List.getElem?_eq_some_iff.mp hf).1).trans hf) hp ih

/-- C21, at the closure of `(@func (x) ((@var (a 1) (x 2)) (@var (b "s"))))` defined in a
root frame that binds `a` and `x`, called with one argument. -/
theorem closure_var_stays_in_call_frame_witness :
    ∃ v s', (toyInterpreter.mk 0).callValue (0 + 3)
        (.func ["x"] ([[("a", Node.NumberLiteral 1), ("x", .NumberLiteral 2)],
          [("b", .StringLiteral "s")]].map Node.VarStatement) 0) [.int 7]
        ⟨[⟨[("a", .int 5), ("x", .int 6)], none⟩], [], [], [], [], []⟩ = .ok (v, s') ∧
      (∀ p, p < (St.mk [⟨[("a", .int 5), ("x", .int 6)], none⟩] [] [] [] [] []).frames.length →
        s'.frames[p]? =
          (St.mk [⟨[("a", .int 5), ("x", .int 6)], none⟩] [] [] [] [] []).frames[p]?) ∧
      s'.Chain 0 [⟨[("a", .int 5), ("x", .int 6)], none⟩] :=
  closure_var_stays_in_call_frame ⟨0⟩ 0 ["x"]
    [[("a", .NumberLiteral 1), ("x", .NumberLiteral 2)], [("b", .StringLiteral "s")]] 0
    [.int 7] ⟨[⟨[("a", .int 5), ("x", .int 6)], none⟩], [], [], [], [], []⟩
    [⟨[("a", .int 5), ("x", .int 6)], none⟩] (by decide) (St.Chain.root 0 _ rfl rfl)

/-! ### Parser: the names of imported references -/

theorem splitDots.go_dotfree :
    ∀ (cs : List Char) (seg : String), '.' ∉ cs →
      splitDots.go cs seg = [⟨seg.data ++ cs⟩] := by
  intro cs
  induction cs with
  | nil => intro seg _; simp [splitDots.go]
  | cons c cs ih =>
    intro seg h
    have hc : c ≠ '.' := fun e => h (by simp [e])
    simp only [splitDots.go, hc, if_false]
    rw [ih _ (fun h' => h (List.mem_cons_of_mem _ h'))]
    simp

theorem splitDots.go_dot :
    ∀ (a b : List Char) (seg : String), '.' ∉ a →
      splitDots.go (a ++ '.' :: b) seg = ⟨seg.data ++ a⟩ :: splitDots.go b "" := by
  intro a
  induction a with
  | nil => intro b seg _; simp [splitDots.go]
  | cons c a ih =>
    intro b seg h
    have hc : c ≠ '.' := fun e => h (by simp [e])
    rw [List.cons_append]
    simp only [splitDots.go, hc, if_false]
    rw [ih b _ (fun h' => h (List.mem_cons_of_mem _ h'))]
    simp

theorem importedNameOk_of_parts (a b : String) (ha : a.data ≠ []) (hb : b.data ≠ [])
    (hda : '.' ∉ a.data) (hdb : '.' ∉ b.data) :
    importedNameOk (a ++ "." ++ b) = true := by
  have hdata : (a ++ "." ++ b).data = a.data ++ '.' :: b.data := by simp
  have hsplit : splitDots (a ++ "." ++ b) = [a, b] := by
    unfold splitDots
    rw [hdata, splitDots.go_dot _ _ _ hda, splitDots.go_dotfree _ _ hdb]
    simp
  simp [importedNameOk, hsplit, ha, hb]

theorem splitDots.go_ne_nil : ∀ (cs : List Char) (seg : String), splitDots.go cs seg ≠ [] := by
  intro cs
  induction cs with
  | nil => intro seg; simp [splitDots.go]
  | cons c cs ih =>
    intro seg
    simp only [splitDots.go]
    split
    · simp
    · exact ih _

theorem splitDots.go_one :
    ∀ (cs : List Char) (seg y : String), splitDots.go cs seg = [y] →
      '.' ∉ cs ∧ y.data = seg.data ++ cs := by
  intro cs
  induction cs with
  | nil =>
    intro seg y h
    simp only [splitDots.go, List.cons.injEq, and_true] at h
    subst h
    simp
  | cons c cs ih =>
    intro seg y h
    simp only [splitDots.go] at h
    split at h
    · simp only [List.cons.injEq] at h
      exact absurd h.2 (splitDots.go_ne_nil _ _)
    · rename_i hc
      obtain ⟨h1, h2⟩ := ih _ _ h
      exact ⟨by simp [h1, Ne.symm hc], by simp [h2]⟩

theorem splitDots.go_two :
    ∀ (cs : List Char) (seg x y : String), splitDots.go cs seg = [x, y] →
      ∃ a, cs = a ++ '.' :: y.data ∧ x.data = seg.data ++ a ∧ '.' ∉ a ∧ '.' ∉ y.data := by
  intro cs
  induction cs with
  | nil => intro seg x y h; simp [splitDots.go] at h
  | cons c cs ih =>
    intro seg x y h
    simp only [splitDots.go] at h
    split at h
    · rename_i hc
      simp only [List.cons.injEq] at h
      obtain ⟨rfl, h⟩ := h
      obtain ⟨h1, h2⟩ := splitDots.go_one _ _ _ h
      exact ⟨[], by simp [hc, h2], by simp, by simp, by simpa [h2] using h1⟩
    · rename_i hc
      obtain ⟨a, h1, h2, h3, h4⟩ := ih _ _ _ h
      exact ⟨c :: a, by simp [h1], by simp [h2], by simp [h3, Ne.symm hc], h4⟩

theorem importedNameOk_parts (nm : String) (h : importedNameOk nm = true) :
    ∃ a b : String, nm = a ++ "." ++ b ∧ a ≠ "" ∧ b ≠ "" ∧ '.' ∉ a.data ∧ '.' ∉ b.data ∧
      splitDots nm = [a, b] := by
  unfold importedNameOk at h
  split at h
  · rename_i a b hsplit
    simp only [Bool.and_eq_true, Bool.not_eq_true', List.isEmpty_eq_false] at h
    obtain ⟨a', h1, h2, h3, h4⟩ := splitDots.go_two _ _ _ _ hsplit
    have h2' : a' = a.data := h2.symm
    subst h2'
    refine ⟨a, b, ?_, ?_, ?_, h3, h4, hsplit⟩
    · apply String.ext
      simp [h1]
    · intro e; rw [e] at h; exact h.1 rfl
    · intro e; rw [e] at h; exact h.2 rfl
  · cases h

theorem Res.All.seq {α β : Type} {Q : α → Prop} {R : β → Prop} {m : Res α}
    {f : α → Res β} (h : Res.All Q m) (hf : ∀ a, Q a → Res.All R (f a)) :
    Res.All R (m >>= f) := by
  cases m with
  | ok a => exact hf a h
  | panic m => exact trivial
  | timeout => exact trivial
  | external => exact trivial

theorem Step2.seq2 {toks : List Token} {α β : Type} {V : α → Prop} {R : β → Prop}
    {m : Res (α × toyParser)} {f : α × toyParser → Res β} (h : Step2 toks V m)
    (hf : ∀ a c, V a → Res.All R (f (a, ⟨toks, c⟩))) : Res.All R (m >>= f) := by
  refine Res.All.seq h ?_
  rintro ⟨a, ⟨tk, c⟩⟩ ⟨hv, ht⟩
  dsimp only at hv ht
  subst ht
  exact hf a c hv

theorem Step3.seq3 {toks : List Token} {α β γ : Type} {V : α → β → Prop} {R : γ → Prop}
    {m : Res (α × β × toyParser)} {f : α × β × toyParser → Res γ} (h : Step3 toks V m)
    (hf : ∀ a b c, V a b → Res.All R (f (a, b, ⟨toks, c⟩))) : Res.All R (m >>= f) := by
  refine Res.All.seq h ?_
  rintro ⟨a, b, ⟨tk, c⟩⟩ ⟨hv, ht⟩
  dsimp only at hv ht
  subst ht
  exact hf a b c hv

theorem all_ok {α : Type} {R : α → Prop} {a : α} (h : R a) : Res.All R (.ok a) := h

theorem step3_ok {toks : List Token} {α β : Type} {V : α → β → Prop} {a : α} {b : β}
    {c : Nat} (h : V a b) : Step3 toks V (.ok (a, b, ⟨toks, c⟩)) := ⟨h, rfl⟩

theorem step2_ok {toks : List Token} {α : Type} {V : α → Prop} {a : α} {c : Nat} (h : V a) :
    Step2 toks V (.ok (a, ⟨toks, c⟩)) := ⟨h, rfl⟩

theorem toyParser.peek_mem (toks : List Token) (c : Nat) :
    Res.All (fun t => t ∈ toks) (toyParser.peek ⟨toks, c⟩) := by
  unfold toyParser.peek
  dsimp only
  cases h : toks[c]? with
  | some t => exact List.getElem?_mem h
  | none =>
    cases h' : toks.getLast? with
    | some t => exact List.mem_of_getLast?_eq_some h'
    | none => exact trivial

theorem toyParser.advance_step (toks : List Token) (c : Nat) :
    Step2 toks (fun t => t ∈ toks) (toyParser.advance ⟨toks, c⟩) := by
  unfold toyParser.advance
  refine Res.All.seq (toyParser.peek_mem toks c) fun t ht => ?_
  exact ⟨ht, rfl⟩

theorem toyParser.match_step (toks : List Token) (c : Nat) (ty : TokenType) :
    Step2 toks (fun _ => True) (toyParser.match_ ⟨toks, c⟩ ty) := by
  unfold toyParser.match_
  split
  · refine Step2.seq2 (toyParser.advance_step toks c) fun t c' _ => ?_
    exact ⟨trivial, rfl⟩
  · exact ⟨trivial, rfl⟩

theorem toyParser.consume_step (toks : List Token) (c : Nat) (ty : TokenType) (err : String) :
    Step3 toks (fun t e => (e = none → t ∈ toks ∧ t.Type_ = ty) ∧
        ∀ n, e = some n → n.importsOk = true)
      (toyParser.consume ⟨toks, c⟩ ty err) := by
  unfold toyParser.consume
  refine Step2.seq2 (toyParser.advance_step toks c) fun t c' ht => ?_
  dsimp only
  split
  · rename_i hty
    exact step3_ok ⟨fun _ => ⟨ht, by simpa using hty⟩, fun n h => by cases h⟩
  · refine step3_ok ⟨fun h => (by cases h), fun n h => ?_⟩
    simp only [Option.some.injEq] at h
    subst h
    simp [malformedToken, Node.importsOk, importsOkOpt]

theorem toyParser.revert_step (toks : List Token) (c : Nat) :
    Step2 toks (fun _ => True) (toyParser.revert ⟨toks, c⟩) := by
  unfold toyParser.revert
  cases c with
  | zero =>
    dsimp only
    cases toks.head? with
    | some t => exact ⟨trivial, rfl⟩
    | none => exact trivial
  | succ c =>
    dsimp only
    refine Res.All.seq (toyParser.peek_mem toks c) fun t _ => ?_
    exact ⟨trivial, rfl⟩

theorem toyParser.referenceExpression_imports (toks : List Token)
    (htok : ∀ t ∈ toks, t.Type_ = TOKEN_IDENTIFIER →
      t.Lexeme.data ≠ [] ∧ ∀ c ∈ t.Lexeme.data, isAlphabetic c = true) :
    ImportsRule toks toyParser.referenceExpression := by
  intro c
  unfold toyParser.referenceExpression
  refine Step2.seq2 (toyParser.advance_step toks c) fun part1 c1 h1 => ?_
  dsimp only
  cases hty : part1.Type_
  case TOKEN_IDENTIFIER =>
    dsimp only
    refine Step2.seq2 (toyParser.match_step toks c1 TOKEN_DOT) fun b c2 _ => ?_
    cases b
    · exact step3_ok (by simp [Node.importsOk])
    · dsimp only
      simp only [if_true]
      refine Step3.seq3 (toyParser.consume_step toks c2 _ _) fun part2 e c3 hv => ?_
      cases e with
      | some n => exact step3_ok (hv.2 n rfl)
      | none =>
        obtain ⟨h2, hty2⟩ := hv.1 rfl
        obtain ⟨a1, a2⟩ := htok part1 h1 hty
        obtain ⟨b1, b2⟩ := htok part2 h2 hty2
        have hdot : ∀ l : List Char, (∀ c ∈ l, isAlphabetic c = true) → '.' ∉ l :=
          fun l hl hmem => absurd (hl '.' hmem) (by decide)
        refine step3_ok ?_
        simp only [Node.importsOk]
        exact importedNameOk_of_parts _ _ a1 b1 (hdot _ a2) (hdot _ b2)
  all_goals exact step3_ok (by simp [Node.importsOk, malformedToken, importsOkOpt])

theorem toyParser.simpleLiteral_imports (toks : List Token)
    (href : ImportsRule toks toyParser.referenceExpression) :
    ImportsRule toks toyParser.simpleLiteral := by
  intro c
  unfold toyParser.simpleLiteral
  refine Step2.seq2 (toyParser.advance_step toks c) fun t c1 h1 => ?_
  dsimp only
  cases hty : t.Type_
  case TOKEN_IDENTIFIER =>
    dsimp only
    refine Step2.seq2 (toyParser.revert_step toks c1) fun _ c2 _ => ?_
    exact href c2
  case TOKEN_NUMBER =>
    dsimp only
    cases atoi t.Lexeme <;>
      exact step3_ok (by simp [Node.importsOk, malformedToken, importsOkOpt])
  case TOKEN_BOOLEAN =>
    dsimp only
    cases t.Literal
    case bool b => exact step3_ok (by simp [Node.importsOk])
    all_goals exact trivial
  case TOKEN_STRING => exact step3_ok (by simp [Node.importsOk])
  all_goals
    dsimp only
    refine Res.All.seq (toyParser.peek_mem toks c1) fun t0 _ => ?_
    exact step3_ok (by simp [Node.importsOk, malformedToken, importsOkOpt])

theorem toyParser.importLoop_imports (toks : List Token) :
    ∀ fuel c imports,
      Step2 toks (fun r : Node ⊕ List (String × String) => ∀ e, r = .inl e → e.importsOk = true)
        (toyParser.importLoop fuel ⟨toks, c⟩ imports) := by
  intro fuel
  induction fuel with
  | zero => intro c imports; exact trivial
  | succ n ih =>
    intro c imports
    simp only [toyParser.importLoop]
    repeat' first
      | exact all_ok ⟨by simp_all [Node.importsOk, malformedToken, importsOkOpt], rfl⟩
      | exact ih _ _
      | dsimp only
      | refine Step3.seq3 (toyParser.consume_step toks _ _ _) fun _ _ _ _ => ?_
      | split

theorem toyParser.importStatement_imports (toks : List Token) (fuel : Nat) :
    ImportsRule toks (toyParser.importStatement fuel) := by
  intro c
  simp only [toyParser.importStatement]
  refine Step2.seq2 (toyParser.importLoop_imports toks fuel c []) fun r c1 hr => ?_
  repeat' first
    | exact all_ok ⟨by simp_all [Node.importsOk, malformedToken, importsOkOpt], rfl⟩
    | dsimp only
    | refine Step3.seq3 (toyParser.consume_step toks _ _ _) fun _ _ _ _ => ?_
    | split

theorem importsOkList_append (xs ys : List Node) :
    importsOkList (xs ++ ys) = (importsOkList xs && importsOkList ys) := by
  induction xs with
  | nil => simp [importsOkList]
  | cons x xs ih => simp [importsOkList, ih, Bool.and_assoc]

theorem importsOkCases_append (xs ys : List (Node × Node)) :
    importsOkCases (xs ++ ys) = (importsOkCases xs && importsOkCases ys) := by
  induction xs with
  | nil => simp [importsOkCases]
  | cons x xs ih =>
    obtain ⟨c, a⟩ := x
    simp [importsOkCases, ih, Bool.and_assoc]

theorem importsOkEntries_mapSet (m : List (String × Node)) (k : String) (v : Node)
    (hm : importsOkEntries m = true) (hv : v.importsOk = true) :
    importsOkEntries (mapSet m k v) = true := by
  induction m with
  | nil => simp [mapSet, importsOkEntries, hv]
  | cons e rest ih =>
    obtain ⟨k', n⟩ := e
    simp only [importsOkEntries, Bool.and_eq_true] at hm
    by_cases h : k' = k
    · simp [mapSet, h, importsOkEntries, hv, hm.2]
    · simp [mapSet, h, importsOkEntries, hm.1, ih hm.2]

theorem toyParser.varLoop_imports (toks : List Token) {expr : PRule}
    (hexpr : ImportsRule toks expr) :
    ∀ fuel c vars, importsOkEntries vars = true →
      Step2 toks (fun r : Node ⊕ List (String × Node) =>
          (∀ e, r = .inl e → e.importsOk = true) ∧
            ∀ vs, r = .inr vs → importsOkEntries vs = true)
        (toyParser.varLoop expr fuel ⟨toks, c⟩ vars) := by
  intro fuel
  induction fuel with
  | zero => intro c vars _; exact trivial
  | succ n ih =>
    intro c vars hvars
    simp only [toyParser.varLoop]
    repeat' first
      | exact all_ok ⟨by simp_all [Node.importsOk, malformedToken, importsOkOpt], rfl⟩
      | exact ih _ _ (importsOkEntries_mapSet _ _ _ hvars (by assumption))
      | dsimp only
      | refine Step3.seq3 (toyParser.consume_step toks _ _ _) fun _ _ _ _ => ?_
      | refine Step3.seq3 (hexpr _) fun _ _ _ _ => ?_
      | split

theorem toyParser.varStatement_imports (toks : List Token) {expr : PRule}
    (hexpr : ImportsRule toks expr) (fuel : Nat) :
    ImportsRule toks (toyParser.varStatement expr fuel) := by
  intro c
  simp only [toyParser.varStatement]
  refine Step2.seq2 (toyParser.varLoop_imports toks hexpr fuel c [] rfl) fun r c1 hr => ?_
  repeat' first
    | exact all_ok ⟨by simp_all [Node.importsOk, malformedToken, importsOkOpt], rfl⟩
    | dsimp only
    | refine Step3.seq3 (toyParser.consume_step toks _ _ _) fun _ _ _ _ => ?_
    | split

theorem toyParser.exportLoop_imports (toks : List Token) :
    ∀ fuel c exports, importsOkList exports = true →
      Step2 toks (fun r : Node ⊕ List Node =>
          (∀ e, r = .inl e → e.importsOk = true) ∧
            ∀ es, r = .inr es → importsOkList es = true)
        (toyParser.exportLoop fuel ⟨toks, c⟩ exports) := by
  intro fuel
  induction fuel with
  | zero => intro c exports _; exact trivial
  | succ n ih =>
    intro c exports hex
    simp only [toyParser.exportLoop]
    repeat' first
      | exact all_ok ⟨by simp_all [Node.importsOk, malformedToken, importsOkOpt], rfl⟩
      | exact ih _ _ (by simp [importsOkList_append, hex, importsOkList, Node.importsOk])
      | dsimp only
      | refine Step2.seq2 (toyParser.advance_step toks _) fun _ _ _ => ?_
      | refine Res.All.seq (toyParser.peek_mem toks _) fun _ _ => ?_
      | split

theorem toyParser.exportStatement_imports (toks : List Token) (fuel : Nat) :
    ImportsRule toks (toyParser.exportStatement fuel) := by
  intro c
  simp only [toyParser.exportStatement]
  refine Step2.seq2 (toyParser.exportLoop_imports toks fuel c [] rfl) fun r c1 hr => ?_
  repeat' first
    | exact all_ok ⟨by simp_all [Node.importsOk, malformedToken, importsOkOpt], rfl⟩
    | dsimp only
    | refine Step3.seq3 (toyParser.consume_step toks _ _ _) fun _ _ _ _ => ?_
    | split

theorem toyParser.exprLoop_imports (toks : List Token) {expr : PRule}
    (hexpr : ImportsRule toks expr) :
    ∀ fuel c exprs hasErrors, importsOkList exprs = true →
      Step3 toks (fun (es : List Node) (_ : Bool) => importsOkList es = true)
        (toyParser.exprLoop expr fuel ⟨toks, c⟩ exprs hasErrors) := by
  intro fuel
  induction fuel with
  | zero => intro c exprs hasErrors _; exact trivial
  | succ n ih =>
    intro c exprs hasErrors hex
    simp only [toyParser.exprLoop]
    repeat' first
      | exact all_ok ⟨by simp_all, rfl⟩
      | exact ih _ _ _ (by simp_all [importsOkList_append, importsOkList])
      | dsimp only
      | refine Step3.seq3 (hexpr _) fun _ _ _ _ => ?_
      | split

theorem toyParser.callExpression_imports (toks : List Token) {expr : PRule}
    (hexpr : ImportsRule toks expr)
    (href : ImportsRule toks toyParser.referenceExpression) (fuel : Nat) :
    ImportsRule toks (toyParser.callExpression expr fuel) := by
  intro c
  simp only [toyParser.callExpression]
  refine Step3.seq3 (href c) fun _ _ _ _ => ?_
  dsimp only
  refine Step3.seq3 (toyParser.exprLoop_imports toks hexpr fuel _ _ _ rfl) fun _ _ _ _ => ?_
  repeat' first
    | exact all_ok ⟨by simp_all [Node.importsOk, malformedToken, importsOkOpt], rfl⟩
    | dsimp only
    | refine Step3.seq3 (toyParser.consume_step toks _ _ _) fun _ _ _ _ => ?_
    | split

theorem toyParser.paramLoop_imports (toks : List Token) :
    ∀ fuel c params hasErrors,
      Step3 toks (fun (_ : List String) (_ : Bool) => True)
        (toyParser.paramLoop fuel ⟨toks, c⟩ params hasErrors) := by
  intro fuel
  induction fuel with
  | zero => intro c params hasErrors; exact trivial
  | succ n ih =>
    intro c params hasErrors
    simp only [toyParser.paramLoop]
    repeat' first
      | exact all_ok ⟨trivial, rfl⟩
      | exact ih _ _ _
      | dsimp only
      | refine Step3.seq3 (toyParser.consume_step toks _ _ _) fun _ _ _ _ => ?_
      | split

theorem toyParser.funcExpression_imports (toks : List Token) {expr : PRule}
    (hexpr : ImportsRule toks expr) (fuel : Nat) :
    ImportsRule toks (toyParser.funcExpression expr fuel) := by
  intro c
  simp only [toyParser.funcExpression]
  repeat' first
    | exact all_ok ⟨by simp_all [Node.importsOk, malformedToken, importsOkOpt], rfl⟩
    | dsimp only
    | refine Step3.seq3 (toyParser.consume_step toks _ _ _) fun _ _ _ _ => ?_
    | refine Step3.seq3 (toyParser.paramLoop_imports toks fuel _ _ _) fun _ _ _ _ => ?_
    | refine Step3.seq3 (toyParser.exprLoop_imports toks hexpr fuel _ _ _ rfl)
        fun _ _ _ _ => ?_
    | split

theorem toyParser.whenLoop_imports (toks : List Token) {expr : PRule}
    (hexpr : ImportsRule toks expr) :
    ∀ fuel c cases hasErrors, importsOkCases cases = true →
      Step3 toks (fun (cs : List (Node × Node)) (_ : Bool) => importsOkCases cs = true)
        (toyParser.whenLoop expr fuel ⟨toks, c⟩ cases hasErrors) := by
  intro fuel
  induction fuel with
  | zero => intro c cases hasErrors _; exact trivial
  | succ n ih =>
    intro c cases hasErrors hcs
    simp only [toyParser.whenLoop]
    repeat' first
      | exact all_ok ⟨by simp_all, rfl⟩
      | exact ih _ _ _ (by
          simp only [importsOkCases_append, importsOkCases, hcs, Bool.true_and, Bool.and_true]
          split <;> simp_all [Node.importsOk, importsOkOpt])
      | dsimp only
      | refine Step3.seq3 (toyParser.consume_step toks _ _ _) fun _ _ _ _ => ?_
      | refine Step3.seq3 (hexpr _) fun _ _ _ _ => ?_
      | split

theorem toyParser.matchExpression_imports (toks : List Token) {expr : PRule}
    (hexpr : ImportsRule toks expr) (fuel : Nat) :
    ImportsRule toks (toyParser.matchExpression expr fuel) := by
  intro c
  simp only [toyParser.matchExpression]
  repeat' first
    | exact all_ok ⟨by simp_all [Node.importsOk], rfl⟩
    | dsimp only
    | refine Step3.seq3 (toyParser.consume_step toks _ _ _) fun _ _ _ _ => ?_
    | refine Step3.seq3 (toyParser.whenLoop_imports toks hexpr fuel _ _ _ rfl)
        fun _ _ _ _ => ?_
    | refine Step3.seq3 (hexpr _) fun _ _ _ _ => ?_

theorem toyParser.seqExpression_imports (toks : List Token) {expr : PRule}
    (hexpr : ImportsRule toks expr) (fuel : Nat) :
    ImportsRule toks (toyParser.seqExpression expr fuel) := by
  intro c
  simp only [toyParser.seqExpression]
  repeat' first
    | exact all_ok ⟨by simp_all [Node.importsOk], rfl⟩
    | dsimp only
    | refine Step3.seq3 (toyParser.consume_step toks _ _ _) fun _ _ _ _ => ?_
    | refine Step3.seq3 (toyParser.exprLoop_imports toks hexpr fuel _ _ _ rfl)
        fun _ _ _ _ => ?_

theorem toyParser.chainExpression_imports (toks : List Token) {expr : PRule}
    (hexpr : ImportsRule toks expr) (fuel : Nat) :
    ImportsRule toks (toyParser.chainExpression expr fuel) := by
  intro c
  simp only [toyParser.chainExpression]
  repeat' first
    | exact all_ok ⟨by simp_all [Node.importsOk, malformedToken, importsOkOpt], rfl⟩
    | dsimp only
    | refine Step3.seq3 (toyParser.consume_step toks _ _ _) fun _ _ _ _ => ?_
    | refine Step3.seq3 (toyParser.exprLoop_imports toks hexpr fuel _ _ _ rfl)
        fun _ _ _ _ => ?_
    | split

theorem toyParser.asyncExpression_imports (toks : List Token) {expr : PRule}
    (hexpr : ImportsRule toks expr) (fuel : Nat) :
    ImportsRule toks (toyParser.asyncExpression expr fuel) := by
  intro c
  simp only [toyParser.asyncExpression]
  repeat' first
    | exact all_ok ⟨by simp_all [Node.importsOk], rfl⟩
    | dsimp only
    | refine Step3.seq3 (toyParser.consume_step toks _ _ _) fun _ _ _ _ => ?_
    | refine Step3.seq3 (toyParser.exprLoop_imports toks hexpr fuel _ _ _ rfl)
        fun _ _ _ _ => ?_

theorem toyParser.listLiteral_imports (toks : List Token) {expr : PRule}
    (hexpr : ImportsRule toks expr) (fuel : Nat) :
    ImportsRule toks (toyParser.listLiteral expr fuel) := by
  intro c
  simp only [toyParser.listLiteral]
  repeat' first
    | exact all_ok ⟨by simp_all [Node.importsOk, malformedToken, importsOkOpt], rfl⟩
    | dsimp only
    | refine Step3.seq3 (toyParser.consume_step toks _ _ _) fun _ _ _ _ => ?_
    | refine Step3.seq3 (toyParser.exprLoop_imports toks hexpr fuel _ _ _ rfl)
        fun _ _ _ _ => ?_
    | split

theorem toyParser.hashLoop_imports (toks : List Token) {expr : PRule}
    (hexpr : ImportsRule toks expr) :
    ∀ fuel c store hasErrors, importsOkEntries store = true →
      Step2 toks (fun r : Node ⊕ (List (String × Node) × Bool) =>
          (∀ e, r = .inl e → e.importsOk = true) ∧
            ∀ st b, r = .inr (st, b) → importsOkEntries st = true)
        (toyParser.hashLoop expr fuel ⟨toks, c⟩ store hasErrors) := by
  intro fuel
  induction fuel with
  | zero => intro c store hasErrors _; exact trivial
  | succ n ih =>
    intro c store hasErrors hst
    simp only [toyParser.hashLoop]
    repeat' first
      | exact all_ok ⟨by simp_all [Node.importsOk, malformedToken, importsOkOpt], rfl⟩
      | exact ih _ _ _ (importsOkEntries_mapSet _ _ _ hst (by
          split <;> simp_all))
      | dsimp only
      | refine Step3.seq3 (toyParser.consume_step toks _ _ _) fun _ _ _ _ => ?_
      | refine Step3.seq3 (hexpr _) fun _ _ _ _ => ?_
      | split

theorem toyParser.hashLiteral_imports (toks : List Token) {expr : PRule}
    (hexpr : ImportsRule toks expr) (fuel : Nat) :
    ImportsRule toks (toyParser.hashLiteral expr fuel) := by
  intro c
  simp only [toyParser.hashLiteral]
  refine Step2.seq2 (toyParser.hashLoop_imports toks hexpr fuel c [] false rfl)
    fun r c1 hr => ?_
  repeat' first
    | exact all_ok ⟨by simp_all [Node.importsOk, malformedToken, importsOkOpt], rfl⟩
    | dsimp only
    | refine Step3.seq3 (toyParser.consume_step toks _ _ _) fun _ _ _ _ => ?_
    | split

theorem toyParser.expressionBody_imports (toks : List Token) {expr : PRule}
    (hexpr : ImportsRule toks expr)
    (href : ImportsRule toks toyParser.referenceExpression) (fuel : Nat) :
    ImportsRule toks (toyParser.expressionBody expr fuel) := by
  intro c
  have hcall : ∀ c1, Res.All (fun x : Node × Bool × toyParser =>
      x.1.importsOk = true ∧ x.2.2.tokens = toks)
      (toyParser.revert ⟨toks, c1⟩ >>= fun x =>
        toyParser.callExpression expr fuel x.2) := by
    intro c1
    refine Step2.seq2 (toyParser.revert_step toks c1) fun _ c2 _ => ?_
    exact toyParser.callExpression_imports toks hexpr href fuel c2
  simp only [toyParser.expressionBody]
  refine Step2.seq2 (toyParser.match_step toks c TOKEN_LEFT_PAREN) fun b c1 _ => ?_
  cases b
  · exact toyParser.simpleLiteral_imports toks href c1
  · dsimp only
    simp only [if_true]
    refine Step2.seq2 (toyParser.advance_step toks c1) fun t c2 _ => ?_
    dsimp only
    cases hty : t.Type_
    case TOKEN_BUILTIN =>
      dsimp only
      split
      · exact toyParser.varStatement_imports toks hexpr fuel c2
      split
      · exact toyParser.listLiteral_imports toks hexpr fuel c2
      split
      · exact toyParser.hashLiteral_imports toks hexpr fuel c2
      split
      · exact toyParser.matchExpression_imports toks hexpr fuel c2
      split
      · exact toyParser.funcExpression_imports toks hexpr fuel c2
      split
      · exact toyParser.seqExpression_imports toks hexpr fuel c2
      split
      · exact toyParser.chainExpression_imports toks hexpr fuel c2
      split
      · exact toyParser.asyncExpression_imports toks hexpr fuel c2
      exact hcall c2
    case TOKEN_IDENTIFIER => exact hcall c2
    case TOKEN_EQUAL => exact hcall c2
    case TOKEN_LESS => exact hcall c2
    case TOKEN_MORE => exact hcall c2
    all_goals exact all_ok ⟨by simp [Node.importsOk, malformedToken, importsOkOpt], rfl⟩

theorem toyParser.expression_imports (toks : List Token)
    (href : ImportsRule toks toyParser.referenceExpression) :
    ∀ fuel, ImportsRule toks (toyParser.expression fuel) := by
  intro fuel
  induction fuel with
  | zero => intro c; exact trivial
  | succ n ih => exact toyParser.expressionBody_imports toks ih href n

theorem toyParser.statement_imports (toks : List Token)
    (href : ImportsRule toks toyParser.referenceExpression) (fuel : Nat) :
    ImportsRule toks (toyParser.statement fuel) := by
  intro c
  have hexp := toyParser.expression_imports toks href fuel
  simp only [toyParser.statement]
  refine Step2.seq2 (toyParser.match_step toks c TOKEN_LEFT_PAREN) fun b c1 _ => ?_
  cases b
  · dsimp only
    simp only [Bool.false_eq_true, if_false]
    refine Step2.seq2 (toyParser.advance_step toks c1) fun t c2 _ => ?_
    exact all_ok ⟨by simp [Node.importsOk, malformedToken, importsOkOpt], rfl⟩
  · dsimp only
    simp only [if_true]
    split
    · refine Step2.seq2 (toyParser.advance_step toks c1) fun t c2 _ => ?_
      dsimp only
      split
      · exact toyParser.importStatement_imports toks fuel c2
      split
      · exact toyParser.exportStatement_imports toks fuel c2
      refine Step2.seq2 (toyParser.revert_step toks c2) fun _ c3 _ => ?_
      dsimp only
      refine Step2.seq2 (toyParser.revert_step toks c3) fun _ c4 _ => ?_
      exact hexp c4
    · refine Step2.seq2 (toyParser.revert_step toks c1) fun _ c2 _ => ?_
      exact hexp c2

theorem toyParser.programLoop_imports (toks : List Token)
    (href : ImportsRule toks toyParser.referenceExpression) (fuel : Nat) :
    ∀ k c body hasErrors, importsOkList body = true →
      Res.All (fun r : ProgramStatement × Bool => importsOkList r.1.Body = true)
        (toyParser.programLoop fuel k ⟨toks, c⟩ body hasErrors) := by
  intro k
  induction k with
  | zero => intro c body hasErrors _; exact trivial
  | succ n ih =>
    intro c body hasErrors hb
    simp only [toyParser.programLoop]
    split
    · refine Step3.seq3 (toyParser.statement_imports toks href fuel c) fun child _ c1 hc => ?_
      exact ih _ _ _ (by simp [importsOkList_append, importsOkList, hb, hc])
    · exact hb

/-- C29: in the program that `Parse` returns for the tokens of a scanned source, every
reference of kind imported has a name that passes the test of `resolveRef`; and a name
passes that test exactly when it is two non-empty parts without dot joined by one dot,
which `strings.Split` cuts into these two parts. -/
theorem imported_references_have_two_parts (source : String) (fuel : Nat)
    (prog : ProgramStatement) (flag : Bool)
    (h : scanAndParse fuel source = .ok (prog, flag)) :
    importsOkList prog.Body = true ∧
      ∀ nm, importedNameOk nm = true ↔
        ∃ a b : String, nm = a ++ "." ++ b ∧ a ≠ "" ∧ b ≠ "" ∧ '.' ∉ a.data ∧
          '.' ∉ b.data ∧ splitDots nm = [a, b] := by
  refine ⟨?_, fun nm => ⟨importedNameOk_parts nm, ?_⟩⟩
  · unfold scanAndParse at h
    cases hscan : scan source with
    | ok toks =>
      rw [hscan] at h
      dsimp only at h
      obtain ⟨init, rfl, hinit⟩ := scan_tokens_scanned hscan
      have htok : ∀ t ∈ init ++ [⟨TOKEN_EOF, "", .absent, source.data.length⟩],
          t.Type_ = TOKEN_IDENTIFIER →
            t.Lexeme.data ≠ [] ∧ ∀ c ∈ t.Lexeme.data, isAlphabetic c = true := by
        intro t ht hty
        rcases List.mem_append.mp ht with ht | ht
        · exact (hinit t ht).2 hty
        · rw [List.mem_singleton.mp ht] at hty
          cases hty
      have := toyParser.programLoop_imports _
        (toyParser.referenceExpression_imports _ htok) fuel fuel 0 [] false rfl
      unfold parse toyParser.Parse toyParser.programStatement NewParser at h
      rw [h] at this
      exact this
    | panic m => rw [hscan] at h; cases h
    | timeout => rw [hscan] at h; cases h
    | external => rw [hscan] at h; cases h
  · rintro ⟨a, b, rfl, ha, hb, hda, hdb, -⟩
    exact importedNameOk_of_parts a b (fun e => ha (String.ext e)) (fun e => hb (String.ext e))
      hda hdb

/-- C29, at the source `(f m.x)`. -/
theorem imported_references_have_two_parts_witness :
    importsOkList [Node.CallExpression (.ReferenceExpression "f" REF_TYPE_DECLARED)
        [.ReferenceExpression "m.x" REF_TYPE_IMPORTED]] = true ∧
      ∀ nm, importedNameOk nm = true ↔
        ∃ a b : String, nm = a ++ "." ++ b ∧ a ≠ "" ∧ b ≠ "" ∧ '.' ∉ a.data ∧
          '.' ∉ b.data ∧ splitDots nm = [a, b] :=
  imported_references_have_two_parts "(f m.x)" 50
    ⟨[.CallExpression (.ReferenceExpression "f" REF_TYPE_DECLARED)
      [.ReferenceExpression "m.x" REF_TYPE_IMPORTED]]⟩ false (by decide!)

/-! ### Parser: termination -/

theorem Res.Ends.andThen {α β : Type} {A : Prop} {Q : α → Prop} {R : β → Prop} {m : Res α}
    {f : α → Res β} (h : Res.Ends A Q m) (hf : ∀ a, Q a → Res.Ends A R (f a)) :
    Res.Ends A R (m >>= f) := by
  cases m with
  | ok a => exact hf a h
  | panic m => exact h
  | timeout => exact h
  | external => exact h

theorem Res.Ends.weaken {α : Type} {A : Prop} {Q Q' : α → Prop} {m : Res α}
    (h : Res.Ends A Q m) (hq : ∀ a, Q a → Q' a) : Res.Ends A Q' m := by
  cases m with
  | ok a => exact hq a h
  | panic m => exact h
  | timeout => exact h
  | external => exact h

theorem ends_ok {α : Type} {A : Prop} {R : α → Prop} {a : α} (h : R a) :
    Res.Ends A R (.ok a) := h

theorem Run2.andThen2 {A : Prop} {toks : List Token} {α β : Type} {P : α → Nat → Prop}
    {R : β → Prop} {m : Res (α × toyParser)} {f : α × toyParser → Res β}
    (h : Run2 A toks P m) (hf : ∀ a c, P a c → Res.Ends A R (f (a, ⟨toks, c⟩))) :
    Res.Ends A R (m >>= f) := by
  refine Res.Ends.andThen h ?_
  rintro ⟨a, ⟨tk, c⟩⟩ ⟨ht, hp⟩
  dsimp only at ht hp
  subst ht
  exact hf a c hp

theorem Run3.andThen3 {A : Prop} {toks : List Token} {α β γ : Type} {P : α → β → Nat → Prop}
    {R : γ → Prop} {m : Res (α × β × toyParser)} {f : α × β × toyParser → Res γ}
    (h : Run3 A toks P m) (hf : ∀ a b c, P a b c → Res.Ends A R (f (a, b, ⟨toks, c⟩))) :
    Res.Ends A R (m >>= f) := by
  refine Res.Ends.andThen h ?_
  rintro ⟨a, b, ⟨tk, c⟩⟩ ⟨ht, hp⟩
  dsimp only at ht hp
  subst ht
  exact hf a b c hp

theorem toyParser.peek_ends {A : Prop} (toks : List Token) (hA : toks = [] → A) (c : Nat) :
    Res.Ends A (fun t => t ∈ toks) (toyParser.peek ⟨toks, c⟩) := by
  unfold toyParser.peek
  dsimp only
  cases h : toks[c]? with
  | some t => exact List.getElem?_mem h
  | none =>
    cases h' : toks.getLast? with
    | some t => exact List.mem_of_getLast?_eq_some h'
    | none => exact hA (List.getLast?_eq_none_iff.mp h')

theorem toyParser.advance_run {A : Prop} (toks : List Token) (hA : toks = [] → A) (c : Nat) :
    Run2 A toks (fun t c' => t ∈ toks ∧ c' = c + 1) (toyParser.advance ⟨toks, c⟩) := by
  unfold toyParser.advance
  refine Res.Ends.andThen (toyParser.peek_ends toks hA c) fun t ht => ?_
  exact ⟨rfl, ht, rfl⟩

theorem toyParser.check_lt {toks : List Token} {c : Nat} {ty : TokenType}
    (h : toyParser.check ⟨toks, c⟩ ty = true) : c < toks.length := by
  rcases Nat.lt_or_ge c toks.length with hlt | hge
  · exact hlt
  · simp [toyParser.check, toyParser.done, List.getElem?_eq_none hge] at h

theorem toyParser.loop_cond_lt {toks : List Token} {c : Nat} {ty : TokenType}
    (h : (!toyParser.check ⟨toks, c⟩ ty && !toyParser.done ⟨toks, c⟩) = true) :
    c < toks.length := by
  rcases Nat.lt_or_ge c toks.length with hlt | hge
  · exact hlt
  · simp [toyParser.done, List.getElem?_eq_none hge] at h

theorem toyParser.match_run {A : Prop} (toks : List Token) (hA : toks = [] → A) (c : Nat)
    (ty : TokenType) :
    Run2 A toks (fun b c' => (b = false → c' = c) ∧ (b = true → c' = c + 1 ∧ c < toks.length))
      (toyParser.match_ ⟨toks, c⟩ ty) := by
  unfold toyParser.match_
  split
  · rename_i hck
    refine Run2.andThen2 (toyParser.advance_run toks hA c) fun t c' hp => ?_
    exact ends_ok ⟨rfl, ⟨fun h => (by cases h), fun _ => ⟨hp.2, toyParser.check_lt hck⟩⟩⟩
  · exact ends_ok ⟨rfl, ⟨fun _ => rfl, fun h => (by cases h)⟩⟩

theorem toyParser.consume_run {A : Prop} (toks : List Token) (hA : toks = [] → A) (c : Nat)
    (ty : TokenType) (err : String) :
    Run3 A toks (fun _ _ c' => c' = c + 1) (toyParser.consume ⟨toks, c⟩ ty err) := by
  unfold toyParser.consume
  refine Run2.andThen2 (toyParser.advance_run toks hA c) fun t c' hp => ?_
  dsimp only
  split
  · exact ends_ok ⟨rfl, hp.2⟩
  · exact ends_ok ⟨rfl, hp.2⟩

theorem toyParser.revert_run {A : Prop} (toks : List Token) (hA : toks = [] → A) (c : Nat) :
    Run2 A toks (fun _ c' => c' = c) (toyParser.revert ⟨toks, c + 1⟩) := by
  unfold toyParser.revert
  dsimp only
  refine Res.Ends.andThen (toyParser.peek_ends toks hA c) fun t _ => ?_
  exact ends_ok ⟨rfl, rfl⟩

theorem toyParser.referenceExpression_prog {A : Prop} (toks : List Token)
    (hA : toks = [] → A) (c : Nat) :
    Run3 A toks (fun _ _ c' => c < c') (toyParser.referenceExpression ⟨toks, c⟩) := by
  unfold toyParser.referenceExpression
  refine Run2.andThen2 (toyParser.advance_run toks hA c) fun part1 c1 h1 => ?_
  obtain ⟨-, rfl⟩ := h1
  dsimp only
  cases hty : part1.Type_
  case TOKEN_IDENTIFIER =>
    dsimp only
    refine Run2.andThen2 (toyParser.match_run toks hA (c + 1) TOKEN_DOT) fun b c2 h2 => ?_
    cases b
    · have := h2.1 rfl
      exact ends_ok ⟨rfl, by dsimp only; omega⟩
    · have := (h2.2 rfl).1
      dsimp only
      simp only [if_true]
      refine Run3.andThen3 (toyParser.consume_run toks hA c2 _ _) fun part2 e c3 h3 => ?_
      cases e <;> exact ends_ok ⟨rfl, by dsimp only; omega⟩
  all_goals exact ends_ok ⟨rfl, by dsimp only; omega⟩

theorem toyParser.simpleLiteral_prog {A : Prop} (toks : List Token) (hA : toks = [] → A)
    (hB : ∀ t ∈ toks, t.Type_ = TOKEN_BOOLEAN → (∀ b, t.Literal ≠ .bool b) → A) (c : Nat) :
    Run3 A toks (fun _ _ c' => c < c') (toyParser.simpleLiteral ⟨toks, c⟩) := by
  unfold toyParser.simpleLiteral
  refine Run2.andThen2 (toyParser.advance_run toks hA c) fun t c1 h1 => ?_
  obtain ⟨hmem, rfl⟩ := h1
  dsimp only
  cases hty : t.Type_
  case TOKEN_IDENTIFIER =>
    dsimp only
    refine Run2.andThen2 (toyParser.revert_run toks hA c) fun _ c2 h2 => ?_
    subst h2
    exact toyParser.referenceExpression_prog toks hA c2
  case TOKEN_NUMBER =>
    dsimp only
    cases atoi t.Lexeme <;> exact ends_ok ⟨rfl, by dsimp only; omega⟩
  case TOKEN_BOOLEAN =>
    dsimp only
    cases hlit : t.Literal
    case bool b => exact ends_ok ⟨rfl, by dsimp only; omega⟩
    all_goals exact hB t hmem hty (by rw [hlit]; intro b hb; cases hb)
  case TOKEN_STRING => exact ends_ok ⟨rfl, by dsimp only; omega⟩
  all_goals
    dsimp only
    refine Res.Ends.andThen (toyParser.peek_ends toks hA (c + 1)) fun t0 _ => ?_
    exact ends_ok ⟨rfl, by dsimp only; omega⟩

theorem toyParser.importLoop_prog {A : Prop} (toks : List Token) (hA : toks = [] → A) :
    ∀ fuel c imports, toks.length - c < fuel →
      Run2 A toks (fun (r : Node ⊕ List (String × String)) c' =>
          c ≤ c' ∧ ∀ e, r = .inl e → c < c')
        (toyParser.importLoop fuel ⟨toks, c⟩ imports) := by
  intro fuel
  induction fuel with
  | zero => intro c imports h; omega
  | succ n ih =>
    intro c imports hfuel
    simp only [toyParser.importLoop]
    by_cases hcond : (!toyParser.check ⟨toks, c⟩ TOKEN_RIGHT_PAREN &&
        !toyParser.done ⟨toks, c⟩) = true
    · have hlt := toyParser.loop_cond_lt hcond
      rw [if_pos hcond]
      repeat' first
        | exact ends_ok ⟨rfl, by dsimp only; omega, fun _ _ => by dsimp only; omega⟩
        | exact Res.Ends.weaken (ih _ _ (by omega))
            (fun x hx => ⟨hx.1, Nat.le_trans (by omega) hx.2.1,
              fun _ _ => Nat.lt_of_lt_of_le (by omega) hx.2.1⟩)
        | dsimp only
        | refine Run3.andThen3 (toyParser.consume_run toks hA _ _ _) fun _ _ _ _ => ?_
        | split
    · rw [if_neg hcond]
      exact ends_ok ⟨rfl, Nat.le_refl _, fun _ h => by cases h⟩

theorem toyParser.importStatement_prog {A : Prop} (toks : List Token) (hA : toks = [] → A)
    (fuel c : Nat) (hfuel : toks.length - c < fuel) :
    Run3 A toks (fun _ _ c' => c < c') (toyParser.importStatement fuel ⟨toks, c⟩) := by
  simp only [toyParser.importStatement]
  refine Run2.andThen2 (toyParser.importLoop_prog toks hA fuel c [] hfuel) fun r c1 hr => ?_
  obtain ⟨hr1, hr2⟩ := hr
  cases r with
  | inl e =>
    have := hr2 e rfl
    exact ends_ok ⟨rfl, by dsimp only; omega⟩
  | inr imports =>
    dsimp only
    refine Run3.andThen3 (toyParser.consume_run toks hA _ _ _) fun _ err _ _ => ?_
    cases err <;> exact ends_ok ⟨rfl, by dsimp only; omega⟩

theorem toyParser.varLoop_prog {A : Prop} (toks : List Token) (hA : toks = [] → A)
    {expr : PRule} {b : Nat} (hexpr : ProgRule A toks b expr) :
    ∀ fuel c vars, b ≤ c → toks.length - c < fuel →
      Run2 A toks (fun (r : Node ⊕ List (String × Node)) c' =>
          c ≤ c' ∧ ∀ e, r = .inl e → c < c')
        (toyParser.varLoop expr fuel ⟨toks, c⟩ vars) := by
  intro fuel
  induction fuel with
  | zero => intro c vars _ h; omega
  | succ n ih =>
    intro c vars hb hfuel
    simp only [toyParser.varLoop]
    by_cases hcond : (!toyParser.check ⟨toks, c⟩ TOKEN_RIGHT_PAREN &&
        !toyParser.done ⟨toks, c⟩) = true
    · have hlt := toyParser.loop_cond_lt hcond
      rw [if_pos hcond]
      repeat' first
        | exact ends_ok ⟨rfl, by dsimp only; omega, fun _ _ => by dsimp only; omega⟩
        | exact Res.Ends.weaken (ih _ _ (by omega) (by omega))
            (fun x hx => ⟨hx.1, Nat.le_trans (by omega) hx.2.1,
              fun _ _ => Nat.lt_of_lt_of_le (by omega) hx.2.1⟩)
        | dsimp only
        | refine Run3.andThen3 (toyParser.consume_run toks hA _ _ _) fun _ _ _ _ => ?_
        | refine Run3.andThen3 (hexpr _ (by omega)) fun _ _ _ _ => ?_
        | split
    · rw [if_neg hcond]
      exact ends_ok ⟨rfl, Nat.le_refl _, fun _ h => by cases h⟩

theorem toyParser.varStatement_prog {A : Prop} (toks : List Token) (hA : toks = [] → A)
    {expr : PRule} {b : Nat} (hexpr : ProgRule A toks b expr) (fuel : Nat)
    (hfuel : toks.length - b < fuel) : ProgRule A toks b (toyParser.varStatement expr fuel) := by
  intro c hb
  simp only [toyParser.varStatement]
  refine Run2.andThen2 (toyParser.varLoop_prog toks hA hexpr fuel c [] hb (by omega))
    fun r c1 hr => ?_
  obtain ⟨hr1, hr2⟩ := hr
  cases r with
  | inl e =>
    have := hr2 e rfl
    exact ends_ok ⟨rfl, by dsimp only; omega⟩
  | inr vars =>
    dsimp only
    refine Run3.andThen3 (toyParser.consume_run toks hA _ _ _) fun _ err _ _ => ?_
    cases err <;> exact ends_ok ⟨rfl, by dsimp only; omega⟩

theorem toyParser.exportLoop_prog {A : Prop} (toks : List Token) (hA : toks = [] → A) :
    ∀ fuel c exports, toks.length - c < fuel →
      Run2 A toks (fun (_ : Node ⊕ List Node) c' => c ≤ c')
        (toyParser.exportLoop fuel ⟨toks, c⟩ exports) := by
  intro fuel
  induction fuel with
  | zero => intro c exports h; omega
  | succ n ih =>
    intro c exports hfuel
    simp only [toyParser.exportLoop]
    by_cases hcond : (!toyParser.check ⟨toks, c⟩ TOKEN_RIGHT_PAREN &&
        !toyParser.done ⟨toks, c⟩) = true
    · have hlt := toyParser.loop_cond_lt hcond
      rw [if_pos hcond]
      repeat' first
        | exact ends_ok ⟨rfl, by dsimp only; omega⟩
        | exact Res.Ends.weaken (ih _ _ (by omega))
            (fun x hx => ⟨hx.1, Nat.le_trans (by omega) hx.2⟩)
        | dsimp only
        | refine Run2.andThen2 (toyParser.advance_run toks hA _) fun _ _ _ => ?_
        | refine Res.Ends.andThen (toyParser.peek_ends toks hA _) fun _ _ => ?_
        | split
    · rw [if_neg hcond]
      exact ends_ok ⟨rfl, Nat.le_refl _⟩

theorem toyParser.exportStatement_prog {A : Prop} (toks : List Token) (hA : toks = [] → A)
    (fuel c : Nat) (hfuel : toks.length - c < fuel) :
    Run3 A toks (fun _ _ c' => c ≤ c') (toyParser.exportStatement fuel ⟨toks, c⟩) := by
  simp only [toyParser.exportStatement]
  refine Run2.andThen2 (toyParser.exportLoop_prog toks hA fuel c [] hfuel) fun r c1 hr => ?_
  repeat' first
    | exact ends_ok ⟨rfl, by dsimp only; omega⟩
    | dsimp only
    | refine Run3.andThen3 (toyParser.consume_run toks hA _ _ _) fun _ _ _ _ => ?_
    | split

theorem toyParser.exprLoop_prog {A : Prop} (toks : List Token)
    {expr : PRule} {b : Nat} (hexpr : ProgRule A toks b expr) :
    ∀ fuel c exprs hasErrors, b ≤ c → toks.length - c < fuel →
      Run3 A toks (fun (_ : List Node) (_ : Bool) c' => c ≤ c')
        (toyParser.exprLoop expr fuel ⟨toks, c⟩ exprs hasErrors) := by
  intro fuel
  induction fuel with
  | zero => intro c exprs hasErrors _ h; omega
  | succ n ih =>
    intro c exprs hasErrors hb hfuel
    simp only [toyParser.exprLoop]
    by_cases hcond : (!toyParser.check ⟨toks, c⟩ TOKEN_RIGHT_PAREN &&
        !toyParser.done ⟨toks, c⟩) = true
    · have hlt := toyParser.loop_cond_lt hcond
      rw [if_pos hcond]
      refine Run3.andThen3 (hexpr c hb) fun _ _ c1 h1 => ?_
      exact Res.Ends.weaken (ih _ _ _ (by omega) (by omega))
        (fun x hx => ⟨hx.1, Nat.le_trans (by omega) hx.2⟩)
    · rw [if_neg hcond]
      exact ends_ok ⟨rfl, Nat.le_refl _⟩

theorem toyParser.callExpression_prog {A : Prop} (toks : List Token) (hA : toks = [] → A)
    {expr : PRule} {b : Nat} (hexpr : ProgRule A toks b expr) (fuel : Nat)
    (hfuel : toks.length - b < fuel) :
    ProgRule A toks b (toyParser.callExpression expr fuel) := by
  intro c hb
  simp only [toyParser.callExpression]
  refine Run3.andThen3 (toyParser.referenceExpression_prog toks hA c) fun _ _ c1 h1 => ?_
  dsimp only
  refine Run3.andThen3 (toyParser.exprLoop_prog toks hexpr fuel c1 _ _ (by omega) (by omega))
    fun _ _ c2 h2 => ?_
  dsimp only
  refine Run3.andThen3 (toyParser.consume_run toks hA _ _ _) fun _ err _ _ => ?_
  cases err <;> exact ends_ok ⟨rfl, by dsimp only; omega⟩

theorem toyParser.paramLoop_prog {A : Prop} (toks : List Token) (hA : toks = [] → A) :
    ∀ fuel c params hasErrors, toks.length - c < fuel →
      Run3 A toks (fun (_ : List String) (_ : Bool) c' => c ≤ c')
        (toyParser.paramLoop fuel ⟨toks, c⟩ params hasErrors) := by
  intro fuel
  induction fuel with
  | zero => intro c params hasErrors h; omega
  | succ n ih =>
    intro c params hasErrors hfuel
    simp only [toyParser.paramLoop]
    by_cases hcond : (!toyParser.check ⟨toks, c⟩ TOKEN_RIGHT_PAREN &&
        !toyParser.done ⟨toks, c⟩) = true
    · have hlt := toyParser.loop_cond_lt hcond
      rw [if_pos hcond]
      refine Run3.andThen3 (toyParser.consume_run toks hA _ _ _) fun _ _ c1 h1 => ?_
      exact Res.Ends.weaken (ih _ _ _ (by omega))
        (fun x hx => ⟨hx.1, Nat.le_trans (by omega) hx.2⟩)
    · rw [if_neg hcond]
      exact ends_ok ⟨rfl, Nat.le_refl _⟩

theorem toyParser.funcExpression_prog {A : Prop} (toks : List Token) (hA : toks = [] → A)
    {expr : PRule} {b : Nat} (hexpr : ProgRule A toks b expr) (fuel : Nat)
    (hfuel : toks.length - b < fuel) :
    ProgRule A toks b (toyParser.funcExpression expr fuel) := by
  intro c hb
  simp only [toyParser.funcExpression]
  repeat' first
    | exact ends_ok ⟨rfl, by dsimp only; omega⟩
    | dsimp only
    | refine Run3.andThen3 (toyParser.consume_run toks hA _ _ _) fun _ _ _ _ => ?_
    | refine Run3.andThen3 (toyParser.paramLoop_prog toks hA fuel _ _ _ (by omega))
        fun _ _ _ _ => ?_
    | refine Run3.andThen3 (toyParser.exprLoop_prog toks hexpr fuel _ _ _ (by omega) (by omega))
        fun _ _ _ _ => ?_
    | split

theorem toyParser.whenLoop_prog {A : Prop} (toks : List Token) (hA : toks = [] → A)
    {expr : PRule} {b : Nat} (hexpr : ProgRule A toks b expr) :
    ∀ fuel c cases hasErrors, b ≤ c → toks.length - c < fuel →
      Run3 A toks (fun (_ : List (Node × Node)) (_ : Bool) c' => c ≤ c')
        (toyParser.whenLoop expr fuel ⟨toks, c⟩ cases hasErrors) := by
  intro fuel
  induction fuel with
  | zero => intro c cases hasErrors _ h; omega
  | succ n ih =>
    intro c cases hasErrors hb hfuel
    simp only [toyParser.whenLoop]
    by_cases hcond : (!toyParser.check ⟨toks, c⟩ TOKEN_RIGHT_PAREN &&
        !toyParser.done ⟨toks, c⟩) = true
    · have hlt := toyParser.loop_cond_lt hcond
      rw [if_pos hcond]
      repeat' first
        | exact Res.Ends.weaken (ih _ _ _ (by omega) (by omega))
            (fun x hx => ⟨hx.1, Nat.le_trans (by omega) hx.2⟩)
        | dsimp only
        | refine Run3.andThen3 (toyParser.consume_run toks hA _ _ _) fun _ _ _ _ => ?_
        | refine Run3.andThen3 (hexpr _ (by omega)) fun _ _ _ _ => ?_
    · rw [if_neg hcond]
      exact ends_ok ⟨rfl, Nat.le_refl _⟩

theorem toyParser.matchExpression_prog {A : Prop} (toks : List Token) (hA : toks = [] → A)
    {expr : PRule} {b : Nat} (hexpr : ProgRule A toks b expr) (fuel : Nat)
    (hfuel : toks.length - b < fuel) :
    ProgRule A toks b (toyParser.matchExpression expr fuel) := by
  intro c hb
  simp only [toyParser.matchExpression]
  repeat' first
    | exact ends_ok ⟨rfl, by dsimp only; omega⟩
    | dsimp only
    | refine Run3.andThen3 (toyParser.consume_run toks hA _ _ _) fun _ _ _ _ => ?_
    | refine Run3.andThen3 (toyParser.whenLoop_prog toks hA hexpr fuel _ _ _ (by omega) (by omega))
        fun _ _ _ _ => ?_
    | refine Run3.andThen3 (hexpr _ (by omega)) fun _ _ _ _ => ?_

theorem toyParser.seqExpression_prog {A : Prop} (toks : List Token) (hA : toks = [] → A)
    {expr : PRule} {b : Nat} (hexpr : ProgRule A toks b expr) (fuel : Nat)
    (hfuel : toks.length - b < fuel) :
    ProgRule A toks b (toyParser.seqExpression expr fuel) := by
  intro c hb
  simp only [toyParser.seqExpression]
  repeat' first
    | exact ends_ok ⟨rfl, by dsimp only; omega⟩
    | dsimp only
    | refine Run3.andThen3 (toyParser.consume_run toks hA _ _ _) fun _ _ _ _ => ?_
    | refine Run3.andThen3 (toyParser.exprLoop_prog toks hexpr fuel _ _ _ (by omega) (by omega))
        fun _ _ _ _ => ?_

theorem toyParser.chainExpression_prog {A : Prop} (toks : List Token) (hA : toks = [] → A)
    {expr : PRule} {b : Nat} (hexpr : ProgRule A toks b expr) (fuel : Nat)
    (hfuel : toks.length - b < fuel) :
    ProgRule A toks b (toyParser.chainExpression expr fuel) := by
  intro c hb
  simp only [toyParser.chainExpression]
  repeat' first
    | exact ends_ok ⟨rfl, by dsimp only; omega⟩
    | dsimp only
    | refine Run3.andThen3 (toyParser.consume_run toks hA _ _ _) fun _ _ _ _ => ?_
    | refine Run3.andThen3 (toyParser.exprLoop_prog toks hexpr fuel _ _ _ (by omega) (by omega))
        fun _ _ _ _ => ?_
    | split

theorem toyParser.asyncExpression_prog {A : Prop} (toks : List Token) (hA : toks = [] → A)
    {expr : PRule} {b : Nat} (hexpr : ProgRule A toks b expr) (fuel : Nat)
    (hfuel : toks.length - b < fuel) :
    ProgRule A toks b (toyParser.asyncExpression expr fuel) := by
  intro c hb
  simp only [toyParser.asyncExpression]
  repeat' first
    | exact ends_ok ⟨rfl, by dsimp only; omega⟩
    | dsimp only
    | refine Run3.andThen3 (toyParser.consume_run toks hA _ _ _) fun _ _ _ _ => ?_
    | refine Run3.andThen3 (toyParser.exprLoop_prog toks hexpr fuel _ _ _ (by omega) (by omega))
        fun _ _ _ _ => ?_

theorem toyParser.listLiteral_prog {A : Prop} (toks : List Token) (hA : toks = [] → A)
    {expr : PRule} {b : Nat} (hexpr : ProgRule A toks b expr) (fuel : Nat)
    (hfuel : toks.length - b < fuel) :
    ProgRule A toks b (toyParser.listLiteral expr fuel) := by
  intro c hb
  simp only [toyParser.listLiteral]
  repeat' first
    | exact ends_ok ⟨rfl, by dsimp only; omega⟩
    | dsimp only
    | refine Run3.andThen3 (toyParser.consume_run toks hA _ _ _) fun _ _ _ _ => ?_
    | refine Run3.andThen3 (toyParser.exprLoop_prog toks hexpr fuel _ _ _ (by omega) (by omega))
        fun _ _ _ _ => ?_
    | split

theorem toyParser.hashLoop_prog {A : Prop} (toks : List Token) (hA : toks = [] → A)
    {expr : PRule} {b : Nat} (hexpr : ProgRule A toks b expr) :
    ∀ fuel c store hasErrors, b ≤ c → toks.length - c < fuel →
      Run2 A toks (fun (r : Node ⊕ (List (String × Node) × Bool)) c' =>
          c ≤ c' ∧ ∀ e, r = .inl e → c < c')
        (toyParser.hashLoop expr fuel ⟨toks, c⟩ store hasErrors) := by
  intro fuel
  induction fuel with
  | zero => intro c store hasErrors _ h; omega
  | succ n ih =>
    intro c store hasErrors hb hfuel
    simp only [toyParser.hashLoop]
    by_cases hcond : (!toyParser.check ⟨toks, c⟩ TOKEN_RIGHT_PAREN &&
        !toyParser.done ⟨toks, c⟩) = true
    · have hlt := toyParser.loop_cond_lt hcond
      rw [if_pos hcond]
      repeat' first
        | exact ends_ok ⟨rfl, by dsimp only; omega, fun _ _ => by dsimp only; omega⟩
        | exact Res.Ends.weaken (ih _ _ _ (by omega) (by omega))
            (fun x hx => ⟨hx.1, Nat.le_trans (by omega) hx.2.1,
              fun _ _ => Nat.lt_of_lt_of_le (by omega) hx.2.1⟩)
        | dsimp only
        | refine Run3.andThen3 (toyParser.consume_run toks hA _ _ _) fun _ _ _ _ => ?_
        | refine Run3.andThen3 (hexpr _ (by omega)) fun _ _ _ _ => ?_
        | split
    · rw [if_neg hcond]
      exact ends_ok ⟨rfl, Nat.le_refl _, fun _ h => by cases h⟩

theorem toyParser.hashLiteral_prog {A : Prop} (toks : List Token) (hA : toks = [] → A)
    {expr : PRule} {b : Nat} (hexpr : ProgRule A toks b expr) (fuel : Nat)
    (hfuel : toks.length - b < fuel) :
    ProgRule A toks b (toyParser.hashLiteral expr fuel) := by
  intro c hb
  simp only [toyParser.hashLiteral]
  refine Run2.andThen2 (toyParser.hashLoop_prog toks hA hexpr fuel c [] false hb (by omega))
    fun r c1 hr => ?_
  obtain ⟨hr1, hr2⟩ := hr
  cases r with
  | inl e =>
    have := hr2 e rfl
    exact ends_ok ⟨rfl, by dsimp only; omega⟩
  | inr st =>
    obtain ⟨store, flag⟩ := st
    dsimp only
    refine Run3.andThen3 (toyParser.consume_run toks hA _ _ _) fun _ err _ _ => ?_
    cases err <;> exact ends_ok ⟨rfl, by dsimp only; omega⟩

theorem toyParser.expressionBody_prog {A : Prop} (toks : List Token) (hA : toks = [] → A)
    (hB : ∀ t ∈ toks, t.Type_ = TOKEN_BOOLEAN → (∀ b, t.Literal ≠ .bool b) → A)
    {expr : PRule} (fuel c : Nat) (hexpr : c < toks.length → ProgRule A toks (c + 1) expr)
    (hfuel : c < toks.length → toks.length - (c + 1) < fuel) :
    Run3 A toks (fun _ _ c' => c < c') (toyParser.expressionBody expr fuel ⟨toks, c⟩) := by
  simp only [toyParser.expressionBody]
  refine Run2.andThen2 (toyParser.match_run toks hA c TOKEN_LEFT_PAREN) fun b c1 h1 => ?_
  cases b
  · have := h1.1 rfl
    subst this
    exact toyParser.simpleLiteral_prog toks hA hB c1
  · obtain ⟨rfl, hlt⟩ := h1.2 rfl
    have hE := hexpr hlt
    have hF := hfuel hlt
    have hcall : Res.Ends A (fun x : Node × Bool × toyParser =>
        x.2.2.tokens = toks ∧ c < x.2.2._current)
        (toyParser.revert ⟨toks, c + 1 + 1⟩ >>= fun x =>
          toyParser.callExpression expr fuel x.2) := by
      refine Run2.andThen2 (toyParser.revert_run toks hA (c + 1)) fun _ c2 h2 => ?_
      subst h2
      exact Res.Ends.weaken (toyParser.callExpression_prog toks hA hE fuel hF (c + 1)
        (Nat.le_refl _)) (fun x hx => ⟨hx.1, Nat.lt_trans (Nat.lt_succ_self c) hx.2⟩)
    dsimp only
    simp only [if_true]
    refine Run2.andThen2 (toyParser.advance_run toks hA (c + 1)) fun t c2 h2 => ?_
    obtain ⟨-, rfl⟩ := h2
    have hlt2 : c < c + 1 + 1 := by omega
    have hle2 : c + 1 ≤ c + 1 + 1 := by omega
    dsimp only
    cases hty : t.Type_
    case TOKEN_BUILTIN =>
      dsimp only
      split
      · exact Res.Ends.weaken (toyParser.varStatement_prog toks hA hE fuel hF _ hle2)
          (fun x hx => ⟨hx.1, Nat.lt_trans hlt2 hx.2⟩)
      split
      · exact Res.Ends.weaken (toyParser.listLiteral_prog toks hA hE fuel hF _ hle2)
          (fun x hx => ⟨hx.1, Nat.lt_trans hlt2 hx.2⟩)
      split
      · exact Res.Ends.weaken (toyParser.hashLiteral_prog toks hA hE fuel hF _ hle2)
          (fun x hx => ⟨hx.1, Nat.lt_trans hlt2 hx.2⟩)
      split
      · exact Res.Ends.weaken (toyParser.matchExpression_prog toks hA hE fuel hF _ hle2)
          (fun x hx => ⟨hx.1, Nat.lt_trans hlt2 hx.2⟩)
      split
      · exact Res.Ends.weaken (toyParser.funcExpression_prog toks hA hE fuel hF _ hle2)
          (fun x hx => ⟨hx.1, Nat.lt_trans hlt2 hx.2⟩)
      split
      · exact Res.Ends.weaken (toyParser.seqExpression_prog toks hA hE fuel hF _ hle2)
          (fun x hx => ⟨hx.1, Nat.lt_trans hlt2 hx.2⟩)
      split
      · exact Res.Ends.weaken (toyParser.chainExpression_prog toks hA hE fuel hF _ hle2)
          (fun x hx => ⟨hx.1, Nat.lt_trans hlt2 hx.2⟩)
      split
      · exact Res.Ends.weaken (toyParser.asyncExpression_prog toks hA hE fuel hF _ hle2)
          (fun x hx => ⟨hx.1, Nat.lt_trans hlt2 hx.2⟩)
      exact hcall
    case TOKEN_IDENTIFIER => exact hcall
    case TOKEN_EQUAL => exact hcall
    case TOKEN_LESS => exact hcall
    case TOKEN_MORE => exact hcall
    all_goals exact ends_ok ⟨rfl, hlt2⟩

theorem toyParser.expression_prog {A : Prop} (toks : List Token) (hA : toks = [] → A)
    (hB : ∀ t ∈ toks, t.Type_ = TOKEN_BOOLEAN → (∀ b, t.Literal ≠ .bool b) → A) :
    ∀ d c, toks.length - c < d →
      Run3 A toks (fun _ _ c' => c < c') (toyParser.expression d ⟨toks, c⟩) := by
  intro d
  induction d with
  | zero => intro c h; omega
  | succ n ih =>
    intro c hd
    exact toyParser.expressionBody_prog toks hA hB n c
      (fun hlt c' hc' => ih c' (by omega)) (fun hlt => by omega)

theorem toyParser.statement_prog {A : Prop} (toks : List Token) (hA : toks = [] → A)
    (hB : ∀ t ∈ toks, t.Type_ = TOKEN_BOOLEAN → (∀ b, t.Literal ≠ .bool b) → A)
    (fuel c : Nat) (hfuel : toks.length - c < fuel) :
    Run3 A toks (fun _ _ c' => c < c') (toyParser.statement fuel ⟨toks, c⟩) := by
  have hexp := toyParser.expression_prog toks hA hB fuel c hfuel
  simp only [toyParser.statement]
  refine Run2.andThen2 (toyParser.match_run toks hA c TOKEN_LEFT_PAREN) fun b c1 h1 => ?_
  cases b
  · have := h1.1 rfl
    subst this
    dsimp only
    simp only [Bool.false_eq_true, if_false]
    refine Run2.andThen2 (toyParser.advance_run toks hA c1) fun t c2 h2 => ?_
    exact ends_ok ⟨rfl, by have := h2.2; dsimp only; omega⟩
  · obtain ⟨rfl, hlt⟩ := h1.2 rfl
    dsimp only
    simp only [if_true]
    split
    · refine Run2.andThen2 (toyParser.advance_run toks hA (c + 1)) fun t c2 h2 => ?_
      obtain ⟨-, rfl⟩ := h2
      dsimp only
      split
      · exact Res.Ends.weaken (toyParser.importStatement_prog toks hA fuel _ (by omega))
          (fun x hx => ⟨hx.1, Nat.lt_trans (by omega) hx.2⟩)
      split
      · exact Res.Ends.weaken (toyParser.exportStatement_prog toks hA fuel _ (by omega))
          (fun x hx => ⟨hx.1, Nat.lt_of_lt_of_le (by omega) hx.2⟩)
      refine Run2.andThen2 (toyParser.revert_run toks hA (c + 1)) fun _ c3 h3 => ?_
      subst h3
      dsimp only
      refine Run2.andThen2 (toyParser.revert_run toks hA c) fun _ c4 h4 => ?_
      subst h4
      exact hexp
    · refine Run2.andThen2 (toyParser.revert_run toks hA c) fun _ c2 h2 => ?_
      subst h2
      exact hexp

theorem toyParser.done_false_lt {toks : List Token} {c : Nat}
    (h : ¬ (!toyParser.done ⟨toks, c⟩) = false) : c < toks.length := by
  rcases Nat.lt_or_ge c toks.length with hlt | hge
  · exact hlt
  · simp [toyParser.done, List.getElem?_eq_none hge] at h

theorem toyParser.programLoop_prog {A : Prop} (toks : List Token) (hA : toks = [] → A)
    (hB : ∀ t ∈ toks, t.Type_ = TOKEN_BOOLEAN → (∀ b, t.Literal ≠ .bool b) → A)
    (fuel : Nat) :
    ∀ k c body hasErrors, toks.length - c < fuel → toks.length - c < k →
      Res.Ends A (fun _ => True) (toyParser.programLoop fuel k ⟨toks, c⟩ body hasErrors) := by
  intro k
  induction k with
  | zero => intro c body hasErrors _ h; omega
  | succ n ih =>
    intro c body hasErrors hf hk
    simp only [toyParser.programLoop]
    by_cases hd : (!toyParser.done ⟨toks, c⟩) = true
    · have hlt : c < toks.length := toyParser.done_false_lt (by simp [hd])
      rw [if_pos hd]
      refine Run3.andThen3 (toyParser.statement_prog toks hA hB fuel c hf) fun _ _ c1 h1 => ?_
      exact ih _ _ _ (by omega) (by omega)
    · rw [if_neg hd]
      exact trivial

theorem Res.Ends.of_true {α : Type} {Q : α → Prop} {m : Res α} (h : Res.Ends True Q m) :
    m ≠ .timeout ∧ m ≠ .external ∧ ∀ r, m = .ok r → Q r := by
  cases m with
  | ok a => exact ⟨by simp, by simp, fun r hr => by cases hr; exact h⟩
  | panic msg => exact ⟨by simp, by simp, fun r hr => by cases hr⟩
  | timeout => exact absurd h id
  | external => exact absurd h id

theorem Res.Ends.of_false {α : Type} {Q : α → Prop} {m : Res α} (h : Res.Ends False Q m) :
    ∃ r, m = .ok r ∧ Q r := by
  cases m with
  | ok a => exact ⟨a, rfl, h⟩
  | panic msg => exact absurd h id
  | timeout => exact absurd h id
  | external => exact absurd h id

/-- C30 (amended): with a bound above the number of tokens, `Parse` never exhausts the
bound of its loops and of its nesting: it ends on every token list, and it returns a
program when the list is not empty and its boolean tokens carry booleans. Every parsing
rule other than `exportStatement`, `statement` and `expression` among them, ends at every
position, over the same tokens and at a later position, so every pass of a loop of the
parser that goes on to the next pass has moved the position forward. -/
theorem parse_terminates (toks : List Token) (fuel : Nat) (hfuel : toks.length < fuel) :
    (parse fuel toks ≠ .timeout ∧ parse fuel toks ≠ .external) ∧
      (toks ≠ [] → (∀ t ∈ toks, t.Type_ = TOKEN_BOOLEAN → ∃ b, t.Literal = .bool b) →
        ∃ r, parse fuel toks = .ok r) ∧
      ∀ F ∈ advancingRules fuel, ∀ c,
        F ⟨toks, c⟩ ≠ .timeout ∧
          ∀ r, F ⟨toks, c⟩ = .ok r → r.2.2.tokens = toks ∧ c < r.2.2._current := by
  have hA : toks = [] → True := fun _ => trivial
  have hB : ∀ t ∈ toks, t.Type_ = TOKEN_BOOLEAN → (∀ b, t.Literal ≠ .bool b) → True :=
    fun _ _ _ _ => trivial
  have hE : ProgRule True toks 0 (toyParser.expression fuel) :=
    fun c _ => toyParser.expression_prog toks hA hB fuel c (by omega)
  have hF : toks.length - 0 < fuel := by omega
  refine ⟨?_, ?_, ?_⟩
  · have := (toyParser.programLoop_prog toks hA hB fuel fuel 0 [] false (by omega)
      (by omega)).of_true
    exact ⟨this.1, this.2.1⟩
  · intro hne hbool
    have hA' : toks = [] → False := hne
    have hB' : ∀ t ∈ toks, t.Type_ = TOKEN_BOOLEAN → (∀ b, t.Literal ≠ .bool b) → False := by
      intro t ht hty hno
      obtain ⟨b, hb⟩ := hbool t ht hty
      exact hno b hb
    obtain ⟨r, hr, -⟩ := (toyParser.programLoop_prog toks hA' hB' fuel fuel 0 [] false
      (by omega) (by omega)).of_false
    exact ⟨r, hr⟩
  · intro F hmem c
    have conv : Run3 True toks (fun _ _ c' => c < c') (F ⟨toks, c⟩) →
        F ⟨toks, c⟩ ≠ .timeout ∧
          ∀ r, F ⟨toks, c⟩ = .ok r → r.2.2.tokens = toks ∧ c < r.2.2._current :=
      fun h => ⟨h.of_true.1, h.of_true.2.2⟩
    simp only [advancingRules, List.mem_cons, List.mem_singleton, List.not_mem_nil,
      or_false] at hmem
    rcases hmem with rfl | rfl | rfl | rfl | rfl | rfl | rfl | rfl | rfl | rfl | rfl | rfl |
      rfl | rfl
    · exact conv (toyParser.statement_prog toks hA hB fuel c (by omega))
    · exact conv (toyParser.expression_prog toks hA hB fuel c (by omega))
    · exact conv (toyParser.simpleLiteral_prog toks hA hB c)
    · exact conv (toyParser.referenceExpression_prog toks hA c)
    · exact conv (toyParser.importStatement_prog toks hA fuel c (by omega))
    · exact conv (toyParser.varStatement_prog toks hA hE fuel hF c (Nat.zero_le _))
    · exact conv (toyParser.callExpression_prog toks hA hE fuel hF c (Nat.zero_le _))
    · exact conv (toyParser.funcExpression_prog toks hA hE fuel hF c (Nat.zero_le _))
    · exact conv (toyParser.matchExpression_prog toks hA hE fuel hF c (Nat.zero_le _))
    · exact conv (toyParser.seqExpression_prog toks hA hE fuel hF c (Nat.zero_le _))
    · exact conv (toyParser.chainExpression_prog toks hA hE fuel hF c (Nat.zero_le _))
    · exact conv (toyParser.asyncExpression_prog toks hA hE fuel hF c (Nat.zero_le _))
    · exact conv (toyParser.listLiteral_prog toks hA hE fuel hF c (Nat.zero_le _))
    · exact conv (toyParser.hashLiteral_prog toks hA hE fuel hF c (Nat.zero_le _))

/-- C30 (amended), at the tokens of `(@export 5)` with the bound 6. -/
theorem parse_terminates_witness :
    (parse 6 exportFiveTokens ≠ .timeout ∧ parse 6 exportFiveTokens ≠ .external) ∧
      (exportFiveTokens ≠ [] →
        (∀ t ∈ exportFiveTokens, t.Type_ = TOKEN_BOOLEAN → ∃ b, t.Literal = .bool b) →
        ∃ r, parse 6 exportFiveTokens = .ok r) ∧
      ∀ F ∈ advancingRules 6, ∀ c,
        F ⟨exportFiveTokens, c⟩ ≠ .timeout ∧
          ∀ r, F ⟨exportFiveTokens, c⟩ = .ok r →
            r.2.2.tokens = exportFiveTokens ∧ c < r.2.2._current :=
  parse_terminates exportFiveTokens 6 (by decide)

/-- C30, refuted as stated: on the tokens of `(@export 5)`, which are what the scanner
gives for that source, the rule `exportStatement` is entered at position 2, behind
`(@export`, and returns its malformed node at position 2, without having moved; the rule
`statement` that entered it at position 0 has moved by these two tokens. -/
theorem export_rule_returns_in_place :
    scan "(@export 5)" = .ok exportFiveTokens ∧
      toyParser.exportStatement 6 ⟨exportFiveTokens, 2⟩ =
        .ok (malformedToken ⟨TOKEN_NUMBER, "5", .int 5, 10⟩ "unexpected token in exports list",
          true, ⟨exportFiveTokens, 2⟩) ∧
      toyParser.statement 6 ⟨exportFiveTokens, 0⟩ =
        .ok (malformedToken ⟨TOKEN_NUMBER, "5", .int 5, 10⟩ "unexpected token in exports list",
          true, ⟨exportFiveTokens, 2⟩) := by
  decide!

/-! ### The builtin behind `@set` and `@push` on a slice -/

theorem toySet_list_one (r : Nat) (s : St) : toySet [.list r] s = indexPanic := by
  unfold toySet
  cases h : (s.lists[r]? : Option (List Value)) <;> simp [h]

theorem toySet_list_two (r : Nat) (v : Value) (s : St) :
    toySet [.list r, v] s = indexPanic := by
  unfold toySet
  cases h : (s.lists[r]? : Option (List Value)) <;> cases v <;> simp [h]

theorem toySet_list_other (r : Nat) (a1 : Value) (rest : List Value) (s : St)
    (h1 : ∀ i, a1 ≠ .int i) : toySet (.list r :: a1 :: rest) s = indexPanic := by
  unfold toySet
  cases h : (s.lists[r]? : Option (List Value)) <;> cases a1 <;>
    first | exact absurd rfl (h1 _) | simp [h]

theorem toySet_list_index (r : Nat) (i : Int) (w : Value) (rest : List Value) (s : St)
    (obj : List Value) (hobj : s.lists[r]? = some obj) :
    toySet (.list r :: .int i :: w :: rest) s =
      if 0 ≤ i ∧ i.toNat < obj.length then
        .ok (.null, { s with lists := s.lists.set r (obj.set i.toNat w) })
      else indexPanic := by
  unfold toySet
  simp [hobj]

theorem toySet_args_cases (a : List Value) :
    a = [] ∨ (∃ v, a = [v]) ∨ (∃ a1 rest, (∀ i, a1 ≠ .int i) ∧ a = a1 :: rest) ∨
      ∃ i w rest, a = .int i :: w :: rest := by
  match a with
  | [] => exact .inl rfl
  | [v] => exact .inr (.inl ⟨v, rfl⟩)
  | .int i :: w :: rest => exact .inr (.inr (.inr ⟨i, w, rest, rfl⟩))
  | .null :: _ :: _ | .str _ :: _ :: _ | .bool _ :: _ :: _ | .list _ :: _ :: _
  | .hash _ :: _ :: _ | .func _ _ _ :: _ :: _ | .chain _ _ :: _ :: _ | .builtin _ :: _ :: _
  | .frame _ :: _ :: _ | .node _ _ :: _ :: _ | .seq _ :: _ :: _ =>
    exact .inr (.inr (.inl ⟨_, _, by simp, rfl⟩))

/-- C31, refuted as stated: a call with four arguments, the second of them an index in
range, succeeds as well; it assigns the third argument and ignores the fourth. -/
theorem set_with_fourth_argument_succeeds :
    toySet [.list 0, .int 0, .str "x", .str "y"] ⟨[], [[.str "a", .str "b"]], [], [], [], []⟩ =
      .ok (.null, ⟨[], [[.str "x", .str "b"]], [], [], [], []⟩) ∧
    listsAfterRun 50 "(@var (l (@list \"a\" \"b\"))) (@set l 0 \"x\" \"y\")" [] [] =
      .ok (some [[.str "x", .str "b"]]) ∧
    listsAfterRun 50 "(@var (l (@list \"a\" \"b\"))) (@push l 1 \"x\" \"y\" \"z\")" [] [] =
      .ok (some [[.str "a", .str "x"]]) := by
  decide!

/-- C31, amended: `@set` and `@push` name the same builtin `toySet`. On a slice, a call with
only the slice and a value, or with a second argument that is no integer, never appends: it
fails with an index out of range and so does every call that fails. A call succeeds exactly
when it has at least three arguments and the second is an integer index in range; it then
returns the null value and replaces the element at the index by the third argument, ignoring
the further arguments: the length, the other elements, the other slices and the rest of the
store are as before. -/
theorem set_on_list_never_appends (s : St) (r : Nat) (obj : List Value)
    (hobj : s.lists[r]? = some obj) :
    (mapGet builtinBindings "@set" = some (.builtin .toySet) ∧
      mapGet builtinBindings "@push" = some (.builtin .toySet) ∧
      ∀ call a, callBuiltin call .toySet a s = toySet a s) ∧
    (∀ v, toySet [.list r, v] s = indexPanic) ∧
    (∀ a1 rest, (∀ i, a1 ≠ .int i) → toySet (.list r :: a1 :: rest) s = indexPanic) ∧
    (∀ a, toySet (.list r :: a) s = indexPanic ∨ ∃ x, toySet (.list r :: a) s = .ok x) ∧
    (∀ a v s', toySet (.list r :: a) s = .ok (v, s') ↔
      ∃ (i : Int) (w : Value) (rest : List Value), a = .int i :: w :: rest ∧
        0 ≤ i ∧ i.toNat < obj.length ∧ v = .null ∧
        s' = { s with lists := s.lists.set r (obj.set i.toNat w) }) ∧
    (∀ (i : Int) (w : Value), 0 ≤ i → i.toNat < obj.length →
      (s.lists.set r (obj.set i.toNat w))[r]? = some (obj.set i.toNat w) ∧
        (obj.set i.toNat w).length = obj.length ∧
        (obj.set i.toNat w)[i.toNat]? = some w ∧
        (∀ j, j ≠ i.toNat → (obj.set i.toNat w)[j]? = obj[j]?) ∧
        (s.lists.set r (obj.set i.toNat w)).length = s.lists.length ∧
        ∀ q, q ≠ r → (s.lists.set r (obj.set i.toNat w))[q]? = s.lists[q]?) ∧
    (listsAfterRun 50 "(@var (l (@list \"a\" \"b\"))) (@push l \"c\")" [] [] = indexPanic ∧
      listsAfterRun 50 "(@var (l (@list \"a\" \"b\"))) (@set l \"c\")" [] [] = indexPanic ∧
      listsAfterRun 50 "(@var (l (@list \"a\" \"b\"))) (@push l 1 \"x\")" [] [] =
        .ok (some [[.str "a", .str "x"]])) := by
  have hr : r < s.lists.length := by
    by_contra hge
    rw [List.getElem?_eq_none (by omega)] at hobj
    cases hobj
  refine ⟨⟨by decide, by decide, fun _ _ => rfl⟩, fun v => toySet_list_two r v s,
    fun a1 rest h1 => toySet_list_other r a1 rest s h1, fun a => ?_, fun a v s' => ?_,
    fun i w _ hi => ?_, by decide!⟩
  · rcases toySet_args_cases a with rfl | ⟨v, rfl⟩ | ⟨a1, rest, h1, rfl⟩ | ⟨i, w, rest, rfl⟩
    · exact .inl (toySet_list_one r s)
    · exact .inl (toySet_list_two r v s)
    · exact .inl (toySet_list_other r a1 rest s h1)
    · rw [toySet_list_index r i w rest s obj hobj]
      split
      · exact .inr ⟨_, rfl⟩
      · exact .inl rfl
  · constructor
    · intro h
      rcases toySet_args_cases a with rfl | ⟨v, rfl⟩ | ⟨a1, rest, h1, rfl⟩ | ⟨i, w, rest, rfl⟩
      · rw [toySet_list_one] at h
        cases h
      · rw [toySet_list_two] at h
        cases h
      · rw [toySet_list_other r a1 rest s h1] at h
        cases h
      · rw [toySet_list_index r i w rest s obj hobj] at h
        split at h
        · rename_i hi
          cases h
          exact ⟨i, w, rest, rfl, hi.1, hi.2, rfl, rfl⟩
        · cases h
    · rintro ⟨i, w, rest, rfl, h0, hi, rfl, rfl⟩
      rw [toySet_list_index r i w rest s obj hobj, if_pos ⟨h0, hi⟩]
  · refine ⟨by simp [hr], by simp, by simp [hi], fun j hj => ?_, by simp, fun q hq => ?_⟩
    · simp [List.getElem?_set, Ne.symm hj]
    · simp [List.getElem?_set, Ne.symm hq]

/-- The slice `["a", "b"]` of a store: the second element is replaced, pushing fails. -/
theorem set_on_list_never_appends_witness :
    (⟨[], [[.str "a", .str "b"]], [], [], [], []⟩ : St).lists[0]? = some [.str "a", .str "b"] ∧
    toySet [.list 0, .str "c"] ⟨[], [[.str "a", .str "b"]], [], [], [], []⟩ = indexPanic ∧
    toySet [.list 0, .int 1, .str "c"] ⟨[], [[.str "a", .str "b"]], [], [], [], []⟩ =
      .ok (.null, ⟨[], [[.str "a", .str "c"]], [], [], [], []⟩) :=
  ⟨rfl,
   (set_on_list_never_appends ⟨[], [[.str "a", .str "b"]], [], [], [], []⟩ 0
      [.str "a", .str "b"] rfl).2.1 (.str "c"),
   ((set_on_list_never_appends ⟨[], [[.str "a", .str "b"]], [], [], [], []⟩ 0
      [.str "a", .str "b"] rfl).2.2.2.2.1 _ _ _).2
      ⟨1, .str "c", [], rfl, by decide, by decide, rfl, rfl⟩⟩

end ToyScript
